import Mathlib

set_option linter.unusedSectionVars false
set_option linter.unusedVariables false

/-!
# Dependency graph core: object context, node records, inline job queue

A shallow embedding of `DependencyGraphCore` (`ObjectBuildingState.h`,
`IObjectBuilder.h`, `IObjectBuilderProvider.h`, `ObjectBuilderInfo.h`,
`ObjectContext.h`, `SingleThreadedJobQueue.h`, `WaitHandle.h`).

* The key type `K` and value type `V` stay generic.
* A user function that may throw returns an `Option`; `none` stands for a thrown
  exception.
* The `std::function` values stored in the two callback vectors of a node are
  represented by the data type `CallBack`: the two lambdas created inside
  `RequestBuildObject` (each captures `this`, the owning node) and callbacks handed
  in by a client, of which only the invocation is recorded.
* The job queue is `SingleThreadedJobQueue`: `RegisterJob` runs the job before it
  returns.
* The calls `BuildObject -> RequestBuildObject -> callback -> BuildObject ...` are
  mutually recursive without a structural bound (a node may list itself as a
  dependency), so the executable model takes a fuel argument; `none` means that the
  fuel ran out.
* Calls into user code, job submissions and assignments to the state of a node are
  recorded in a journal, which is instrumentation only: no modelled function reads it.
* The builder provider does not throw, and client callbacks do not throw; exceptions
  come from the two operations of a builder only.
* The counter `_outstandingDependenciesCount` is an unbounded integer: a dependency list
  is taken to be shorter than `2^31`.
-/

namespace dependencygraph

/-- The enum `ObjectBuildingState` of `ObjectBuildingState.h`, in declaration order. -/
inductive ObjectBuildingState where
  | Starting
  | NoBuilderAvailable
  | DependenciesKnown
  | ObjectBuilt
  | Failure
  deriving DecidableEq, Repr

/-- The numeric value of an enumerator of `ObjectBuildingState`. -/
def ObjectBuildingState.toNat : ObjectBuildingState → Nat
  | ObjectBuildingState.Starting => 0
  | ObjectBuildingState.NoBuilderAvailable => 1
  | ObjectBuildingState.DependenciesKnown => 2
  | ObjectBuildingState.ObjectBuilt => 3
  | ObjectBuildingState.Failure => 4

/-- The class `WaitHandle` (WaitHandle.h): of its members only the mask carries data
in a sequential run. -/
structure WaitHandle where
  _acceptableValuesMask : Nat

/-- Constructor of `WaitHandle` (WaitHandle.h:22-33): the mask has bit `(int)v` set for
every acceptable value `v`. -/
def WaitHandle.new (acceptableValues : List ObjectBuildingState) : WaitHandle :=
  { _acceptableValuesMask :=
      acceptableValues.foldl (fun mask v => mask ||| (1 <<< v.toNat)) 0 }

/-- Method `WaitHandle::isCriteriaMatch` (WaitHandle.h:16-19). -/
def WaitHandle.isCriteriaMatch (h : WaitHandle) (state : ObjectBuildingState) : Bool :=
  (h._acceptableValuesMask &&& (1 <<< state.toNat)) != 0

/-- Member `objectBuiltOrFailureWaitHandle` as initialised by the constructor of
`ObjectBuilderInfo` (ObjectBuilderInfo.h:65). -/
def ObjectBuilderInfo.objectBuiltOrFailureWaitHandle : WaitHandle :=
  WaitHandle.new [ObjectBuildingState.Failure, ObjectBuildingState.NoBuilderAvailable,
    ObjectBuildingState.ObjectBuilt]

/-- Member `dependenciesKnownWaitHandle` as initialised by the constructor of
`ObjectBuilderInfo` (ObjectBuilderInfo.h:66). -/
def ObjectBuilderInfo.dependenciesKnownWaitHandle : WaitHandle :=
  WaitHandle.new [ObjectBuildingState.Failure, ObjectBuildingState.NoBuilderAvailable,
    ObjectBuildingState.ObjectBuilt, ObjectBuildingState.DependenciesKnown]

/-- The interface `IObjectBuilder<TKeyType, TValueType>`; `none` is a thrown exception.
The `unordered_map` handed to `BuildObject` is a finite partial function. -/
structure IObjectBuilder (K V : Type) where
  GetDependencies : K → Option (List K)
  BuildObject : K → (K → Option V) → Option V

/-- The interface `IObjectBuilderProvider`: `TryGetObjectBuilder` returns `false`
(`none`) or `true` together with the builder written to the out-parameter. A provider
is a total function: it does not throw, and a `true` result carries a builder. -/
abbrev IObjectBuilderProvider (K V : Type) := K → Option (IObjectBuilder K V)

/-- The callbacks held in `_postDependenciesKnownCallBacks` and `_postBuildCallBacks`.
`arm owner` is the lambda of `RequestBuildObject` (ObjectBuilderInfo.h:148-191),
`dependencyBuilt owner` the lambda registered on each dependency (lines 173-181);
both capture `this = owner`. `client tag` is any other callback. -/
inductive CallBack (K : Type) where
  | arm (owner : K)
  | dependencyBuilt (owner : K)
  | client (tag : Nat)
  deriving DecidableEq, Repr

/-- Journal entries (instrumentation). -/
inductive Event (K : Type) where
  | GetDependencies (address : K)
  | BuildObject (address : K)
  | RegisterJob (node : K)
  | clientCallBack (tag : Nat) (node : K)
  | setState (node : K) (previous next : ObjectBuildingState)
  | fetchSub (owner : K) (previousCount : Int)
  deriving DecidableEq, Repr

/-- The class `ObjectBuilderInfo`: a node of an object context. The mutexes, condition
variables and wait handles carry no data of their own. `_outstandingDependenciesCount`
is not initialised by the constructor and is always stored before it is read; it
starts at `0` here. -/
structure ObjectBuilderInfo (K V : Type) where
  key : K
  _buildRequestCount : Int
  _postDependenciesKnownCallBacks : List (CallBack K)
  _postBuildCallBacks : List (CallBack K)
  _outstandingDependenciesCount : Int
  _state : ObjectBuildingState
  objectBuilder : Option (IObjectBuilder K V)
  dependencies : List K
  builtObject : V
  exception : Option String

/-- The class `ObjectContext` with the inline job queue. The `unordered_map` `_values`
is given by its lookup function together with the list of its keys, in insertion order.
The builder provider is passed to the operations as a parameter. -/
structure ObjectContext (K V : Type) where
  _values : K → Option (ObjectBuilderInfo K V)
  keys : List K
  journal : List (Event K)

/-- The three bodies that call each other through the context. -/
inductive Call (K : Type) where
  | BuildObject (address : K)
  | callBack (cb : CallBack K) (node : K)
  | buildObject (node : K)

section Model

variable {K V : Type} [DecidableEq K] [Inhabited V]

/-- Constructor `ObjectBuilderInfo(objectContext, key)` (ObjectBuilderInfo.h:58-67). -/
def ObjectBuilderInfo.new (key : K) : ObjectBuilderInfo K V :=
  { key := key
    _buildRequestCount := 0
    _postDependenciesKnownCallBacks := []
    _postBuildCallBacks := []
    _outstandingDependenciesCount := 0
    _state := ObjectBuildingState.Starting
    objectBuilder := none
    dependencies := []
    builtObject := default
    exception := none }

/-- A context with no node and an empty journal. -/
def ObjectContext.empty : ObjectContext K V :=
  { _values := fun _ => none, keys := [], journal := [] }

/-- Member `getState()` of the node stored under `k`. -/
def ObjectContext.getState (c : ObjectContext K V) (k : K) : Option ObjectBuildingState :=
  (c._values k).map (fun n => n._state)

/-- Member `dependencies` of the node stored under `k` (empty when there is none). -/
def ObjectContext.getDependencyList (c : ObjectContext K V) (k : K) : List K :=
  match c._values k with
  | none => []
  | some n => n.dependencies

/-- Member `builtObject` of the node stored under `k`. -/
def ObjectContext.getBuiltObject (c : ObjectContext K V) (k : K) : Option V :=
  (c._values k).map (fun n => n.builtObject)

/-- Apply `f` to the node stored under `k` (a write through `this`). -/
def ObjectContext.modify (c : ObjectContext K V) (k : K)
    (f : ObjectBuilderInfo K V → ObjectBuilderInfo K V) : ObjectContext K V :=
  { c with _values := fun j => if j = k then (c._values k).map f else c._values j }

/-- Append an entry to the journal. -/
def ObjectContext.record (c : ObjectContext K V) (e : Event K) : ObjectContext K V :=
  { c with journal := c.journal ++ [e] }

/-- The assignment `this->_state = s` on node `k`; the journal records the state that
is overwritten and the new one. -/
def ObjectContext.setState (c : ObjectContext K V) (k : K) (s : ObjectBuildingState) :
    ObjectContext K V :=
  match c._values k with
  | none => c
  | some n => (c.record (Event.setState k n._state s)).modify k (fun m => { m with _state := s })

/-- The call `_outstandingDependenciesCount.fetch_sub(1)` on node `owner`
(ObjectBuilderInfo.h:174); the journal records the count that it returns. -/
def ObjectContext.fetchSub (c : ObjectContext K V) (owner : K) : ObjectContext K V :=
  match c._values owner with
  | none => c
  | some m =>
    (c.record (Event.fetchSub owner m._outstandingDependenciesCount)).modify owner
      (fun m1 => { m1 with
        _outstandingDependenciesCount := m1._outstandingDependenciesCount - 1 })

/-- Invoke the callbacks of a list in order on node `k`; a `try`/`catch (...)` wraps
each invocation (ObjectBuilderInfo.h:305-312, 319-326). -/
def launchAll (self : Call K → ObjectContext K V → Option (ObjectContext K V)) (k : K) :
    List (CallBack K) → ObjectContext K V → Option (ObjectContext K V)
  | [], c => some c
  | cb :: rest, c => (self (Call.callBack cb k) c).bind (launchAll self k rest)

/-- Method `launchPostDependenciesKnownCallBacks` (ObjectBuilderInfo.h:304-315). -/
def ObjectBuilderInfo.launchPostDependenciesKnownCallBacks
    (self : Call K → ObjectContext K V → Option (ObjectContext K V)) (k : K)
    (c : ObjectContext K V) : Option (ObjectContext K V) :=
  match c._values k with
  | none => some c
  | some n =>
    (launchAll self k n._postDependenciesKnownCallBacks c).map
      (fun c1 => c1.modify k (fun m => { m with _postDependenciesKnownCallBacks := [] }))

/-- Method `launchPostBuildCallBacks` (ObjectBuilderInfo.h:317-329). -/
def ObjectBuilderInfo.launchPostBuildCallBacks
    (self : Call K → ObjectContext K V → Option (ObjectContext K V)) (k : K)
    (c : ObjectContext K V) : Option (ObjectContext K V) :=
  match c._values k with
  | none => some c
  | some n =>
    (launchAll self k n._postBuildCallBacks c).map
      (fun c1 => c1.modify k (fun m => { m with _postBuildCallBacks := [] }))

/-- Method `SetRequestedDependencies` (ObjectBuilderInfo.h:74-83). -/
def ObjectBuilderInfo.SetRequestedDependencies
    (self : Call K → ObjectContext K V → Option (ObjectContext K V)) (k : K)
    (dependencies : List K) (c : ObjectContext K V) : Option (ObjectContext K V) :=
  ObjectBuilderInfo.launchPostDependenciesKnownCallBacks self k
    ((c.modify k (fun n => { n with dependencies := dependencies })).setState k
      ObjectBuildingState.DependenciesKnown)

/-- Method `SetObjectBuilt` (ObjectBuilderInfo.h:90-100). -/
def ObjectBuilderInfo.SetObjectBuilt
    (self : Call K → ObjectContext K V → Option (ObjectContext K V)) (k : K)
    (builtObject : V) (c : ObjectContext K V) : Option (ObjectContext K V) :=
  ObjectBuilderInfo.launchPostBuildCallBacks self k
    ((c.modify k (fun n => { n with builtObject := builtObject })).setState k
      ObjectBuildingState.ObjectBuilt)

/-- Method `SetObjectFailed` (ObjectBuilderInfo.h:102-117). -/
def ObjectBuilderInfo.SetObjectFailed
    (self : Call K → ObjectContext K V → Option (ObjectContext K V)) (k : K)
    (exception : String) (c : ObjectContext K V) : Option (ObjectContext K V) :=
  (ObjectBuilderInfo.launchPostDependenciesKnownCallBacks self k
    ((c.modify k (fun n => { n with exception := some exception })).setState k
      ObjectBuildingState.Failure)).bind
    (ObjectBuilderInfo.launchPostBuildCallBacks self k)

/-- Method `SetNoBuilderFound` (ObjectBuilderInfo.h:119-132). -/
def ObjectBuilderInfo.SetNoBuilderFound
    (self : Call K → ObjectContext K V → Option (ObjectContext K V)) (k : K)
    (c : ObjectContext K V) : Option (ObjectContext K V) :=
  (ObjectBuilderInfo.launchPostDependenciesKnownCallBacks self k
    (c.setState k ObjectBuildingState.NoBuilderAvailable)).bind
    (ObjectBuilderInfo.launchPostBuildCallBacks self k)

/-- States in which a dependencies-known callback runs at once: the `case` labels of
`RegisterPostDependenciesKnownCallBack` (ObjectBuilderInfo.h:236-239). -/
def dependenciesKnownReached : ObjectBuildingState → Bool
  | ObjectBuildingState.DependenciesKnown => true
  | ObjectBuildingState.Failure => true
  | ObjectBuildingState.NoBuilderAvailable => true
  | ObjectBuildingState.ObjectBuilt => true
  | ObjectBuildingState.Starting => false

/-- States in which a post-build callback runs at once: the `case` labels of
`RegisterPostBuildCallBack` (ObjectBuilderInfo.h:271-273). -/
def buildReached : ObjectBuildingState → Bool
  | ObjectBuildingState.Failure => true
  | ObjectBuildingState.NoBuilderAvailable => true
  | ObjectBuildingState.ObjectBuilt => true
  | ObjectBuildingState.DependenciesKnown => false
  | ObjectBuildingState.Starting => false

/-- Method `RegisterPostDependenciesKnownCallBack` (ObjectBuilderInfo.h:233-266). Run
sequentially, the second `switch` under the lock reads the state the first one read. -/
def ObjectBuilderInfo.RegisterPostDependenciesKnownCallBack
    (self : Call K → ObjectContext K V → Option (ObjectContext K V)) (k : K)
    (callBackFunc : CallBack K) (c : ObjectContext K V) : Option (ObjectContext K V) :=
  match c._values k with
  | none => some c
  | some n =>
    if dependenciesKnownReached n._state then
      self (Call.callBack callBackFunc k) c
    else
      some (c.modify k (fun m => { m with
        _postDependenciesKnownCallBacks := m._postDependenciesKnownCallBacks ++ [callBackFunc] }))

/-- Method `RegisterPostBuildCallBack` (ObjectBuilderInfo.h:268-301). -/
def ObjectBuilderInfo.RegisterPostBuildCallBack
    (self : Call K → ObjectContext K V → Option (ObjectContext K V)) (k : K)
    (callBackFunc : CallBack K) (c : ObjectContext K V) : Option (ObjectContext K V) :=
  match c._values k with
  | none => some c
  | some n =>
    if buildReached n._state then
      self (Call.callBack callBackFunc k) c
    else
      some (c.modify k (fun m => { m with
        _postBuildCallBacks := m._postBuildCallBacks ++ [callBackFunc] }))

/-- The loop of `buildObject` (ObjectBuilderInfo.h:204-212): for each dependency call
`BuildObject` on the context and read the node it returns; stop with `none` for the
map at the first one that is not `ObjectBuilt` (`failureCount++; break`), else bind its
`builtObject` in `builtDependencies`. -/
def collectBuiltDependencies
    (self : Call K → ObjectContext K V → Option (ObjectContext K V)) :
    List K → (K → Option V) → ObjectContext K V →
      Option (ObjectContext K V × Option (K → Option V))
  | [], builtDependencies, c => some (c, some builtDependencies)
  | dependency :: rest, builtDependencies, c =>
    match self (Call.BuildObject dependency) c with
    | none => none
    | some c1 =>
      match c1._values dependency with
      | none => some (c1, none)
      | some dependencyOBI =>
        if dependencyOBI._state ≠ ObjectBuildingState.ObjectBuilt then some (c1, none)
        else collectBuiltDependencies self rest
          (fun j => if j = dependency then some dependencyOBI.builtObject
                    else builtDependencies j) c1

/-- Method `ObjectBuilderInfo::buildObject` (ObjectBuilderInfo.h:197-231), the body of
the build job of node `k`. The call of the builder is recorded in the journal. A node
without a builder never gets a build job; the model treats the call through the null
pointer like a throw. -/
def ObjectBuilderInfo.buildObject
    (self : Call K → ObjectContext K V → Option (ObjectContext K V)) (k : K)
    (c : ObjectContext K V) : Option (ObjectContext K V) :=
  match c._values k with
  | none => some c
  | some n =>
    match collectBuiltDependencies self n.dependencies (fun _ => none) c with
    | none => none
    | some (c1, none) =>
      ObjectBuilderInfo.SetObjectFailed self k "Failed to source dependency" c1
    | some (c1, some builtDependencies) =>
      match (c1._values k).bind (fun m => m.objectBuilder) with
      | none => ObjectBuilderInfo.SetObjectFailed self k "Failed to build object dependency" c1
      | some b =>
        match b.BuildObject k builtDependencies with
        | some builtObject =>
          ObjectBuilderInfo.SetObjectBuilt self k builtObject (c1.record (Event.BuildObject k))
        | none =>
          ObjectBuilderInfo.SetObjectFailed self k "Failed to build object dependency"
            (c1.record (Event.BuildObject k))

/-- Method `SingleThreadedJobQueue::RegisterJob` (SingleThreadedJobQueue.h:10-13) for
the job `std::bind(&ObjectBuilderInfo::buildObject, node)`: the job runs before the
call returns. The submission is recorded in the journal. -/
def SingleThreadedJobQueue.RegisterJob
    (self : Call K → ObjectContext K V → Option (ObjectContext K V)) (node : K)
    (c : ObjectContext K V) : Option (ObjectContext K V) :=
  self (Call.buildObject node) (c.record (Event.RegisterJob node))

/-- The `for` loop of the arming callback (ObjectBuilderInfo.h:170-182): request the
build of each dependency and register a `dependencyBuilt` callback on it. -/
def requestDependencies
    (self : Call K → ObjectContext K V → Option (ObjectContext K V)) (owner : K) :
    List K → ObjectContext K V → Option (ObjectContext K V)
  | [], c => some c
  | dependency :: rest, c =>
    ((self (Call.BuildObject dependency) c).bind
      (ObjectBuilderInfo.RegisterPostBuildCallBack self dependency
        (CallBack.dependencyBuilt owner))).bind
      (requestDependencies self owner rest)

/-- Invocation `callBack(node)` of a stored or just registered callback.
* `arm owner` (ObjectBuilderInfo.h:148-191): store the number of dependencies of
  `address = node` in the counter of `owner`, then submit the build job if there is
  none, else run the loop `requestDependencies`. Nothing in its `try` block throws
  here, so the `catch (...)` branch is not taken.
* `dependencyBuilt owner` (lines 173-181): `fetch_sub(1)`; return if the previous
  count was above one, else submit the build job of `owner`.
* `client tag`: recorded in the journal. -/
def invokeCallBack
    (self : Call K → ObjectContext K V → Option (ObjectContext K V)) :
    CallBack K → K → ObjectContext K V → Option (ObjectContext K V)
  | CallBack.arm owner, node, c =>
    match c._values node with
    | none => some c
    | some address =>
      let c1 := c.modify owner (fun m => { m with
        _outstandingDependenciesCount := (address.dependencies.length : Int) })
      if address.dependencies.length = 0 then
        SingleThreadedJobQueue.RegisterJob self owner c1
      else
        requestDependencies self owner address.dependencies c1
  | CallBack.dependencyBuilt owner, _, c =>
    match c._values owner with
    | none => some c
    | some m =>
      let previousCount := m._outstandingDependenciesCount
      let c1 := c.fetchSub owner
      if previousCount > 1 then some c1
      else SingleThreadedJobQueue.RegisterJob self owner c1
  | CallBack.client tag, node, c => some (c.record (Event.clientCallBack tag node))

/-- Method `ObjectContext::GetDependenciesInt` (ObjectContext.h:51-96). The call of
`GetDependencies` on the builder is recorded in the journal. -/
def ObjectContext.GetDependenciesInt (obp : IObjectBuilderProvider K V)
    (self : Call K → ObjectContext K V → Option (ObjectContext K V)) (address : K)
    (c : ObjectContext K V) : Option (ObjectContext K V) :=
  match c._values address with
  | some _ => some c
  | none =>
    let c1 : ObjectContext K V :=
      { c with _values := fun j => if j = address then some (ObjectBuilderInfo.new address)
                                   else c._values j
               keys := c.keys ++ [address] }
    match obp address with
    | none => ObjectBuilderInfo.SetNoBuilderFound self address c1
    | some objectBuilder =>
      let c2 := (c1.modify address (fun n => { n with objectBuilder := some objectBuilder })).record
        (Event.GetDependencies address)
      match objectBuilder.GetDependencies address with
      | some dependencies =>
        ObjectBuilderInfo.SetRequestedDependencies self address dependencies c2
      | none => ObjectBuilderInfo.SetObjectFailed self address "Discovery failed" c2

/-- Method `RequestBuildObject` (ObjectBuilderInfo.h:137-194): `exchange(1)` on the
build-request count; on a previous `0`, return for `Failure` and
`NoBuilderAvailable`, else register the arming callback on the node itself. -/
def ObjectBuilderInfo.RequestBuildObject
    (self : Call K → ObjectContext K V → Option (ObjectContext K V)) (k : K)
    (c : ObjectContext K V) : Option (ObjectContext K V) :=
  match c._values k with
  | none => some c
  | some n =>
    let originalValue := n._buildRequestCount
    let c1 := c.modify k (fun m => { m with _buildRequestCount := 1 })
    if originalValue = 0 then
      match n._state with
      | ObjectBuildingState.Failure => some c1
      | ObjectBuildingState.NoBuilderAvailable => some c1
      | _ => ObjectBuilderInfo.RegisterPostDependenciesKnownCallBack self k (CallBack.arm k) c1
    else some c1

/-- Method `ObjectContext::BuildObject` (ObjectContext.h:98-103). -/
def ObjectContext.BuildObjectBody (obp : IObjectBuilderProvider K V)
    (self : Call K → ObjectContext K V → Option (ObjectContext K V)) (address : K)
    (c : ObjectContext K V) : Option (ObjectContext K V) :=
  (ObjectContext.GetDependenciesInt obp self address c).bind
    (ObjectBuilderInfo.RequestBuildObject self address)

/-- Run one of the three mutually recursive bodies with the given fuel; every nested
call through the context, a callback or the job queue uses one unit. -/
def exec (obp : IObjectBuilderProvider K V) :
    Nat → Call K → ObjectContext K V → Option (ObjectContext K V)
  | 0, _, _ => none
  | fuel + 1, Call.BuildObject address, c =>
    ObjectContext.BuildObjectBody obp (exec obp fuel) address c
  | fuel + 1, Call.callBack cb node, c => invokeCallBack (exec obp fuel) cb node c
  | fuel + 1, Call.buildObject node, c => ObjectBuilderInfo.buildObject (exec obp fuel) node c

/-- Public operation `ObjectContext::BuildObject` (`build_object`). -/
def ObjectContext.BuildObject (obp : IObjectBuilderProvider K V) (fuel : Nat) (address : K)
    (c : ObjectContext K V) : Option (ObjectContext K V) :=
  exec obp (fuel + 1) (Call.BuildObject address) c

/-- Public operation `ObjectContext::GetDependencies` (`get_dependencies`,
ObjectContext.h:46-49). -/
def ObjectContext.GetDependencies (obp : IObjectBuilderProvider K V) (fuel : Nat) (address : K)
    (c : ObjectContext K V) : Option (ObjectContext K V) :=
  ObjectContext.GetDependenciesInt obp (exec obp fuel) address c

end Model

end dependencygraph

/-!
# Wait handles, builder provider and job queues

`WaitHandle.h`, `ObjectBuilderProvider.h`, `IDependencyGraphJobQueue.h`,
`SingleThreadedJobQueue.h`, `MultithreadedJobQueue.h` and
`PriorityBasedMultithreadedJobQueue.h`. Every critical section that a queue runs under
its mutex is one atomic step of the model; the run of a job closure is a function on a
world state that returns or throws.
-/

namespace dependencygraph

/-- What a call of `wait`, `wait_for` or `wait_until` does first: it returns
`std::cv_status::no_timeout` (for `wait`: it returns) without waiting, or it reaches the
wait on the condition variable. -/
inductive WaitResult where
  | no_timeout
  | waitsOnConditionVariable
  deriving DecidableEq, Repr

/-- Method `WaitHandle::wait` (WaitHandle.h:73-85) for the state that both loads read. -/
def WaitHandle.wait (h : WaitHandle) (state : ObjectBuildingState) : WaitResult :=
  if h.isCriteriaMatch state then WaitResult.no_timeout
  else if h.isCriteriaMatch state then WaitResult.no_timeout
  else WaitResult.waitsOnConditionVariable

/-- Method `WaitHandle::wait_for` (WaitHandle.h:57-71) for the state that both loads
read. -/
def WaitHandle.wait_for (h : WaitHandle) (state : ObjectBuildingState) : WaitResult :=
  if h.isCriteriaMatch state then WaitResult.no_timeout
  else if h.isCriteriaMatch state then WaitResult.no_timeout
  else WaitResult.waitsOnConditionVariable

/-- Method `WaitHandle::wait_until` (WaitHandle.h:87-101) for the state that both loads
read. -/
def WaitHandle.wait_until (h : WaitHandle) (state : ObjectBuildingState) : WaitResult :=
  if h.isCriteriaMatch state then WaitResult.no_timeout
  else if h.isCriteriaMatch state then WaitResult.no_timeout
  else WaitResult.waitsOnConditionVariable

/-- A `std::shared_ptr<IObjectBuilder>`; `none` is the null pointer. -/
abbrev BuilderPtr (K V : Type) := Option (IObjectBuilder K V)

/-- The class `ObjectBuilderProvider` (ObjectBuilderProvider.h:9-20). The two maps are
given by their lookup; `builderProviderFunc` is an empty `std::function` (`none`) or a
function of the address and of the builder pointer passed by reference, which returns
its result together with the pointer it leaves. -/
structure ObjectBuilderProvider (K V : Type) where
  addressSpecificBuilders : K → Option (BuilderPtr K V)
  addressSpecificOverrides : K → Option V
  builderProviderFunc : Option (K → BuilderPtr K V → Bool × BuilderPtr K V)

/-- Method `ObjectBuilderProvider::TryGetObjectBuilder`
(ObjectBuilderProvider.h:23-49): the result and the builder pointer left in the
out-parameter. The lookup in `addressSpecificOverrides` has an empty hit branch. -/
def ObjectBuilderProvider.TryGetObjectBuilder {K V : Type} (p : ObjectBuilderProvider K V)
    (address : K) (objectBuilder : BuilderPtr K V) : Bool × BuilderPtr K V :=
  let afterOverrides : BuilderPtr K V :=
    match p.addressSpecificOverrides address with
    | some _ => objectBuilder
    | none => objectBuilder
  match p.addressSpecificBuilders address with
  | some b => (true, b)
  | none =>
    match p.builderProviderFunc with
    | some f =>
      let r := f address afterOverrides
      if r.1 then (true, r.2) else (false, none)
    | none => (false, none)

/-- How a call or the run of a closure ends. -/
inductive Completion where
  | returned
  | threw
  deriving DecidableEq, Repr

/-- The enum `DependencyGraphJobStyle`. -/
inductive DependencyGraphJobStyle where
  | other
  | objectBuilding
  | discovery
  deriving DecidableEq, Repr

/-- The struct `DependencyGraphJob` over a world state `W`: `func` is empty or a closure
that changes the world and returns or throws. -/
structure DependencyGraphJob (W : Type) where
  style : DependencyGraphJobStyle
  func : Option (W → Completion × W)

/-- Method `SingleThreadedJobQueue::RegisterJob` (SingleThreadedJobQueue.h:10-13) for an
arbitrary job: how the call ends for the submitter, and the world after it. There is
no handler around `job.func()`. -/
def SingleThreadedJobQueue.RegisterJobClosure {W : Type} (job : DependencyGraphJob W)
    (w : W) : Completion × W :=
  match job.func with
  | none => (Completion.returned, w)
  | some f => f w

/-- The class `MultithreadedJobQueue`: the queue `_jobs` and `totalRequests`. -/
structure MultithreadedJobQueue (W : Type) where
  _jobs : List (DependencyGraphJob W)
  totalRequests : Int

/-- Method `MultithreadedJobQueue::RegisterJob` (MultithreadedJobQueue.h:35-43): how the
call ends for the submitter, the queue and the world after it. -/
def MultithreadedJobQueue.RegisterJob {W : Type} (q : MultithreadedJobQueue W)
    (job : DependencyGraphJob W) (w : W) : Completion × MultithreadedJobQueue W × W :=
  (Completion.returned,
    { q with totalRequests := q.totalRequests + 1, _jobs := q._jobs ++ [job] }, w)

/-- The run `try { job.func(); } catch (...) { }` of a worker
(MultithreadedJobQueue.h:77-83, PriorityBasedMultithreadedJobQueue.h:95-101 and
109-115): how it ends for the worker loop, and the world after it. Calling an empty
`std::function` throws, which is caught as well. -/
def runSwallowing {W : Type} (job : DependencyGraphJob W) (w : W) : Completion × W :=
  match job.func with
  | none => (Completion.returned, w)
  | some f => (Completion.returned, (f w).2)

/-- One pass of the worker loop of `MultithreadedJobQueue` with no stop requested
(MultithreadedJobQueue.h:59-90): with an empty queue the worker waits, else it pops the
front job and runs it. The result is how the pass ends, the job taken, the queue and
the world. -/
def MultithreadedJobQueue.workerPass {W : Type} (q : MultithreadedJobQueue W) (w : W) :
    Completion × Option (DependencyGraphJob W) × MultithreadedJobQueue W × W :=
  match q._jobs with
  | [] => (Completion.returned, none, q, w)
  | job :: rest =>
    ((runSwallowing job w).1, some job, { q with _jobs := rest }, (runSwallowing job w).2)

/-- The two queues of a `PriorityBasedMultithreadedJobQueue`. -/
inductive QueueName where
  | _jobsHP
  | _jobsLP
  deriving DecidableEq, Repr

/-- The class `PriorityBasedMultithreadedJobQueue`: the queues `_jobsHP` and `_jobsLP`
and, for each of the two facade objects of class
`PriorityBasedMultithreadedJobQueueJobQueue`, the queue that its `_pJobQueue` points
to. -/
structure PriorityBasedMultithreadedJobQueue (J : Type) where
  _jobsHP : List J
  _jobsLP : List J
  highPriorityJobQueue : QueueName
  lowPriorityJobQueue : QueueName

/-- Constructor of `PriorityBasedMultithreadedJobQueue`
(PriorityBasedMultithreadedJobQueue.h:65-77): both facades receive `&this->_jobsHP`. -/
def PriorityBasedMultithreadedJobQueue.new {J : Type} : PriorityBasedMultithreadedJobQueue J :=
  { _jobsHP := [], _jobsLP := []
    highPriorityJobQueue := QueueName._jobsHP
    lowPriorityJobQueue := QueueName._jobsHP }

/-- Method `PriorityBasedMultithreadedJobQueueJobQueue::RegisterJob`
(PriorityBasedMultithreadedJobQueue.h:26-31) of a facade whose `_pJobQueue` points to
the queue `target`. -/
def PriorityBasedMultithreadedJobQueue.RegisterJob {J : Type}
    (q : PriorityBasedMultithreadedJobQueue J) (target : QueueName) (job : J) :
    PriorityBasedMultithreadedJobQueue J :=
  match target with
  | QueueName._jobsHP => { q with _jobsHP := q._jobsHP ++ [job] }
  | QueueName._jobsLP => { q with _jobsLP := q._jobsLP ++ [job] }

/-- The branch that a pass of the worker loop takes. -/
inductive WorkerBranch where
  | highPriority
  | lowPriority
  | wait
  deriving DecidableEq, Repr

/-- The critical section of one pass of the worker loop with no stop requested
(PriorityBasedMultithreadedJobQueue.h:82-128): the branch taken, the job picked and
the queues after it. -/
def PriorityBasedMultithreadedJobQueue.workerPick {J : Type}
    (q : PriorityBasedMultithreadedJobQueue J) :
    WorkerBranch × Option J × PriorityBasedMultithreadedJobQueue J :=
  match q._jobsHP with
  | job :: rest => (WorkerBranch.highPriority, some job, { q with _jobsHP := rest })
  | [] =>
    match q._jobsLP with
    | job :: rest => (WorkerBranch.lowPriority, some job, { q with _jobsLP := rest })
    | [] => (WorkerBranch.wait, none, q)

/-- An event on a priority queue: a submission through one of the two facades, or a
pass of a worker. -/
inductive QueueEvent (J : Type) where
  | submitHigh (job : J)
  | submitLow (job : J)
  | workerPass

/-- A priority queue together with the record of the picks made so far, each with the
branch that made it. -/
structure QueueRun (J : Type) where
  queue : PriorityBasedMultithreadedJobQueue J
  picks : List (WorkerBranch × J)

/-- One event applied to a running priority queue. -/
def QueueRun.step {J : Type} (r : QueueRun J) : QueueEvent J → QueueRun J
  | QueueEvent.submitHigh job =>
    { r with queue := r.queue.RegisterJob r.queue.highPriorityJobQueue job }
  | QueueEvent.submitLow job =>
    { r with queue := r.queue.RegisterJob r.queue.lowPriorityJobQueue job }
  | QueueEvent.workerPass =>
    match r.queue.workerPick with
    | (branch, some job, q) => { queue := q, picks := r.picks ++ [(branch, job)] }
    | (_, none, q) => { r with queue := q }

/-- A sequence of events applied to a new priority queue. -/
def QueueRun.run {J : Type} (events : List (QueueEvent J)) : QueueRun J :=
  events.foldl QueueRun.step { queue := PriorityBasedMultithreadedJobQueue.new, picks := [] }

/-- The jobs submitted by a sequence of events, in submission order. -/
def submitted {J : Type} : List (QueueEvent J) → List J
  | [] => []
  | QueueEvent.submitHigh job :: rest => job :: submitted rest
  | QueueEvent.submitLow job :: rest => job :: submitted rest
  | QueueEvent.workerPass :: rest => submitted rest

/-- The event with a submission through the low-priority facade replaced by the same
submission through the high-priority facade. -/
def QueueEvent.throughHighFacade {J : Type} : QueueEvent J → QueueEvent J
  | QueueEvent.submitLow job => QueueEvent.submitHigh job
  | e => e

/-- Example builder without dependencies whose build yields `v`. -/
def constantBuilder (v : Nat) : IObjectBuilder Nat Nat :=
  { GetDependencies := fun _ => some [], BuildObject := fun _ _ => some v }

/-- Example provider: key `1` has the explicit builder `constantBuilder 10`; the
fallback function yields `constantBuilder 20` for even keys, and for odd keys it writes
`constantBuilder 30` and returns false. Key `1` has an entry in the overrides map. -/
def exampleProvider : ObjectBuilderProvider Nat Nat :=
  { addressSpecificBuilders := fun k => if k = 1 then some (some (constantBuilder 10)) else none
    addressSpecificOverrides := fun k => if k = 1 then some 7 else none
    builderProviderFunc := some (fun k _ =>
      if k % 2 = 0 then (true, some (constantBuilder 20)) else (false, some (constantBuilder 30))) }

/-- Example job whose closure throws and leaves the world as it is. -/
def throwingJob (W : Type) : DependencyGraphJob W :=
  { style := DependencyGraphJobStyle.other, func := some (fun w => (Completion.threw, w)) }

end dependencygraph

namespace dependencygraph

section Accounting

variable {K V : Type} [DecidableEq K] [Inhabited V]

/-- The context after `GetDependenciesInt` has created the node of `address`: the new
node, the key and the journal entries of the discovery are added. -/
def discover (obp : IObjectBuilderProvider K V) (address : K) (c : ObjectContext K V) :
    ObjectContext K V :=
  match obp address with
  | none =>
    { _values := fun j => if j = address then
        some { (ObjectBuilderInfo.new address : ObjectBuilderInfo K V) with
          _state := ObjectBuildingState.NoBuilderAvailable } else c._values j
      keys := c.keys ++ [address]
      journal := c.journal ++ [Event.setState address ObjectBuildingState.Starting
        ObjectBuildingState.NoBuilderAvailable] }
  | some b =>
    match b.GetDependencies address with
    | some deps =>
      { _values := fun j => if j = address then
          some { (ObjectBuilderInfo.new address : ObjectBuilderInfo K V) with
            objectBuilder := some b, dependencies := deps,
            _state := ObjectBuildingState.DependenciesKnown } else c._values j
        keys := c.keys ++ [address]
        journal := c.journal ++ [Event.GetDependencies address,
          Event.setState address ObjectBuildingState.Starting
            ObjectBuildingState.DependenciesKnown] }
    | none =>
      { _values := fun j => if j = address then
          some { (ObjectBuilderInfo.new address : ObjectBuilderInfo K V) with
            objectBuilder := some b, exception := some "Discovery failed",
            _state := ObjectBuildingState.Failure } else c._values j
        keys := c.keys ++ [address]
        journal := c.journal ++ [Event.GetDependencies address,
          Event.setState address ObjectBuildingState.Starting ObjectBuildingState.Failure] }

/-- The allowed transitions of the node state machine. -/
def allowedTransition : ObjectBuildingState → ObjectBuildingState → Bool
  | ObjectBuildingState.Starting, ObjectBuildingState.NoBuilderAvailable => true
  | ObjectBuildingState.Starting, ObjectBuildingState.DependenciesKnown => true
  | ObjectBuildingState.Starting, ObjectBuildingState.Failure => true
  | ObjectBuildingState.DependenciesKnown, ObjectBuildingState.ObjectBuilt => true
  | ObjectBuildingState.DependenciesKnown, ObjectBuildingState.Failure => true
  | _, _ => false

/-- What the invariant says of a journal entry: a state change is an allowed
transition, and a `fetch_sub` found a count of at least one. -/
def Event.allowed : Event K → Prop
  | Event.setState _ previous next => allowedTransition previous next = true
  | Event.fetchSub _ previousCount => 1 ≤ previousCount
  | _ => True

/-- Number of `dependencyBuilt k` callbacks waiting in the post-build list of a node,
counted while the node has not reached a state in which that list is launched. -/
def share (n : ObjectBuilderInfo K V) (k : K) : Nat :=
  if buildReached n._state then 0
  else n._postBuildCallBacks.count (CallBack.dependencyBuilt k)

/-- The `share` of the node stored under `d`. -/
def storedAt (c : ObjectContext K V) (k d : K) : Nat :=
  match c._values d with
  | none => 0
  | some n => share n k

/-- Number of waiting `dependencyBuilt k` callbacks over all nodes. -/
def stored (c : ObjectContext K V) (k : K) : Nat :=
  (c.keys.map (storedAt c k)).sum

/-- The counter `_outstandingDependenciesCount` of node `k` (`0` when there is none). -/
def outstanding (c : ObjectContext K V) (k : K) : Int :=
  match c._values k with
  | none => 0
  | some n => n._outstandingDependenciesCount

/-- Decrements of the counter of `k` that are owed by code that is running: the counter
minus the callbacks that wait in lists. -/
def inFlight (c : ObjectContext K V) (k : K) : Int :=
  outstanding c k - (stored c k : Int)

/-- Number of build jobs of node `k` submitted so far. -/
def jobCount (c : ObjectContext K V) (k : K) : Nat :=
  c.journal.count (Event.RegisterJob k)

/-- Number of calls of the builder's `BuildObject` for key `k` so far. -/
def buildCount (c : ObjectContext K V) (k : K) : Nat :=
  c.journal.count (Event.BuildObject k)

/-- Number of calls of the builder's `GetDependencies` for key `k` so far. -/
def discoveryCount (c : ObjectContext K V) (k : K) : Nat :=
  c.journal.count (Event.GetDependencies k)

/-- Number of `dependencyBuilt k` entries of a callback list. -/
def listBudget (l : List (CallBack K)) (k : K) : Nat :=
  l.count (CallBack.dependencyBuilt k)

/-- Per-node part of the invariant of reachable contexts. -/
structure NodeOK (c : ObjectContext K V) (k : K) (n : ObjectBuilderInfo K V) : Prop where
  key : n.key = k
  notStarting : n._state ≠ ObjectBuildingState.Starting
  noDepsKnownCallBacks : n._postDependenciesKnownCallBacks = []
  noArm : ∀ o, CallBack.arm o ∉ n._postBuildCallBacks
  latch : n._buildRequestCount = 0 ∨ n._buildRequestCount = 1
  unrequested : n._buildRequestCount = 0 →
    n._outstandingDependenciesCount = 0 ∧ n._state ≠ ObjectBuildingState.ObjectBuilt ∧
      jobCount c k = 0
  done : buildReached n._state = true → n._outstandingDependenciesCount = 0
  waiting : 1 ≤ n._outstandingDependenciesCount → jobCount c k = 0
  notBuilt : buildCount c k ≠ 0 →
    n._state = ObjectBuildingState.ObjectBuilt ∨ n._state = ObjectBuildingState.Failure
  dependenciesBuilt : n._state = ObjectBuildingState.ObjectBuilt →
    ∀ d ∈ n.dependencies, c.getState d = some ObjectBuildingState.ObjectBuilt

/-- Invariant of the contexts reachable with the inline queue. -/
structure Inv (c : ObjectContext K V) : Prop where
  keysNodup : c.keys.Nodup
  keysIff : ∀ k, k ∈ c.keys ↔ c._values k ≠ none
  node : ∀ k n, c._values k = some n → NodeOK c k n
  inFlightNonneg : ∀ k, 0 ≤ inFlight c k
  transitions : ∀ e ∈ c.journal, Event.allowed e
  counts : ∀ k, jobCount c k ≤ 1 ∧ buildCount c k ≤ 1 ∧ discoveryCount c k ≤ 1
  absent : ∀ k, c._values k = none →
    jobCount c k = 0 ∧ buildCount c k = 0 ∧ discoveryCount c k = 0

/-- What a call leaves alone: nodes stay, the request latch and a reached terminal
state stay, and the dependency list of a node is never rewritten. -/
structure Mono (c c' : ObjectContext K V) : Prop where
  node : ∀ k n, c._values k = some n → ∃ n', c'._values k = some n' ∧
    n'.key = n.key ∧ n'.dependencies = n.dependencies ∧ n'.objectBuilder = n.objectBuilder ∧
    (n._buildRequestCount = 1 → n'._buildRequestCount = 1) ∧
    (buildReached n._state = true → n'._state = n._state ∧ n'.builtObject = n.builtObject ∧
      n'.exception = n.exception)
  discovery : ∀ k, c._values k ≠ none → discoveryCount c' k = discoveryCount c k
  frozen : ∀ k n, c._values k = some n → buildReached n._state = true →
    jobCount c' k = jobCount c k ∧ buildCount c' k = buildCount c k

/-- Node `k` has been armed with no dependency left to wait for and its build job has
been submitted but has not run. -/
def Runnable (c : ObjectContext K V) (k : K) : Prop :=
  ∃ n, c._values k = some n ∧ n._state = ObjectBuildingState.DependenciesKnown ∧
    n._buildRequestCount = 1 ∧ n._outstandingDependenciesCount = 0 ∧ jobCount c k = 1

/-- Node `k` has just had its build requested: the arming callback may run. -/
def Armable (c : ObjectContext K V) (k : K) : Prop :=
  ∃ n, c._values k = some n ∧ n._state = ObjectBuildingState.DependenciesKnown ∧
    n._buildRequestCount = 1 ∧ n._outstandingDependenciesCount = 0 ∧ jobCount c k = 0

/-- Decrements of the counter of `j` that a call performs. -/
def budget : Call K → K → Nat
  | Call.callBack (CallBack.dependencyBuilt k) _, j => if j = k then 1 else 0
  | _, _ => 0

/-- What a call needs from its caller. -/
def Pre (c : ObjectContext K V) : Call K → Prop
  | Call.BuildObject _ => True
  | Call.callBack (CallBack.arm k) node => node = k ∧ Armable c k
  | Call.callBack (CallBack.dependencyBuilt k) _ => 1 ≤ inFlight c k
  | Call.callBack (CallBack.client _) _ => True
  | Call.buildObject k => Runnable c k

/-- What a call establishes beside the invariant. -/
def Result (c' : ObjectContext K V) : Call K → Prop
  | Call.BuildObject d => ∃ n, c'._values d = some n ∧ n._buildRequestCount = 1
  | _ => True

/-- Relation between the contexts before and after a call. -/
structure Post (X : Call K) (c c' : ObjectContext K V) : Prop where
  mono : Mono c c'
  inFlight : ∀ j, inFlight c' j = inFlight c j - (budget X j : Int)
  runnable : ∀ j, Runnable c j → X ≠ Call.buildObject j → Runnable c' j
  result : Result c' X

/-- Every result of `self` is a result of `self'`. -/
def SelfLE (self self' : Call K → ObjectContext K V → Option (ObjectContext K V)) : Prop :=
  ∀ X c c', self X c = some c' → self' X c = some c'

/-- Specification of the recursive calls. -/
def SelfOK (self : Call K → ObjectContext K V → Option (ObjectContext K V)) : Prop :=
  ∀ X c c', self X c = some c' → Inv c → Pre c X → Inv c' ∧ Post X c c'

end Accounting

end dependencygraph

namespace dependencygraph

section Reachability

variable {K V : Type} [DecidableEq K] [Inhabited V]

/-- The contexts that a client can produce from the context `c0` by calls of
`GetDependencies` and `BuildObject` that return. -/
inductive ReachableFrom (obp : IObjectBuilderProvider K V) (c0 : ObjectContext K V) :
    ObjectContext K V → Prop where
  | refl : ReachableFrom obp c0 c0
  | getDependencies {c c' : ObjectContext K V} (fuel : Nat) (address : K) :
      ReachableFrom obp c0 c → ObjectContext.GetDependencies obp fuel address c = some c' →
      ReachableFrom obp c0 c'
  | buildObject {c c' : ObjectContext K V} (fuel : Nat) (address : K) :
      ReachableFrom obp c0 c → ObjectContext.BuildObject obp fuel address c = some c' →
      ReachableFrom obp c0 c'

/-- The contexts that a client can produce from a new context. -/
def Reachable (obp : IObjectBuilderProvider K V) (c : ObjectContext K V) : Prop :=
  ReachableFrom obp ObjectContext.empty c

/-- The diamond `0 -> {1, 2}`, `1 -> {3}`, `2 -> {3}`, `3 -> {}`. Node `3` builds `7`;
every other node builds the sum of the dependency values it receives, plus `1000` for
each other key it finds bound. -/
def diamond : IObjectBuilderProvider Nat Int := fun _ =>
  some
    { GetDependencies := fun k =>
        some (if k = 0 then [1, 2] else if k = 1 then [3] else if k = 2 then [3] else [])
      BuildObject := fun k m =>
        if k = 3 then some 7
        else if k = 0 then
          some ((m 1).getD 0 + (m 2).getD 0 + (if (m 0).isSome then 1000 else 0)
            + (if (m 3).isSome then 1000 else 0) + (if (m 4).isSome then 1000 else 0))
        else some ((m 3).getD 0 + 1) }

/-- The context after `build_object(0)` on a new context of the diamond. -/
def diamondBuilt : ObjectContext Nat Int :=
  (ObjectContext.BuildObject diamond 12 0 ObjectContext.empty).getD ObjectContext.empty

end Reachability

end dependencygraph

namespace dependencygraph

section Acyclic

variable {K V : Type} [DecidableEq K] [Inhabited V]

/-- The dependency list that the builder of `j` declares (empty without a builder or
when `GetDependencies` throws). -/
def declared (obp : IObjectBuilderProvider K V) (j : K) : List K :=
  match obp j with
  | none => []
  | some b => (b.GetDependencies j).getD []

/-- The map that binds each key of `ds` to the built value of its node. -/
def builtDependenciesOf (c : ObjectContext K V) (ds : List K) : K → Option V :=
  fun j => if j ∈ ds then c.getBuiltObject j else none

/-- Key `j` has no node and nothing was done for it. -/
def Absent (c : ObjectContext K V) (j : K) : Prop :=
  c._values j = none ∧ jobCount c j = 0 ∧ buildCount c j = 0

/-- The final record of a key whose build was requested, as a function of the provider
and of the final records of its dependencies. -/
structure Done (obp : IObjectBuilderProvider K V) (c : ObjectContext K V) (j : K) : Prop where
  node : ∃ n, c._values j = some n ∧ n._buildRequestCount = 1 ∧ buildReached n._state = true
  noBuilder : obp j = none →
    c.getState j = some ObjectBuildingState.NoBuilderAvailable ∧
      jobCount c j = 0 ∧ buildCount c j = 0
  discoveryFailed : ∀ b, obp j = some b → b.GetDependencies j = none →
    c.getState j = some ObjectBuildingState.Failure ∧
      (c._values j).bind (fun n => n.exception) = some "Discovery failed" ∧
      jobCount c j = 0 ∧ buildCount c j = 0
  discovered : ∀ b ds, obp j = some b → b.GetDependencies j = some ds →
    c.getDependencyList j = ds ∧ jobCount c j = 1
  dependencyFailed : ∀ b ds, obp j = some b → b.GetDependencies j = some ds →
    (∃ d ∈ ds, c.getState d ≠ some ObjectBuildingState.ObjectBuilt) →
    c.getState j = some ObjectBuildingState.Failure ∧
      (c._values j).bind (fun n => n.exception) = some "Failed to source dependency" ∧
      buildCount c j = 0
  built : ∀ b ds v, obp j = some b → b.GetDependencies j = some ds →
    (∀ d ∈ ds, c.getState d = some ObjectBuildingState.ObjectBuilt) →
    b.BuildObject j (builtDependenciesOf c ds) = some v →
    c.getState j = some ObjectBuildingState.ObjectBuilt ∧ c.getBuiltObject j = some v ∧
      buildCount c j = 1
  buildFailed : ∀ b ds, obp j = some b → b.GetDependencies j = some ds →
    (∀ d ∈ ds, c.getState d = some ObjectBuildingState.ObjectBuilt) →
    b.BuildObject j (builtDependenciesOf c ds) = none →
    c.getState j = some ObjectBuildingState.Failure ∧
      (c._values j).bind (fun n => n.exception) = some "Failed to build object dependency" ∧
      buildCount c j = 1

/-- Key `j` is treated alike by two contexts. -/
def Same (c c' : ObjectContext K V) (j : K) : Prop :=
  c'._values j = c._values j ∧ jobCount c' j = jobCount c j ∧ buildCount c' j = buildCount c j

/-- An acyclic part of the dependency structure: a set of keys closed under declared
dependencies, with a rank that falls along every dependency. -/
structure Acyclic (obp : IObjectBuilderProvider K V) (S : K → Prop) (rank : K → Nat) : Prop where
  closed : ∀ j, S j → ∀ d ∈ declared obp j, S d ∧ rank d < rank j

/-- Every key of `S` up to rank `r` is either untouched or finished together with its
declared dependencies. -/
def Ready (obp : IObjectBuilderProvider K V) (S : K → Prop) (rank : K → Nat)
    (c : ObjectContext K V) (r : Nat) : Prop :=
  ∀ j, S j → rank j ≤ r → Absent c j ∨ (Done obp c j ∧ ∀ d ∈ declared obp j, Done obp c d)

end Acyclic

end dependencygraph

namespace dependencygraph

section AcyclicLoop

variable {K V : Type} [DecidableEq K] [Inhabited V]

/-- Node `k` has been discovered with builder `b` and dependency list `ds`, its build has
been requested and it waits for `remaining` dependencies; no callback waits on it and
no job or build has been recorded for it. -/
structure Armed (c : ObjectContext K V) (k : K) (b : IObjectBuilder K V) (ds : List K)
    (remaining : Nat) : Prop where
  node : ∃ n, c._values k = some n ∧ n._state = ObjectBuildingState.DependenciesKnown ∧
    n._buildRequestCount = 1 ∧ n._outstandingDependenciesCount = (remaining : Int) ∧
    n._postBuildCallBacks = [] ∧ n._postDependenciesKnownCallBacks = [] ∧
    n.objectBuilder = some b ∧ n.dependencies = ds
  jobs : jobCount c k = 0
  builds : buildCount c k = 0

/-- What a `BuildObject` call for key `k` leaves alone: every other key of the same or a
higher rank, and every finished key of `S` up to that rank. -/
def Frame (obp : IObjectBuilderProvider K V) (S : K → Prop) (rank : K → Nat) (k : K)
    (c c' : ObjectContext K V) : Prop :=
  (∀ j, j ≠ k → rank k ≤ rank j → Same c c' j) ∧
  (∀ j, S j → rank j ≤ rank k → Done obp c j → Same c c' j)

end AcyclicLoop

end dependencygraph

namespace dependencygraph

section Examples

variable {K V : Type} [DecidableEq K] [Inhabited V]

/-- Key `j` is reachable from `k` along declared dependencies. -/
inductive DependsOn (obp : IObjectBuilderProvider K V) (k : K) : K → Prop where
  | refl : DependsOn obp k k
  | step {j d : K} : DependsOn obp k j → d ∈ declared obp j → DependsOn obp k d

/-- A provider whose builders declare no dependency and build `42`. -/
def leaf : IObjectBuilderProvider Nat Int := fun _ =>
  some { GetDependencies := fun _ => some [], BuildObject := fun _ _ => some 42 }

/-- The linear chain: key `k > 0` depends on `k - 1` and builds the value of `k - 1`
plus one (it throws when that value is not bound); key `0` builds `0`. -/
def chain : IObjectBuilderProvider Nat Int := fun _ =>
  some
    { GetDependencies := fun k => some (if k = 0 then [] else [k - 1])
      BuildObject := fun k m => if k = 0 then some 0 else (m (k - 1)).map (fun v => v + 1) }

/-- A provider that returns `false` for every key. -/
def noBuilder : IObjectBuilderProvider Nat Int := fun _ => none

/-- A provider whose builders throw in `GetDependencies`. -/
def discoveryFails : IObjectBuilderProvider Nat Int := fun _ =>
  some { GetDependencies := fun _ => none, BuildObject := fun _ _ => some 0 }

/-- `0 -> {1}`, `1 -> {}`; the build of `1` throws, the build of `0` returns `9`. -/
def failingDependency : IObjectBuilderProvider Nat Int := fun _ =>
  some
    { GetDependencies := fun k => some (if k = 0 then [1] else [])
      BuildObject := fun k _ => if k = 0 then some 9 else none }

/-- Key `0` lists itself and key `1`; key `1` has no builder. -/
def selfCycle : IObjectBuilderProvider Nat Int := fun k =>
  if k = 0 then
    some { GetDependencies := fun _ => some [0, 1], BuildObject := fun _ _ => some 9 }
  else none

/-- The context after `build_object(1)` on a new context of `leaf`. -/
def leafBuilt : ObjectContext Nat Int :=
  (ObjectContext.BuildObject leaf 4 1 ObjectContext.empty).getD ObjectContext.empty

/-- The context after `build_object(5)` on a new context of `chain`. -/
def chainBuilt : ObjectContext Nat Int :=
  (ObjectContext.BuildObject chain 30 5 ObjectContext.empty).getD ObjectContext.empty

end Examples

end dependencygraph

namespace dependencygraph

/-- The context after `build_object(0)` on a new context of `selfCycle`. -/
def selfCycleBuilt : ObjectContext Nat Int :=
  (ObjectContext.BuildObject selfCycle 3 0 ObjectContext.empty).getD ObjectContext.empty

/-- The context after `build_object(0)` on a new context of `failingDependency`. -/
def failingDependencyBuilt : ObjectContext Nat Int :=
  (ObjectContext.BuildObject failingDependency 8 0 ObjectContext.empty).getD ObjectContext.empty

/-- Member `exception` of the node stored under `k`: the message of the recorded
exception. -/
def ObjectContext.getException {K V : Type} (c : ObjectContext K V) (k : K) : Option String :=
  (c._values k).bind (fun n => n.exception)

end dependencygraph

namespace dependencygraph

section BuildOnly

variable {K V : Type} [DecidableEq K] [Inhabited V]

/-- The contexts that a client can produce from a new context by `BuildObject` calls
that return. -/
inductive BuildReachable (obp : IObjectBuilderProvider K V) : ObjectContext K V → Prop where
  | empty : BuildReachable obp ObjectContext.empty
  | buildObject {c c' : ObjectContext K V} (fuel : Nat) (address : K) :
      BuildReachable obp c → ObjectContext.BuildObject obp fuel address c = some c' →
      BuildReachable obp c'

end BuildOnly

end dependencygraph

/-!
# The reference driver

`FunctionBasedObjectBuilder.h` and the provider set up in `DependencyGraph.cpp:31-56`.
Keys are `int`; the build function sums sines in floating point, never throws and
ignores its dependencies, so it enters the model as a function `kernel` of the address.
-/

namespace dependencygraph

/-- The class `FunctionBasedObjectBuilder`: two `std::function` members, each empty
(`none`) or set. -/
structure FunctionBasedObjectBuilder (K V : Type) where
  GetDependenciesFunc : Option (K → Option (List K))
  BuildObjectFunc : Option (K → (K → Option V) → Option V)

/-- Methods `FunctionBasedObjectBuilder::GetDependencies` and `::BuildObject`
(FunctionBasedObjectBuilder.h:27-44): the function when it is set, else the empty vector
and the default value. -/
def FunctionBasedObjectBuilder.toObjectBuilder {K V : Type} [Inhabited V]
    (b : FunctionBasedObjectBuilder K V) : IObjectBuilder K V :=
  { GetDependencies := fun address =>
      match b.GetDependenciesFunc with
      | some f => f address
      | none => some []
    BuildObject := fun address dependencies =>
      match b.BuildObjectFunc with
      | some f => f address dependencies
      | none => some default }

/-- The loop `while (dependencyAddress > 0) { push_back; dependencyAddress /= 2; }`
(DependencyGraph.cpp:38-42), with a bound on the number of passes. -/
def halvingLoop : Nat → Int → List Int
  | 0, _ => []
  | fuel + 1, dependencyAddress =>
    if dependencyAddress > 0 then
      dependencyAddress :: halvingLoop fuel (Int.tdiv dependencyAddress 2)
    else []

/-- The dependency function of the driver (DependencyGraph.cpp:34-44):
`dependencyAddress` starts at `address / 2`; the bound `address` is never reached by
the loop. -/
def halvingDependencies (address : Int) : List Int :=
  halvingLoop address.toNat (Int.tdiv address 2)

/-- The builder made by the driver for every address. -/
def driverBuilder {V : Type} [Inhabited V] (kernel : Int → V) : IObjectBuilder Int V :=
  FunctionBasedObjectBuilder.toObjectBuilder
    { GetDependenciesFunc := some (fun address => some (halvingDependencies address))
      BuildObjectFunc := some (fun address _ => some (kernel address)) }

/-- The `ObjectBuilderProvider` of the driver (DependencyGraph.cpp:31-56): both maps
empty, `builderProviderFunc` writes the builder and returns true. -/
def driverObjectBuilderProvider {V : Type} [Inhabited V] (kernel : Int → V) :
    ObjectBuilderProvider Int V :=
  { addressSpecificBuilders := fun _ => none
    addressSpecificOverrides := fun _ => none
    builderProviderFunc := some (fun _ _ => (true, some (driverBuilder kernel))) }

/-- The provider of the driver as the context sees it: the builder that
`TryGetObjectBuilder` leaves for a null pointer passed in. -/
def driver {V : Type} [Inhabited V] (kernel : Int → V) : IObjectBuilderProvider Int V :=
  fun address => ((driverObjectBuilderProvider kernel).TryGetObjectBuilder address none).2

/-- The context after `build_object(6)` on a new context of the driver with a kernel
that returns the address. -/
def driverBuilt : ObjectContext Int Int :=
  (ObjectContext.BuildObject (driver (fun address => address)) 12 6
    ObjectContext.empty).getD ObjectContext.empty

end dependencygraph

namespace dependencygraph

section CallBackDefs

variable {K V : Type} [DecidableEq K] [Inhabited V]

/-- The journal entries of the client callbacks `tags` invoked in order on node `k`. -/
def clientEvents (tags : List Nat) (k : K) : List (Event K) :=
  tags.map (fun tag => Event.clientCallBack tag k)

/-- Append entries to the journal. -/
def ObjectContext.recordAll (c : ObjectContext K V) (es : List (Event K)) : ObjectContext K V :=
  { c with journal := c.journal ++ es }

/-- Example: `get_dependencies(7)` on a new context of `leaf`, then the client callbacks
`1` and `2` registered, in this order, as post-build callbacks of node `7`. -/
def pendingLeaf : ObjectContext Nat Int :=
  (((ObjectContext.GetDependencies leaf 1 7 ObjectContext.empty).bind
    (ObjectBuilderInfo.RegisterPostBuildCallBack (exec leaf 1) 7 (CallBack.client 1))).bind
    (ObjectBuilderInfo.RegisterPostBuildCallBack (exec leaf 1) 7
      (CallBack.client 2))).getD ObjectContext.empty

/-- The context after `build_object(7)` on `pendingLeaf`. -/
def pendingLeafBuilt : ObjectContext Nat Int :=
  (ObjectContext.BuildObject leaf 4 7 pendingLeaf).getD ObjectContext.empty

end CallBackDefs

end dependencygraph

/-!
# Trapped keys

A set of keys is trapped when each of its keys has a builder whose discovery succeeds
and declares a dependency in the set: every key on a dependency cycle, and every key
that depends on one. The definitions below state what the object context does with
such keys.
-/

namespace dependencygraph

section Trapped

variable {K V : Type} [DecidableEq K] [Inhabited V]

/-- The set `cyc` is trapped for the provider, and the set `U` is closed under declared
dependencies. -/
structure Trap (obp : IObjectBuilderProvider K V) (cyc : K → Bool) (U : K → Prop) : Prop where
  successor : ∀ X, cyc X = true → ∃ b ds, obp X = some b ∧ b.GetDependencies X = some ds ∧
    ∃ Y ∈ ds, cyc Y = true
  closed : ∀ X, U X → ∀ d ∈ declared obp X, U d

/-- Number of `dependencyBuilt X` callbacks that wait in the post-build lists of
trapped nodes. -/
def cycStored (cyc : K → Bool) (c : ObjectContext K V) (X : K) : Nat :=
  (c.keys.map (fun d => if cyc d = true then storedAt c X d else 0)).sum

/-- Decrements of the counter of `X` that are owed by running code, together with the
callbacks of `X` that wait on trapped nodes. -/
def reserve (cyc : K → Bool) (c : ObjectContext K V) (X : K) : Int :=
  inFlight c X + (cycStored cyc c X : Int)

/-- Node `X` exists and its build was requested. -/
def latched (c : ObjectContext K V) (X : K) : Prop :=
  ∃ n, c._values X = some n ∧ n._buildRequestCount = 1

/-- The arming callback of `X` has run to its end: the build of every dependency was
requested, and a trapped `X` has a callback waiting on a trapped node. -/
structure Completed (cyc : K → Bool) (c : ObjectContext K V) (X : K) : Prop where
  requested : ∀ n, c._values X = some n → ∀ d ∈ n.dependencies, latched c d
  waits : cyc X = true → 1 ≤ cycStored cyc c X

/-- Every node carries the dependency list that its builder declares, every trapped node
is in `DependenciesKnown` with a trapped dependency and without a build job, and every
node and dependency is in `U`. -/
structure Stuck (obp : IObjectBuilderProvider K V) (cyc : K → Bool) (U : K → Prop)
    (c : ObjectContext K V) : Prop where
  deps : ∀ X n, c._values X = some n → n.dependencies = declared obp X
  node : ∀ X n, cyc X = true → c._values X = some n →
    n._state = ObjectBuildingState.DependenciesKnown ∧
      (∃ Y ∈ n.dependencies, cyc Y = true) ∧ jobCount c X = 0
  known : ∀ X n, c._values X = some n → U X ∧ ∀ d ∈ n.dependencies, U d

/-- The counter of each armed trapped node exceeds the decrements `B` that the running
code is about to perform. -/
def Claim (cyc : K → Bool) (c : ObjectContext K V) (B : K → Nat) : Prop :=
  ∀ X, cyc X = true → outstanding c X ≠ 0 → (B X : Int) + 1 ≤ reserve cyc c X

/-- What a step keeps of the trapped nodes: the callbacks that wait on them, and every
node whose build is requested during the step and that is not in a terminal state has
had its arming callback run to the end. -/
structure Keep (cyc : K → Bool) (c c' : ObjectContext K V) : Prop where
  stored : ∀ X, cyc X = true → cycStored cyc c X ≤ cycStored cyc c' X
  completed : ∀ X n', latched c' X → ¬ latched c X → c'._values X = some n' →
    buildReached n'._state = false → Completed cyc c' X

/-- What a call needs from its caller with respect to the trapped nodes. -/
def Pre2 (cyc : K → Bool) (U : K → Prop) (c : ObjectContext K V) (X : Call K) : Prop :=
  Claim cyc c (budget X) ∧
    match X with
    | Call.BuildObject a => U a
    | _ => True

/-- What a call establishes beside `Stuck` and `Keep`. -/
def Post2 (cyc : K → Bool) (c' : ObjectContext K V) : Call K → Prop
  | Call.callBack (CallBack.arm X) _ => Completed cyc c' X
  | _ => True

/-- Specification of the recursive calls with respect to the trapped nodes. -/
def SelfStuck (obp : IObjectBuilderProvider K V) (cyc : K → Bool) (U : K → Prop)
    (self : Call K → ObjectContext K V → Option (ObjectContext K V)) : Prop :=
  ∀ X c c', self X c = some c' → Inv c → Pre c X → Stuck obp cyc U c → Pre2 cyc U c X →
    Stuck obp cyc U c' ∧ Keep cyc c c' ∧ Claim cyc c' (fun _ => 0) ∧ Post2 cyc c' X

/-- What a step that creates no node and writes no trapped node's state keeps: the keys,
the nodes with their dependency lists, and for trapped nodes the state, the job count
and the waiting callbacks. -/
structure Quiet (cyc : K → Bool) (c c' : ObjectContext K V) : Prop where
  keys : c'.keys = c.keys
  present : ∀ d n, c._values d = some n → c'._values d ≠ none
  node : ∀ d n', c'._values d = some n' → ∃ n, c._values d = some n ∧
    n'.dependencies = n.dependencies ∧
    (cyc d = true → n'._state = n._state ∧ ∀ X, share n X ≤ share n' X)
  jobs : ∀ X, cyc X = true → jobCount c' X = jobCount c X

end Trapped

end dependencygraph

/-!
# Work left in a finite set of keys

The measure used to show that a call returns when the keys it can reach form a finite
set closed under declared dependencies.
-/

namespace dependencygraph

section Termination

variable {K V : Type} [DecidableEq K] [Inhabited V]

/-- Node `X` exists and its build was requested. -/
def requested (c : ObjectContext K V) (X : K) : Bool :=
  match c._values X with
  | some n => decide (n._buildRequestCount = 1)
  | none => false

/-- Node `X` exists and is in a terminal state. -/
def finished (c : ObjectContext K V) (X : K) : Bool :=
  match c._values X with
  | some n => buildReached n._state
  | none => false

/-- Number of keys of `U` whose build is not requested yet, plus the number of keys of
`U` that are not in a terminal state. -/
def pending (U : List K) (c : ObjectContext K V) : Nat :=
  U.countP (fun X => !requested c X) + U.countP (fun X => !finished c X)

/-- Rank of a call among the calls made with the same work left. -/
def kind : Call K → Nat
  | Call.BuildObject _ => 0
  | Call.buildObject _ => 1
  | Call.callBack (CallBack.dependencyBuilt _) _ => 2
  | Call.callBack (CallBack.arm _) _ => 3
  | Call.callBack (CallBack.client _) _ => 0

/-- Every node and every dependency of a node is a key of `U`, and every node holds the
dependency list its builder declares. -/
@[reducible] def Known (obp : IObjectBuilderProvider K V) (U : List K)
    (c : ObjectContext K V) : Prop :=
  Stuck obp (fun _ => false) (fun j => j ∈ U) c

/-- The key a top-level call names lies in `U`. -/
def Within (U : List K) : Call K → Prop
  | Call.BuildObject a => a ∈ U
  | _ => True

/-- The call is made within `U` from a context in which it is allowed. -/
structure Ready2 (obp : IObjectBuilderProvider K V) (U : List K) (c : ObjectContext K V)
    (X : Call K) : Prop where
  inv : Inv c
  pre : Pre c X
  known : Known obp U c
  within : Within U X

/-- The recursive calls meet their specifications, and those of a weight below `w`
return. -/
structure Runner (obp : IObjectBuilderProvider K V) (U : List K) (w : Nat)
    (run : Call K → ObjectContext K V → Option (ObjectContext K V)) : Prop where
  ok : SelfOK run
  stuck : SelfStuck obp (fun _ => false) (fun j => j ∈ U) run
  runs : ∀ X c, Ready2 obp U c X → 4 * pending U c + kind X < w → ∃ c', run X c = some c'

end Termination

end dependencygraph

/-!
# Keys on a dependency cycle

The invariant of reachable contexts that keeps the keys of a cycle waiting.
-/

namespace dependencygraph

section TrappedDefs

variable {K V : Type} [DecidableEq K] [Inhabited V]

/-- Key `X` lies on a cycle of declared dependencies through `k`. -/
def OnCycle (obp : IObjectBuilderProvider K V) (k X : K) : Prop :=
  DependsOn obp k X ∧ DependsOn obp X k

/-- Invariant of the contexts in which the keys selected by `cyc` wait for each other:
between two calls of a client nothing is owed to a selected key that a waiting callback
of a selected key does not cover, and every requested node that is not finished has
requested all its dependencies. -/
structure Trapped (obp : IObjectBuilderProvider K V) (cyc : K → Bool)
    (c : ObjectContext K V) : Prop where
  inv : Inv c
  stuck : Stuck obp cyc (fun _ => True) c
  claim : Claim cyc c (fun _ => 0)
  completed : ∀ X n, latched c X → c._values X = some n → buildReached n._state = false →
    Completed cyc c X

/-- Every key `j` lists itself and `j + 1`: each key lies on a cycle and reaches
infinitely many keys. -/
def endless : IObjectBuilderProvider Nat Int := fun _ =>
  some { GetDependencies := fun j => some [j, j + 1], BuildObject := fun _ _ => some 0 }

/-- The two-cycle `0 -> {1}`, `1 -> {0}`; every other key has no dependency. -/
def twoCycle : IObjectBuilderProvider Nat Int := fun _ =>
  some
    { GetDependencies := fun j => some (if j = 0 then [1] else if j = 1 then [0] else [])
      BuildObject := fun _ _ => some 0 }

end TrappedDefs

end dependencygraph

/-!
# Order of the journal

What the journal of a reachable context says of the submission of a build job.
-/

namespace dependencygraph

section OrderDefs

variable {K V : Type} [DecidableEq K] [Inhabited V]

/-- Every submission of the build job of a key with declared dependencies comes right
after a `fetch_sub` on the counter of that key which returned `1`, and no `fetch_sub` on
that counter comes after the submission. -/
def JournalOK (obp : IObjectBuilderProvider K V) (l : List (Event K)) : Prop :=
  ∀ pre post k, l = pre ++ Event.RegisterJob k :: post →
    (declared obp k = [] ∨ ∃ pre', pre = pre' ++ [Event.fetchSub k 1]) ∧
    ∀ p, Event.fetchSub k p ∉ post

end OrderDefs

end dependencygraph

namespace dependencygraph

section Basic

variable {K V : Type} [DecidableEq K] [Inhabited V]

@[simp] theorem modify_values (c : ObjectContext K V) (k j : K)
    (f : ObjectBuilderInfo K V → ObjectBuilderInfo K V) :
    (c.modify k f)._values j = if j = k then (c._values k).map f else c._values j := rfl

@[simp] theorem modify_keys (c : ObjectContext K V) (k : K)
    (f : ObjectBuilderInfo K V → ObjectBuilderInfo K V) : (c.modify k f).keys = c.keys := rfl

@[simp] theorem modify_journal (c : ObjectContext K V) (k : K)
    (f : ObjectBuilderInfo K V → ObjectBuilderInfo K V) :
    (c.modify k f).journal = c.journal := rfl

@[simp] theorem record_values (c : ObjectContext K V) (e : Event K) :
    (c.record e)._values = c._values := rfl

@[simp] theorem record_keys (c : ObjectContext K V) (e : Event K) :
    (c.record e).keys = c.keys := rfl

@[simp] theorem record_journal (c : ObjectContext K V) (e : Event K) :
    (c.record e).journal = c.journal ++ [e] := rfl

theorem context_ext {c c' : ObjectContext K V} (h1 : ∀ k, c._values k = c'._values k)
    (h2 : c.keys = c'.keys) (h3 : c.journal = c'.journal) : c = c' := by
  cases c; cases c'
  simp only [ObjectContext.mk.injEq]
  exact ⟨funext h1, h2, h3⟩

/-- A write that leaves the node as it is leaves the context as it is. -/
theorem modify_id (c : ObjectContext K V) (k : K)
    (f : ObjectBuilderInfo K V → ObjectBuilderInfo K V)
    (h : ∀ n, c._values k = some n → f n = n) : c.modify k f = c := by
  apply context_ext
  · intro j
    simp only [modify_values]
    split
    · rename_i hj
      subst hj
      cases hn : c._values j with
      | none => rfl
      | some n => simp [h n hn]
    · rfl
  · rfl
  · rfl

theorem sum_map_congr_off {l : List K} (f g : K → Nat) (d0 : K) (hd : d0 ∉ l)
    (h : ∀ d, d ≠ d0 → f d = g d) : (l.map f).sum = (l.map g).sum := by
  induction l with
  | nil => rfl
  | cons a t ih =>
    simp only [List.mem_cons, not_or] at hd
    simp only [List.map_cons, List.sum_cons]
    rw [ih hd.2, h a (fun e => hd.1 e.symm)]

theorem sum_map_update {l : List K} (hn : l.Nodup) (f g : K → Nat) (d0 : K) (hd : d0 ∈ l)
    (h : ∀ d, d ≠ d0 → f d = g d) : (l.map f).sum + g d0 = (l.map g).sum + f d0 := by
  induction l with
  | nil => simp at hd
  | cons a t ih =>
    simp only [List.nodup_cons] at hn
    simp only [List.map_cons, List.sum_cons]
    by_cases ha : a = d0
    · subst ha
      rw [sum_map_congr_off f g a hn.1 h]
      omega
    · have hd' : d0 ∈ t := by
        rcases List.mem_cons.1 hd with e | e
        · exact absurd e.symm ha
        · exact e
      have := ih hn.2 hd'
      rw [h a ha]
      omega

/-- The waiting callbacks of `k` do not change when no node changes its share. -/
theorem stored_congr {c c' : ObjectContext K V} (k : K) (hk : c'.keys = c.keys)
    (h : ∀ d, storedAt c' k d = storedAt c k d) : stored c' k = stored c k := by
  unfold stored
  rw [hk]
  congr 1
  exact List.map_congr_left (fun d _ => h d)

/-- The waiting callbacks of `k` when only node `d0` changes its share. -/
theorem stored_update (c c' : ObjectContext K V) (k d0 : K) (hn : c.keys.Nodup)
    (hd : d0 ∈ c.keys) (hk : c'.keys = c.keys)
    (h : ∀ d, d ≠ d0 → storedAt c' k d = storedAt c k d) :
    stored c' k + storedAt c k d0 = stored c k + storedAt c' k d0 := by
  unfold stored
  rw [hk]
  exact sum_map_update hn _ _ d0 hd h

end Basic

end dependencygraph

namespace dependencygraph

section Updates

variable {K V : Type} [DecidableEq K] [Inhabited V]

@[simp] theorem jobCount_modify (c : ObjectContext K V) (k j : K)
    (f : ObjectBuilderInfo K V → ObjectBuilderInfo K V) :
    jobCount (c.modify k f) j = jobCount c j := rfl

@[simp] theorem buildCount_modify (c : ObjectContext K V) (k j : K)
    (f : ObjectBuilderInfo K V → ObjectBuilderInfo K V) :
    buildCount (c.modify k f) j = buildCount c j := rfl

@[simp] theorem discoveryCount_modify (c : ObjectContext K V) (k j : K)
    (f : ObjectBuilderInfo K V → ObjectBuilderInfo K V) :
    discoveryCount (c.modify k f) j = discoveryCount c j := rfl

theorem jobCount_record (c : ObjectContext K V) (e : Event K) (j : K) :
    jobCount (c.record e) j = jobCount c j + (if e = Event.RegisterJob j then 1 else 0) := by
  simp only [jobCount, record_journal, List.count_append, List.count_singleton]
  by_cases h : e = Event.RegisterJob j <;> simp [h]

theorem buildCount_record (c : ObjectContext K V) (e : Event K) (j : K) :
    buildCount (c.record e) j = buildCount c j + (if e = Event.BuildObject j then 1 else 0) := by
  simp only [buildCount, record_journal, List.count_append, List.count_singleton]
  by_cases h : e = Event.BuildObject j <;> simp [h]

theorem discoveryCount_record (c : ObjectContext K V) (e : Event K) (j : K) :
    discoveryCount (c.record e) j =
      discoveryCount c j + (if e = Event.GetDependencies j then 1 else 0) := by
  simp only [discoveryCount, record_journal, List.count_append, List.count_singleton]
  by_cases h : e = Event.GetDependencies j <;> simp [h]

theorem getState_eq (c : ObjectContext K V) (k : K) (n : ObjectBuilderInfo K V)
    (h : c._values k = some n) : c.getState k = some n._state := by
  simp [ObjectContext.getState, h]

/-- A node that is not written keeps its part of the invariant when its journal counts
stay and no built node leaves `ObjectBuilt`. -/
theorem NodeOK.carryOver {c c' : ObjectContext K V} {j : K} {m : ObjectBuilderInfo K V}
    (h : NodeOK c j m) (hj : jobCount c' j = jobCount c j)
    (hb : buildCount c' j = buildCount c j)
    (hs : ∀ d, c.getState d = some ObjectBuildingState.ObjectBuilt →
      c'.getState d = some ObjectBuildingState.ObjectBuilt) : NodeOK c' j m where
  key := h.key
  notStarting := h.notStarting
  noDepsKnownCallBacks := h.noDepsKnownCallBacks
  noArm := h.noArm
  latch := h.latch
  unrequested := fun e => by rw [hj]; exact h.unrequested e
  done := h.done
  waiting := fun e => by rw [hj]; exact h.waiting e
  notBuilt := fun e => by rw [hb] at e; exact h.notBuilt e
  dependenciesBuilt := fun e d hd => hs d (h.dependenciesBuilt e d hd)

/-- The invariant after a write to the single node `k`. -/
theorem Inv.update {c c' : ObjectContext K V} (h : Inv c) (k : K)
    (n n' : ObjectBuilderInfo K V) (hk : c._values k = some n) (hk' : c'._values k = some n')
    (hother : ∀ j, j ≠ k → c'._values j = c._values j) (hkeys : c'.keys = c.keys)
    (hnode : NodeOK c' k n')
    (hjob : ∀ j, j ≠ k → jobCount c' j = jobCount c j)
    (hbuild : ∀ j, j ≠ k → buildCount c' j = buildCount c j)
    (hdisc : ∀ j, discoveryCount c' j = discoveryCount c j)
    (hcnt : jobCount c' k ≤ 1 ∧ buildCount c' k ≤ 1)
    (hob : n._state = ObjectBuildingState.ObjectBuilt → n'._state = ObjectBuildingState.ObjectBuilt)
    (hfl : ∀ j, 0 ≤ inFlight c' j)
    (htr : ∀ e ∈ c'.journal, Event.allowed e) :
    Inv c' := by
  have hst : ∀ d, c.getState d = some ObjectBuildingState.ObjectBuilt →
      c'.getState d = some ObjectBuildingState.ObjectBuilt := by
    intro d hd
    by_cases e : d = k
    · subst e
      rw [getState_eq c d n hk] at hd
      rw [getState_eq c' d n' hk']
      simp only [Option.some.injEq] at hd ⊢
      exact hob hd
    · simpa [ObjectContext.getState, hother d e] using hd
  refine ⟨by rw [hkeys]; exact h.keysNodup, ?_, ?_, hfl, htr, ?_, ?_⟩
  · intro j
    rw [hkeys, h.keysIff]
    by_cases e : j = k
    · subst e; simp [hk, hk']
    · rw [hother j e]
  · intro j m hm
    by_cases e : j = k
    · subst e
      rw [hk'] at hm
      cases hm
      exact hnode
    · rw [hother j e] at hm
      exact (h.node j m hm).carryOver (hjob j e) (hbuild j e) hst
  · intro j
    by_cases e : j = k
    · subst e
      exact ⟨hcnt.1, hcnt.2, by rw [hdisc]; exact (h.counts j).2.2⟩
    · rw [hjob j e, hbuild j e, hdisc]
      exact h.counts j
  · intro j hj
    have e : j ≠ k := by
      intro e
      subst e
      rw [hk'] at hj
      cases hj
    rw [hother j e] at hj
    rw [hjob j e, hbuild j e, hdisc]
    exact h.absent j hj

theorem Mono.refl (c : ObjectContext K V) : Mono c c :=
  ⟨fun k n h => ⟨n, h, rfl, rfl, rfl, id, fun _ => ⟨rfl, rfl, rfl⟩⟩, fun _ _ => rfl,
    fun _ _ _ _ => ⟨rfl, rfl⟩⟩

theorem Mono.trans {c1 c2 c3 : ObjectContext K V} (h12 : Mono c1 c2) (h23 : Mono c2 c3) :
    Mono c1 c3 := by
  refine ⟨fun k n h => ?_, fun k hk => ?_, fun k n hn ht => ?_⟩
  · obtain ⟨n2, e2, a1, a2, a3, a4, a5⟩ := h12.node k n h
    obtain ⟨n3, e3, b1, b2, b3, b4, b5⟩ := h23.node k n2 e2
    refine ⟨n3, e3, b1.trans a1, b2.trans a2, b3.trans a3, fun e => b4 (a4 e), fun e => ?_⟩
    obtain ⟨x1, x2, x3⟩ := a5 e
    obtain ⟨y1, y2, y3⟩ := b5 (by rw [x1]; exact e)
    exact ⟨y1.trans x1, y2.trans x2, y3.trans x3⟩
  · cases hn : c1._values k with
    | none => exact absurd hn hk
    | some n =>
      obtain ⟨n2, e2, _⟩ := h12.node k n hn
      rw [h23.discovery k (by rw [e2]; simp), h12.discovery k hk]
  · obtain ⟨n2, e2, _, _, _, _, a5⟩ := h12.node k n hn
    obtain ⟨x1, x2⟩ := h12.frozen k n hn ht
    obtain ⟨y1, y2⟩ := h23.frozen k n2 e2 (by rw [(a5 ht).1]; exact ht)
    exact ⟨y1.trans x1, y2.trans x2⟩

/-- Monotonicity of a write to the single node `k`. -/
theorem Mono.single {c c' : ObjectContext K V} (k : K)
    (n n' : ObjectBuilderInfo K V) (hk : c._values k = some n) (hk' : c'._values k = some n')
    (hother : ∀ j, j ≠ k → c'._values j = c._values j)
    (h1 : n'.key = n.key) (h2 : n'.dependencies = n.dependencies)
    (h3 : n'.objectBuilder = n.objectBuilder)
    (h4 : n._buildRequestCount = 1 → n'._buildRequestCount = 1)
    (h5 : buildReached n._state = true → n'._state = n._state ∧
      n'.builtObject = n.builtObject ∧ n'.exception = n.exception)
    (h6 : ∀ j, discoveryCount c' j = discoveryCount c j)
    (h7 : ∀ j m, c._values j = some m → buildReached m._state = true →
      jobCount c' j = jobCount c j ∧ buildCount c' j = buildCount c j) : Mono c c' := by
  refine ⟨fun j m hm => ?_, fun j _ => h6 j, h7⟩
  by_cases e : j = k
  · subst e
    rw [hk] at hm
    cases hm
    exact ⟨n', hk', h1, h2, h3, h4, h5⟩
  · exact ⟨m, by rw [hother j e]; exact hm, rfl, rfl, rfl, id, fun _ => ⟨rfl, rfl, rfl⟩⟩

end Updates

end dependencygraph

namespace dependencygraph

section InFlight

variable {K V : Type} [DecidableEq K] [Inhabited V]

theorem mem_keys_of_some {c : ObjectContext K V} (h : Inv c) {k : K}
    {n : ObjectBuilderInfo K V} (hk : c._values k = some n) : k ∈ c.keys :=
  (h.keysIff k).2 (by rw [hk]; simp)

/-- Effect on `inFlight` of a write to the single node `k`. -/
theorem inFlight_update {c c' : ObjectContext K V} (h : Inv c) (k : K)
    (n n' : ObjectBuilderInfo K V) (hk : c._values k = some n) (hk' : c'._values k = some n')
    (hother : ∀ j, j ≠ k → c'._values j = c._values j) (hkeys : c'.keys = c.keys) (j : K) :
    inFlight c' j = inFlight c j +
      (if j = k then n'._outstandingDependenciesCount - n._outstandingDependenciesCount else 0)
      + (share n j : Int) - (share n' j : Int) := by
  have hs := stored_update c c' j k h.keysNodup (mem_keys_of_some h hk) hkeys
    (fun d hd => by simp [storedAt, hother d hd])
  have e1 : storedAt c j k = share n j := by simp [storedAt, hk]
  have e2 : storedAt c' j k = share n' j := by simp [storedAt, hk']
  rw [e1, e2] at hs
  have ho : outstanding c' j = outstanding c j +
      (if j = k then n'._outstandingDependenciesCount - n._outstandingDependenciesCount
       else 0) := by
    by_cases e : j = k
    · subst e
      simp [outstanding, hk, hk']
    · simp [outstanding, hother j e, e]
  unfold inFlight
  rw [ho]
  omega

theorem outstanding_ge_inFlight {c : ObjectContext K V} (k : K) :
    inFlight c k ≤ outstanding c k := by
  unfold inFlight
  omega

/-- Runnable nodes other than the written one stay runnable. -/
theorem Runnable.other {c c' : ObjectContext K V} (k j : K) (hj : j ≠ k)
    (hother : ∀ i, i ≠ k → c'._values i = c._values i)
    (hjob : jobCount c' j = jobCount c j) (h : Runnable c j) : Runnable c' j := by
  obtain ⟨n, e, a, b, d, f⟩ := h
  exact ⟨n, by rw [hother j hj]; exact e, a, b, d, by rw [hjob]; exact f⟩

/-- A runnable node has no decrement owed to it. -/
theorem Runnable.inFlight_eq {c : ObjectContext K V} (h : Inv c) {k : K} (hr : Runnable c k) :
    inFlight c k = 0 := by
  obtain ⟨n, e, _, _, d, _⟩ := hr
  have h1 := h.inFlightNonneg k
  have h2 := outstanding_ge_inFlight (c := c) k
  simp only [outstanding, e, d] at h2
  omega

end InFlight

end dependencygraph

namespace dependencygraph

section Primitive

variable {K V : Type} [DecidableEq K] [Inhabited V]

@[simp] theorem inFlight_record (c : ObjectContext K V) (e : Event K) (j : K) :
    inFlight (c.record e) j = inFlight c j := rfl

@[simp] theorem getState_record (c : ObjectContext K V) (e : Event K) (j : K) :
    (c.record e).getState j = c.getState j := rfl

theorem transitions_record {c : ObjectContext K V} (h : Inv c) (e : Event K)
    (he : Event.allowed e) : ∀ x ∈ (c.record e).journal, Event.allowed x := by
  intro x hm
  simp only [record_journal, List.mem_append, List.mem_singleton] at hm
  rcases hm with hm | hm
  · exact h.transitions x hm
  · rw [hm]; exact he

/-- Recording the invocation of a client callback. -/
theorem Inv.recordClient {c : ObjectContext K V} (h : Inv c) (tag : Nat) (node : K) :
    Inv (c.record (Event.clientCallBack tag node)) := by
  have hj : ∀ j, jobCount (c.record (Event.clientCallBack tag node)) j = jobCount c j := by
    intro j; simp [jobCount_record]
  have hb : ∀ j, buildCount (c.record (Event.clientCallBack tag node)) j = buildCount c j := by
    intro j; simp [buildCount_record]
  have hd : ∀ j, discoveryCount (c.record (Event.clientCallBack tag node)) j
      = discoveryCount c j := by
    intro j; simp [discoveryCount_record]
  refine ⟨h.keysNodup, h.keysIff, ?_, h.inFlightNonneg, ?_, ?_, ?_⟩
  · intro j m hm
    exact (h.node j m hm).carryOver (hj j) (hb j) (fun d hd => hd)
  · exact transitions_record h _ trivial
  · intro j
    rw [hj, hb, hd]
    exact h.counts j
  · intro j hn
    rw [hj, hb, hd]
    exact h.absent j hn

theorem Mono.record (c : ObjectContext K V) (e : Event K)
    (he : ∀ j, e ≠ Event.GetDependencies j)
    (hf : ∀ j n, c._values j = some n → buildReached n._state = true →
      e ≠ Event.RegisterJob j ∧ e ≠ Event.BuildObject j) : Mono c (c.record e) :=
  ⟨fun k n h => ⟨n, h, rfl, rfl, rfl, id, fun _ => ⟨rfl, rfl, rfl⟩⟩,
    fun j _ => by rw [discoveryCount_record]; simp [he j],
    fun j n hn ht => by
      rw [jobCount_record, buildCount_record]
      simp [(hf j n hn ht).1, (hf j n hn ht).2]⟩

theorem Runnable.afterClient {c : ObjectContext K V} (tag : Nat) (node j : K)
    (h : Runnable c j) : Runnable (c.record (Event.clientCallBack tag node)) j := by
  obtain ⟨n, e, a, b, d, f⟩ := h
  exact ⟨n, e, a, b, d, by rw [jobCount_record]; simpa using f⟩

/-- Recording the count found by a `fetch_sub`. -/
theorem Inv.recordFetchSub {c : ObjectContext K V} (h : Inv c) (owner : K) (p : Int)
    (hp : 1 ≤ p) : Inv (c.record (Event.fetchSub owner p)) := by
  have hj : ∀ j, jobCount (c.record (Event.fetchSub owner p)) j = jobCount c j := by
    intro j; simp [jobCount_record]
  have hb : ∀ j, buildCount (c.record (Event.fetchSub owner p)) j = buildCount c j := by
    intro j; simp [buildCount_record]
  have hd : ∀ j, discoveryCount (c.record (Event.fetchSub owner p)) j
      = discoveryCount c j := by
    intro j; simp [discoveryCount_record]
  refine ⟨h.keysNodup, h.keysIff, ?_, h.inFlightNonneg, ?_, ?_, ?_⟩
  · intro j m hm
    exact (h.node j m hm).carryOver (hj j) (hb j) (fun d hd => hd)
  · exact transitions_record h _ hp
  · intro j
    rw [hj, hb, hd]
    exact h.counts j
  · intro j hn
    rw [hj, hb, hd]
    exact h.absent j hn

theorem Runnable.afterFetchSub {c : ObjectContext K V} (owner : K) (p : Int) (j : K)
    (h : Runnable c j) : Runnable (c.record (Event.fetchSub owner p)) j := by
  obtain ⟨n, e, a, b, d, f⟩ := h
  exact ⟨n, e, a, b, d, by rw [jobCount_record]; simpa using f⟩

/-- Submitting the build job of an armed node whose counter is zero. -/
theorem Inv.recordJob {c : ObjectContext K V} (h : Inv c) (k : K) (ha : Armable c k) :
    Inv (c.record (Event.RegisterJob k)) ∧ Runnable (c.record (Event.RegisterJob k)) k ∧
      ∀ j, j ≠ k → Runnable c j → Runnable (c.record (Event.RegisterJob k)) j := by
  obtain ⟨n, e, a, b, d, f⟩ := ha
  have hj : ∀ j, j ≠ k → jobCount (c.record (Event.RegisterJob k)) j = jobCount c j := by
    intro j hjk
    rw [jobCount_record]
    have : ¬ (Event.RegisterJob k = Event.RegisterJob j) := by
      intro x; cases x; exact hjk rfl
    simp [this]
  have hk1 : jobCount (c.record (Event.RegisterJob k)) k = 1 := by
    rw [jobCount_record]; simp [f]
  have hb : ∀ j, buildCount (c.record (Event.RegisterJob k)) j = buildCount c j := by
    intro j; simp [buildCount_record]
  have hd : ∀ j, discoveryCount (c.record (Event.RegisterJob k)) j = discoveryCount c j := by
    intro j; simp [discoveryCount_record]
  have hn := h.node k n e
  refine ⟨?_, ⟨n, e, a, b, d, hk1⟩, ?_⟩
  · refine h.update k n n e e (fun _ _ => rfl) rfl ?_ hj (fun j _ => hb j) hd ?_ id
      h.inFlightNonneg (transitions_record h _ trivial)
    · refine ⟨hn.key, hn.notStarting, hn.noDepsKnownCallBacks, hn.noArm, hn.latch, ?_, hn.done,
        ?_, ?_, hn.dependenciesBuilt⟩
      · intro x; rw [b] at x; cases x
      · intro x; rw [d] at x; omega
      · intro x; rw [hb] at x; exact hn.notBuilt x
    · rw [hk1, hb]
      exact ⟨le_refl _, (h.counts k).2.1⟩
  · intro j hjk hr
    exact Runnable.other (c := c) k j hjk (fun _ _ => rfl) (hj j hjk) hr

end Primitive

end dependencygraph

namespace dependencygraph

section Fields

variable {K V : Type} [DecidableEq K] [Inhabited V]

theorem modify_self {c : ObjectContext K V} {k : K} {n : ObjectBuilderInfo K V}
    (f : ObjectBuilderInfo K V → ObjectBuilderInfo K V) (hk : c._values k = some n) :
    (c.modify k f)._values k = some (f n) := by
  simp [hk]

theorem modify_other (c : ObjectContext K V) (k : K)
    (f : ObjectBuilderInfo K V → ObjectBuilderInfo K V) (j : K) (hj : j ≠ k) :
    (c.modify k f)._values j = c._values j := by
  simp [hj]

theorem getState_modify_of_state {c : ObjectContext K V} (k : K)
    (f : ObjectBuilderInfo K V → ObjectBuilderInfo K V) (hf : ∀ n, (f n)._state = n._state)
    (d : K) : (c.modify k f).getState d = c.getState d := by
  unfold ObjectContext.getState
  by_cases e : d = k
  · subst e
    cases hn : c._values d with
    | none => simp [hn]
    | some n => simp [hn, hf]
  · simp [e]

/-- The write `_buildRequestCount.exchange(1)`. -/
theorem Inv.setLatch {c : ObjectContext K V} (h : Inv c) (k : K) (n : ObjectBuilderInfo K V)
    (hk : c._values k = some n) :
    Inv (c.modify k (fun m => { m with _buildRequestCount := 1 })) ∧
    Mono c (c.modify k (fun m => { m with _buildRequestCount := 1 })) ∧
    (∀ j, inFlight (c.modify k (fun m => { m with _buildRequestCount := 1 })) j = inFlight c j) ∧
    (∀ j, Runnable c j → Runnable (c.modify k (fun m => { m with _buildRequestCount := 1 })) j) := by
  have hn := h.node k n hk
  have hfl : ∀ j, inFlight (c.modify k (fun m => { m with _buildRequestCount := 1 })) j
      = inFlight c j := by
    intro j
    rw [inFlight_update h k n _ hk (modify_self _ hk) (modify_other c k _) rfl j]
    simp [share]
  refine ⟨?_, ?_, hfl, ?_⟩
  · refine h.update k n _ hk (modify_self _ hk) (modify_other c k _) rfl ?_ (fun _ _ => rfl)
      (fun _ _ => rfl) (fun _ => rfl) ⟨(h.counts k).1, (h.counts k).2.1⟩ id ?_ h.transitions
    · refine ⟨hn.key, hn.notStarting, hn.noDepsKnownCallBacks, hn.noArm, Or.inr rfl, ?_, hn.done,
        hn.waiting, hn.notBuilt, ?_⟩
      · intro x; simp at x
      · intro x d hd
        refine (getState_modify_of_state k _ ?_ d).trans (hn.dependenciesBuilt x d hd)
        intro _; rfl
    · intro j; rw [hfl]; exact h.inFlightNonneg j
  · exact Mono.single k n _ hk (modify_self _ hk) (modify_other c k _) rfl rfl rfl (fun _ => rfl)
      (fun _ => ⟨rfl, rfl, rfl⟩) (fun _ => rfl)
      (fun _ _ _ _ => ⟨rfl, rfl⟩)
  · intro j ⟨m, e, a, b, d, f⟩
    by_cases x : j = k
    · subst x
      rw [hk] at e; cases e
      exact ⟨_, modify_self _ hk, a, rfl, d, f⟩
    · exact ⟨m, by rw [modify_other c k _ j x]; exact e, a, b, d, f⟩

/-- The write `_outstandingDependenciesCount.store(size)` on an armable node. -/
theorem Inv.storeCount {c : ObjectContext K V} (h : Inv c) (k : K) (ha : Armable c k)
    (size : Nat) :
    Inv (c.modify k (fun m => { m with _outstandingDependenciesCount := (size : Int) })) ∧
    Mono c (c.modify k (fun m => { m with _outstandingDependenciesCount := (size : Int) })) ∧
    (∀ j, inFlight (c.modify k (fun m => { m with _outstandingDependenciesCount := (size : Int) })) j
      = inFlight c j + (if j = k then (size : Int) else 0)) ∧
    (∀ j, Runnable c j →
      Runnable (c.modify k (fun m => { m with _outstandingDependenciesCount := (size : Int) })) j) ∧
    (size = 0 →
      Armable (c.modify k (fun m => { m with _outstandingDependenciesCount := (size : Int) })) k) := by
  obtain ⟨n, hk, a, b, d, f⟩ := ha
  have hn := h.node k n hk
  have hfl : ∀ j, inFlight (c.modify k (fun m =>
      { m with _outstandingDependenciesCount := (size : Int) })) j
      = inFlight c j + (if j = k then (size : Int) else 0) := by
    intro j
    rw [inFlight_update h k n _ hk (modify_self _ hk) (modify_other c k _) rfl j]
    simp [share, d]
  refine ⟨?_, ?_, hfl, ?_, ?_⟩
  · refine h.update k n _ hk (modify_self _ hk) (modify_other c k _) rfl ?_ (fun _ _ => rfl)
      (fun _ _ => rfl) (fun _ => rfl) ⟨(h.counts k).1, (h.counts k).2.1⟩ id ?_ h.transitions
    · refine ⟨hn.key, hn.notStarting, hn.noDepsKnownCallBacks, hn.noArm, hn.latch, ?_, ?_,
        ?_, hn.notBuilt, ?_⟩
      · intro x; simp only at x; rw [b] at x; cases x
      · intro x; simp only at x; rw [a] at x; cases x
      · intro _; exact f
      · intro x d hd
        refine (getState_modify_of_state k _ ?_ d).trans (hn.dependenciesBuilt x d hd)
        intro _; rfl
    · intro j; rw [hfl]
      have := h.inFlightNonneg j
      split <;> omega
  · exact Mono.single k n _ hk (modify_self _ hk) (modify_other c k _) rfl rfl rfl id
      (fun _ => ⟨rfl, rfl, rfl⟩) (fun _ => rfl)
      (fun _ _ _ _ => ⟨rfl, rfl⟩)
  · intro j ⟨m, e, a', b', d', f'⟩
    by_cases x : j = k
    · subst x
      rw [f] at f'; cases f'
    · exact ⟨m, by rw [modify_other c k _ j x]; exact e, a', b', d', f'⟩
  · intro hs
    subst hs
    exact ⟨_, modify_self _ hk, a, b, rfl, f⟩

end Fields

end dependencygraph

namespace dependencygraph

section Decrement

variable {K V : Type} [DecidableEq K] [Inhabited V]

theorem node_of_inFlight {c : ObjectContext K V} {k : K} (hfl : 1 ≤ inFlight c k) :
    ∃ n, c._values k = some n ∧ 1 ≤ n._outstandingDependenciesCount := by
  have h2 := outstanding_ge_inFlight (c := c) k
  cases hn : c._values k with
  | none => simp only [outstanding, hn] at h2; omega
  | some n => simp only [outstanding, hn] at h2; exact ⟨n, rfl, by omega⟩

/-- A node whose counter is positive waits in `DependenciesKnown` with its build
requested and no job submitted. -/
theorem waiting_node {c : ObjectContext K V} (h : Inv c) {k : K} {n : ObjectBuilderInfo K V}
    (hk : c._values k = some n) (hc : 1 ≤ n._outstandingDependenciesCount) :
    n._state = ObjectBuildingState.DependenciesKnown ∧ n._buildRequestCount = 1 ∧
      jobCount c k = 0 := by
  have hn := h.node k n hk
  refine ⟨?_, ?_, hn.waiting hc⟩
  · have h1 := hn.notStarting
    have h2 := hn.done
    cases hs : n._state <;> simp_all [buildReached]
  · rcases hn.latch with e | e
    · have := (hn.unrequested e).1
      omega
    · exact e

/-- The `fetch_sub(1)` of a `dependencyBuilt k` callback that is owed to `k`. -/
theorem Inv.decrement {c : ObjectContext K V} (h : Inv c) (k : K) (n : ObjectBuilderInfo K V)
    (hk : c._values k = some n) (hfl : 1 ≤ inFlight c k) :
    Inv (c.modify k (fun m => { m with
      _outstandingDependenciesCount := m._outstandingDependenciesCount - 1 })) ∧
    Mono c (c.modify k (fun m => { m with
      _outstandingDependenciesCount := m._outstandingDependenciesCount - 1 })) ∧
    (∀ j, inFlight (c.modify k (fun m => { m with
      _outstandingDependenciesCount := m._outstandingDependenciesCount - 1 })) j
      = inFlight c j - (if j = k then 1 else 0)) ∧
    (∀ j, Runnable c j → Runnable (c.modify k (fun m => { m with
      _outstandingDependenciesCount := m._outstandingDependenciesCount - 1 })) j) ∧
    (¬ n._outstandingDependenciesCount > 1 → Armable (c.modify k (fun m => { m with
      _outstandingDependenciesCount := m._outstandingDependenciesCount - 1 })) k) := by
  obtain ⟨n0, hk0, hc⟩ := node_of_inFlight hfl
  rw [hk] at hk0; cases hk0
  obtain ⟨a, b, f⟩ := waiting_node h hk hc
  have hn := h.node k n hk
  have hflE : ∀ j, inFlight (c.modify k (fun m => { m with
      _outstandingDependenciesCount := m._outstandingDependenciesCount - 1 })) j
      = inFlight c j - (if j = k then 1 else 0) := by
    intro j
    rw [inFlight_update h k n _ hk (modify_self _ hk) (modify_other c k _) rfl j]
    simp only [share]
    split <;> omega
  refine ⟨?_, ?_, hflE, ?_, ?_⟩
  · refine h.update k n _ hk (modify_self _ hk) (modify_other c k _) rfl ?_ (fun _ _ => rfl)
      (fun _ _ => rfl) (fun _ => rfl) ⟨(h.counts k).1, (h.counts k).2.1⟩ id ?_ h.transitions
    · refine ⟨hn.key, hn.notStarting, hn.noDepsKnownCallBacks, hn.noArm, hn.latch, ?_, ?_,
        ?_, hn.notBuilt, ?_⟩
      · intro x; simp only at x; rw [b] at x; cases x
      · intro x; simp only at x; rw [a] at x; cases x
      · intro _; exact f
      · intro x d hd
        refine (getState_modify_of_state k _ ?_ d).trans (hn.dependenciesBuilt x d hd)
        intro _; rfl
    · intro j; rw [hflE]
      have := h.inFlightNonneg j
      split
      · rename_i e; subst e; omega
      · omega
  · exact Mono.single k n _ hk (modify_self _ hk) (modify_other c k _) rfl rfl rfl id
      (fun _ => ⟨rfl, rfl, rfl⟩) (fun _ => rfl)
      (fun _ _ _ _ => ⟨rfl, rfl⟩)
  · intro j ⟨m, e, a', b', d', f'⟩
    by_cases x : j = k
    · subst x
      rw [hk] at e; cases e
      omega
    · exact ⟨m, by rw [modify_other c k _ j x]; exact e, a', b', d', f'⟩
  · intro hs
    refine ⟨_, modify_self _ hk, a, b, ?_, f⟩
    simp only
    omega


theorem fetchSub_of_some {c : ObjectContext K V} {k : K} {n : ObjectBuilderInfo K V}
    (hk : c._values k = some n) :
    c.fetchSub k = (c.record (Event.fetchSub k n._outstandingDependenciesCount)).modify k
      (fun m => { m with
        _outstandingDependenciesCount := m._outstandingDependenciesCount - 1 }) := by
  simp [ObjectContext.fetchSub, hk]

/-- The journalled `fetch_sub(1)` of a `dependencyBuilt k` callback that is owed to
`k`. -/
theorem Inv.fetchSub {c : ObjectContext K V} (h : Inv c) (k : K) (n : ObjectBuilderInfo K V)
    (hk : c._values k = some n) (hfl : 1 ≤ inFlight c k) :
    Inv (c.fetchSub k) ∧ Mono c (c.fetchSub k) ∧
    (∀ j, inFlight (c.fetchSub k) j = inFlight c j - (if j = k then 1 else 0)) ∧
    (∀ j, Runnable c j → Runnable (c.fetchSub k) j) ∧
    (¬ n._outstandingDependenciesCount > 1 → Armable (c.fetchSub k) k) := by
  have hp : 1 ≤ n._outstandingDependenciesCount := by
    have := outstanding_ge_inFlight (c := c) k
    simp only [outstanding, hk] at this
    omega
  have h0 := h.recordFetchSub k n._outstandingDependenciesCount hp
  have hm0 : Mono c (c.record (Event.fetchSub k n._outstandingDependenciesCount)) :=
    Mono.record c _ (fun j x => by cases x)
      (fun _ _ _ _ => ⟨fun x => (by cases x), fun x => (by cases x)⟩)
  obtain ⟨h1, hm1, hfl1, hr1, ha1⟩ := h0.decrement k n hk hfl
  rw [fetchSub_of_some hk]
  exact ⟨h1, hm0.trans hm1, hfl1,
    fun j hr => hr1 j (Runnable.afterFetchSub k _ j hr), ha1⟩


end Decrement

end dependencygraph

namespace dependencygraph

section Push

variable {K V : Type} [DecidableEq K] [Inhabited V]

/-- The `push_back` of `RegisterPostBuildCallBack` on a node `d` that has not reached a
launching state, for a callback that is not an arming callback. A `dependencyBuilt o`
callback must be owed to `o`. -/
theorem Inv.push {c : ObjectContext K V} (h : Inv c) (d : K) (n : ObjectBuilderInfo K V)
    (hd : c._values d = some n) (hs : buildReached n._state = false) (cb : CallBack K)
    (hcb : ∀ o, cb ≠ CallBack.arm o)
    (hfl : ∀ j, (listBudget [cb] j : Int) ≤ inFlight c j) :
    Inv (c.modify d (fun m => { m with _postBuildCallBacks := m._postBuildCallBacks ++ [cb] })) ∧
    Mono c (c.modify d (fun m => { m with
      _postBuildCallBacks := m._postBuildCallBacks ++ [cb] })) ∧
    (∀ j, inFlight (c.modify d (fun m => { m with
      _postBuildCallBacks := m._postBuildCallBacks ++ [cb] })) j
      = inFlight c j - (listBudget [cb] j : Int)) ∧
    (∀ j, Runnable c j → Runnable (c.modify d (fun m => { m with
      _postBuildCallBacks := m._postBuildCallBacks ++ [cb] })) j) := by
  have hn := h.node d n hd
  have hflE : ∀ j, inFlight (c.modify d (fun m => { m with
      _postBuildCallBacks := m._postBuildCallBacks ++ [cb] })) j
      = inFlight c j - (listBudget [cb] j : Int) := by
    intro j
    rw [inFlight_update h d n _ hd (modify_self _ hd) (modify_other c d _) rfl j]
    simp only [share, hs, listBudget, List.count_append]
    simp only [sub_self, ite_self, Bool.false_eq_true, if_false]
    push_cast
    omega
  refine ⟨?_, ?_, hflE, ?_⟩
  · refine h.update d n _ hd (modify_self _ hd) (modify_other c d _) rfl ?_ (fun _ _ => rfl)
      (fun _ _ => rfl) (fun _ => rfl) ⟨(h.counts d).1, (h.counts d).2.1⟩ id ?_ h.transitions
    · refine ⟨hn.key, hn.notStarting, hn.noDepsKnownCallBacks, ?_, hn.latch, hn.unrequested,
        hn.done, hn.waiting, hn.notBuilt, ?_⟩
      · intro o ho
        simp only [List.mem_append, List.mem_singleton] at ho
        rcases ho with ho | ho
        · exact hn.noArm o ho
        · exact hcb o ho.symm
      · intro x k hk
        refine (getState_modify_of_state d _ ?_ k).trans (hn.dependenciesBuilt x k hk)
        intro _; rfl
    · intro j; rw [hflE]
      have := hfl j
      omega
  · exact Mono.single d n _ hd (modify_self _ hd) (modify_other c d _) rfl rfl rfl id
      (fun _ => ⟨rfl, rfl, rfl⟩) (fun _ => rfl)
      (fun _ _ _ _ => ⟨rfl, rfl⟩)
  · intro j ⟨m, e, a', b', d', f'⟩
    by_cases x : j = d
    · subst x
      rw [hd] at e; cases e
      exact ⟨_, modify_self _ hd, a', b', d', f'⟩
    · exact ⟨m, by rw [modify_other c d _ j x]; exact e, a', b', d', f'⟩

/-- The `clear()` at the end of `launchPostBuildCallBacks` on a node in a launching
state. -/
theorem Inv.clear {c : ObjectContext K V} (h : Inv c) (d : K) (n : ObjectBuilderInfo K V)
    (hd : c._values d = some n) (hs : buildReached n._state = true) :
    Inv (c.modify d (fun m => { m with _postBuildCallBacks := [] })) ∧
    Mono c (c.modify d (fun m => { m with _postBuildCallBacks := [] })) ∧
    (∀ j, inFlight (c.modify d (fun m => { m with _postBuildCallBacks := [] })) j
      = inFlight c j) ∧
    (∀ j, Runnable c j → Runnable (c.modify d (fun m => { m with
      _postBuildCallBacks := [] })) j) := by
  have hn := h.node d n hd
  have hflE : ∀ j, inFlight (c.modify d (fun m => { m with _postBuildCallBacks := [] })) j
      = inFlight c j := by
    intro j
    rw [inFlight_update h d n _ hd (modify_self _ hd) (modify_other c d _) rfl j]
    simp [share, hs]
  refine ⟨?_, ?_, hflE, ?_⟩
  · refine h.update d n _ hd (modify_self _ hd) (modify_other c d _) rfl ?_ (fun _ _ => rfl)
      (fun _ _ => rfl) (fun _ => rfl) ⟨(h.counts d).1, (h.counts d).2.1⟩ id ?_ h.transitions
    · refine ⟨hn.key, hn.notStarting, hn.noDepsKnownCallBacks, ?_, hn.latch, hn.unrequested,
        hn.done, hn.waiting, hn.notBuilt, ?_⟩
      · intro o ho
        simp at ho
      · intro x k hk
        refine (getState_modify_of_state d _ ?_ k).trans (hn.dependenciesBuilt x k hk)
        intro _; rfl
    · intro j; rw [hflE]; exact h.inFlightNonneg j
  · exact Mono.single d n _ hd (modify_self _ hd) (modify_other c d _) rfl rfl rfl id
      (fun _ => ⟨rfl, rfl, rfl⟩) (fun _ => rfl)
      (fun _ _ _ _ => ⟨rfl, rfl⟩)
  · intro j ⟨m, e, a', b', d', f'⟩
    by_cases x : j = d
    · subst x
      rw [hd] at e; cases e
      exact ⟨_, modify_self _ hd, a', b', d', f'⟩
    · exact ⟨m, by rw [modify_other c d _ j x]; exact e, a', b', d', f'⟩

end Push

end dependencygraph

namespace dependencygraph

section Finish

variable {K V : Type} [DecidableEq K] [Inhabited V]

theorem setState_of_some {c : ObjectContext K V} {k : K} {n : ObjectBuilderInfo K V}
    (hk : c._values k = some n) (s : ObjectBuildingState) :
    c.setState k s =
      (c.record (Event.setState k n._state s)).modify k (fun m => { m with _state := s }) := by
  simp [ObjectContext.setState, hk]

/-- The end of a build job: the runnable node `k` gets its result and a terminal state.
The context `c2` differs from `c` in node `k` and in the journal only. -/
theorem Inv.finish {c : ObjectContext K V} (c2 : ObjectContext K V) (h : Inv c) (k : K)
    (n n2 : ObjectBuilderInfo K V) (hk : c._values k = some n)
    (hst : n._state = ObjectBuildingState.DependenciesKnown)
    (hl : n._buildRequestCount = 1) (hc : n._outstandingDependenciesCount = 0)
    (hk2 : c2._values k = some n2)
    (hother : ∀ j, j ≠ k → c2._values j = c._values j) (hkeys : c2.keys = c.keys)
    (f1 : n2.key = n.key) (f2 : n2._buildRequestCount = n._buildRequestCount)
    (f3 : n2._postDependenciesKnownCallBacks = n._postDependenciesKnownCallBacks)
    (f4 : n2._postBuildCallBacks = n._postBuildCallBacks)
    (f5 : n2._outstandingDependenciesCount = n._outstandingDependenciesCount)
    (f6 : n2.objectBuilder = n.objectBuilder) (f7 : n2.dependencies = n.dependencies)
    (hs : n2._state = ObjectBuildingState.ObjectBuilt ∨ n2._state = ObjectBuildingState.Failure)
    (hdeps : n2._state = ObjectBuildingState.ObjectBuilt →
      ∀ d ∈ n.dependencies, c.getState d = some ObjectBuildingState.ObjectBuilt)
    (hjob : ∀ j, jobCount c2 j = jobCount c j)
    (hbuild : ∀ j, j ≠ k → buildCount c2 j = buildCount c j) (hbk : buildCount c2 k ≤ 1)
    (hdisc : ∀ j, discoveryCount c2 j = discoveryCount c j)
    (htr : ∀ e ∈ c2.journal, Event.allowed e) :
    Inv c2 ∧ Mono c c2 ∧
    (∀ j, inFlight c2 j = inFlight c j + (listBudget n._postBuildCallBacks j : Int)) ∧
    (∀ j, j ≠ k → Runnable c j → Runnable c2 j) := by
  have hn := h.node k n hk
  have hr2 : buildReached n2._state = true := by
    rcases hs with e | e <;> rw [e] <;> rfl
  have hflE : ∀ j, inFlight c2 j = inFlight c j + (listBudget n._postBuildCallBacks j : Int) := by
    intro j
    rw [inFlight_update h k n n2 hk hk2 hother hkeys j]
    have hr1 : buildReached n._state = false := by rw [hst]; rfl
    simp only [share, hr1, hr2, f5, listBudget]
    simp
  refine ⟨?_, ?_, hflE, ?_⟩
  · refine h.update k n n2 hk hk2 hother hkeys ?_ (fun j _ => hjob j) hbuild hdisc
      ⟨by rw [hjob]; exact (h.counts k).1, hbk⟩ ?_ ?_ htr
    · refine ⟨f1.trans hn.key, ?_, f3.trans hn.noDepsKnownCallBacks, ?_, ?_, ?_, ?_, ?_, ?_, ?_⟩
      · rcases hs with e | e <;> rw [e] <;> simp
      · rw [f4]; exact hn.noArm
      · rw [f2]; exact hn.latch
      · intro x; rw [f2, hl] at x; cases x
      · intro _; rw [f5]; exact hc
      · intro x; rw [f5, hc] at x; omega
      · intro _; exact hs
      · intro x d hd
        rw [f7] at hd
        have hdb := hdeps x d hd
        have hdk : d ≠ k := by
          intro e; subst e
          rw [getState_eq c d n hk, hst] at hdb
          cases hdb
        simpa [ObjectContext.getState, hother d hdk] using hdb
    · intro x; rw [hst] at x; cases x
    · intro j; rw [hflE]
      have := h.inFlightNonneg j
      omega
  · exact Mono.single k n n2 hk hk2 hother f1 f7 f6 (fun _ => by rw [f2]; exact hl)
      (fun x => by rw [hst] at x; cases x) hdisc (fun j m hm ht => by
        have hjk : j ≠ k := by
          intro e; subst e
          rw [hk] at hm; cases hm
          rw [hst] at ht; cases ht
        exact ⟨hjob j, hbuild j hjk⟩)
  · intro j hj hr
    exact Runnable.other (c := c) k j hj hother (hjob j) hr

end Finish

end dependencygraph

namespace dependencygraph

section Launch

variable {K V : Type} [DecidableEq K] [Inhabited V]

theorem listBudget_cons (cb : CallBack K) (l : List (CallBack K)) (j : K) :
    listBudget (cb :: l) j = listBudget [cb] j + listBudget l j := by
  simp only [listBudget, List.count_cons, List.count_nil]
  omega

theorem budget_callBack (cb : CallBack K) (k j : K) :
    budget (Call.callBack cb k) j = listBudget [cb] j := by
  cases cb with
  | arm o => simp [budget, listBudget, List.count_singleton]
  | dependencyBuilt o =>
    simp only [budget, listBudget, List.count_singleton]
    by_cases e : j = o
    · subst e; simp
    · have : ¬ (o = j) := fun x => e x.symm
      simp [e, this]
  | client t => simp [budget, listBudget, List.count_singleton]

/-- A callback that is not an arming callback may be invoked when its decrement is
owed. -/
theorem pre_callBack {c : ObjectContext K V} (cb : CallBack K) (k : K)
    (hna : ∀ o, cb ≠ CallBack.arm o) (hb : ∀ j, (listBudget [cb] j : Int) ≤ inFlight c j) :
    Pre c (Call.callBack cb k) := by
  cases cb with
  | arm o => exact absurd rfl (hna o)
  | dependencyBuilt o =>
    have := hb o
    simpa [Pre, listBudget] using this
  | client t => trivial

theorem launchAll_ok {self : Call K → ObjectContext K V → Option (ObjectContext K V)}
    (hself : SelfOK self) (k : K) :
    ∀ (l : List (CallBack K)) (c c' : ObjectContext K V), launchAll self k l c = some c' →
      Inv c → (∀ o, CallBack.arm o ∉ l) → (∀ j, (listBudget l j : Int) ≤ inFlight c j) →
      Inv c' ∧ Mono c c' ∧ (∀ j, inFlight c' j = inFlight c j - (listBudget l j : Int)) ∧
        (∀ j, Runnable c j → Runnable c' j) := by
  intro l
  induction l with
  | nil =>
    intro c c' he hi _ _
    simp only [launchAll, Option.some.injEq] at he
    subst he
    exact ⟨hi, Mono.refl c, fun j => by simp [listBudget], fun _ x => x⟩
  | cons cb rest ih =>
    intro c c' he hi hna hb
    simp only [launchAll] at he
    cases hs : self (Call.callBack cb k) c with
    | none => rw [hs] at he; cases he
    | some c1 =>
      rw [hs] at he
      simp only [Option.some_bind] at he
      have hb1 : ∀ j, (listBudget [cb] j : Int) ≤ inFlight c j := by
        intro j
        have := hb j
        rw [listBudget_cons cb rest] at this
        push_cast at this
        omega
      have hpre : Pre c (Call.callBack cb k) :=
        pre_callBack cb k (fun o e => hna o (by rw [e]; simp)) hb1
      obtain ⟨hi1, hp1⟩ := hself _ c c1 hs hi hpre
      have hfl1 : ∀ j, inFlight c1 j = inFlight c j - (listBudget [cb] j : Int) := by
        intro j
        rw [hp1.inFlight j, budget_callBack]
      obtain ⟨hi2, hm2, hfl2, hr2⟩ := ih c1 c' he hi1
        (fun o ho => hna o (List.mem_cons_of_mem _ ho))
        (fun j => by
          have := hb j
          rw [listBudget_cons cb rest] at this
          push_cast at this
          rw [hfl1 j]
          omega)
      refine ⟨hi2, hp1.mono.trans hm2, ?_, ?_⟩
      · intro j
        rw [hfl2 j, hfl1 j, listBudget_cons cb rest]
        push_cast
        omega
      · intro j hr
        exact hr2 j (hp1.runnable j hr (by intro x; cases x))

end Launch

end dependencygraph

namespace dependencygraph

section FinishWith

variable {K V : Type} [DecidableEq K] [Inhabited V]

/-- The writes at the start of `SetObjectBuilt` and `SetObjectFailed` when they are
called by the build job of the runnable node `k`: `c0` is the context `c` of the job,
possibly with the call of the builder recorded, `f` writes the result or the exception
and `s` is the new state. -/
theorem Inv.finishWith {c : ObjectContext K V} (c0 : ObjectContext K V) (h : Inv c) (k : K)
    (n : ObjectBuilderInfo K V) (hk : c._values k = some n)
    (hst : n._state = ObjectBuildingState.DependenciesKnown)
    (hl : n._buildRequestCount = 1) (hc : n._outstandingDependenciesCount = 0)
    (hv : c0._values = c._values) (hkeys : c0.keys = c.keys)
    (hj : c0.journal = c.journal ∨ c0.journal = c.journal ++ [Event.BuildObject k])
    (f : ObjectBuilderInfo K V → ObjectBuilderInfo K V)
    (f1 : (f n).key = n.key) (f2 : (f n)._buildRequestCount = n._buildRequestCount)
    (f3 : (f n)._postDependenciesKnownCallBacks = n._postDependenciesKnownCallBacks)
    (f4 : (f n)._postBuildCallBacks = n._postBuildCallBacks)
    (f5 : (f n)._outstandingDependenciesCount = n._outstandingDependenciesCount)
    (f6 : (f n).objectBuilder = n.objectBuilder) (f7 : (f n).dependencies = n.dependencies)
    (f8 : (f n)._state = n._state)
    (s : ObjectBuildingState)
    (hs : s = ObjectBuildingState.ObjectBuilt ∨ s = ObjectBuildingState.Failure)
    (hdeps : s = ObjectBuildingState.ObjectBuilt →
      ∀ d ∈ n.dependencies, c.getState d = some ObjectBuildingState.ObjectBuilt) :
    Inv ((c0.modify k f).setState k s) ∧ Mono c ((c0.modify k f).setState k s) ∧
    (∀ j, inFlight ((c0.modify k f).setState k s) j
      = inFlight c j + (listBudget n._postBuildCallBacks j : Int)) ∧
    (∀ j, j ≠ k → Runnable c j → Runnable ((c0.modify k f).setState k s) j) ∧
    ((c0.modify k f).setState k s)._values k = some { f n with _state := s } := by
  have hk0 : c0._values k = some n := by rw [hv]; exact hk
  have hk1 : (c0.modify k f)._values k = some (f n) := modify_self f hk0
  have hE := setState_of_some hk1 s
  have hk2 : ((c0.modify k f).setState k s)._values k = some { f n with _state := s } := by
    rw [hE]; simp [hk0]
  have hother : ∀ j, j ≠ k → ((c0.modify k f).setState k s)._values j = c._values j := by
    intro j e
    rw [hE]; simp [e, hv]
  have hkeys2 : ((c0.modify k f).setState k s).keys = c.keys := by
    rw [hE]; simpa using hkeys
  have hjr : ((c0.modify k f).setState k s).journal
      = c0.journal ++ [Event.setState k (f n)._state s] := by
    rw [hE]; rfl
  have hb0 : buildCount c k = 0 := by
    by_contra x
    rcases (h.node k n hk).notBuilt x with e | e <;> rw [hst] at e <;> cases e
  have hall := Inv.finish ((c0.modify k f).setState k s) h k n _ hk hst hl hc hk2 hother
    hkeys2 f1 f2 f3 f4 f5 f6 f7 hs hdeps ?_ ?_ ?_ ?_ ?_
  · exact ⟨hall.1, hall.2.1, hall.2.2.1, hall.2.2.2, hk2⟩
  · intro j
    simp only [jobCount, hjr, List.count_append]
    rcases hj with e | e <;> rw [e] <;> simp [List.count_append, List.count_singleton]
  · intro j hjk
    have : ¬ (Event.BuildObject k = Event.BuildObject j) := by
      intro x; cases x; exact hjk rfl
    simp only [buildCount, hjr, List.count_append]
    rcases hj with e | e <;> rw [e] <;> simp [List.count_append, List.count_singleton, this]
  · have : buildCount c k = 0 := hb0
    simp only [buildCount] at this
    simp only [buildCount, hjr, List.count_append]
    rcases hj with e | e <;> rw [e] <;> simp [List.count_append, List.count_singleton, this]
  · intro j
    simp only [discoveryCount, hjr, List.count_append]
    rcases hj with e | e <;> rw [e] <;> simp [List.count_append, List.count_singleton]
  · intro x hm
    rw [hjr] at hm
    simp only [List.mem_append, List.mem_singleton] at hm
    rcases hm with hm | hm
    · rcases hj with e | e
      · rw [e] at hm; exact h.transitions x hm
      · rw [e] at hm
        simp only [List.mem_append, List.mem_singleton] at hm
        rcases hm with hm | hm
        · exact h.transitions x hm
        · rw [hm]; trivial
    · rw [hm]
      show allowedTransition _ _ = true
      rw [f8, hst]
      rcases hs with e | e <;> rw [e] <;> rfl

end FinishWith

end dependencygraph

namespace dependencygraph

section SetOps

variable {K V : Type} [DecidableEq K] [Inhabited V]

/-- With the invariant, the list `_postDependenciesKnownCallBacks` is empty and
launching it changes nothing. -/
theorem launchPostDependenciesKnownCallBacks_id
    (self : Call K → ObjectContext K V → Option (ObjectContext K V)) (k : K)
    (c : ObjectContext K V)
    (h : ∀ n, c._values k = some n → n._postDependenciesKnownCallBacks = []) :
    ObjectBuilderInfo.launchPostDependenciesKnownCallBacks self k c = some c := by
  unfold ObjectBuilderInfo.launchPostDependenciesKnownCallBacks
  cases hn : c._values k with
  | none => rfl
  | some n =>
    simp only [h n hn, launchAll, Option.map_some']
    congr 1
    apply modify_id
    intro m hm
    have := h m hm
    cases m
    simp_all

/-- An empty list `_postBuildCallBacks` is launched without any effect. -/
theorem launchPostBuildCallBacks_id
    (self : Call K → ObjectContext K V → Option (ObjectContext K V)) (k : K)
    (c : ObjectContext K V)
    (h : ∀ n, c._values k = some n → n._postBuildCallBacks = []) :
    ObjectBuilderInfo.launchPostBuildCallBacks self k c = some c := by
  unfold ObjectBuilderInfo.launchPostBuildCallBacks
  cases hn : c._values k with
  | none => rfl
  | some n =>
    simp only [h n hn, launchAll, Option.map_some']
    congr 1
    apply modify_id
    intro m hm
    have := h m hm
    cases m
    simp_all

theorem launchPostBuildCallBacks_ok
    {self : Call K → ObjectContext K V → Option (ObjectContext K V)} (hself : SelfOK self)
    (k : K) (c c' : ObjectContext K V) (n : ObjectBuilderInfo K V) (hk : c._values k = some n)
    (hs : buildReached n._state = true)
    (he : ObjectBuilderInfo.launchPostBuildCallBacks self k c = some c') (hi : Inv c)
    (hb : ∀ j, (listBudget n._postBuildCallBacks j : Int) ≤ inFlight c j) :
    Inv c' ∧ Mono c c' ∧
      (∀ j, inFlight c' j = inFlight c j - (listBudget n._postBuildCallBacks j : Int)) ∧
      (∀ j, Runnable c j → Runnable c' j) := by
  unfold ObjectBuilderInfo.launchPostBuildCallBacks at he
  rw [hk] at he
  simp only [Option.map_eq_some'] at he
  obtain ⟨c1, he1, he2⟩ := he
  obtain ⟨hi1, hm1, hfl1, hr1⟩ := launchAll_ok hself k _ c c1 he1 hi (hi.node k n hk).noArm hb
  obtain ⟨n1, hk1, _, _, _, _, hfrozen⟩ := hm1.node k n hk
  have hs1 : buildReached n1._state = true := by rw [(hfrozen hs).1]; exact hs
  obtain ⟨hi2, hm2, hfl2, hr2⟩ := hi1.clear k n1 hk1 hs1
  subst he2
  exact ⟨hi2, hm1.trans hm2, fun j => by rw [hfl2 j, hfl1 j], fun j x => hr2 j (hr1 j x)⟩

/-- The launches at the end of `SetObjectBuilt`, on a node that has just reached a
terminal state and whose waiting callbacks are owed. -/
theorem launch_after_finish
    {self : Call K → ObjectContext K V → Option (ObjectContext K V)} (hself : SelfOK self)
    (k : K) (c c' : ObjectContext K V) (n : ObjectBuilderInfo K V) (hk : c._values k = some n)
    (hs : buildReached n._state = true) (hi : Inv c)
    (hb : ∀ j, (listBudget n._postBuildCallBacks j : Int) ≤ inFlight c j)
    (he : (ObjectBuilderInfo.launchPostDependenciesKnownCallBacks self k c).bind
      (ObjectBuilderInfo.launchPostBuildCallBacks self k) = some c') :
    Inv c' ∧ Mono c c' ∧
      (∀ j, inFlight c' j = inFlight c j - (listBudget n._postBuildCallBacks j : Int)) ∧
      (∀ j, Runnable c j → Runnable c' j) := by
  rw [launchPostDependenciesKnownCallBacks_id self k c
    (fun m hm => (hi.node k m hm).noDepsKnownCallBacks)] at he
  exact launchPostBuildCallBacks_ok hself k c c' n hk hs he hi hb

end SetOps

end dependencygraph

namespace dependencygraph

section Register

variable {K V : Type} [DecidableEq K] [Inhabited V]

theorem RegisterPostBuildCallBack_ok
    {self : Call K → ObjectContext K V → Option (ObjectContext K V)} (hself : SelfOK self)
    (d : K) (cb : CallBack K) (c c' : ObjectContext K V) (hna : ∀ o, cb ≠ CallBack.arm o)
    (n : ObjectBuilderInfo K V) (hd : c._values d = some n)
    (he : ObjectBuilderInfo.RegisterPostBuildCallBack self d cb c = some c') (hi : Inv c)
    (hb : ∀ j, (listBudget [cb] j : Int) ≤ inFlight c j) :
    Inv c' ∧ Mono c c' ∧ (∀ j, inFlight c' j = inFlight c j - (listBudget [cb] j : Int)) ∧
      (∀ j, Runnable c j → Runnable c' j) := by
  unfold ObjectBuilderInfo.RegisterPostBuildCallBack at he
  rw [hd] at he
  simp only at he
  by_cases hs : buildReached n._state = true
  · rw [if_pos hs] at he
    obtain ⟨hi1, hp1⟩ := hself _ c c' he hi (pre_callBack cb d hna hb)
    refine ⟨hi1, hp1.mono, fun j => ?_, fun j hr => hp1.runnable j hr (by intro x; cases x)⟩
    rw [hp1.inFlight j, budget_callBack]
  · rw [if_neg hs] at he
    simp only [Option.some.injEq] at he
    subst he
    exact hi.push d n hd (by simpa using hs) cb hna hb

theorem RegisterJob_ok
    {self : Call K → ObjectContext K V → Option (ObjectContext K V)} (hself : SelfOK self)
    (k : K) (c c' : ObjectContext K V) (ha : Armable c k) (hi : Inv c)
    (he : SingleThreadedJobQueue.RegisterJob self k c = some c') :
    Inv c' ∧ Mono c c' ∧ (∀ j, inFlight c' j = inFlight c j) ∧
      (∀ j, Runnable c j → Runnable c' j) := by
  unfold SingleThreadedJobQueue.RegisterJob at he
  obtain ⟨hi1, hr1, hro⟩ := hi.recordJob k ha
  obtain ⟨hi2, hp2⟩ := hself _ _ c' he hi1 hr1
  have hrec : Mono c (c.record (Event.RegisterJob k)) := by
    refine Mono.record c _ (fun j x => by cases x) (fun j n hn ht => ⟨?_, fun x => (by cases x)⟩)
    intro x
    cases x
    obtain ⟨m, e1, e2, _⟩ := ha
    rw [hn] at e1; cases e1
    rw [e2] at ht; cases ht
  refine ⟨hi2, hrec.trans hp2.mono, fun j => ?_, fun j hr => ?_⟩
  · rw [hp2.inFlight j]
    simp [budget]
  · have hjk : j ≠ k := by
      intro e
      subst e
      obtain ⟨n, e1, _, _, _, f1⟩ := ha
      obtain ⟨m, e2, _, _, _, f2⟩ := hr
      omega
    exact hp2.runnable j (hro j hjk hr) (by intro x; cases x; exact hjk rfl)

theorem requestDependencies_ok
    {self : Call K → ObjectContext K V → Option (ObjectContext K V)} (hself : SelfOK self)
    (owner : K) :
    ∀ (rest : List K) (c c' : ObjectContext K V),
      requestDependencies self owner rest c = some c' → Inv c →
      (rest.length : Int) ≤ inFlight c owner →
      Inv c' ∧ Mono c c' ∧
      (∀ j, inFlight c' j = inFlight c j - (if j = owner then (rest.length : Int) else 0)) ∧
      (∀ j, Runnable c j → Runnable c' j) := by
  intro rest
  induction rest with
  | nil =>
    intro c c' he hi _
    simp only [requestDependencies, Option.some.injEq] at he
    subst he
    exact ⟨hi, Mono.refl c, fun j => by simp, fun _ x => x⟩
  | cons dep rest ih =>
    intro c c' he hi hb
    simp only [requestDependencies] at he
    cases h1 : self (Call.BuildObject dep) c with
    | none => rw [h1] at he; cases he
    | some c1 =>
      rw [h1] at he
      simp only [Option.some_bind] at he
      obtain ⟨hi1, hp1⟩ := hself _ c c1 h1 hi trivial
      obtain ⟨n1, hd1, _⟩ := hp1.result
      have hfl1 : ∀ j, inFlight c1 j = inFlight c j := by
        intro j; rw [hp1.inFlight j]; simp [budget]
      cases h2 : ObjectBuilderInfo.RegisterPostBuildCallBack self dep
          (CallBack.dependencyBuilt owner) c1 with
      | none => rw [h2] at he; cases he
      | some c2 =>
        rw [h2] at he
        simp only [Option.some_bind] at he
        have hbud : ∀ j, (listBudget [CallBack.dependencyBuilt owner] j : Int)
            = if j = owner then 1 else 0 := by
          intro j
          rw [← budget_callBack (CallBack.dependencyBuilt owner) dep j]
          simp only [budget]
          split <;> simp
        simp only [List.length_cons] at hb
        push_cast at hb
        obtain ⟨hi2, hm2, hfl2, hr2⟩ := RegisterPostBuildCallBack_ok hself dep _ c1 c2
          (fun o x => by cases x) n1 hd1 h2 hi1 (fun j => by
            rw [hbud j, hfl1 j]
            have := hi.inFlightNonneg j
            split
            · rename_i e; subst e; omega
            · omega)
        obtain ⟨hi3, hm3, hfl3, hr3⟩ := ih c2 c' he hi2 (by
          rw [hfl2 owner, hbud owner, hfl1 owner]
          simp only [if_true]
          omega)
        refine ⟨hi3, (hp1.mono.trans hm2).trans hm3, fun j => ?_, fun j hr => ?_⟩
        · rw [hfl3 j, hfl2 j, hbud j, hfl1 j]
          simp only [List.length_cons]
          push_cast
          split <;> omega
        · exact hr3 j (hr2 j (hp1.runnable j hr (by intro x; cases x)))

end Register

end dependencygraph

namespace dependencygraph

section CallBacks

variable {K V : Type} [DecidableEq K] [Inhabited V]

theorem invokeCallBack_ok
    {self : Call K → ObjectContext K V → Option (ObjectContext K V)} (hself : SelfOK self)
    (cb : CallBack K) (node : K) (c c' : ObjectContext K V)
    (he : invokeCallBack self cb node c = some c') (hi : Inv c)
    (hpre : Pre c (Call.callBack cb node)) :
    Inv c' ∧ Post (Call.callBack cb node) c c' := by
  cases cb with
  | arm owner =>
    obtain ⟨hno, ha⟩ := hpre
    subst hno
    obtain ⟨n, hk, _⟩ := id ha
    simp only [invokeCallBack, hk] at he
    obtain ⟨hi1, hm1, hfl1, hr1, ha1⟩ := hi.storeCount node ha n.dependencies.length
    by_cases hz : n.dependencies.length = 0
    · rw [if_pos hz] at he
      obtain ⟨hi2, hm2, hfl2, hr2⟩ := RegisterJob_ok hself node _ c' (ha1 hz) hi1 he
      refine ⟨hi2, hm1.trans hm2, fun j => ?_, fun j hr _ => hr2 j (hr1 j hr), trivial⟩
      rw [hfl2 j, hfl1 j, hz]
      simp [budget]
    · rw [if_neg hz] at he
      obtain ⟨hi2, hm2, hfl2, hr2⟩ := requestDependencies_ok hself node _ _ c' he hi1 (by
        rw [hfl1 node]
        have := hi.inFlightNonneg node
        simp only [if_true]
        omega)
      refine ⟨hi2, hm1.trans hm2, fun j => ?_, fun j hr _ => hr2 j (hr1 j hr), trivial⟩
      rw [hfl2 j, hfl1 j]
      simp only [budget]
      split <;> simp
  | dependencyBuilt owner =>
    have hfl : 1 ≤ inFlight c owner := hpre
    obtain ⟨n, hk, hc⟩ := node_of_inFlight hfl
    simp only [invokeCallBack, hk] at he
    obtain ⟨hi1, hm1, hfl1, hr1, ha1⟩ := hi.fetchSub owner n hk hfl
    by_cases hz : n._outstandingDependenciesCount > 1
    · rw [if_pos hz] at he
      simp only [Option.some.injEq] at he
      subst he
      refine ⟨hi1, hm1, fun j => ?_, fun j hr _ => hr1 j hr, trivial⟩
      rw [hfl1 j]
      simp only [budget]
      split <;> simp
    · rw [if_neg hz] at he
      obtain ⟨hi2, hm2, hfl2, hr2⟩ := RegisterJob_ok hself owner _ c' (ha1 hz) hi1 he
      refine ⟨hi2, hm1.trans hm2, fun j => ?_, fun j hr _ => hr2 j (hr1 j hr), trivial⟩
      rw [hfl2 j, hfl1 j]
      simp only [budget]
      split <;> simp
  | client tag =>
    simp only [invokeCallBack, Option.some.injEq] at he
    subst he
    exact ⟨hi.recordClient tag node, Mono.record c _ (fun j x => by cases x)
      (fun _ _ _ _ => ⟨fun x => (by cases x), fun x => (by cases x)⟩), fun j => by simp [budget],
      fun j hr _ => Runnable.afterClient tag node j hr, trivial⟩

end CallBacks

end dependencygraph

namespace dependencygraph

section Job

variable {K V : Type} [DecidableEq K] [Inhabited V]

theorem Mono.built {c c' : ObjectContext K V} (h : Mono c c') (d : K)
    (hd : c.getState d = some ObjectBuildingState.ObjectBuilt) :
    c'.getState d = some ObjectBuildingState.ObjectBuilt := by
  cases hn : c._values d with
  | none => simp [ObjectContext.getState, hn] at hd
  | some n =>
    rw [getState_eq c d n hn] at hd
    simp only [Option.some.injEq] at hd
    obtain ⟨n', e, _, _, _, _, hf⟩ := h.node d n hn
    rw [getState_eq c' d n' e, (hf (by rw [hd]; rfl)).1, hd]

theorem SetObjectFailed_ok
    {self : Call K → ObjectContext K V → Option (ObjectContext K V)} (hself : SelfOK self)
    {c c' : ObjectContext K V} (c0 : ObjectContext K V) (h : Inv c) (k : K)
    (n : ObjectBuilderInfo K V) (hk : c._values k = some n)
    (hst : n._state = ObjectBuildingState.DependenciesKnown)
    (hl : n._buildRequestCount = 1) (hc : n._outstandingDependenciesCount = 0)
    (hv : c0._values = c._values) (hkeys : c0.keys = c.keys)
    (hj : c0.journal = c.journal ∨ c0.journal = c.journal ++ [Event.BuildObject k])
    (msg : String) (he : ObjectBuilderInfo.SetObjectFailed self k msg c0 = some c') :
    Inv c' ∧ Mono c c' ∧ (∀ j, inFlight c' j = inFlight c j) ∧
      (∀ j, j ≠ k → Runnable c j → Runnable c' j) := by
  unfold ObjectBuilderInfo.SetObjectFailed at he
  obtain ⟨hi2, hm2, hfl2, hr2, hk2⟩ := Inv.finishWith c0 h k n hk hst hl hc hv hkeys hj
    (fun m => { m with exception := some msg }) rfl rfl rfl rfl rfl rfl rfl rfl
    ObjectBuildingState.Failure (Or.inr rfl) (fun x => by cases x)
  obtain ⟨hi3, hm3, hfl3, hr3⟩ := launch_after_finish hself k _ c' _ hk2 rfl hi2
    (fun j => by rw [hfl2 j]; have := h.inFlightNonneg j; simp only; omega) he
  refine ⟨hi3, hm2.trans hm3, fun j => ?_, fun j hjk hr => hr3 j (hr2 j hjk hr)⟩
  rw [hfl3 j, hfl2 j]
  simp only
  omega

theorem SetObjectBuilt_ok
    {self : Call K → ObjectContext K V → Option (ObjectContext K V)} (hself : SelfOK self)
    {c c' : ObjectContext K V} (c0 : ObjectContext K V) (h : Inv c) (k : K)
    (n : ObjectBuilderInfo K V) (hk : c._values k = some n)
    (hst : n._state = ObjectBuildingState.DependenciesKnown)
    (hl : n._buildRequestCount = 1) (hc : n._outstandingDependenciesCount = 0)
    (hv : c0._values = c._values) (hkeys : c0.keys = c.keys)
    (hj : c0.journal = c.journal ∨ c0.journal = c.journal ++ [Event.BuildObject k])
    (hdeps : ∀ d ∈ n.dependencies, c.getState d = some ObjectBuildingState.ObjectBuilt)
    (v : V) (he : ObjectBuilderInfo.SetObjectBuilt self k v c0 = some c') :
    Inv c' ∧ Mono c c' ∧ (∀ j, inFlight c' j = inFlight c j) ∧
      (∀ j, j ≠ k → Runnable c j → Runnable c' j) := by
  unfold ObjectBuilderInfo.SetObjectBuilt at he
  obtain ⟨hi2, hm2, hfl2, hr2, hk2⟩ := Inv.finishWith c0 h k n hk hst hl hc hv hkeys hj
    (fun m => { m with builtObject := v }) rfl rfl rfl rfl rfl rfl rfl rfl
    ObjectBuildingState.ObjectBuilt (Or.inl rfl) (fun _ => hdeps)
  obtain ⟨hi3, hm3, hfl3, hr3⟩ := launchPostBuildCallBacks_ok hself k _ c' _ hk2 rfl he hi2
    (fun j => by rw [hfl2 j]; have := h.inFlightNonneg j; simp only; omega)
  refine ⟨hi3, hm2.trans hm3, fun j => ?_, fun j hjk hr => hr3 j (hr2 j hjk hr)⟩
  rw [hfl3 j, hfl2 j]
  simp only
  omega

theorem collectBuiltDependencies_ok
    {self : Call K → ObjectContext K V → Option (ObjectContext K V)} (hself : SelfOK self) :
    ∀ (deps : List K) (acc : K → Option V) (c c1 : ObjectContext K V)
      (r : Option (K → Option V)),
      collectBuiltDependencies self deps acc c = some (c1, r) → Inv c →
      Inv c1 ∧ Mono c c1 ∧ (∀ j, inFlight c1 j = inFlight c j) ∧
      (∀ j, Runnable c j → Runnable c1 j) ∧
      (r.isSome = true → ∀ d ∈ deps, c1.getState d = some ObjectBuildingState.ObjectBuilt) := by
  intro deps
  induction deps with
  | nil =>
    intro acc c c1 r he hi
    simp only [collectBuiltDependencies, Option.some.injEq, Prod.mk.injEq] at he
    obtain ⟨e1, _⟩ := he
    subst e1
    exact ⟨hi, Mono.refl c, fun _ => rfl, fun _ x => x, fun _ d hd => by simp at hd⟩
  | cons dep rest ih =>
    intro acc c c1 r he hi
    simp only [collectBuiltDependencies] at he
    cases h1 : self (Call.BuildObject dep) c with
    | none => rw [h1] at he; cases he
    | some c2 =>
      rw [h1] at he
      simp only at he
      obtain ⟨hi2, hp2⟩ := hself _ c c2 h1 hi trivial
      have hfl2 : ∀ j, inFlight c2 j = inFlight c j := by
        intro j; rw [hp2.inFlight j]; simp [budget]
      have hr2 : ∀ j, Runnable c j → Runnable c2 j :=
        fun j hr => hp2.runnable j hr (by intro x; cases x)
      cases hn : c2._values dep with
      | none =>
        rw [hn] at he
        simp only [Option.some.injEq, Prod.mk.injEq] at he
        obtain ⟨e1, e2⟩ := he
        subst e1; subst e2
        exact ⟨hi2, hp2.mono, hfl2, hr2, fun x => by simp at x⟩
      | some m =>
        rw [hn] at he
        simp only at he
        by_cases hs : m._state ≠ ObjectBuildingState.ObjectBuilt
        · rw [if_pos hs] at he
          simp only [Option.some.injEq, Prod.mk.injEq] at he
          obtain ⟨e1, e2⟩ := he
          subst e1; subst e2
          exact ⟨hi2, hp2.mono, hfl2, hr2, fun x => by simp at x⟩
        · rw [if_neg hs] at he
          obtain ⟨hi3, hm3, hfl3, hr3, hd3⟩ := ih _ c2 c1 r he hi2
          refine ⟨hi3, hp2.mono.trans hm3, fun j => by rw [hfl3 j, hfl2 j],
            fun j hr => hr3 j (hr2 j hr), fun x d hd => ?_⟩
          rcases List.mem_cons.1 hd with e | e
          · subst e
            apply hm3.built
            rw [getState_eq c2 d m hn]
            simpa using hs
          · exact hd3 x d e

end Job

end dependencygraph

namespace dependencygraph

section BuildJob

variable {K V : Type} [DecidableEq K] [Inhabited V]

theorem buildObject_ok
    {self : Call K → ObjectContext K V → Option (ObjectContext K V)} (hself : SelfOK self)
    (k : K) (c c' : ObjectContext K V)
    (he : ObjectBuilderInfo.buildObject self k c = some c') (hi : Inv c)
    (hpre : Runnable c k) : Inv c' ∧ Post (Call.buildObject k) c c' := by
  obtain ⟨n, hk, _, _, _, _⟩ := id hpre
  unfold ObjectBuilderInfo.buildObject at he
  rw [hk] at he
  simp only at he
  cases hcol : collectBuiltDependencies self n.dependencies (fun _ => none) c with
  | none => rw [hcol] at he; cases he
  | some p =>
    obtain ⟨c1, r⟩ := p
    rw [hcol] at he
    obtain ⟨hi1, hm1, hfl1, hr1, hd1⟩ := collectBuiltDependencies_ok hself _ _ c c1 r hcol hi
    obtain ⟨n1, hk1, hst1, hl1, hc1, _⟩ := hr1 k hpre
    have key : ∀ (x : Inv c' ∧ Mono c1 c' ∧ (∀ j, inFlight c' j = inFlight c1 j) ∧
        (∀ j, j ≠ k → Runnable c1 j → Runnable c' j)), Inv c' ∧ Post (Call.buildObject k) c c' := by
      intro ⟨a1, a2, a3, a4⟩
      refine ⟨a1, hm1.trans a2, fun j => ?_, fun j hr hx => ?_, trivial⟩
      · rw [a3 j, hfl1 j]; simp [budget]
      · exact a4 j (by intro e; subst e; exact hx rfl) (hr1 j hr)
    cases r with
    | none =>
      simp only at he
      exact key (SetObjectFailed_ok hself c1 hi1 k n1 hk1 hst1 hl1 hc1 rfl rfl (Or.inl rfl) _ he)
    | some builtDependencies =>
      simp only at he
      have hdeps : ∀ d ∈ n1.dependencies,
          c1.getState d = some ObjectBuildingState.ObjectBuilt := by
        intro d hd
        obtain ⟨n', e', _, e2, _⟩ := hm1.node k n hk
        rw [hk1] at e'; cases e'
        rw [e2] at hd
        exact hd1 rfl d hd
      cases hb : (c1._values k).bind (fun m => m.objectBuilder) with
      | none =>
        rw [hb] at he
        simp only at he
        exact key (SetObjectFailed_ok hself c1 hi1 k n1 hk1 hst1 hl1 hc1 rfl rfl (Or.inl rfl) _ he)
      | some b =>
        rw [hb] at he
        simp only at he
        cases hv : b.BuildObject k builtDependencies with
        | none =>
          rw [hv] at he
          simp only at he
          exact key (SetObjectFailed_ok hself (c1.record (Event.BuildObject k)) hi1 k n1 hk1
            hst1 hl1 hc1 rfl rfl (Or.inr rfl) _ he)
        | some v =>
          rw [hv] at he
          simp only at he
          exact key (SetObjectBuilt_ok hself (c1.record (Event.BuildObject k)) hi1 k n1 hk1
            hst1 hl1 hc1 rfl rfl (Or.inr rfl) hdeps v he)

end BuildJob

end dependencygraph

namespace dependencygraph

section Discover

variable {K V : Type} [DecidableEq K] [Inhabited V]

/-- `GetDependenciesInt` on a key without a node: the launches in the setters find
empty lists, so no callback, job or nested call runs. -/
theorem GetDependenciesInt_fresh (obp : IObjectBuilderProvider K V)
    (self : Call K → ObjectContext K V → Option (ObjectContext K V)) (address : K)
    (c : ObjectContext K V) (hc : c._values address = none) :
    ObjectContext.GetDependenciesInt obp self address c = some (discover obp address c) := by
  unfold ObjectContext.GetDependenciesInt discover
  rw [hc]
  simp only
  cases hb : obp address with
  | none =>
    simp only [ObjectBuilderInfo.SetNoBuilderFound, ObjectContext.setState, if_true]
    rw [launchPostDependenciesKnownCallBacks_id _ _ _ (by
      intro n hn; simp [ObjectBuilderInfo.new] at hn; rw [← hn])]
    simp only [Option.some_bind]
    rw [launchPostBuildCallBacks_id _ _ _ (by
      intro n hn; simp [ObjectBuilderInfo.new] at hn; rw [← hn])]
    congr 1
    apply context_ext
    · intro j; by_cases e : j = address <;> simp [e, ObjectBuilderInfo.new]
    · rfl
    · rfl
  | some b =>
    simp only
    cases hd : b.GetDependencies address with
    | some deps =>
      simp only [ObjectBuilderInfo.SetRequestedDependencies, ObjectContext.setState,
        modify_values, record_values, if_true, Option.map_some']
      rw [launchPostDependenciesKnownCallBacks_id _ _ _ (by
        intro n hn; simp [ObjectBuilderInfo.new] at hn; rw [← hn])]
      congr 1
      apply context_ext
      · intro j; by_cases e : j = address <;> simp [e, ObjectBuilderInfo.new]
      · rfl
      · simp [ObjectBuilderInfo.new]
    | none =>
      simp only [ObjectBuilderInfo.SetObjectFailed, ObjectContext.setState,
        modify_values, record_values, if_true, Option.map_some']
      rw [launchPostDependenciesKnownCallBacks_id _ _ _ (by
        intro n hn; simp [ObjectBuilderInfo.new] at hn; rw [← hn])]
      simp only [Option.some_bind]
      rw [launchPostBuildCallBacks_id _ _ _ (by
        intro n hn; simp [ObjectBuilderInfo.new] at hn; rw [← hn])]
      congr 1
      apply context_ext
      · intro j; by_cases e : j = address <;> simp [e, ObjectBuilderInfo.new]
      · rfl
      · simp [ObjectBuilderInfo.new]

theorem GetDependenciesInt_present (obp : IObjectBuilderProvider K V)
    (self : Call K → ObjectContext K V → Option (ObjectContext K V)) (address : K)
    (c : ObjectContext K V) (n : ObjectBuilderInfo K V) (hc : c._values address = some n) :
    ObjectContext.GetDependenciesInt obp self address c = some c := by
  unfold ObjectContext.GetDependenciesInt
  rw [hc]

end Discover

end dependencygraph

namespace dependencygraph

section DiscoverInv

variable {K V : Type} [DecidableEq K] [Inhabited V]

theorem discover_spec (obp : IObjectBuilderProvider K V) (a : K) (c : ObjectContext K V) :
    ∃ (n : ObjectBuilderInfo K V) (es : List (Event K)),
      (discover obp a c)._values = (fun j => if j = a then some n else c._values j) ∧
      (discover obp a c).keys = c.keys ++ [a] ∧
      (discover obp a c).journal = c.journal ++ es ∧
      n.key = a ∧ n._buildRequestCount = 0 ∧ n._postDependenciesKnownCallBacks = [] ∧
      n._postBuildCallBacks = [] ∧ n._outstandingDependenciesCount = 0 ∧
      (n._state = ObjectBuildingState.NoBuilderAvailable ∨
        n._state = ObjectBuildingState.DependenciesKnown ∨
        n._state = ObjectBuildingState.Failure) ∧
      (∀ j, es.count (Event.RegisterJob j) = 0) ∧ (∀ j, es.count (Event.BuildObject j) = 0) ∧
      (∀ j, es.count (Event.GetDependencies j) ≤ if j = a then 1 else 0) ∧
      (∀ x ∈ es, Event.allowed x) := by
  unfold discover
  cases hb : obp a with
  | none =>
    refine ⟨_, _, rfl, rfl, rfl, rfl, rfl, rfl, rfl, rfl, Or.inl rfl, ?_, ?_, ?_, ?_⟩
    · intro j; simp [List.count_singleton]
    · intro j; simp [List.count_singleton]
    · intro j; simp [List.count_singleton]
    · intro x hm
      simp only [List.mem_singleton] at hm
      rw [hm]; show allowedTransition _ _ = true; rfl
  | some b =>
    simp only
    cases hd : b.GetDependencies a with
    | some deps =>
      refine ⟨_, _, rfl, rfl, rfl, rfl, rfl, rfl, rfl, rfl, Or.inr (Or.inl rfl), ?_, ?_, ?_, ?_⟩
      · intro j; simp [List.count_cons]
      · intro j; simp [List.count_cons]
      · intro j
        by_cases e : a = j
        · subst e; simp [List.count_cons]
        · have : ¬ (j = a) := fun x => e x.symm
          simp [List.count_cons, e, this]
      · intro x hm
        simp only [List.mem_cons, List.mem_singleton, List.not_mem_nil, or_false] at hm
        rcases hm with hm | hm
        · rw [hm]; exact True.intro
        · rw [hm]; show allowedTransition _ _ = true; rfl
    | none =>
      refine ⟨_, _, rfl, rfl, rfl, rfl, rfl, rfl, rfl, rfl, Or.inr (Or.inr rfl), ?_, ?_, ?_, ?_⟩
      · intro j; simp [List.count_cons]
      · intro j; simp [List.count_cons]
      · intro j
        by_cases e : a = j
        · subst e; simp [List.count_cons]
        · have : ¬ (j = a) := fun x => e x.symm
          simp [List.count_cons, e, this]
      · intro x hm
        simp only [List.mem_cons, List.mem_singleton, List.not_mem_nil, or_false] at hm
        rcases hm with hm | hm
        · rw [hm]; exact True.intro
        · rw [hm]; show allowedTransition _ _ = true; rfl

/-- Creating and discovering a node keeps the invariant and touches no other node. -/
theorem Inv.afterDiscover {c : ObjectContext K V} (h : Inv c) (obp : IObjectBuilderProvider K V)
    (a : K) (ha : c._values a = none) :
    Inv (discover obp a c) ∧ Mono c (discover obp a c) ∧
    (∀ j, inFlight (discover obp a c) j = inFlight c j) ∧
    (∀ j, Runnable c j → Runnable (discover obp a c) j) ∧
    (∃ n, (discover obp a c)._values a = some n ∧ n._buildRequestCount = 0) := by
  obtain ⟨n, es, hv, hkeys, hjr, n1, n2, n3, n4, n5, n6, e1, e2, e3, e4⟩ := discover_spec obp a c
  have hka : (discover obp a c)._values a = some n := by rw [hv]; simp
  have hother : ∀ j, j ≠ a → (discover obp a c)._values j = c._values j := by
    intro j e; rw [hv]; simp [e]
  have hnk : a ∉ c.keys := by
    intro x
    exact (h.keysIff a).1 x ha
  have hjob : ∀ j, jobCount (discover obp a c) j = jobCount c j := by
    intro j; simp [jobCount, hjr, List.count_append, e1 j]
  have hbuild : ∀ j, buildCount (discover obp a c) j = buildCount c j := by
    intro j; simp [buildCount, hjr, List.count_append, e2 j]
  have hdisc : ∀ j, discoveryCount (discover obp a c) j
      = discoveryCount c j + es.count (Event.GetDependencies j) := by
    intro j; simp [discoveryCount, hjr, List.count_append]
  have hst : ∀ d, c.getState d = some ObjectBuildingState.ObjectBuilt →
      (discover obp a c).getState d = some ObjectBuildingState.ObjectBuilt := by
    intro d hd
    by_cases e : d = a
    · subst e; simp [ObjectContext.getState, ha] at hd
    · simpa [ObjectContext.getState, hother d e] using hd
  have hfl : ∀ j, inFlight (discover obp a c) j = inFlight c j := by
    intro j
    have ho : outstanding (discover obp a c) j = outstanding c j := by
      by_cases e : j = a
      · subst e; simp [outstanding, hka, ha, n5]
      · simp [outstanding, hother j e]
    have hs : stored (discover obp a c) j = stored c j := by
      unfold stored
      rw [hkeys, List.map_append, List.sum_append]
      have x1 : storedAt (discover obp a c) j a = 0 := by
        simp [storedAt, hka, share, n4]
      have x2 : List.map (storedAt (discover obp a c) j) c.keys
          = List.map (storedAt c j) c.keys := by
        apply List.map_congr_left
        intro d hd
        have : d ≠ a := fun e => hnk (e ▸ hd)
        simp [storedAt, hother d this]
      simp [x1, x2]
    unfold inFlight
    rw [ho, hs]
  refine ⟨⟨?_, ?_, ?_, ?_, ?_, ?_, ?_⟩, ?_, hfl, ?_, ⟨n, hka, n2⟩⟩
  · rw [hkeys]
    exact List.Nodup.append h.keysNodup (List.nodup_singleton a) (by
      intro x hx hx2
      simp only [List.mem_singleton] at hx2
      subst hx2
      exact hnk hx)
  · intro j
    rw [hkeys]
    by_cases e : j = a
    · subst e; simp [hka]
    · rw [hother j e]
      simp only [List.mem_append, List.mem_singleton, e, or_false]
      exact h.keysIff j
  · intro j m hm
    by_cases e : j = a
    · subst e
      rw [hka] at hm; cases hm
      have hab := h.absent j ha
      refine ⟨n1, ?_, n3, ?_, Or.inl n2, ?_, fun _ => n5, ?_, ?_, ?_⟩
      · rcases n6 with x | x | x <;> rw [x] <;> simp
      · rw [n4]; simp
      · intro _
        refine ⟨n5, ?_, by rw [hjob]; exact hab.1⟩
        rcases n6 with x | x | x <;> rw [x] <;> simp
      · intro _; rw [hjob]; exact hab.1
      · intro x; rw [hbuild, hab.2.1] at x; exact absurd rfl x
      · intro x
        rcases n6 with y | y | y <;> rw [y] at x <;> cases x
    · rw [hother j e] at hm
      exact (h.node j m hm).carryOver (hjob j) (hbuild j) hst
  · intro j; rw [hfl]; exact h.inFlightNonneg j
  · intro x hm
    rw [hjr] at hm
    rcases List.mem_append.1 hm with hm | hm
    · exact h.transitions x hm
    · exact e4 x hm
  · intro j
    rw [hjob, hbuild, hdisc]
    refine ⟨(h.counts j).1, (h.counts j).2.1, ?_⟩
    have := e3 j
    by_cases e : j = a
    · subst e
      rw [(h.absent j ha).2.2]
      simpa using this
    · simp only [e, if_false, Nat.le_zero] at this
      rw [this]
      exact (h.counts j).2.2
  · intro j hj
    have e : j ≠ a := by
      intro e; subst e; rw [hka] at hj; cases hj
    rw [hother j e] at hj
    rw [hjob, hbuild, hdisc]
    have := e3 j
    simp only [e, if_false, Nat.le_zero] at this
    rw [this]
    exact h.absent j hj
  · refine ⟨fun k m hm => ?_, fun k hk => ?_, fun k _ _ _ => ⟨hjob k, hbuild k⟩⟩
    · have e : k ≠ a := by
        intro e; subst e; rw [ha] at hm; cases hm
      exact ⟨m, by rw [hother k e]; exact hm, rfl, rfl, rfl, id, fun _ => ⟨rfl, rfl, rfl⟩⟩
    · have e : k ≠ a := by
        intro e; subst e; exact hk ha
      rw [hdisc]
      have := e3 k
      simp only [e, if_false, Nat.le_zero] at this
      rw [this]
      rfl
  · intro j ⟨m, e, a', b', d', f'⟩
    have x : j ≠ a := by
      intro x; subst x; rw [ha] at e; cases e
    exact ⟨m, by rw [hother j x]; exact e, a', b', d', by rw [hjob]; exact f'⟩

end DiscoverInv

end dependencygraph

namespace dependencygraph

section Request

variable {K V : Type} [DecidableEq K] [Inhabited V]

theorem RequestBuildObject_ok
    {self : Call K → ObjectContext K V → Option (ObjectContext K V)} (hself : SelfOK self)
    (k : K) (c c' : ObjectContext K V) (n : ObjectBuilderInfo K V) (hk : c._values k = some n)
    (he : ObjectBuilderInfo.RequestBuildObject self k c = some c') (hi : Inv c) :
    Inv c' ∧ Mono c c' ∧ (∀ j, inFlight c' j = inFlight c j) ∧
      (∀ j, Runnable c j → Runnable c' j) ∧
      (∃ n', c'._values k = some n' ∧ n'._buildRequestCount = 1) := by
  unfold ObjectBuilderInfo.RequestBuildObject at he
  rw [hk] at he
  simp only at he
  obtain ⟨hi1, hm1, hfl1, hr1⟩ := hi.setLatch k n hk
  have hk1 := modify_self (c := c) (fun m => { m with _buildRequestCount := 1 }) hk
  have hn := hi.node k n hk
  have stop : some (c.modify k (fun m => { m with _buildRequestCount := 1 })) = some c' →
      Inv c' ∧ Mono c c' ∧ (∀ j, inFlight c' j = inFlight c j) ∧
      (∀ j, Runnable c j → Runnable c' j) ∧
      (∃ n', c'._values k = some n' ∧ n'._buildRequestCount = 1) := by
    intro x
    simp only [Option.some.injEq] at x
    subst x
    exact ⟨hi1, hm1, hfl1, hr1, _, hk1, rfl⟩
  by_cases hz : n._buildRequestCount = 0
  · rw [if_pos hz] at he
    obtain ⟨u1, u2, u3⟩ := hn.unrequested hz
    have hns := hn.notStarting
    cases hs : n._state with
    | Starting => exact absurd hs hns
    | ObjectBuilt => exact absurd hs u2
    | Failure => rw [hs] at he; exact stop he
    | NoBuilderAvailable => rw [hs] at he; exact stop he
    | DependenciesKnown =>
      rw [hs] at he
      simp only [ObjectBuilderInfo.RegisterPostDependenciesKnownCallBack, hk1, hs,
        dependenciesKnownReached, if_true] at he
      obtain ⟨hi2, hp2⟩ := hself _ _ c' he hi1 ⟨rfl, _, hk1, hs, rfl, u1, u3⟩
      obtain ⟨n', e', _, _, _, l', _⟩ := hp2.mono.node k _ hk1
      refine ⟨hi2, hm1.trans hp2.mono, fun j => ?_,
        fun j hr => hp2.runnable j (hr1 j hr) (by intro x; cases x), n', e', l' rfl⟩
      rw [hp2.inFlight j, hfl1 j]
      simp [budget]
  · rw [if_neg hz] at he
    exact stop he

theorem BuildObjectBody_ok (obp : IObjectBuilderProvider K V)
    {self : Call K → ObjectContext K V → Option (ObjectContext K V)} (hself : SelfOK self)
    (k : K) (c c' : ObjectContext K V)
    (he : ObjectContext.BuildObjectBody obp self k c = some c') (hi : Inv c) :
    Inv c' ∧ Post (Call.BuildObject k) c c' := by
  unfold ObjectContext.BuildObjectBody at he
  cases hc : c._values k with
  | none =>
    rw [GetDependenciesInt_fresh obp self k c hc] at he
    simp only [Option.some_bind] at he
    obtain ⟨hi1, hm1, hfl1, hr1, n1, hk1, _⟩ := hi.afterDiscover obp k hc
    obtain ⟨hi2, hm2, hfl2, hr2, hres⟩ := RequestBuildObject_ok hself k _ c' n1 hk1 he hi1
    refine ⟨hi2, hm1.trans hm2, fun j => ?_, fun j hr _ => hr2 j (hr1 j hr), hres⟩
    rw [hfl2 j, hfl1 j]
    simp [budget]
  | some n =>
    rw [GetDependenciesInt_present obp self k c n hc] at he
    simp only [Option.some_bind] at he
    obtain ⟨hi2, hm2, hfl2, hr2, hres⟩ := RequestBuildObject_ok hself k c c' n hc he hi
    refine ⟨hi2, hm2, fun j => ?_, fun j hr _ => hr2 j hr, hres⟩
    rw [hfl2 j]
    simp [budget]

/-- Every call of the model keeps the invariant of reachable contexts. -/
theorem exec_ok (obp : IObjectBuilderProvider K V) : ∀ fuel, SelfOK (exec obp fuel) := by
  intro fuel
  induction fuel with
  | zero =>
    intro X c c' he
    simp [exec] at he
  | succ fuel ih =>
    intro X c c' he hi hpre
    cases X with
    | BuildObject address =>
      simp only [exec] at he
      exact BuildObjectBody_ok obp ih address c c' he hi
    | callBack cb node =>
      simp only [exec] at he
      exact invokeCallBack_ok ih cb node c c' he hi hpre
    | buildObject node =>
      simp only [exec] at he
      exact buildObject_ok ih node c c' he hi hpre

end Request

end dependencygraph

namespace dependencygraph

section Reach

variable {K V : Type} [DecidableEq K] [Inhabited V]

theorem getD_of_isSome {α : Type} (o : Option α) (d : α) (h : o.isSome = true) :
    o = some (o.getD d) := by
  cases o with
  | none => cases h
  | some a => rfl

theorem inv_empty : Inv (ObjectContext.empty : ObjectContext K V) := by
  refine ⟨List.nodup_nil, ?_, ?_, ?_, ?_, ?_, ?_⟩
  · intro k; simp [ObjectContext.empty]
  · intro k n hn; simp [ObjectContext.empty] at hn
  · intro k; simp [inFlight, outstanding, stored, ObjectContext.empty]
  · intro x hm; simp [ObjectContext.empty] at hm
  · intro k; simp [jobCount, buildCount, discoveryCount, ObjectContext.empty]
  · intro k _; simp [jobCount, buildCount, discoveryCount, ObjectContext.empty]

/-- The public operation `BuildObject` keeps the invariant; afterwards the node of the
key exists with its build requested. -/
theorem BuildObject_ok (obp : IObjectBuilderProvider K V) (fuel : Nat) (k : K)
    (c c' : ObjectContext K V) (he : ObjectContext.BuildObject obp fuel k c = some c')
    (hi : Inv c) : Inv c' ∧ Mono c c' ∧
      ∃ n, c'._values k = some n ∧ n._buildRequestCount = 1 := by
  obtain ⟨h1, h2⟩ := exec_ok obp (fuel + 1) (Call.BuildObject k) c c' he hi trivial
  exact ⟨h1, h2.mono, h2.result⟩

/-- The public operation `GetDependencies` keeps the invariant; afterwards the node of
the key exists. -/
theorem GetDependencies_ok (obp : IObjectBuilderProvider K V) (fuel : Nat) (k : K)
    (c c' : ObjectContext K V) (he : ObjectContext.GetDependencies obp fuel k c = some c')
    (hi : Inv c) : Inv c' ∧ Mono c c' ∧ ∃ n, c'._values k = some n := by
  unfold ObjectContext.GetDependencies at he
  cases hc : c._values k with
  | none =>
    rw [GetDependenciesInt_fresh obp _ k c hc] at he
    simp only [Option.some.injEq] at he
    subst he
    obtain ⟨h1, h2, _, _, n, hn, _⟩ := hi.afterDiscover obp k hc
    exact ⟨h1, h2, n, hn⟩
  | some n =>
    rw [GetDependenciesInt_present obp _ k c n hc] at he
    simp only [Option.some.injEq] at he
    subst he
    exact ⟨hi, Mono.refl c, n, hc⟩

theorem ReachableFrom.inv {obp : IObjectBuilderProvider K V} {c0 c : ObjectContext K V}
    (h : ReachableFrom obp c0 c) (hi : Inv c0) : Inv c ∧ Mono c0 c := by
  induction h with
  | refl => exact ⟨hi, Mono.refl c0⟩
  | getDependencies fuel address _ he ih =>
    obtain ⟨h1, h2, _⟩ := GetDependencies_ok obp fuel address _ _ he ih.1
    exact ⟨h1, ih.2.trans h2⟩
  | buildObject fuel address _ he ih =>
    obtain ⟨h1, h2, _⟩ := BuildObject_ok obp fuel address _ _ he ih.1
    exact ⟨h1, ih.2.trans h2⟩

theorem Reachable.invariant {obp : IObjectBuilderProvider K V} {c : ObjectContext K V}
    (h : Reachable obp c) : Inv c :=
  (ReachableFrom.inv h inv_empty).1

/-- A `BuildObject` call for a key whose node has its build requested returns the
context as it is. -/
theorem BuildObject_requested (obp : IObjectBuilderProvider K V) (fuel : Nat) (k : K)
    (c : ObjectContext K V) (n : ObjectBuilderInfo K V) (hk : c._values k = some n)
    (hl : n._buildRequestCount = 1) : ObjectContext.BuildObject obp fuel k c = some c := by
  unfold ObjectContext.BuildObject
  simp only [exec, ObjectContext.BuildObjectBody]
  rw [GetDependenciesInt_present obp _ k c n hk]
  simp only [Option.some_bind, ObjectBuilderInfo.RequestBuildObject, hk, hl]
  simp only [one_ne_zero, if_false, Option.some.injEq]
  apply modify_id
  intro m hm
  rw [hk] at hm
  cases hm
  cases n
  simp_all

theorem diamondBuilt_reachable : Reachable diamond diamondBuilt :=
  ReachableFrom.buildObject 12 0 ReachableFrom.refl (getD_of_isSome _ _ (by decide))

end Reach

end dependencygraph

namespace dependencygraph

section FuelMono

variable {K V : Type} [DecidableEq K] [Inhabited V]

theorem bind_mono {α : Type} {f g : α → Option α} {o o' : Option α} {r : α}
    (ho : ∀ a, o = some a → o' = some a) (hf : ∀ a b, f a = some b → g a = some b)
    (h : o.bind f = some r) : o'.bind g = some r := by
  cases o with
  | none => cases h
  | some a =>
    rw [ho a rfl]
    exact hf a r h

theorem launchAll_mono {self self' : Call K → ObjectContext K V → Option (ObjectContext K V)}
    (hs : SelfLE self self') (k : K) :
    ∀ (l : List (CallBack K)) (c c' : ObjectContext K V),
      launchAll self k l c = some c' → launchAll self' k l c = some c' := by
  intro l
  induction l with
  | nil => intro c c' h; exact h
  | cons cb rest ih =>
    intro c c' h
    simp only [launchAll] at h ⊢
    exact bind_mono (fun a ha => hs _ _ _ ha) (fun a b hab => ih a b hab) h

theorem launchPostDependenciesKnownCallBacks_mono
    {self self' : Call K → ObjectContext K V → Option (ObjectContext K V)}
    (hs : SelfLE self self') (k : K) (c c' : ObjectContext K V)
    (h : ObjectBuilderInfo.launchPostDependenciesKnownCallBacks self k c = some c') :
    ObjectBuilderInfo.launchPostDependenciesKnownCallBacks self' k c = some c' := by
  unfold ObjectBuilderInfo.launchPostDependenciesKnownCallBacks at h ⊢
  cases hn : c._values k with
  | none => rw [hn] at h; exact h
  | some n =>
    rw [hn] at h
    simp only [Option.map_eq_some'] at h ⊢
    obtain ⟨a, h1, h2⟩ := h
    exact ⟨a, launchAll_mono hs k _ c a h1, h2⟩

theorem launchPostBuildCallBacks_mono
    {self self' : Call K → ObjectContext K V → Option (ObjectContext K V)}
    (hs : SelfLE self self') (k : K) (c c' : ObjectContext K V)
    (h : ObjectBuilderInfo.launchPostBuildCallBacks self k c = some c') :
    ObjectBuilderInfo.launchPostBuildCallBacks self' k c = some c' := by
  unfold ObjectBuilderInfo.launchPostBuildCallBacks at h ⊢
  cases hn : c._values k with
  | none => rw [hn] at h; exact h
  | some n =>
    rw [hn] at h
    simp only [Option.map_eq_some'] at h ⊢
    obtain ⟨a, h1, h2⟩ := h
    exact ⟨a, launchAll_mono hs k _ c a h1, h2⟩

theorem SetObjectBuilt_mono
    {self self' : Call K → ObjectContext K V → Option (ObjectContext K V)}
    (hs : SelfLE self self') (k : K) (v : V) (c c' : ObjectContext K V)
    (h : ObjectBuilderInfo.SetObjectBuilt self k v c = some c') :
    ObjectBuilderInfo.SetObjectBuilt self' k v c = some c' :=
  launchPostBuildCallBacks_mono hs k _ c' h

theorem SetObjectFailed_mono
    {self self' : Call K → ObjectContext K V → Option (ObjectContext K V)}
    (hs : SelfLE self self') (k : K) (msg : String) (c c' : ObjectContext K V)
    (h : ObjectBuilderInfo.SetObjectFailed self k msg c = some c') :
    ObjectBuilderInfo.SetObjectFailed self' k msg c = some c' := by
  unfold ObjectBuilderInfo.SetObjectFailed at h ⊢
  exact bind_mono (fun a ha => launchPostDependenciesKnownCallBacks_mono hs k _ a ha)
    (fun a b hab => launchPostBuildCallBacks_mono hs k a b hab) h

theorem RegisterPostBuildCallBack_mono
    {self self' : Call K → ObjectContext K V → Option (ObjectContext K V)}
    (hs : SelfLE self self') (k : K) (cb : CallBack K) (c c' : ObjectContext K V)
    (h : ObjectBuilderInfo.RegisterPostBuildCallBack self k cb c = some c') :
    ObjectBuilderInfo.RegisterPostBuildCallBack self' k cb c = some c' := by
  unfold ObjectBuilderInfo.RegisterPostBuildCallBack at h ⊢
  cases hn : c._values k with
  | none => rw [hn] at h; exact h
  | some n =>
    rw [hn] at h
    simp only at h ⊢
    split at h
    · rename_i hb; rw [if_pos hb]; exact hs _ _ _ h
    · rename_i hb; rw [if_neg hb]; exact h

theorem RegisterPostDependenciesKnownCallBack_mono
    {self self' : Call K → ObjectContext K V → Option (ObjectContext K V)}
    (hs : SelfLE self self') (k : K) (cb : CallBack K) (c c' : ObjectContext K V)
    (h : ObjectBuilderInfo.RegisterPostDependenciesKnownCallBack self k cb c = some c') :
    ObjectBuilderInfo.RegisterPostDependenciesKnownCallBack self' k cb c = some c' := by
  unfold ObjectBuilderInfo.RegisterPostDependenciesKnownCallBack at h ⊢
  cases hn : c._values k with
  | none => rw [hn] at h; exact h
  | some n =>
    rw [hn] at h
    simp only at h ⊢
    split at h
    · rename_i hb; rw [if_pos hb]; exact hs _ _ _ h
    · rename_i hb; rw [if_neg hb]; exact h

end FuelMono

end dependencygraph

namespace dependencygraph

section FuelMono2

variable {K V : Type} [DecidableEq K] [Inhabited V]

theorem collectBuiltDependencies_mono
    {self self' : Call K → ObjectContext K V → Option (ObjectContext K V)}
    (hs : SelfLE self self') :
    ∀ (deps : List K) (acc : K → Option V) (c : ObjectContext K V)
      (r : ObjectContext K V × Option (K → Option V)),
      collectBuiltDependencies self deps acc c = some r →
      collectBuiltDependencies self' deps acc c = some r := by
  intro deps
  induction deps with
  | nil => intro acc c r h; exact h
  | cons d rest ih =>
    intro acc c r h
    simp only [collectBuiltDependencies] at h ⊢
    cases h1 : self (Call.BuildObject d) c with
    | none => rw [h1] at h; cases h
    | some c1 =>
      rw [h1] at h
      rw [hs _ _ _ h1]
      simp only at h ⊢
      cases hn : c1._values d with
      | none => rw [hn] at h; exact h
      | some m =>
        rw [hn] at h
        simp only at h ⊢
        split at h
        · rename_i hb; rw [if_pos hb]; exact h
        · rename_i hb; rw [if_neg hb]; exact ih _ _ _ h

theorem buildObject_mono
    {self self' : Call K → ObjectContext K V → Option (ObjectContext K V)}
    (hs : SelfLE self self') (k : K) (c c' : ObjectContext K V)
    (h : ObjectBuilderInfo.buildObject self k c = some c') :
    ObjectBuilderInfo.buildObject self' k c = some c' := by
  unfold ObjectBuilderInfo.buildObject at h ⊢
  cases hn : c._values k with
  | none => rw [hn] at h; exact h
  | some n =>
    rw [hn] at h
    simp only at h ⊢
    cases hc : collectBuiltDependencies self n.dependencies (fun _ => none) c with
    | none => rw [hc] at h; cases h
    | some p =>
      rw [hc] at h
      rw [collectBuiltDependencies_mono hs _ _ _ _ hc]
      obtain ⟨c1, r⟩ := p
      cases r with
      | none => exact SetObjectFailed_mono hs k _ c1 c' h
      | some m =>
        simp only at h ⊢
        cases hb : (c1._values k).bind (fun m => m.objectBuilder) with
        | none => rw [hb] at h; exact SetObjectFailed_mono hs k _ c1 c' h
        | some b =>
          rw [hb] at h
          simp only at h ⊢
          cases hv : b.BuildObject k m with
          | none => rw [hv] at h; exact SetObjectFailed_mono hs k _ _ c' h
          | some v => rw [hv] at h; exact SetObjectBuilt_mono hs k v _ c' h

theorem requestDependencies_mono
    {self self' : Call K → ObjectContext K V → Option (ObjectContext K V)}
    (hs : SelfLE self self') (owner : K) :
    ∀ (deps : List K) (c c' : ObjectContext K V),
      requestDependencies self owner deps c = some c' →
      requestDependencies self' owner deps c = some c' := by
  intro deps
  induction deps with
  | nil => intro c c' h; exact h
  | cons d rest ih =>
    intro c c' h
    simp only [requestDependencies] at h ⊢
    exact bind_mono
      (fun a ha => bind_mono (fun b hb => hs _ _ _ hb)
        (fun x y hxy => RegisterPostBuildCallBack_mono hs d _ x y hxy) ha)
      (fun a b hab => ih a b hab) h

theorem invokeCallBack_mono
    {self self' : Call K → ObjectContext K V → Option (ObjectContext K V)}
    (hs : SelfLE self self') (cb : CallBack K) (node : K) (c c' : ObjectContext K V)
    (h : invokeCallBack self cb node c = some c') :
    invokeCallBack self' cb node c = some c' := by
  cases cb with
  | arm owner =>
    simp only [invokeCallBack] at h ⊢
    cases hn : c._values node with
    | none => rw [hn] at h; exact h
    | some n =>
      rw [hn] at h
      simp only at h ⊢
      split at h
      · rename_i hb; rw [if_pos hb]; exact hs _ _ _ h
      · rename_i hb; rw [if_neg hb]; exact requestDependencies_mono hs owner _ _ _ h
  | dependencyBuilt owner =>
    simp only [invokeCallBack] at h ⊢
    cases hn : c._values owner with
    | none => rw [hn] at h; exact h
    | some n =>
      rw [hn] at h
      simp only at h ⊢
      split at h
      · rename_i hb; rw [if_pos hb]; exact h
      · rename_i hb; rw [if_neg hb]; exact hs _ _ _ h
  | client tag => exact h

theorem RequestBuildObject_mono
    {self self' : Call K → ObjectContext K V → Option (ObjectContext K V)}
    (hs : SelfLE self self') (k : K) (c c' : ObjectContext K V)
    (h : ObjectBuilderInfo.RequestBuildObject self k c = some c') :
    ObjectBuilderInfo.RequestBuildObject self' k c = some c' := by
  unfold ObjectBuilderInfo.RequestBuildObject at h ⊢
  cases hn : c._values k with
  | none => rw [hn] at h; exact h
  | some n =>
    rw [hn] at h
    simp only at h ⊢
    split at h
    · rename_i hb
      rw [if_pos hb]
      split at h
      · exact h
      · exact h
      · exact RegisterPostDependenciesKnownCallBack_mono hs k _ _ c' h
    · rename_i hb; rw [if_neg hb]; exact h

theorem GetDependenciesInt_self (obp : IObjectBuilderProvider K V)
    (self self' : Call K → ObjectContext K V → Option (ObjectContext K V)) (k : K)
    (c : ObjectContext K V) :
    ObjectContext.GetDependenciesInt obp self k c
      = ObjectContext.GetDependenciesInt obp self' k c := by
  cases hn : c._values k with
  | none => rw [GetDependenciesInt_fresh obp self k c hn, GetDependenciesInt_fresh obp self' k c hn]
  | some n =>
    rw [GetDependenciesInt_present obp self k c n hn,
      GetDependenciesInt_present obp self' k c n hn]

theorem BuildObjectBody_mono (obp : IObjectBuilderProvider K V)
    {self self' : Call K → ObjectContext K V → Option (ObjectContext K V)}
    (hs : SelfLE self self') (k : K) (c c' : ObjectContext K V)
    (h : ObjectContext.BuildObjectBody obp self k c = some c') :
    ObjectContext.BuildObjectBody obp self' k c = some c' := by
  unfold ObjectContext.BuildObjectBody at h ⊢
  rw [GetDependenciesInt_self obp self self'] at h
  exact bind_mono (fun a ha => ha) (fun a b hab => RequestBuildObject_mono hs k a b hab) h

theorem exec_succ (obp : IObjectBuilderProvider K V) :
    ∀ fuel, SelfLE (exec obp fuel) (exec obp (fuel + 1)) := by
  intro fuel
  induction fuel with
  | zero => intro X c c' h; simp [exec] at h
  | succ fuel ih =>
    intro X c c' h
    cases X with
    | BuildObject address =>
      simp only [exec] at h ⊢
      exact BuildObjectBody_mono obp ih address c c' h
    | callBack cb node =>
      simp only [exec] at h ⊢
      exact invokeCallBack_mono ih cb node c c' h
    | buildObject node =>
      simp only [exec] at h ⊢
      exact buildObject_mono ih node c c' h

/-- More fuel does not change a result. -/
theorem exec_mono (obp : IObjectBuilderProvider K V) (fuel fuel' : Nat) (h : fuel ≤ fuel') :
    SelfLE (exec obp fuel) (exec obp fuel') := by
  induction h with
  | refl => intro X c c' h; exact h
  | step _ ih => intro X c c' h; exact exec_succ obp _ X c c' (ih X c c' h)

end FuelMono2

end dependencygraph

namespace dependencygraph

section Steps

variable {K V : Type} [DecidableEq K] [Inhabited V]

theorem exec_BuildObject_requested (obp : IObjectBuilderProvider K V) (f : Nat) (k : K)
    (c : ObjectContext K V) (n : ObjectBuilderInfo K V) (hk : c._values k = some n)
    (hl : n._buildRequestCount = 1) : exec obp (f + 1) (Call.BuildObject k) c = some c :=
  BuildObject_requested obp f k c n hk hl

/-- The loop of the build job when every dependency has its build requested and is
built: the context stays and the map binds the dependencies to their values. -/
theorem collect_all_built (obp : IObjectBuilderProvider K V) (f : Nat)
    (c : ObjectContext K V) :
    ∀ (ds : List K) (acc : K → Option V),
      (∀ d ∈ ds, ∃ n, c._values d = some n ∧ n._buildRequestCount = 1) →
      (∀ d ∈ ds, c.getState d = some ObjectBuildingState.ObjectBuilt) →
      collectBuiltDependencies (exec obp (f + 1)) ds acc c
        = some (c, some (fun j => if j ∈ ds then c.getBuiltObject j else acc j)) := by
  intro ds
  induction ds with
  | nil => intro acc _ _; simp [collectBuiltDependencies]
  | cons d rest ih =>
    intro acc h1 h2
    obtain ⟨n, hn, hl⟩ := h1 d (List.mem_cons_self _ _)
    have hs := h2 d (List.mem_cons_self _ _)
    rw [getState_eq c d n hn] at hs
    simp only [Option.some.injEq] at hs
    simp only [collectBuiltDependencies, exec_BuildObject_requested obp f d c n hn hl, hn, hs,
      ne_eq, not_true_eq_false, if_false]
    rw [ih _ (fun x hx => h1 x (List.mem_cons_of_mem _ hx))
      (fun x hx => h2 x (List.mem_cons_of_mem _ hx))]
    congr 3
    funext j
    by_cases hj : j ∈ rest
    · simp [hj]
    · by_cases e : j = d
      · subst e; simp [hj, ObjectContext.getBuiltObject, hn]
      · simp [hj, e]

/-- The loop of the build job when some dependency is not built: the context stays and
no map is produced. -/
theorem collect_not_built (obp : IObjectBuilderProvider K V) (f : Nat)
    (c : ObjectContext K V) :
    ∀ (ds : List K) (acc : K → Option V),
      (∀ d ∈ ds, ∃ n, c._values d = some n ∧ n._buildRequestCount = 1) →
      (∃ d ∈ ds, c.getState d ≠ some ObjectBuildingState.ObjectBuilt) →
      collectBuiltDependencies (exec obp (f + 1)) ds acc c = some (c, none) := by
  intro ds
  induction ds with
  | nil => intro acc _ h; obtain ⟨d, hd, _⟩ := h; simp at hd
  | cons d rest ih =>
    intro acc h1 h2
    obtain ⟨n, hn, hl⟩ := h1 d (List.mem_cons_self _ _)
    simp only [collectBuiltDependencies, exec_BuildObject_requested obp f d c n hn hl, hn]
    by_cases hs : n._state = ObjectBuildingState.ObjectBuilt
    · simp only [hs, ne_eq, not_true_eq_false, if_false]
      apply ih _ (fun x hx => h1 x (List.mem_cons_of_mem _ hx))
      obtain ⟨x, hx, hxs⟩ := h2
      rcases List.mem_cons.1 hx with e | e
      · subst e
        rw [getState_eq c x n hn, hs] at hxs
        exact absurd rfl hxs
      · exact ⟨x, e, hxs⟩
    · simp [hs]

/-- `SetObjectBuilt` on a node without waiting callbacks. -/
theorem SetObjectBuilt_quiet
    (self : Call K → ObjectContext K V → Option (ObjectContext K V)) (k : K) (v : V)
    (c : ObjectContext K V) (n : ObjectBuilderInfo K V) (hk : c._values k = some n)
    (hpb : n._postBuildCallBacks = []) :
    ObjectBuilderInfo.SetObjectBuilt self k v c
      = some ((c.modify k (fun m => { m with builtObject := v })).setState k
          ObjectBuildingState.ObjectBuilt) := by
  unfold ObjectBuilderInfo.SetObjectBuilt
  apply launchPostBuildCallBacks_id
  intro m hm
  rw [setState_of_some (modify_self _ hk)] at hm
  simp [hk] at hm
  rw [← hm]
  exact hpb

/-- `SetObjectFailed` on a node without waiting callbacks. -/
theorem SetObjectFailed_quiet
    (self : Call K → ObjectContext K V → Option (ObjectContext K V)) (k : K) (msg : String)
    (c : ObjectContext K V) (n : ObjectBuilderInfo K V) (hk : c._values k = some n)
    (hpb : n._postBuildCallBacks = []) (hpdk : n._postDependenciesKnownCallBacks = []) :
    ObjectBuilderInfo.SetObjectFailed self k msg c
      = some ((c.modify k (fun m => { m with exception := some msg })).setState k
          ObjectBuildingState.Failure) := by
  unfold ObjectBuilderInfo.SetObjectFailed
  rw [launchPostDependenciesKnownCallBacks_id]
  · simp only [Option.some_bind]
    apply launchPostBuildCallBacks_id
    intro m hm
    rw [setState_of_some (modify_self _ hk)] at hm
    simp [hk] at hm
    rw [← hm]
    exact hpb
  · intro m hm
    rw [setState_of_some (modify_self _ hk)] at hm
    simp [hk] at hm
    rw [← hm]
    exact hpdk

end Steps

end dependencygraph

namespace dependencygraph

section JobRun

variable {K V : Type} [DecidableEq K] [Inhabited V]

/-- The context after the writes of a setter. -/
theorem finished_spec (c0 : ObjectContext K V) (k : K) (n : ObjectBuilderInfo K V)
    (hk : c0._values k = some n) (g : ObjectBuilderInfo K V → ObjectBuilderInfo K V)
    (s : ObjectBuildingState) :
    ((c0.modify k g).setState k s)._values k = some { g n with _state := s } ∧
    (∀ j, j ≠ k → ((c0.modify k g).setState k s)._values j = c0._values j) ∧
    (∀ j, jobCount ((c0.modify k g).setState k s) j = jobCount c0 j) ∧
    (∀ j, buildCount ((c0.modify k g).setState k s) j = buildCount c0 j) := by
  have hE := setState_of_some (modify_self g hk) s
  rw [hE]
  refine ⟨by simp [hk], fun j e => by simp [e], fun j => ?_, fun j => ?_⟩
  · simp [jobCount, List.count_append, List.count_singleton]
  · simp [buildCount, List.count_append, List.count_singleton]

/-- The build job of a node without waiting callbacks whose dependencies all have their
build requested: it returns, writes only its own node and records at most the call of
the builder. -/
theorem job_run (obp : IObjectBuilderProvider K V) (f : Nat) (c : ObjectContext K V) (k : K)
    (n : ObjectBuilderInfo K V) (b : IObjectBuilder K V) (hk : c._values k = some n)
    (hpb : n._postBuildCallBacks = []) (hpdk : n._postDependenciesKnownCallBacks = [])
    (hb : n.objectBuilder = some b)
    (hdeps : ∀ d ∈ n.dependencies, ∃ m, c._values d = some m ∧ m._buildRequestCount = 1) :
    ∃ c', exec obp (f + 2) (Call.buildObject k) c = some c' ∧
      (∀ j, j ≠ k → c'._values j = c._values j) ∧
      (∀ j, jobCount c' j = jobCount c j) ∧
      (∀ j, j ≠ k → buildCount c' j = buildCount c j) ∧
      ∃ n', c'._values k = some n' ∧ n'._buildRequestCount = n._buildRequestCount ∧
        n'.dependencies = n.dependencies ∧ buildReached n'._state = true ∧
        ((∃ d ∈ n.dependencies, c.getState d ≠ some ObjectBuildingState.ObjectBuilt) →
          n'._state = ObjectBuildingState.Failure ∧
          n'.exception = some "Failed to source dependency" ∧
          buildCount c' k = buildCount c k) ∧
        ((∀ d ∈ n.dependencies, c.getState d = some ObjectBuildingState.ObjectBuilt) →
          buildCount c' k = buildCount c k + 1 ∧
          (∀ v, b.BuildObject k (builtDependenciesOf c n.dependencies) = some v →
            n'._state = ObjectBuildingState.ObjectBuilt ∧ n'.builtObject = v) ∧
          (b.BuildObject k (builtDependenciesOf c n.dependencies) = none →
            n'._state = ObjectBuildingState.Failure ∧
            n'.exception = some "Failed to build object dependency")) := by
  have hbr : ∀ j, buildCount (c.record (Event.BuildObject k)) j
      = buildCount c j + if j = k then 1 else 0 := by
    intro j
    rw [buildCount_record]
    by_cases e : j = k
    · subst e; simp
    · have : ¬ (Event.BuildObject k = Event.BuildObject j) := by
        intro x; cases x; exact e rfl
      simp [e, this]
  have hjr : ∀ j, jobCount (c.record (Event.BuildObject k)) j = jobCount c j := by
    intro j; rw [jobCount_record]; simp
  by_cases hall : ∀ d ∈ n.dependencies, c.getState d = some ObjectBuildingState.ObjectBuilt
  · have hcol := collect_all_built obp f c n.dependencies (fun _ => none) hdeps hall
    have hm : (fun j => if j ∈ n.dependencies then c.getBuiltObject j else none)
        = builtDependenciesOf c n.dependencies := rfl
    rw [hm] at hcol
    cases hv : b.BuildObject k (builtDependenciesOf c n.dependencies) with
    | some v =>
      obtain ⟨s1, s2, s3, s4⟩ := finished_spec (c.record (Event.BuildObject k)) k n hk
        (fun m => { m with builtObject := v }) ObjectBuildingState.ObjectBuilt
      refine ⟨_, ?_, s2, fun j => by rw [s3, hjr], fun j e => by rw [s4, hbr]; simp [e],
        _, s1, rfl, rfl, rfl, ?_, ?_⟩
      · simp only [exec, ObjectBuilderInfo.buildObject, hk, hcol, Option.bind, hb, hv]
        exact SetObjectBuilt_quiet _ k v _ n hk hpb
      · intro ⟨d, hd, hx⟩; exact absurd (hall d hd) hx
      · intro _
        refine ⟨by rw [s4, hbr]; simp, fun w hw => ?_, fun hw => by cases hw⟩
        cases hw
        exact ⟨rfl, rfl⟩
    | none =>
      obtain ⟨s1, s2, s3, s4⟩ := finished_spec (c.record (Event.BuildObject k)) k n hk
        (fun m => { m with exception := some "Failed to build object dependency" })
        ObjectBuildingState.Failure
      refine ⟨_, ?_, s2, fun j => by rw [s3, hjr], fun j e => by rw [s4, hbr]; simp [e],
        _, s1, rfl, rfl, rfl, ?_, ?_⟩
      · simp only [exec, ObjectBuilderInfo.buildObject, hk, hcol, Option.bind, hb, hv]
        exact SetObjectFailed_quiet _ k _ _ n hk hpb hpdk
      · intro ⟨d, hd, hx⟩; exact absurd (hall d hd) hx
      · intro _
        exact ⟨by rw [s4, hbr]; simp, fun w hw => (by cases hw), fun _ => ⟨rfl, rfl⟩⟩
  · have hex : ∃ d ∈ n.dependencies, c.getState d ≠ some ObjectBuildingState.ObjectBuilt := by
      by_contra x
      apply hall
      intro d hd
      by_contra y
      exact x ⟨d, hd, y⟩
    have hcol := collect_not_built obp f c n.dependencies (fun _ => none) hdeps hex
    obtain ⟨s1, s2, s3, s4⟩ := finished_spec c k n hk
      (fun m => { m with exception := some "Failed to source dependency" })
      ObjectBuildingState.Failure
    refine ⟨_, ?_, s2, s3, fun j _ => s4 j, _, s1, rfl, rfl, rfl, ?_, ?_⟩
    · simp only [exec, ObjectBuilderInfo.buildObject, hk, hcol]
      exact SetObjectFailed_quiet _ k _ _ n hk hpb hpdk
    · intro _
      exact ⟨rfl, rfl, s4 k⟩
    · intro x; exact absurd x hall

end JobRun

end dependencygraph

namespace dependencygraph

section Transfer

variable {K V : Type} [DecidableEq K] [Inhabited V]

theorem Same.same_refl (c : ObjectContext K V) (j : K) : Same c c j := ⟨rfl, rfl, rfl⟩

theorem Same.andThen {c1 c2 c3 : ObjectContext K V} {j : K} (h12 : Same c1 c2 j)
    (h23 : Same c2 c3 j) : Same c1 c3 j :=
  ⟨h23.1.trans h12.1, h23.2.1.trans h12.2.1, h23.2.2.trans h12.2.2⟩

theorem Absent.persist {c c' : ObjectContext K V} {j : K} (h : Absent c j)
    (hs : Same c c' j) : Absent c' j :=
  ⟨hs.1.trans h.1, hs.2.1.trans h.2.1, hs.2.2.trans h.2.2⟩

theorem declared_of_discovered {obp : IObjectBuilderProvider K V} {j : K}
    {b : IObjectBuilder K V} {ds : List K} (hb : obp j = some b)
    (hd : b.GetDependencies j = some ds) : declared obp j = ds := by
  simp [declared, hb, hd]

theorem builtDependenciesOf_congr (c c' : ObjectContext K V) {ds : List K}
    (h : ∀ d ∈ ds, c'._values d = c._values d) :
    builtDependenciesOf c' ds = builtDependenciesOf c ds := by
  funext j
  unfold builtDependenciesOf
  by_cases hj : j ∈ ds
  · simp [hj, ObjectContext.getBuiltObject, h j hj]
  · simp [hj]

/-- A finished record stays finished when its node, its journal counts and the nodes of
its declared dependencies stay. -/
theorem Done.preserved {obp : IObjectBuilderProvider K V} {c c' : ObjectContext K V} {j : K}
    (h : Done obp c j) (hs : Same c c' j)
    (hd : ∀ d ∈ declared obp j, c'._values d = c._values d) : Done obp c' j := by
  obtain ⟨hv, hj, hb⟩ := hs
  have hst : c'.getState j = c.getState j := by simp [ObjectContext.getState, hv]
  have hbo : c'.getBuiltObject j = c.getBuiltObject j := by
    simp [ObjectContext.getBuiltObject, hv]
  have hdl : c'.getDependencyList j = c.getDependencyList j := by
    simp [ObjectContext.getDependencyList, hv]
  have hds : ∀ d ∈ declared obp j, c'.getState d = c.getState d := by
    intro d hdd; simp [ObjectContext.getState, hd d hdd]
  refine ⟨?_, ?_, ?_, ?_, ?_, ?_, ?_⟩
  · rw [hv]; exact h.node
  · intro x; rw [hst, hj, hb]; exact h.noBuilder x
  · intro b x y; rw [hst, hj, hb, hv]; exact h.discoveryFailed b x y
  · intro b ds x y; rw [hdl, hj]; exact h.discovered b ds x y
  · intro b ds x y z
    rw [hst, hb, hv]
    have e := declared_of_discovered x y
    apply h.dependencyFailed b ds x y
    obtain ⟨d, hd1, hd2⟩ := z
    exact ⟨d, hd1, by rw [← hds d (e ▸ hd1)]; exact hd2⟩
  · intro b ds v x y z w
    rw [hst, hbo, hb]
    have e := declared_of_discovered x y
    apply h.built b ds v x y
    · intro d hd1; rw [← hds d (e ▸ hd1)]; exact z d hd1
    · rw [← builtDependenciesOf_congr c c' (fun d hd1 => hd d (e ▸ hd1))]
      exact w
  · intro b ds x y z w
    rw [hst, hb, hv]
    have e := declared_of_discovered x y
    apply h.buildFailed b ds x y
    · intro d hd1; rw [← hds d (e ▸ hd1)]; exact z d hd1
    · rw [← builtDependenciesOf_congr c c' (fun d hd1 => hd d (e ▸ hd1))]
      exact w

theorem Done.present {obp : IObjectBuilderProvider K V} {c : ObjectContext K V} {j : K}
    (h : Done obp c j) (ha : Absent c j) : False := by
  obtain ⟨n, hn, _⟩ := h.node
  rw [ha.1] at hn
  cases hn

/-- The finished keys of a ready context are finished together with all they reach. -/
theorem Ready.closed {obp : IObjectBuilderProvider K V} {S : K → Prop} {rank : K → Nat}
    {c : ObjectContext K V} {r : Nat} (h : Ready obp S rank c r) {j : K} (hj : S j)
    (hr : rank j ≤ r) (hd : Done obp c j) : ∀ d ∈ declared obp j, Done obp c d := by
  rcases h j hj hr with x | x
  · exact absurd x (fun y => hd.present y)
  · exact x.2

/-- A ready context stays ready when the finished keys keep their nodes and the
untouched keys stay untouched or get finished. -/
theorem Ready.transfer {obp : IObjectBuilderProvider K V} {S : K → Prop} {rank : K → Nat}
    (hA : Acyclic obp S rank) {c c' : ObjectContext K V} {r : Nat}
    (h : Ready obp S rank c r)
    (hsame : ∀ j, S j → rank j ≤ r → Done obp c j → Same c c' j)
    (habs : ∀ j, S j → rank j ≤ r → Absent c j →
      Absent c' j ∨ (Done obp c' j ∧ ∀ d ∈ declared obp j, Done obp c' d)) :
    Ready obp S rank c' r := by
  have key : ∀ j, S j → rank j ≤ r → Done obp c j → Done obp c' j := by
    intro j hj hr hd
    refine hd.preserved (hsame j hj hr hd) (fun d hdd => ?_)
    obtain ⟨sd, rd⟩ := hA.closed j hj d hdd
    exact (hsame d sd (by omega) (h.closed hj hr hd d hdd)).1
  intro j hj hr
  rcases h j hj hr with x | x
  · exact habs j hj hr x
  · refine Or.inr ⟨key j hj hr x.1, fun d hdd => ?_⟩
    obtain ⟨sd, rd⟩ := hA.closed j hj d hdd
    exact key d sd (by omega) (x.2 d hdd)

end Transfer

end dependencygraph

namespace dependencygraph

section JobDone

variable {K V : Type} [DecidableEq K] [Inhabited V]

/-- The build job of a requested node without waiting callbacks whose declared
dependencies are all finished leaves the node finished and writes no other node. -/
theorem job_done (obp : IObjectBuilderProvider K V) (f : Nat) (c : ObjectContext K V) (k : K)
    (b : IObjectBuilder K V) (ds : List K) (hb : obp k = some b)
    (hds : b.GetDependencies k = some ds) (n : ObjectBuilderInfo K V)
    (hk : c._values k = some n) (hl : n._buildRequestCount = 1)
    (hpb : n._postBuildCallBacks = []) (hpdk : n._postDependenciesKnownCallBacks = [])
    (hob : n.objectBuilder = some b) (hdep : n.dependencies = ds)
    (hjc : jobCount c k = 1) (hbc : buildCount c k = 0)
    (hdone : ∀ d ∈ ds, Done obp c d) (hkds : k ∉ ds) :
    ∃ c', exec obp (f + 2) (Call.buildObject k) c = some c' ∧ Done obp c' k ∧
      (∀ j, j ≠ k → Same c c' j) := by
  obtain ⟨c', he, h1, h2, h3, n', hk', hl', hd', ht', hfail, hbuilt⟩ :=
    job_run obp f c k n b hk hpb hpdk hob (by
      intro d hd
      rw [hdep] at hd
      obtain ⟨m, hm, hml, _⟩ := (hdone d hd).node
      exact ⟨m, hm, hml⟩)
  rw [hdep] at hfail hbuilt
  have hvs : ∀ d ∈ ds, c'._values d = c._values d := by
    intro d hd
    exact h1 d (fun e => hkds (e ▸ hd))
  have hst : ∀ d ∈ ds, c'.getState d = c.getState d := by
    intro d hd; simp [ObjectContext.getState, hvs d hd]
  have hmap := builtDependenciesOf_congr c c' hvs
  have hsk : c'.getState k = some n'._state := getState_eq c' k n' hk'
  have hex : (c'._values k).bind (fun n => n.exception) = n'.exception := by simp [hk']
  refine ⟨c', he, ⟨⟨n', hk', by rw [hl', hl], ht'⟩, ?_, ?_, ?_, ?_, ?_, ?_⟩,
    fun j e => ⟨h1 j e, h2 j, h3 j e⟩⟩
  · intro x; rw [hb] at x; cases x
  · intro b' x y
    rw [hb] at x; cases x
    rw [hds] at y; cases y
  · intro b' ds' x y
    rw [hb] at x; cases x
    rw [hds] at y; cases y
    exact ⟨by simp [ObjectContext.getDependencyList, hk', hd', hdep], by rw [h2, hjc]⟩
  · intro b' ds' x y z
    rw [hb] at x; cases x
    rw [hds] at y; cases y
    obtain ⟨d, hd1, hd2⟩ := z
    obtain ⟨r1, r2, r3⟩ := hfail ⟨d, hd1, by rw [← hst d hd1]; exact hd2⟩
    exact ⟨by rw [hsk, r1], by rw [hex, r2], by rw [r3, hbc]⟩
  · intro b' ds' v x y z w
    rw [hb] at x; cases x
    rw [hds] at y; cases y
    obtain ⟨r1, r2, _⟩ := hbuilt (fun d hd => by rw [← hst d hd]; exact z d hd)
    rw [hmap] at w
    obtain ⟨r4, r5⟩ := r2 v w
    exact ⟨by rw [hsk, r4], by simp [ObjectContext.getBuiltObject, hk', r5], by rw [r1, hbc]⟩
  · intro b' ds' x y z w
    rw [hb] at x; cases x
    rw [hds] at y; cases y
    obtain ⟨r1, _, r3⟩ := hbuilt (fun d hd => by rw [← hst d hd]; exact z d hd)
    rw [hmap] at w
    obtain ⟨r4, r5⟩ := r3 w
    exact ⟨by rw [hsk, r4], by rw [hex, r5], by rw [r1, hbc]⟩

end JobDone

end dependencygraph

namespace dependencygraph

section OffK

variable {K V : Type} [DecidableEq K] [Inhabited V]

theorem Ready.mono {obp : IObjectBuilderProvider K V} {S : K → Prop} {rank : K → Nat}
    {c : ObjectContext K V} {r r' : Nat} (h : Ready obp S rank c r) (hr : r' ≤ r) :
    Ready obp S rank c r' :=
  fun j hj hjr => h j hj (by omega)

/-- A key of a ready context that was finished and kept its node is finished. -/
theorem Ready.done_of_same {obp : IObjectBuilderProvider K V} {S : K → Prop}
    {rank : K → Nat} {c c' : ObjectContext K V} {r : Nat} (h' : Ready obp S rank c' r)
    {x : K} (hx : S x) (hr : rank x ≤ r) (hd : Done obp c x) (hs : Same c c' x) :
    Done obp c' x := by
  rcases h' x hx hr with y | y
  · obtain ⟨n, hn, _⟩ := hd.node
    have := y.1
    rw [hs.1, hn] at this
    cases this
  · exact y.1

/-- Writes to a node of higher rank keep a context ready. -/
theorem Ready.off {obp : IObjectBuilderProvider K V} {S : K → Prop} {rank : K → Nat}
    (hA : Acyclic obp S rank) {c c' : ObjectContext K V} {r : Nat} {k : K}
    (h : Ready obp S rank c r) (hk : r < rank k) (hs : ∀ j, j ≠ k → Same c c' j) :
    Ready obp S rank c' r := by
  have hne : ∀ j, rank j ≤ r → j ≠ k := by
    intro j hj e; subst e; omega
  exact h.transfer hA (fun j _ hr _ => hs j (hne j hr))
    (fun j _ hr ha => Or.inl (ha.persist (hs j (hne j hr))))

theorem jobCount_fetchSub (c : ObjectContext K V) (k j : K) :
    jobCount (c.fetchSub k) j = jobCount c j := by
  unfold ObjectContext.fetchSub
  cases c._values k with
  | none => rfl
  | some n => simp [jobCount_modify, jobCount_record]

theorem buildCount_fetchSub (c : ObjectContext K V) (k j : K) :
    buildCount (c.fetchSub k) j = buildCount c j := by
  unfold ObjectContext.fetchSub
  cases c._values k with
  | none => rfl
  | some n => simp [buildCount_modify, buildCount_record]

theorem fetchSub_self {c : ObjectContext K V} {k : K} {n : ObjectBuilderInfo K V}
    (hk : c._values k = some n) :
    (c.fetchSub k)._values k = some { n with
      _outstandingDependenciesCount := n._outstandingDependenciesCount - 1 } := by
  rw [fetchSub_of_some hk]
  simp [hk]

theorem fetchSub_other (c : ObjectContext K V) (k j : K) (hj : j ≠ k) :
    (c.fetchSub k)._values j = c._values j := by
  unfold ObjectContext.fetchSub
  cases c._values k with
  | none => rfl
  | some n => simp [hj]

/-- The context after an `Armed` node has counted one dependency down. -/
theorem Armed.countDown {c : ObjectContext K V} {k : K} {b : IObjectBuilder K V}
    {ds : List K} {m : Nat} (h : Armed c k b ds (m + 1)) :
    Armed (c.fetchSub k) k b ds m := by
  obtain ⟨n, hn, a1, a2, a3, a4, a5, a6, a7⟩ := h.node
  refine ⟨⟨_, fetchSub_self hn, a1, a2, ?_, a4, a5, a6, a7⟩,
    by rw [jobCount_fetchSub]; exact h.jobs, by rw [buildCount_fetchSub]; exact h.builds⟩
  simp only [a3]
  push_cast
  omega

theorem same_fetchSub (c : ObjectContext K V) (k j : K) (hj : j ≠ k) :
    Same c (c.fetchSub k) j :=
  ⟨fetchSub_other c k j hj, jobCount_fetchSub c k j, buildCount_fetchSub c k j⟩

theorem same_modify (c : ObjectContext K V) (k : K)
    (g : ObjectBuilderInfo K V → ObjectBuilderInfo K V) (j : K) (hj : j ≠ k) :
    Same c (c.modify k g) j :=
  ⟨modify_other c k g j hj, rfl, rfl⟩

theorem same_recordJob (c : ObjectContext K V) (k j : K) (hj : j ≠ k) :
    Same c (c.record (Event.RegisterJob k)) j := by
  refine ⟨rfl, ?_, ?_⟩
  · rw [jobCount_record]
    have : ¬ (Event.RegisterJob k = Event.RegisterJob j) := by
      intro x; cases x; exact hj rfl
    simp [this]
  · rw [buildCount_record]; simp

end OffK

end dependencygraph

namespace dependencygraph

section CallbackRun

variable {K V : Type} [DecidableEq K] [Inhabited V]

/-- A `dependencyBuilt k` callback that is not the last one only counts down. -/
theorem mid_callback (obp : IObjectBuilderProvider K V) (f : Nat) (c : ObjectContext K V)
    (k d : K) (b : IObjectBuilder K V) (ds : List K) (m : Nat)
    (h : Armed c k b ds (m + 2)) :
    exec obp (f + 1) (Call.callBack (CallBack.dependencyBuilt k) d) c
      = some (c.fetchSub k) := by
  obtain ⟨n, hn, _, _, a3, _⟩ := h.node
  have : n._outstandingDependenciesCount > 1 := by rw [a3]; push_cast; omega
  simp only [exec, invokeCallBack, hn, this, if_true]

/-- The last `dependencyBuilt k` callback submits the build job, which runs at once and
leaves `k` finished; no other node is written. -/
theorem last_callback (obp : IObjectBuilderProvider K V) (c : ObjectContext K V)
    (k d : K) (b : IObjectBuilder K V) (ds : List K) (hb : obp k = some b)
    (hds : b.GetDependencies k = some ds) (h : Armed c k b ds 1)
    (hdone : ∀ x ∈ ds, Done obp c x) (hkds : k ∉ ds)
    (hoff : ∀ x ∈ ds, ∀ y ∈ declared obp x, y ≠ k) :
    ∃ c', (∀ f, exec obp (f + 3) (Call.callBack (CallBack.dependencyBuilt k) d) c = some c') ∧
      Done obp c' k ∧ (∀ j, j ≠ k → Same c c' j) := by
  obtain ⟨n, hn, a1, a2, a3, a4, a5, a6, a7⟩ := h.node
  have hnot : ¬ n._outstandingDependenciesCount > 1 := by rw [a3]; simp
  have hs13 : ∀ j, j ≠ k → Same c ((c.fetchSub k).record
      (Event.RegisterJob k)) j :=
    fun j hj => (same_fetchSub c k j hj).andThen (same_recordJob _ k j hj)
  have hjob : jobCount ((c.fetchSub k).record
      (Event.RegisterJob k)) k = 1 := by
    rw [jobCount_record, jobCount_fetchSub, h.jobs]; simp
  have hbuild : buildCount ((c.fetchSub k).record
      (Event.RegisterJob k)) k = 0 := by
    rw [buildCount_record, buildCount_fetchSub, h.builds]; simp
  obtain ⟨c', he, hd', hsame⟩ := job_done obp 0 _ k b ds hb hds
    { n with _outstandingDependenciesCount := n._outstandingDependenciesCount - 1 }
    (by rw [record_values]; exact fetchSub_self hn) a2 a4 a5 a6 a7 hjob hbuild
    (fun x hx => (hdone x hx).preserved (hs13 x (fun e => hkds (e ▸ hx)))
      (fun y hy => (hs13 y (hoff x hx y hy)).1)) hkds
  refine ⟨c', fun f => ?_, hd', fun j hj => (hs13 j hj).andThen (hsame j hj)⟩
  simp only [exec, invokeCallBack, hn, hnot, if_false, SingleThreadedJobQueue.RegisterJob]
  exact exec_mono obp 2 (f + 2) (by omega) _ _ _ he

end CallbackRun

end dependencygraph

namespace dependencygraph

section Loop

variable {K V : Type} [DecidableEq K] [Inhabited V]

/-- Registering a `dependencyBuilt` callback on a finished node invokes it at once. -/
theorem RegisterPostBuildCallBack_done (obp : IObjectBuilderProvider K V)
    (self : Call K → ObjectContext K V → Option (ObjectContext K V)) (c : ObjectContext K V)
    (d : K) (cb : CallBack K) (hd : Done obp c d) :
    ObjectBuilderInfo.RegisterPostBuildCallBack self d cb c = self (Call.callBack cb d) c := by
  obtain ⟨n, hn, _, ht⟩ := hd.node
  simp [ObjectBuilderInfo.RegisterPostBuildCallBack, hn, ht]

/-- The loop of the arming callback of `k` over the rest of its dependency list, when
`BuildObject` on every dependency is known to finish it. -/
theorem request_loop (obp : IObjectBuilderProvider K V) (S : K → Prop) (rank : K → Nat)
    (hA : Acyclic obp S rank) (k : K) (b : IObjectBuilder K V) (ds : List K) (r : Nat)
    (hS : S k) (hr : rank k = r + 1) (hb : obp k = some b)
    (hds : b.GetDependencies k = some ds)
    (IH : ∀ d, S d → rank d ≤ r → ∀ c, Ready obp S rank c (rank d) →
      ∃ c' f0, (∀ f, f0 ≤ f → exec obp f (Call.BuildObject d) c = some c') ∧
        Done obp c' d ∧ Ready obp S rank c' (rank d) ∧ Frame obp S rank d c c') :
    ∀ rest, (∀ d ∈ rest, d ∈ ds) → rest ≠ [] → ∀ c, Armed c k b ds rest.length →
      (∀ d ∈ ds, d ∉ rest → Done obp c d) → Ready obp S rank c r →
      ∃ c' f0, (∀ f, f0 ≤ f → requestDependencies (exec obp f) k rest c = some c') ∧
        Done obp c' k ∧ (∀ d ∈ ds, Done obp c' d) ∧ Ready obp S rank c' r ∧
        (∀ j, j ≠ k → rank k ≤ rank j → Same c c' j) ∧
        (∀ j, S j → rank j ≤ r → Done obp c j → Same c c' j) := by
  have hdecl : declared obp k = ds := declared_of_discovered hb hds
  have hlow : ∀ d ∈ ds, S d ∧ rank d ≤ r := by
    intro d hd
    obtain ⟨s1, s2⟩ := hA.closed k hS d (hdecl ▸ hd)
    exact ⟨s1, by omega⟩
  have hkds : k ∉ ds := fun x => by have := (hlow k x).2; omega
  have hoff : ∀ x ∈ ds, ∀ y ∈ declared obp x, y ≠ k := by
    intro x hx y hy e
    subst e
    have := (hA.closed x (hlow x hx).1 y hy).2
    have := (hlow x hx).2
    omega
  intro rest
  induction rest with
  | nil => intro _ h; exact absurd rfl h
  | cons d rest' ih =>
    intro hsub _ c harm hproc hready
    obtain ⟨sd, rd⟩ := hlow d (hsub d (List.mem_cons_self _ _))
    obtain ⟨c1, f1, he1, hdone1, hready1d, hf1, hf2⟩ := IH d sd rd c (hready.mono rd)
    have hkd : k ≠ d := fun e => hkds (e ▸ hsub d (List.mem_cons_self _ _))
    have same1 : ∀ j, S j → rank j ≤ r → Done obp c j → Same c c1 j := by
      intro j hj hjr hdj
      by_cases hc : rank j ≤ rank d
      · exact hf2 j hj hc hdj
      · exact hf1 j (fun e => by subst e; omega) (by omega)
    have hready1 : Ready obp S rank c1 r := by
      refine hready.transfer hA same1 (fun j hj hjr ha => ?_)
      by_cases hc : rank j ≤ rank d
      · exact hready1d j hj hc
      · exact Or.inl (ha.persist (hf1 j (fun e => by subst e; omega) (by omega)))
    have hsk : Same c c1 k := hf1 k hkd (by omega)
    have harm1 : Armed c1 k b ds (rest'.length + 1) := by
      obtain ⟨n, hn, rest⟩ := harm.node
      exact ⟨⟨n, by rw [hsk.1]; exact hn, rest⟩, by rw [hsk.2.1]; exact harm.jobs,
        by rw [hsk.2.2]; exact harm.builds⟩
    have hproc1 : ∀ x ∈ ds, x ∉ rest' → Done obp c1 x := by
      intro x hx hxr
      by_cases e : x = d
      · subst e; exact hdone1
      · have hdx := hproc x hx (by
          intro y
          rcases List.mem_cons.1 y with y | y
          · exact e y
          · exact hxr y)
        exact hready1.done_of_same (hlow x hx).1 (hlow x hx).2 hdx
          (same1 x (hlow x hx).1 (hlow x hx).2 hdx)
    by_cases hrest : rest' = []
    · subst hrest
      obtain ⟨c', hlast, hdk, hsame⟩ := last_callback obp c1 k d b ds hb hds harm1
        (fun x hx => hproc1 x hx (by simp)) hkds hoff
      have hready' : Ready obp S rank c' r := hready1.off hA (by omega) hsame
      refine ⟨c', max f1 3, fun f hf => ?_, hdk, fun x hx => ?_, hready', fun j hj hjr => ?_,
        fun j hj hjr hdj => ?_⟩
      · obtain ⟨f', rfl⟩ : ∃ f', f = f' + 3 := ⟨f - 3, by omega⟩
        simp only [requestDependencies, he1 (f' + 3) (by omega), Option.some_bind,
          RegisterPostBuildCallBack_done obp _ c1 d _ hdone1, hlast f']
      · exact hready'.done_of_same (hlow x hx).1 (hlow x hx).2 (hproc1 x hx (by simp))
          (hsame x (fun e => hkds (e ▸ hx)))
      · exact (hf1 j (fun e => by subst e; omega) (by omega)).andThen (hsame j hj)
      · exact (same1 j hj hjr hdj).andThen (hsame j (fun e => by subst e; omega))
    · obtain ⟨m, hm⟩ : ∃ m, rest'.length = m + 1 := by
        cases rest' with
        | nil => exact absurd rfl hrest
        | cons a t => exact ⟨t.length, rfl⟩
      rw [hm] at harm1
      have hmid := fun f => mid_callback obp f c1 k d b ds m harm1
      have harm2 := harm1.countDown
      rw [← hm] at harm2
      have hs12 : ∀ j, j ≠ k → Same c1 (c1.fetchSub k) j :=
        fun j hj => same_fetchSub c1 k j hj
      have hready2 := hready1.off hA (by omega) hs12
      obtain ⟨c', f2, he2, hdk, hdall, hready', hg1, hg2⟩ := ih
        (fun x hx => hsub x (List.mem_cons_of_mem _ hx)) hrest _ harm2
        (fun x hx hxr => hready2.done_of_same (hlow x hx).1 (hlow x hx).2 (hproc1 x hx hxr)
          (hs12 x (fun e => hkds (e ▸ hx)))) hready2
      refine ⟨c', max (max f1 1) f2, fun f hf => ?_, hdk, hdall, hready', fun j hj hjr => ?_,
        fun j hj hjr hdj => ?_⟩
      · obtain ⟨f', rfl⟩ : ∃ f', f = f' + 1 := ⟨f - 1, by omega⟩
        simp only [requestDependencies, he1 (f' + 1) (by omega), Option.some_bind,
          RegisterPostBuildCallBack_done obp _ c1 d _ hdone1, hmid f']
        exact he2 (f' + 1) (by omega)
      · exact ((hf1 j (fun e => by subst e; omega) (by omega)).andThen (hs12 j hj)).andThen
          (hg1 j hj hjr)
      · have hjk : j ≠ k := fun e => by subst e; omega
        have s1 := same1 j hj hjr hdj
        have d1 := hready1.done_of_same hj hjr hdj s1
        have d2 := hready2.done_of_same hj hjr d1 (hs12 j hjk)
        exact (s1.andThen (hs12 j hjk)).andThen (hg2 j hj hjr d2)

end Loop

end dependencygraph

namespace dependencygraph

section Fresh

variable {K V : Type} [DecidableEq K] [Inhabited V]

theorem same_discover (obp : IObjectBuilderProvider K V) (k : K) (c : ObjectContext K V) :
    (∀ j, j ≠ k → Same c (discover obp k c) j) ∧
    (∀ j, jobCount (discover obp k c) j = jobCount c j) ∧
    (∀ j, buildCount (discover obp k c) j = buildCount c j) := by
  obtain ⟨n, es, hv, _, hjr, _, _, _, _, _, _, e1, e2, _, _⟩ := discover_spec obp k c
  have hj : ∀ j, jobCount (discover obp k c) j = jobCount c j := by
    intro j; simp [jobCount, hjr, List.count_append, e1 j]
  have hb : ∀ j, buildCount (discover obp k c) j = buildCount c j := by
    intro j; simp [buildCount, hjr, List.count_append, e2 j]
  exact ⟨fun j e => ⟨by rw [hv]; simp [e], hj j, hb j⟩, hj, hb⟩

/-- When a `BuildObject` call for the untouched key `k` wrote no other node and left `k`
and its declared dependencies finished, the context is ready again and the frame
holds. -/
theorem close_off {obp : IObjectBuilderProvider K V} {S : K → Prop} {rank : K → Nat}
    (hA : Acyclic obp S rank) {c c' : ObjectContext K V} {k : K} (ha : Absent c k)
    (hsame : ∀ j, j ≠ k → Same c c' j) (hdk : Done obp c' k)
    (hdeps : ∀ d ∈ declared obp k, Done obp c' d)
    (hready : Ready obp S rank c (rank k)) :
    Ready obp S rank c' (rank k) ∧ Frame obp S rank k c c' := by
  have hne : ∀ j, Done obp c j → j ≠ k := by
    intro j hd e
    subst e
    exact hd.present ha
  refine ⟨hready.transfer hA (fun j _ _ hd => hsame j (hne j hd)) (fun j _ _ haj => ?_),
    fun j hj _ => hsame j hj, fun j _ _ hd => hsame j (hne j hd)⟩
  by_cases e : j = k
  · subst e; exact Or.inr ⟨hdk, hdeps⟩
  · exact Or.inl (haj.persist (hsame j e))

/-- `BuildObject` for an untouched key without a builder. -/
theorem fresh_noBuilder (obp : IObjectBuilderProvider K V) (c : ObjectContext K V) (k : K)
    (ha : Absent c k) (hb : obp k = none) :
    ∃ c', (∀ f, exec obp (f + 1) (Call.BuildObject k) c = some c') ∧ Done obp c' k ∧
      (∀ j, j ≠ k → Same c c' j) := by
  obtain ⟨s1, s2, s3⟩ := same_discover obp k c
  have hv : (discover obp k c)._values k = some
      { (ObjectBuilderInfo.new k : ObjectBuilderInfo K V) with
        _state := ObjectBuildingState.NoBuilderAvailable } := by
    simp [discover, hb]
  refine ⟨(discover obp k c).modify k (fun m => { m with _buildRequestCount := 1 }),
    fun f => ?_, ⟨⟨_, modify_self _ hv, rfl, rfl⟩, ?_, ?_, ?_, ?_, ?_, ?_⟩,
    fun j e => (s1 j e).andThen (same_modify _ k _ j e)⟩
  · simp only [exec, ObjectContext.BuildObjectBody, GetDependenciesInt_fresh obp _ k c ha.1,
      Option.some_bind, ObjectBuilderInfo.RequestBuildObject, hv]
    simp [ObjectBuilderInfo.new]
  · intro _
    exact ⟨by simp [ObjectContext.getState, hv], by rw [jobCount_modify, s2, ha.2.1],
      by rw [buildCount_modify, s3, ha.2.2]⟩
  · intro b x; rw [hb] at x; cases x
  · intro b ds x; rw [hb] at x; cases x
  · intro b ds x; rw [hb] at x; cases x
  · intro b ds v x; rw [hb] at x; cases x
  · intro b ds x; rw [hb] at x; cases x

/-- `BuildObject` for an untouched key whose builder throws in `GetDependencies`. -/
theorem fresh_discoveryFailed (obp : IObjectBuilderProvider K V) (c : ObjectContext K V)
    (k : K) (b : IObjectBuilder K V) (ha : Absent c k) (hb : obp k = some b)
    (hd : b.GetDependencies k = none) :
    ∃ c', (∀ f, exec obp (f + 1) (Call.BuildObject k) c = some c') ∧ Done obp c' k ∧
      (∀ j, j ≠ k → Same c c' j) := by
  obtain ⟨s1, s2, s3⟩ := same_discover obp k c
  have hv : (discover obp k c)._values k = some
      { (ObjectBuilderInfo.new k : ObjectBuilderInfo K V) with
        objectBuilder := some b, exception := some "Discovery failed",
        _state := ObjectBuildingState.Failure } := by
    simp [discover, hb, hd]
  refine ⟨(discover obp k c).modify k (fun m => { m with _buildRequestCount := 1 }),
    fun f => ?_, ⟨⟨_, modify_self _ hv, rfl, rfl⟩, ?_, ?_, ?_, ?_, ?_, ?_⟩,
    fun j e => (s1 j e).andThen (same_modify _ k _ j e)⟩
  · simp only [exec, ObjectContext.BuildObjectBody, GetDependenciesInt_fresh obp _ k c ha.1,
      Option.some_bind, ObjectBuilderInfo.RequestBuildObject, hv]
    simp [ObjectBuilderInfo.new]
  · intro x; rw [hb] at x; cases x
  · intro b' x y
    exact ⟨by simp [ObjectContext.getState, hv], by simp [hv],
      by rw [jobCount_modify, s2, ha.2.1], by rw [buildCount_modify, s3, ha.2.2]⟩
  · intro b' ds x y; rw [hb] at x; cases x; rw [hd] at y; cases y
  · intro b' ds x y; rw [hb] at x; cases x; rw [hd] at y; cases y
  · intro b' ds v x y; rw [hb] at x; cases x; rw [hd] at y; cases y
  · intro b' ds x y; rw [hb] at x; cases x; rw [hd] at y; cases y

end Fresh

end dependencygraph

namespace dependencygraph

section Step

variable {K V : Type} [DecidableEq K] [Inhabited V]

/-- `BuildObject` for an untouched key with a discovered dependency list arms the node
and then submits the job or runs the loop over the dependencies. -/
theorem fresh_armed (obp : IObjectBuilderProvider K V) (c : ObjectContext K V)
    (k : K) (b : IObjectBuilder K V) (ds : List K) (ha : Absent c k) (hb : obp k = some b)
    (hd : b.GetDependencies k = some ds) :
    ∃ c2, (∀ f, exec obp (f + 2) (Call.BuildObject k) c =
        if ds.length = 0 then SingleThreadedJobQueue.RegisterJob (exec obp f) k c2
        else requestDependencies (exec obp f) k ds c2) ∧
      Armed c2 k b ds ds.length ∧ (∀ j, j ≠ k → Same c c2 j) := by
  obtain ⟨s1, s2, s3⟩ := same_discover obp k c
  have hv : (discover obp k c)._values k = some
      { (ObjectBuilderInfo.new k : ObjectBuilderInfo K V) with
        objectBuilder := some b, dependencies := ds,
        _state := ObjectBuildingState.DependenciesKnown } := by
    simp [discover, hb, hd]
  have hv1 := modify_self (fun m => { m with _buildRequestCount := 1 }) hv
  have hv2 := modify_self (fun m => { m with
    _outstandingDependenciesCount := (ds.length : Int) }) hv1
  refine ⟨_, fun f => ?_, ⟨⟨_, hv2, rfl, rfl, rfl, rfl, rfl, rfl, rfl⟩, ?_, ?_⟩,
    fun j e => ((s1 j e).andThen (same_modify _ k _ j e)).andThen (same_modify _ k _ j e)⟩
  · simp only [exec, ObjectContext.BuildObjectBody, GetDependenciesInt_fresh obp _ k c ha.1,
      Option.some_bind, ObjectBuilderInfo.RequestBuildObject, hv]
    simp only [ObjectBuilderInfo.new, if_true,
      ObjectBuilderInfo.RegisterPostDependenciesKnownCallBack, hv1, dependenciesKnownReached,
      exec, invokeCallBack]
  · rw [jobCount_modify, jobCount_modify, s2, ha.2.1]
  · rw [buildCount_modify, buildCount_modify, s3, ha.2.2]

/-- One level of the acyclic run: `BuildObject` for a key of `S` finishes it when it
finishes every key of lower rank. -/
theorem acyclic_step (obp : IObjectBuilderProvider K V) (S : K → Prop) (rank : K → Nat)
    (hA : Acyclic obp S rank) (k : K) (hS : S k)
    (IH : ∀ d, S d → rank d < rank k → ∀ c, Ready obp S rank c (rank d) →
      ∃ c' f0, (∀ f, f0 ≤ f → exec obp f (Call.BuildObject d) c = some c') ∧
        Done obp c' d ∧ Ready obp S rank c' (rank d) ∧ Frame obp S rank d c c')
    (c : ObjectContext K V) (hready : Ready obp S rank c (rank k)) :
    ∃ c' f0, (∀ f, f0 ≤ f → exec obp f (Call.BuildObject k) c = some c') ∧
      Done obp c' k ∧ Ready obp S rank c' (rank k) ∧ Frame obp S rank k c c' := by
  rcases hready k hS (le_refl _) with ha | ⟨hdk, _⟩
  · cases hb : obp k with
    | none =>
      obtain ⟨c', he, hd', hs'⟩ := fresh_noBuilder obp c k ha hb
      obtain ⟨r1, r2⟩ := close_off hA ha hs' hd' (by simp [declared, hb]) hready
      refine ⟨c', 1, fun f hf => ?_, hd', r1, r2⟩
      obtain ⟨f', rfl⟩ : ∃ f', f = f' + 1 := ⟨f - 1, by omega⟩
      exact he f'
    | some b =>
      cases hd : b.GetDependencies k with
      | none =>
        obtain ⟨c', he, hd', hs'⟩ := fresh_discoveryFailed obp c k b ha hb hd
        obtain ⟨r1, r2⟩ := close_off hA ha hs' hd' (by simp [declared, hb, hd]) hready
        refine ⟨c', 1, fun f hf => ?_, hd', r1, r2⟩
        obtain ⟨f', rfl⟩ : ∃ f', f = f' + 1 := ⟨f - 1, by omega⟩
        exact he f'
      | some ds =>
        obtain ⟨c2, he2, harm, hs2⟩ := fresh_armed obp c k b ds ha hb hd
        have hdecl : declared obp k = ds := declared_of_discovered hb hd
        by_cases hz : ds = []
        · subst hz
          obtain ⟨n, hn, a1, a2, a3, a4, a5, a6, a7⟩ := harm.node
          have hjob : jobCount (c2.record (Event.RegisterJob k)) k = 1 := by
            rw [jobCount_record, harm.jobs]; simp
          have hbuild : buildCount (c2.record (Event.RegisterJob k)) k = 0 := by
            rw [buildCount_record, harm.builds]; simp
          obtain ⟨c', he, hd', hs'⟩ := job_done obp 0 (c2.record (Event.RegisterJob k)) k b []
            hb hd n hn a2 a4 a5 a6 a7 hjob hbuild (by simp) (by simp)
          have hsame : ∀ j, j ≠ k → Same c c' j := fun j e =>
            ((hs2 j e).andThen (same_recordJob c2 k j e)).andThen (hs' j e)
          obtain ⟨r1, r2⟩ := close_off hA ha hsame hd' (by simp [hdecl]) hready
          refine ⟨c', 4, fun f hf => ?_, hd', r1, r2⟩
          obtain ⟨f', rfl⟩ : ∃ f', f = f' + 2 + 2 := ⟨f - 4, by omega⟩
          rw [he2 (f' + 2)]
          simp only [List.length_nil, if_true, SingleThreadedJobQueue.RegisterJob]
          exact exec_mono obp 2 (f' + 2) (by omega) _ _ _ he
        · obtain ⟨d0, hd0⟩ : ∃ d0, d0 ∈ ds := by
            cases ds with
            | nil => exact absurd rfl hz
            | cons a t => exact ⟨a, List.mem_cons_self _ _⟩
          have hrk := (hA.closed k hS d0 (hdecl ▸ hd0)).2
          obtain ⟨r, hr⟩ : ∃ r, rank k = r + 1 := ⟨rank k - 1, by omega⟩
          have hne : ∀ j, rank j ≤ r → j ≠ k := fun j hj e => by subst e; omega
          have hready0 : Ready obp S rank c r := hready.mono (by omega)
          have hready2 : Ready obp S rank c2 r := hready0.off hA (by omega) hs2
          obtain ⟨c', f0, he, hdk', hdall, hready', hg1, hg2⟩ := request_loop obp S rank hA k b
            ds r hS hr hb hd (fun d sd rd => IH d sd (by omega)) ds (fun _ x => x) hz c2 harm
            (fun x hx hxn => absurd hx hxn) hready2
          have hsameLow : ∀ j, S j → rank j ≤ r → Done obp c j → Same c c' j := by
            intro j hj hjr hdj
            have s1 := hs2 j (hne j hjr)
            exact s1.andThen (hg2 j hj hjr (hready2.done_of_same hj hjr hdj s1))
          have hsameTop : ∀ j, j ≠ k → rank k ≤ rank j → Same c c' j :=
            fun j hj hjr => (hs2 j hj).andThen (hg1 j hj hjr)
          have hdeps' : ∀ d ∈ declared obp k, Done obp c' d := by
            rw [hdecl]; exact hdall
          refine ⟨c', f0 + 2, fun f hf => ?_, hdk', ?_, hsameTop, fun j hj hjr hdj => ?_⟩
          · obtain ⟨f', rfl⟩ : ∃ f', f = f' + 2 := ⟨f - 2, by omega⟩
            rw [he2 f']
            have : ¬ ds.length = 0 := by
              intro x; exact hz (List.length_eq_zero.1 x)
            rw [if_neg this]
            exact he f' (by omega)
          · intro j hj hjr
            by_cases hlow : rank j ≤ r
            · exact hready' j hj hlow
            · by_cases e : j = k
              · subst e; exact Or.inr ⟨hdk', hdeps'⟩
              · have hs := hsameTop j e (by omega)
                rcases hready j hj hjr with x | x
                · exact Or.inl (x.persist hs)
                · have hdl : ∀ d ∈ declared obp j, S d ∧ rank d ≤ r := by
                    intro d hd1
                    obtain ⟨u1, u2⟩ := hA.closed j hj d hd1
                    exact ⟨u1, by omega⟩
                  have hdd : ∀ d ∈ declared obp j, Same c c' d := fun d hd1 =>
                    hsameLow d (hdl d hd1).1 (hdl d hd1).2 (x.2 d hd1)
                  exact Or.inr ⟨x.1.preserved hs (fun d hd1 => (hdd d hd1).1),
                    fun d hd1 => hready'.done_of_same (hdl d hd1).1 (hdl d hd1).2
                      (x.2 d hd1) (hdd d hd1)⟩
          · by_cases hlow : rank j ≤ r
            · exact hsameLow j hj hlow hdj
            · exact hsameTop j (fun e => by subst e; exact hdj.present ha) (by omega)
  · refine ⟨c, 1, fun f hf => ?_, hdk, hready, fun j _ _ => Same.same_refl c j,
      fun j _ _ _ => Same.same_refl c j⟩
    obtain ⟨f', rfl⟩ : ∃ f', f = f' + 1 := ⟨f - 1, by omega⟩
    obtain ⟨n, hn, hl, _⟩ := hdk.node
    exact exec_BuildObject_requested obp f' k c n hn hl

end Step

end dependencygraph

namespace dependencygraph

section Run

variable {K V : Type} [DecidableEq K] [Inhabited V]

/-- In an acyclic part of the dependency structure, `BuildObject` for a key returns on a
ready context and leaves the key finished. -/
theorem acyclic_run (obp : IObjectBuilderProvider K V) (S : K → Prop) (rank : K → Nat)
    (hA : Acyclic obp S rank) :
    ∀ (n : Nat) (k : K), rank k = n → S k → ∀ c, Ready obp S rank c (rank k) →
      ∃ c' f0, (∀ f, f0 ≤ f → exec obp f (Call.BuildObject k) c = some c') ∧
        Done obp c' k ∧ Ready obp S rank c' (rank k) ∧ Frame obp S rank k c c' := by
  intro n
  induction n using Nat.strong_induction_on with
  | _ n ih =>
    intro k hk hS c hready
    exact acyclic_step obp S rank hA k hS
      (fun d sd rd c1 h1 => ih (rank d) (by omega) d rfl sd c1 h1) c hready

theorem ready_empty (obp : IObjectBuilderProvider K V) (S : K → Prop) (rank : K → Nat)
    (r : Nat) : Ready obp S rank (ObjectContext.empty : ObjectContext K V) r :=
  fun _ _ _ => Or.inl ⟨rfl, rfl, rfl⟩

theorem acyclic_dependsOn (obp : IObjectBuilderProvider K V) (rank : K → Nat) (k : K)
    (hacyclic : ∀ j, DependsOn obp k j → ∀ d ∈ declared obp j, rank d < rank j) :
    Acyclic obp (DependsOn obp k) rank :=
  ⟨fun j hj d hd => ⟨DependsOn.step hj hd, hacyclic j hj d hd⟩⟩

theorem dependsOn_rank (obp : IObjectBuilderProvider K V) (rank : K → Nat) (k : K)
    (hacyclic : ∀ j, DependsOn obp k j → ∀ d ∈ declared obp j, rank d < rank j) :
    ∀ j, DependsOn obp k j → rank j ≤ rank k := by
  intro j hj
  induction hj with
  | refl => exact le_refl _
  | step hj hd ih =>
    have := hacyclic _ hj _ hd
    omega

/-- After an acyclic run from a new context every key reachable from `k` is finished. -/
theorem acyclic_run_all (obp : IObjectBuilderProvider K V) (rank : K → Nat) (k : K)
    (hacyclic : ∀ j, DependsOn obp k j → ∀ d ∈ declared obp j, rank d < rank j) :
    ∃ c' f0, (∀ f, f0 ≤ f → ObjectContext.BuildObject obp f k ObjectContext.empty = some c') ∧
      ∀ j, DependsOn obp k j → Done obp c' j := by
  have hA := acyclic_dependsOn obp rank k hacyclic
  obtain ⟨c', f0, he, hd, hready, _⟩ := acyclic_run obp (DependsOn obp k) rank hA (rank k) k rfl
    DependsOn.refl ObjectContext.empty (ready_empty obp _ rank _)
  refine ⟨c', f0, fun f hf => he (f + 1) (by omega), fun j hj => ?_⟩
  induction hj with
  | refl => exact hd
  | step hj hdd ih =>
    exact hready.closed hj (dependsOn_rank obp rank k hacyclic _ hj) ih _ hdd

end Run

end dependencygraph

namespace dependencygraph

section General

variable {K V : Type} [DecidableEq K] [Inhabited V]

/-- After a `BuildObject` call for `k` that kept its frame, a context that was ready up
to any rank is ready up to that rank again. -/
theorem Ready.lift {obp : IObjectBuilderProvider K V} {S : K → Prop} {rank : K → Nat}
    (hA : Acyclic obp S rank) {c c' : ObjectContext K V} {k : K} {R : Nat}
    (hR : Ready obp S rank c R) (h1 : Ready obp S rank c' (rank k))
    (hf : Frame obp S rank k c c') : Ready obp S rank c' R := by
  have same_done : ∀ x, S x → Done obp c x → Same c c' x := by
    intro x sx dx
    by_cases hx : rank x ≤ rank k
    · exact hf.2 x sx hx dx
    · exact hf.1 x (fun e => by subst e; omega) (by omega)
  have key : ∀ x, S x → rank x ≤ R → Done obp c x → Done obp c' x := by
    intro x sx rx dx
    refine dx.preserved (same_done x sx dx) (fun d hd => ?_)
    exact (same_done d (hA.closed x sx d hd).1 (hR.closed sx rx dx d hd)).1
  intro j sj rj
  rcases hR j sj rj with x | x
  · by_cases hj : rank j ≤ rank k
    · exact h1 j sj hj
    · exact Or.inl (x.persist (hf.1 j (fun e => by subst e; omega) (by omega)))
  · refine Or.inr ⟨key j sj rj x.1, fun d hd => ?_⟩
    obtain ⟨sd, rd⟩ := hA.closed j sj d hd
    exact key d sd (by omega) (x.2 d hd)

theorem acyclic_all (obp : IObjectBuilderProvider K V) (rank : K → Nat)
    (hacyclic : ∀ j, ∀ d ∈ declared obp j, rank d < rank j) :
    Acyclic obp (fun _ => True) rank :=
  ⟨fun j _ d hd => ⟨trivial, hacyclic j d hd⟩⟩

/-- In an acyclic dependency structure every context produced by `BuildObject` calls is
ready: each key is untouched or finished together with its dependencies. -/
theorem buildReachable_ready (obp : IObjectBuilderProvider K V) (rank : K → Nat)
    (hacyclic : ∀ j, ∀ d ∈ declared obp j, rank d < rank j) (c : ObjectContext K V)
    (h : BuildReachable obp c) : ∀ R, Ready obp (fun _ => True) rank c R := by
  have hA := acyclic_all obp rank hacyclic
  induction h with
  | empty => exact fun R => ready_empty obp _ rank R
  | @buildObject c0 c1 fuel k _ he ih =>
    intro R
    obtain ⟨c', f0, hrun, _, h1, hf⟩ := acyclic_run obp _ rank hA (rank k) k rfl trivial c0
      (ih (rank k))
    have e1 := exec_mono obp (fuel + 1) (max (fuel + 1) f0) (by omega) _ _ _ he
    have e2 := hrun (max (fuel + 1) f0) (by omega)
    rw [e1] at e2
    cases e2
    exact (ih R).lift hA h1 hf

/-- In an acyclic dependency structure, `BuildObject` for any key on a context produced
by `BuildObject` calls returns and leaves the key and all it reaches finished. -/
theorem acyclic_run_from (obp : IObjectBuilderProvider K V) (rank : K → Nat)
    (hacyclic : ∀ j, ∀ d ∈ declared obp j, rank d < rank j) (c : ObjectContext K V)
    (h : BuildReachable obp c) (k : K) :
    ∃ c' f0, (∀ f, f0 ≤ f → ObjectContext.BuildObject obp f k c = some c') ∧
      BuildReachable obp c' ∧ ∀ j, DependsOn obp k j → Done obp c' j := by
  have hA := acyclic_all obp rank hacyclic
  obtain ⟨c', f0, hrun, hd, h1, _⟩ := acyclic_run obp _ rank hA (rank k) k rfl trivial c
    (buildReachable_ready obp rank hacyclic c h (rank k))
  refine ⟨c', f0, fun f hf => hrun (f + 1) (by omega),
    BuildReachable.buildObject f0 k h (hrun (f0 + 1) (by omega)), fun j hj => ?_⟩
  have hrk : ∀ j, DependsOn obp k j → rank j ≤ rank k :=
    dependsOn_rank obp rank k (fun j _ d hd => hacyclic j d hd)
  induction hj with
  | refl => exact hd
  | step hj hdd ih => exact h1.closed trivial (hrk _ hj) ih _ hdd

end General

end dependencygraph

namespace dependencygraph

section Driver

theorem tdiv_two_nonneg (x : Int) (h : 0 ≤ x) : Int.tdiv x 2 = x / 2 :=
  Int.tdiv_eq_ediv h (by decide)

theorem tdiv_two_neg (x : Int) (h : x < 0) : Int.tdiv x 2 ≤ 0 := by
  cases x with
  | ofNat n => simp at h; omega
  | negSucc n =>
    show Int.tdiv (Int.negSucc n) (Int.ofNat 2) ≤ 0
    simp only [Int.tdiv]
    exact Int.neg_nonpos_of_nonneg (Int.ofNat_nonneg _)

theorem halvingLoop_iff (fuel : Nat) : ∀ (x d : Int), x.toNat ≤ fuel →
    (d ∈ halvingLoop fuel x ↔ 0 < d ∧ ∃ n : Nat, d = ((x.toNat / 2 ^ n : Nat) : Int)) := by
  induction fuel with
  | zero =>
    intro x d h
    have hx : x.toNat = 0 := by omega
    simp only [halvingLoop, List.not_mem_nil, false_iff, not_and, not_exists, hx,
      Nat.zero_div]
    intro hd n hn
    omega
  | succ fuel ih =>
    intro x d h
    by_cases hx : x > 0
    · have ht : (Int.tdiv x 2).toNat = x.toNat / 2 := by
        rw [tdiv_two_nonneg x (by omega)]; omega
      simp only [halvingLoop, hx, if_true, List.mem_cons]
      rw [ih _ d (by omega), ht]
      constructor
      · rintro (h | ⟨hd, n, hn⟩)
        · exact ⟨by omega, 0, by simp [h]; omega⟩
        · refine ⟨hd, n + 1, ?_⟩
          rw [hn, Nat.div_div_eq_div_mul, pow_succ, mul_comm]
      · rintro ⟨hd, n, hn⟩
        cases n with
        | zero => left; simp at hn; omega
        | succ n =>
          right
          refine ⟨hd, n, ?_⟩
          rw [hn, Nat.div_div_eq_div_mul, pow_succ, mul_comm]
    · have hx0 : x.toNat = 0 := by omega
      simp only [halvingLoop, hx, if_false, List.not_mem_nil, false_iff, not_and, not_exists,
        hx0, Nat.zero_div]
      intro hd n hn
      omega
theorem halvingLoop_mem (fuel : Nat) :
    ∀ (x d : Int), d ∈ halvingLoop fuel x → 0 < d ∧ d ≤ x := by
  induction fuel with
  | zero => intro x d h; simp [halvingLoop] at h
  | succ fuel ih =>
    intro x d h
    by_cases hx : x > 0
    · simp only [halvingLoop, hx, if_true, List.mem_cons] at h
      rcases h with h | h
      · subst h; exact ⟨hx, le_refl _⟩
      · have := ih _ _ h
        rw [tdiv_two_nonneg x (by omega)] at this
        omega
    · simp [halvingLoop, hx] at h

theorem halvingLoop_fuel (fuel : Nat) : ∀ (x : Int) (n : Nat), x.toNat ≤ fuel →
    halvingLoop (fuel + n) x = halvingLoop fuel x := by
  induction fuel with
  | zero =>
    intro x n h
    have hx : ¬ x > 0 := by omega
    cases n with
    | zero => rfl
    | succ n => simp [halvingLoop, hx]
  | succ fuel ih =>
    intro x n h
    rw [show fuel + 1 + n = (fuel + n) + 1 by omega]
    by_cases hx : x > 0
    · simp only [halvingLoop, hx, if_true]
      rw [ih _ n (by rw [tdiv_two_nonneg x (by omega)]; omega)]
    · simp [halvingLoop, hx]

theorem halvingDependencies_lt (j d : Int) (h : d ∈ halvingDependencies j) :
    0 < d ∧ d < j ∧ 1 < j := by
  have := halvingLoop_mem _ _ _ h
  by_cases hj : 0 ≤ j
  · rw [tdiv_two_nonneg j hj] at this
    omega
  · have := tdiv_two_neg j (by omega)
    omega

theorem halvingDependencies_iff (i d : Int) (hi : 0 ≤ i) :
    d ∈ halvingDependencies i ↔
      0 < d ∧ ∃ n : Nat, d = ((i.toNat / 2 ^ (n + 1) : Nat) : Int) := by
  have ht : (Int.tdiv i 2).toNat = i.toNat / 2 := by
    rw [tdiv_two_nonneg i hi]; omega
  rw [halvingDependencies, halvingLoop_iff _ _ _ (by omega), ht]
  constructor
  · rintro ⟨hd, n, hn⟩
    exact ⟨hd, n, by rw [hn, Nat.div_div_eq_div_mul, pow_succ, mul_comm]⟩
  · rintro ⟨hd, n, hn⟩
    exact ⟨hd, n, by rw [hn, Nat.div_div_eq_div_mul, pow_succ, mul_comm]⟩

theorem driver_declared {V : Type} [Inhabited V] (kernel : Int → V) (j : Int) :
    declared (driver kernel) j = halvingDependencies j := rfl

theorem driver_all_built {V : Type} [Inhabited V] (kernel : Int → V) (i : Int)
    (c : ObjectContext Int V)
    (hdone : ∀ j, DependsOn (driver kernel) i j → Done (driver kernel) c j) :
    ∀ j, DependsOn (driver kernel) i j →
      c.getState j = some ObjectBuildingState.ObjectBuilt ∧
      c.getDependencyList j = halvingDependencies j ∧
      c.getBuiltObject j = some (kernel j) ∧ buildCount c j = 1 := by
  have key : ∀ (n : Nat) (j : Int), j.toNat = n → DependsOn (driver kernel) i j →
      c.getState j = some ObjectBuildingState.ObjectBuilt ∧
      c.getDependencyList j = halvingDependencies j ∧
      c.getBuiltObject j = some (kernel j) ∧ buildCount c j = 1 := by
    intro n
    induction n using Nat.strong_induction_on with
    | _ n ih =>
      intro j hjn hj
      have hd := hdone j hj
      have hall : ∀ d ∈ halvingDependencies j,
          c.getState d = some ObjectBuildingState.ObjectBuilt := by
        intro d hdd
        have hlt := halvingDependencies_lt j d hdd
        exact (ih d.toNat (by omega) d rfl (DependsOn.step hj hdd)).1
      obtain ⟨r1, r2, r3⟩ := hd.built (driverBuilder kernel) (halvingDependencies j)
        (kernel j) rfl rfl hall rfl
      exact ⟨r1, (hd.discovered (driverBuilder kernel) (halvingDependencies j) rfl rfl).1,
        r2, r3⟩
  exact fun j hj => key j.toNat j rfl hj

end Driver

end dependencygraph

namespace dependencygraph

section CallBackLemmas

variable {K V : Type} [DecidableEq K] [Inhabited V]

theorem recordAll_nil (c : ObjectContext K V) : c.recordAll [] = c := by
  simp [ObjectContext.recordAll]

theorem record_recordAll (c : ObjectContext K V) (e : Event K) (es : List (Event K)) :
    (c.record e).recordAll es = c.recordAll (e :: es) := by
  simp [ObjectContext.recordAll, ObjectContext.record]

theorem recordAll_recordAll (c : ObjectContext K V) (es es' : List (Event K)) :
    (c.recordAll es).recordAll es' = c.recordAll (es ++ es') := by
  simp [ObjectContext.recordAll]

@[simp] theorem recordAll_values (c : ObjectContext K V) (es : List (Event K)) (j : K) :
    (c.recordAll es)._values j = c._values j := rfl

@[simp] theorem recordAll_keys (c : ObjectContext K V) (es : List (Event K)) :
    (c.recordAll es).keys = c.keys := rfl

@[simp] theorem recordAll_journal (c : ObjectContext K V) (es : List (Event K)) :
    (c.recordAll es).journal = c.journal ++ es := rfl

/-- A list of client callbacks is invoked front to back, once each. -/
theorem launchAll_clients (obp : IObjectBuilderProvider K V) (fuel : Nat) (k : K)
    (tags : List Nat) : ∀ c : ObjectContext K V,
    launchAll (exec obp (fuel + 1)) k (tags.map CallBack.client) c
      = some (c.recordAll (clientEvents tags k)) := by
  induction tags with
  | nil => intro c; simp [launchAll, clientEvents, recordAll_nil]
  | cons t rest ih =>
    intro c
    simp only [List.map_cons, launchAll, exec, invokeCallBack, Option.some_bind, ih,
      record_recordAll, clientEvents]

theorem launchPostBuild_clients (obp : IObjectBuilderProvider K V) (fuel : Nat) (k : K)
    (c : ObjectContext K V) (n : ObjectBuilderInfo K V) (pb : List Nat)
    (hn : c._values k = some n) (hpb : n._postBuildCallBacks = pb.map CallBack.client) :
    ObjectBuilderInfo.launchPostBuildCallBacks (exec obp (fuel + 1)) k c
      = some ((c.recordAll (clientEvents pb k)).modify k
          (fun m => { m with _postBuildCallBacks := [] })) := by
  simp only [ObjectBuilderInfo.launchPostBuildCallBacks, hn, hpb, launchAll_clients,
    Option.map_some']

theorem launchPostDependenciesKnown_clients (obp : IObjectBuilderProvider K V) (fuel : Nat)
    (k : K) (c : ObjectContext K V) (n : ObjectBuilderInfo K V) (pdk : List Nat)
    (hn : c._values k = some n)
    (hpdk : n._postDependenciesKnownCallBacks = pdk.map CallBack.client) :
    ObjectBuilderInfo.launchPostDependenciesKnownCallBacks (exec obp (fuel + 1)) k c
      = some ((c.recordAll (clientEvents pdk k)).modify k
          (fun m => { m with _postDependenciesKnownCallBacks := [] })) := by
  simp only [ObjectBuilderInfo.launchPostDependenciesKnownCallBacks, hn, hpdk,
    launchAll_clients, Option.map_some']

/-- The writes of a setter before it launches callbacks, as one write and one journal
entry. -/
theorem write_then_setState (c : ObjectContext K V) (k : K) (n : ObjectBuilderInfo K V)
    (f : ObjectBuilderInfo K V → ObjectBuilderInfo K V) (s : ObjectBuildingState)
    (hn : c._values k = some n) :
    (c.modify k f).setState k s
      = (c.modify k (fun m => { f m with _state := s })).recordAll
          [Event.setState k (f n)._state s] := by
  rw [setState_of_some (modify_self f hn)]
  apply context_ext
  · intro j
    by_cases hj : j = k
    · subst hj; simp [hn]
    · simp [hj]
  · rfl
  · rfl

theorem SetObjectBuilt_clients (obp : IObjectBuilderProvider K V) (fuel : Nat) (k : K)
    (c : ObjectContext K V) (n : ObjectBuilderInfo K V) (pb : List Nat) (v : V)
    (hn : c._values k = some n) (hpb : n._postBuildCallBacks = pb.map CallBack.client) :
    ObjectBuilderInfo.SetObjectBuilt (exec obp (fuel + 1)) k v c
      = some ((c.modify k (fun m =>
          { m with
            builtObject := v
            _state := ObjectBuildingState.ObjectBuilt
            _postBuildCallBacks := [] })).recordAll
          (Event.setState k n._state ObjectBuildingState.ObjectBuilt :: clientEvents pb k)) := by
  unfold ObjectBuilderInfo.SetObjectBuilt
  rw [write_then_setState c k n _ _ hn,
    launchPostBuild_clients obp fuel k _
      { n with builtObject := v, _state := ObjectBuildingState.ObjectBuilt } pb
      (by simp [hn]) hpb]
  congr 1
  apply context_ext
  · intro j
    by_cases hj : j = k
    · subst hj; simp [hn]
    · simp [hj]
  · rfl
  · simp

theorem SetRequestedDependencies_clients (obp : IObjectBuilderProvider K V) (fuel : Nat)
    (k : K) (c : ObjectContext K V) (n : ObjectBuilderInfo K V) (pdk : List Nat)
    (ds : List K) (hn : c._values k = some n)
    (hpdk : n._postDependenciesKnownCallBacks = pdk.map CallBack.client) :
    ObjectBuilderInfo.SetRequestedDependencies (exec obp (fuel + 1)) k ds c
      = some ((c.modify k (fun m =>
          { m with
            dependencies := ds
            _state := ObjectBuildingState.DependenciesKnown
            _postDependenciesKnownCallBacks := [] })).recordAll
          (Event.setState k n._state ObjectBuildingState.DependenciesKnown ::
            clientEvents pdk k)) := by
  unfold ObjectBuilderInfo.SetRequestedDependencies
  rw [write_then_setState c k n _ _ hn,
    launchPostDependenciesKnown_clients obp fuel k _
      { n with dependencies := ds, _state := ObjectBuildingState.DependenciesKnown } pdk
      (by simp [hn]) hpdk]
  congr 1
  apply context_ext
  · intro j
    by_cases hj : j = k
    · subst hj; simp [hn]
    · simp [hj]
  · rfl
  · simp

theorem SetObjectFailed_clients (obp : IObjectBuilderProvider K V) (fuel : Nat)
    (k : K) (c : ObjectContext K V) (n : ObjectBuilderInfo K V) (pdk pb : List Nat)
    (msg : String) (hn : c._values k = some n)
    (hpdk : n._postDependenciesKnownCallBacks = pdk.map CallBack.client)
    (hpb : n._postBuildCallBacks = pb.map CallBack.client) :
    ObjectBuilderInfo.SetObjectFailed (exec obp (fuel + 1)) k msg c
      = some ((c.modify k (fun m =>
          { m with
            exception := some msg
            _state := ObjectBuildingState.Failure
            _postDependenciesKnownCallBacks := []
            _postBuildCallBacks := [] })).recordAll
          (Event.setState k n._state ObjectBuildingState.Failure ::
            (clientEvents pdk k ++ clientEvents pb k))) := by
  unfold ObjectBuilderInfo.SetObjectFailed
  rw [write_then_setState c k n _ _ hn,
    launchPostDependenciesKnown_clients obp fuel k _
      { n with exception := some msg, _state := ObjectBuildingState.Failure } pdk
      (by simp [hn]) hpdk,
    Option.some_bind,
    launchPostBuild_clients obp fuel k _
      { n with exception := some msg, _state := ObjectBuildingState.Failure,
               _postDependenciesKnownCallBacks := [] } pb
      (by simp [hn]) hpb]
  congr 1
  apply context_ext
  · intro j
    by_cases hj : j = k
    · subst hj; simp [hn]
    · simp [hj]
  · rfl
  · simp

theorem SetNoBuilderFound_clients (obp : IObjectBuilderProvider K V) (fuel : Nat)
    (k : K) (c : ObjectContext K V) (n : ObjectBuilderInfo K V) (pdk pb : List Nat)
    (hn : c._values k = some n)
    (hpdk : n._postDependenciesKnownCallBacks = pdk.map CallBack.client)
    (hpb : n._postBuildCallBacks = pb.map CallBack.client) :
    ObjectBuilderInfo.SetNoBuilderFound (exec obp (fuel + 1)) k c
      = some ((c.modify k (fun m =>
          { m with
            _state := ObjectBuildingState.NoBuilderAvailable
            _postDependenciesKnownCallBacks := []
            _postBuildCallBacks := [] })).recordAll
          (Event.setState k n._state ObjectBuildingState.NoBuilderAvailable ::
            (clientEvents pdk k ++ clientEvents pb k))) := by
  unfold ObjectBuilderInfo.SetNoBuilderFound
  have h1 : (c.setState k ObjectBuildingState.NoBuilderAvailable)._values k
      = some { n with _state := ObjectBuildingState.NoBuilderAvailable } := by
    rw [setState_of_some hn]; simp [hn]
  rw [launchPostDependenciesKnown_clients obp fuel k _ _ pdk h1 hpdk, Option.some_bind,
    launchPostBuild_clients obp fuel k _
      { n with _state := ObjectBuildingState.NoBuilderAvailable,
               _postDependenciesKnownCallBacks := [] } pb
      (by simp [h1]) hpb, setState_of_some hn]
  congr 1
  apply context_ext
  · intro j
    by_cases hj : j = k
    · subst hj; simp [hn]
    · simp [hj]
  · rfl
  · simp [ObjectContext.record]
/-- The launch loop is the left-to-right fold of one invocation per callback. -/
theorem launchAll_foldlM (self : Call K → ObjectContext K V → Option (ObjectContext K V))
    (k : K) (l : List (CallBack K)) : ∀ c : ObjectContext K V,
    launchAll self k l c = l.foldlM (fun x cb => self (Call.callBack cb k) x) c := by
  induction l with
  | nil => intro c; rfl
  | cons cb rest ih =>
    intro c
    simp only [launchAll, List.foldlM_cons, Option.bind_eq_bind]
    cases self (Call.callBack cb k) c with
    | none => rfl
    | some c1 => simp [ih]
end CallBackLemmas

end dependencygraph

namespace dependencygraph

section StuckBasic

variable {K V : Type} [DecidableEq K] [Inhabited V]

theorem Quiet.still (cyc : K → Bool) (c : ObjectContext K V) : Quiet cyc c c :=
  ⟨rfl, fun d n h => by rw [h]; simp, fun d n' h => ⟨n', h, rfl, fun _ => ⟨rfl, fun _ => le_refl _⟩⟩,
    fun _ _ => rfl⟩

theorem Quiet.composed {cyc : K → Bool} {c c1 c2 : ObjectContext K V} (h1 : Quiet cyc c c1)
    (h2 : Quiet cyc c1 c2) : Quiet cyc c c2 := by
  refine ⟨h2.keys.trans h1.keys, fun d n h => ?_, fun d n2 h => ?_,
    fun X hX => (h2.jobs X hX).trans (h1.jobs X hX)⟩
  · cases h' : c1._values d with
    | none => exact absurd h' (h1.present d n h)
    | some n1 => exact h2.present d n1 h'
  · obtain ⟨n1, e1, d1, f1⟩ := h2.node d n2 h
    obtain ⟨n, e0, d0, f0⟩ := h1.node d n1 e1
    refine ⟨n, e0, d1.trans d0, fun hc => ⟨(f1 hc).1.trans (f0 hc).1, fun X => ?_⟩⟩
    exact le_trans ((f0 hc).2 X) ((f1 hc).2 X)

theorem Quiet.stuck {obp : IObjectBuilderProvider K V} {cyc : K → Bool} {U : K → Prop} {c c' : ObjectContext K V}
    (h : Quiet cyc c c') (hs : Stuck obp cyc U c) : Stuck obp cyc U c' := by
  refine ⟨fun X n' hn' => ?_, fun X n' hX hn' => ?_, fun X n' hn' => ?_⟩
  · obtain ⟨n, e, hd, _⟩ := h.node X n' hn'
    rw [hd]
    exact hs.deps X n e
  · obtain ⟨n, e, hd, hf⟩ := h.node X n' hn'
    obtain ⟨a, ⟨Y, hY, hYc⟩, b⟩ := hs.node X n hX e
    exact ⟨(hf hX).1.trans a, ⟨Y, by rw [hd]; exact hY, hYc⟩, by rw [h.jobs X hX]; exact b⟩
  · obtain ⟨n, e, hd, _⟩ := h.node X n' hn'
    obtain ⟨a, b⟩ := hs.known X n e
    exact ⟨a, fun d hdd => b d (by rw [← hd]; exact hdd)⟩

theorem Quiet.storedAt_le {cyc : K → Bool} {c c' : ObjectContext K V} (h : Quiet cyc c c')
    (X d : K) (hd : cyc d = true) : storedAt c X d ≤ storedAt c' X d := by
  unfold storedAt
  cases e : c._values d with
  | none => simp
  | some n =>
    cases e' : c'._values d with
    | none => exact absurd e' (h.present d n e)
    | some n' =>
      obtain ⟨m, em, _, hf⟩ := h.node d n' e'
      rw [e] at em; cases em
      exact (hf hd).2 X

theorem Quiet.cycStored_le {cyc : K → Bool} {c c' : ObjectContext K V} (h : Quiet cyc c c')
    (X : K) : cycStored cyc c X ≤ cycStored cyc c' X := by
  unfold cycStored
  rw [h.keys]
  apply List.sum_le_sum
  intro d _
  by_cases hd : cyc d = true
  · simp only [hd, if_true]; exact h.storedAt_le X d hd
  · simp [hd]

theorem Quiet.keep {cyc : K → Bool} {c c' : ObjectContext K V} (h : Quiet cyc c c')
    (hl : ∀ X, latched c' X → latched c X) : Keep cyc c c' :=
  ⟨fun X _ => h.cycStored_le X, fun X _ h1 h2 _ _ => absurd (hl X h1) h2⟩

theorem latched.later {c c' : ObjectContext K V} (hm : Mono c c') {X : K} (h : latched c X) :
    latched c' X := by
  obtain ⟨n, e, l⟩ := h
  obtain ⟨n', e', _, _, _, hl, _⟩ := hm.node X n e
  exact ⟨n', e', hl l⟩

theorem Completed.stays {cyc : K → Bool} {c c' : ObjectContext K V} {X : K}
    (h : Completed cyc c X) (hm : Mono c c')
    (hs : cyc X = true → cycStored cyc c X ≤ cycStored cyc c' X)
    (hp : c._values X ≠ none) : Completed cyc c' X := by
  refine ⟨fun n' e' d hd => ?_, fun hX => le_trans (h.waits hX) (hs hX)⟩
  cases e : c._values X with
  | none => exact absurd e hp
  | some n =>
    obtain ⟨m, em, _, hdeps, _⟩ := hm.node X n e
    rw [e'] at em; cases em
    exact (h.requested n e d (by rw [← hdeps]; exact hd)).later hm

theorem Keep.followedBy {cyc : K → Bool} {c c1 c2 : ObjectContext K V} (h1 : Keep cyc c c1)
    (h2 : Keep cyc c1 c2) (hm : Mono c1 c2) : Keep cyc c c2 := by
  refine ⟨fun X hX => le_trans (h1.stored X hX) (h2.stored X hX), fun X n2 hl hn e2 hs => ?_⟩
  by_cases h : latched c1 X
  · obtain ⟨n, e, l⟩ := id h
    obtain ⟨m, em, _, _, _, _, hfrozen⟩ := hm.node X n e
    rw [e2] at em; cases em
    have hs1 : buildReached n._state = false := by
      by_contra x
      have x' : buildReached n._state = true := by simpa using x
      rw [(hfrozen x').1, x'] at hs
      cases hs
    exact (h1.completed X n h hn e hs1).stays hm (h2.stored X) (by rw [e]; simp)
  · exact h2.completed X n2 hl h e2 hs

theorem Keep.idle (cyc : K → Bool) (c : ObjectContext K V) : Keep cyc c c :=
  ⟨fun _ _ => le_refl _, fun X _ h1 h2 _ _ => absurd h1 h2⟩

theorem cycStored_le_stored (cyc : K → Bool) (c : ObjectContext K V) (X : K) :
    cycStored cyc c X ≤ stored c X := by
  unfold cycStored stored
  apply List.sum_le_sum
  intro d _
  by_cases hd : cyc d = true <;> simp [hd]

theorem reserve_le_outstanding (cyc : K → Bool) (c : ObjectContext K V) (X : K) :
    reserve cyc c X ≤ outstanding c X := by
  have := cycStored_le_stored cyc c X
  unfold reserve inFlight
  omega

theorem Claim.weaken {cyc : K → Bool} {c : ObjectContext K V} {B B' : K → Nat}
    (h : Claim cyc c B) (hb : ∀ X, B' X ≤ B X) : Claim cyc c B' := by
  intro X hX ho
  have := h X hX ho
  have := hb X
  omega

/-- The claim that remains after a step that performed the decrements `b`. -/
theorem Claim.spend {cyc : K → Bool} {c c' : ObjectContext K V} {B : K → Nat} (b : K → Nat)
    (h : Claim cyc c B) (hB : ∀ X, (B X : Int) ≤ inFlight c X) (hb : ∀ X, b X ≤ B X)
    (hfl : ∀ X, inFlight c' X = inFlight c X - (b X : Int))
    (hk : ∀ X, cyc X = true → cycStored cyc c X ≤ cycStored cyc c' X)
    (h0 : Claim cyc c' (fun _ => 0)) : Claim cyc c' (fun X => B X - b X) := by
  intro X hX ho
  by_cases hc : outstanding c X = 0
  · have h1 := outstanding_ge_inFlight (c := c) X
    have h2 := hB X
    have h3 := h0 X hX ho
    have : B X = 0 := by omega
    simp only [this, Nat.zero_sub]
    exact h3
  · have h1 := h X hX hc
    have h2 := hk X hX
    have h3 := hb X
    unfold reserve at h1 ⊢
    rw [hfl X]
    show ((B X - b X : Nat) : Int) + 1 ≤ _
    omega

end StuckBasic

end dependencygraph

namespace dependencygraph

section StuckPrim

variable {K V : Type} [DecidableEq K] [Inhabited V]

theorem Claim.carry {cyc : K → Bool} {c c' : ObjectContext K V} {B B' : K → Nat}
    (h : Claim cyc c B)
    (ho : ∀ X, cyc X = true → outstanding c' X ≠ 0 → outstanding c X ≠ 0)
    (hr : ∀ X, cyc X = true → outstanding c' X ≠ 0 →
      (B' X : Int) + reserve cyc c X ≤ reserve cyc c' X + (B X : Int)) : Claim cyc c' B' := by
  intro X hX hX'
  have h1 := h X hX (ho X hX hX')
  have h2 := hr X hX hX'
  omega

/-- A step that writes the single node `k`. -/
theorem Quiet.ofSingle (cyc : K → Bool) {c c' : ObjectContext K V} (k : K)
    (n n' : ObjectBuilderInfo K V) (hk : c._values k = some n) (hk' : c'._values k = some n')
    (hother : ∀ j, j ≠ k → c'._values j = c._values j) (hkeys : c'.keys = c.keys)
    (hdeps : n'.dependencies = n.dependencies)
    (hc : cyc k = true → n'._state = n._state ∧ ∀ X, share n X ≤ share n' X)
    (hjobs : ∀ X, cyc X = true → jobCount c' X = jobCount c X) : Quiet cyc c c' := by
  refine ⟨hkeys, fun d m hm => ?_, fun d m' hm' => ?_, hjobs⟩
  · by_cases e : d = k
    · subst e; rw [hk']; simp
    · rw [hother d e, hm]; simp
  · by_cases e : d = k
    · subst e
      rw [hk'] at hm'; cases hm'
      exact ⟨n, hk, hdeps, hc⟩
    · rw [hother d e] at hm'
      exact ⟨m', hm', rfl, fun _ => ⟨rfl, fun _ => le_refl _⟩⟩

/-- A step that writes no node. -/
theorem Quiet.same (cyc : K → Bool) {c c' : ObjectContext K V}
    (hv : ∀ j, c'._values j = c._values j) (hkeys : c'.keys = c.keys)
    (hjobs : ∀ X, cyc X = true → jobCount c' X = jobCount c X) : Quiet cyc c c' :=
  ⟨hkeys, fun d m hm => by rw [hv d, hm]; simp,
    fun d m' hm' => ⟨m', by rw [← hv d]; exact hm', rfl, fun _ => ⟨rfl, fun _ => le_refl _⟩⟩,
    hjobs⟩

theorem Quiet.ofRecord (cyc : K → Bool) (c : ObjectContext K V) (e : Event K)
    (he : ∀ X, cyc X = true → e ≠ Event.RegisterJob X) : Quiet cyc c (c.record e) :=
  Quiet.same cyc (fun _ => rfl) rfl (fun X hX => by rw [jobCount_record]; simp [he X hX])

theorem Quiet.modify (cyc : K → Bool) (c : ObjectContext K V) (k : K)
    (f : ObjectBuilderInfo K V → ObjectBuilderInfo K V)
    (hf : ∀ n, c._values k = some n → (f n).dependencies = n.dependencies ∧
      (cyc k = true → (f n)._state = n._state ∧ ∀ X, share n X ≤ share (f n) X)) :
    Quiet cyc c (c.modify k f) := by
  cases hk : c._values k with
  | none =>
    exact Quiet.same cyc (fun j => by by_cases e : j = k <;> simp [e, hk]) rfl (fun _ _ => rfl)
  | some n =>
    exact Quiet.ofSingle cyc k n (f n) hk (modify_self f hk) (modify_other c k f) rfl
      (hf n hk).1 (hf n hk).2 (fun _ _ => rfl)

/-- A step that writes no request latch requests no build. -/
theorem latched_of_modify {c : ObjectContext K V} (k : K)
    (f : ObjectBuilderInfo K V → ObjectBuilderInfo K V)
    (hf : ∀ n, (f n)._buildRequestCount = n._buildRequestCount) (X : K)
    (h : latched (c.modify k f) X) : latched c X := by
  obtain ⟨n', e, l⟩ := h
  by_cases hx : X = k
  · subst hx
    cases hk : c._values X with
    | none => simp [hk] at e
    | some n =>
      rw [modify_self f hk] at e; cases e
      exact ⟨n, hk, by rw [← hf n]; exact l⟩
  · rw [modify_other c k f X hx] at e
    exact ⟨n', e, l⟩

theorem reserve_record (cyc : K → Bool) (c : ObjectContext K V) (e : Event K) (X : K) :
    reserve cyc (c.record e) X = reserve cyc c X := rfl

theorem outstanding_record (c : ObjectContext K V) (e : Event K) (X : K) :
    outstanding (c.record e) X = outstanding c X := rfl

/-- The waiting callbacks on trapped nodes when only node `d0` changes its share. -/
theorem cycStored_update (cyc : K → Bool) (c c' : ObjectContext K V) (X d0 : K)
    (hn : c.keys.Nodup) (hd : d0 ∈ c.keys) (hk : c'.keys = c.keys)
    (h : ∀ d, d ≠ d0 → storedAt c' X d = storedAt c X d) :
    cycStored cyc c' X + (if cyc d0 = true then storedAt c X d0 else 0)
      = cycStored cyc c X + (if cyc d0 = true then storedAt c' X d0 else 0) := by
  unfold cycStored
  rw [hk]
  exact sum_map_update hn (fun d => if cyc d = true then storedAt c' X d else 0)
    (fun d => if cyc d = true then storedAt c X d else 0) d0 hd
    (fun d hdd => by simp only [h d hdd])

end StuckPrim

end dependencygraph

namespace dependencygraph

section StuckLaunch

variable {K V : Type} [DecidableEq K] [Inhabited V]

theorem pre2_callBack {cyc : K → Bool} {U : K → Prop} {c : ObjectContext K V}
    (cb : CallBack K) (k : K) (h : Claim cyc c (listBudget [cb])) :
    Pre2 cyc U c (Call.callBack cb k) :=
  ⟨h.weaken (fun X => by rw [budget_callBack]), trivial⟩

theorem launchAll_stuck {obp : IObjectBuilderProvider K V} {cyc : K → Bool} {U : K → Prop}
    {self : Call K → ObjectContext K V → Option (ObjectContext K V)}
    (hself : SelfOK self) (h2 : SelfStuck obp cyc U self) (k : K) :
    ∀ (l : List (CallBack K)) (c c' : ObjectContext K V), launchAll self k l c = some c' →
      Inv c → (∀ o, CallBack.arm o ∉ l) → (∀ j, (listBudget l j : Int) ≤ inFlight c j) →
      Stuck obp cyc U c → Claim cyc c (listBudget l) →
      Stuck obp cyc U c' ∧ Keep cyc c c' ∧ Claim cyc c' (fun _ => 0) := by
  intro l
  induction l with
  | nil =>
    intro c c' he hi _ _ hs hc
    simp only [launchAll, Option.some.injEq] at he
    subst he
    exact ⟨hs, Keep.idle cyc c, hc.weaken (fun _ => Nat.zero_le _)⟩
  | cons cb rest ih =>
    intro c c' he hi hna hb hs hc
    simp only [launchAll] at he
    cases hs1 : self (Call.callBack cb k) c with
    | none => rw [hs1] at he; cases he
    | some c1 =>
      rw [hs1] at he
      simp only [Option.some_bind] at he
      have hb1 : ∀ j, (listBudget [cb] j : Int) ≤ inFlight c j := by
        intro j
        have := hb j
        rw [listBudget_cons cb rest] at this
        push_cast at this
        omega
      have hpre : Pre c (Call.callBack cb k) :=
        pre_callBack cb k (fun o e => hna o (by rw [e]; simp)) hb1
      obtain ⟨hi1, hp1⟩ := hself _ c c1 hs1 hi hpre
      have hfl1 : ∀ j, inFlight c1 j = inFlight c j - (listBudget [cb] j : Int) := by
        intro j
        rw [hp1.inFlight j, budget_callBack]
      obtain ⟨s1, k1, c0, _⟩ := h2 _ c c1 hs1 hi hpre hs
        (pre2_callBack cb k (hc.weaken (fun X => by rw [listBudget_cons cb rest]; omega)))
      have hb2 : ∀ j, (listBudget rest j : Int) ≤ inFlight c1 j := by
        intro j
        have := hb j
        rw [listBudget_cons cb rest] at this
        push_cast at this
        rw [hfl1 j]
        omega
      have hna2 : ∀ o, CallBack.arm o ∉ rest := fun o ho => hna o (List.mem_cons_of_mem _ ho)
      have hc1 : Claim cyc c1 (listBudget rest) :=
        (Claim.spend (listBudget [cb]) hc hb
          (fun X => by rw [listBudget_cons cb rest]; omega) hfl1 k1.stored c0).weaken
          (fun X => by rw [listBudget_cons cb rest]; omega)
      obtain ⟨_, hm2, _, _⟩ := launchAll_ok hself k rest c1 c' he hi1 hna2 hb2
      obtain ⟨s2, k2, c2⟩ := ih c1 c' he hi1 hna2 hb2 s1 hc1
      exact ⟨s2, k1.followedBy k2 hm2, c2⟩

/-- A node in a terminal state is not trapped. -/
theorem Stuck.not_terminal {obp : IObjectBuilderProvider K V} {cyc : K → Bool} {U : K → Prop} {c : ObjectContext K V}
    (h : Stuck obp cyc U c) {k : K} {n : ObjectBuilderInfo K V} (hk : c._values k = some n)
    (hs : buildReached n._state = true) : cyc k = false := by
  by_contra hc
  have hc' : cyc k = true := by simpa using hc
  rw [(h.node k n hc' hk).1] at hs
  cases hs

theorem launchPostBuildCallBacks_stuck {obp : IObjectBuilderProvider K V} {cyc : K → Bool} {U : K → Prop}
    {self : Call K → ObjectContext K V → Option (ObjectContext K V)} (hself : SelfOK self)
    (h2 : SelfStuck obp cyc U self)
    (k : K) (c c' : ObjectContext K V) (n : ObjectBuilderInfo K V) (hk : c._values k = some n)
    (hs : buildReached n._state = true)
    (he : ObjectBuilderInfo.launchPostBuildCallBacks self k c = some c') (hi : Inv c)
    (hb : ∀ j, (listBudget n._postBuildCallBacks j : Int) ≤ inFlight c j)
    (hst : Stuck obp cyc U c) (hc : Claim cyc c (listBudget n._postBuildCallBacks)) :
    Stuck obp cyc U c' ∧ Keep cyc c c' ∧ Claim cyc c' (fun _ => 0) := by
  unfold ObjectBuilderInfo.launchPostBuildCallBacks at he
  rw [hk] at he
  simp only [Option.map_eq_some'] at he
  obtain ⟨c1, he1, he2⟩ := he
  obtain ⟨hi1, hm1, hfl1, hr1⟩ := launchAll_ok hself k _ c c1 he1 hi (hi.node k n hk).noArm hb
  obtain ⟨s1, k1, c0⟩ := launchAll_stuck hself h2 k _ c c1 he1 hi (hi.node k n hk).noArm hb
    hst hc
  obtain ⟨n1, hk1, _, _, _, _, hfrozen⟩ := hm1.node k n hk
  have hs1 : buildReached n1._state = true := by rw [(hfrozen hs).1]; exact hs
  have hnc : cyc k = false := s1.not_terminal hk1 hs1
  obtain ⟨hi2, hm2, hfl2, hr2⟩ := hi1.clear k n1 hk1 hs1
  subst he2
  have hq : Quiet cyc c1 (c1.modify k (fun m => { m with _postBuildCallBacks := [] })) :=
    Quiet.modify cyc c1 k _ (fun m _ => ⟨rfl, fun hx => by rw [hnc] at hx; cases hx⟩)
  refine ⟨hq.stuck s1, k1.followedBy (hq.keep (latched_of_modify k _ (fun _ => rfl))) hm2, ?_⟩
  refine c0.carry (fun X _ ho => ?_) (fun X _ _ => ?_)
  · intro e
    apply ho
    have := hfl2 X
    by_cases ex : X = k
    · subst ex
      simp only [outstanding, hk1, modify_self _ hk1] at e ⊢
      exact e
    · simp only [outstanding, modify_other c1 k _ X ex] at e ⊢
      exact e
  · have := hq.cycStored_le X
    unfold reserve
    rw [hfl2 X]
    omega

theorem launch_after_finish_stuck {obp : IObjectBuilderProvider K V} {cyc : K → Bool} {U : K → Prop}
    {self : Call K → ObjectContext K V → Option (ObjectContext K V)} (hself : SelfOK self)
    (h2 : SelfStuck obp cyc U self)
    (k : K) (c c' : ObjectContext K V) (n : ObjectBuilderInfo K V) (hk : c._values k = some n)
    (hs : buildReached n._state = true) (hi : Inv c)
    (hb : ∀ j, (listBudget n._postBuildCallBacks j : Int) ≤ inFlight c j)
    (he : (ObjectBuilderInfo.launchPostDependenciesKnownCallBacks self k c).bind
      (ObjectBuilderInfo.launchPostBuildCallBacks self k) = some c')
    (hst : Stuck obp cyc U c) (hc : Claim cyc c (listBudget n._postBuildCallBacks)) :
    Stuck obp cyc U c' ∧ Keep cyc c c' ∧ Claim cyc c' (fun _ => 0) := by
  rw [launchPostDependenciesKnownCallBacks_id self k c
    (fun m hm => (hi.node k m hm).noDepsKnownCallBacks)] at he
  exact launchPostBuildCallBacks_stuck hself h2 k c c' n hk hs he hi hb hst hc

end StuckLaunch

end dependencygraph

namespace dependencygraph

section StuckRegister

variable {K V : Type} [DecidableEq K] [Inhabited V]

theorem outstanding_modify_of_count {c : ObjectContext K V} (k : K)
    (f : ObjectBuilderInfo K V → ObjectBuilderInfo K V)
    (hf : ∀ n, (f n)._outstandingDependenciesCount = n._outstandingDependenciesCount) (X : K) :
    outstanding (c.modify k f) X = outstanding c X := by
  unfold outstanding
  by_cases e : X = k
  · subst e
    cases hk : c._values X with
    | none => simp [hk]
    | some n => simp [hk, hf]
  · rw [modify_other c k f X e]

theorem listBudget_dependencyBuilt (owner j : K) :
    listBudget [CallBack.dependencyBuilt owner] j = if j = owner then 1 else 0 := by
  simp only [listBudget, List.count_singleton]
  by_cases e : j = owner
  · subst e; simp
  · have : ¬ (owner = j) := fun x => e x.symm
    simp [e, this]

theorem listBudget_single_le (cb : CallBack K) (X : K) : listBudget [cb] X ≤ 1 := by
  simp only [listBudget, List.count_singleton]
  split <;> omega

theorem listBudget_single_pos (cb : CallBack K) (X : K) (h : listBudget [cb] X ≠ 0) :
    cb = CallBack.dependencyBuilt X := by
  simp only [listBudget, List.count_singleton] at h
  by_contra e
  have : ¬ (CallBack.dependencyBuilt X = cb) := fun x => e x.symm
  simp [this, e] at h

/-- Registration of a post-build callback on node `d`: a callback stored on a trapped
node stays there, so the claim for it is needed on other nodes only. -/
theorem RegisterPostBuildCallBack_stuck {obp : IObjectBuilderProvider K V} {cyc : K → Bool} {U : K → Prop}
    {self : Call K → ObjectContext K V → Option (ObjectContext K V)} (hself : SelfOK self)
    (h2 : SelfStuck obp cyc U self)
    (d : K) (cb : CallBack K) (c c' : ObjectContext K V) (hna : ∀ o, cb ≠ CallBack.arm o)
    (n : ObjectBuilderInfo K V) (hd : c._values d = some n)
    (he : ObjectBuilderInfo.RegisterPostBuildCallBack self d cb c = some c') (hi : Inv c)
    (hb : ∀ j, (listBudget [cb] j : Int) ≤ inFlight c j)
    (hst : Stuck obp cyc U c) (hc0 : Claim cyc c (fun _ => 0))
    (hc : cyc d = false → Claim cyc c (listBudget [cb])) :
    Stuck obp cyc U c' ∧ Keep cyc c c' ∧ Claim cyc c' (fun _ => 0) ∧
      (cyc d = true → ∀ X, cb = CallBack.dependencyBuilt X →
        cycStored cyc c X + 1 ≤ cycStored cyc c' X) := by
  unfold ObjectBuilderInfo.RegisterPostBuildCallBack at he
  rw [hd] at he
  simp only at he
  by_cases hs : buildReached n._state = true
  · have hnc := hst.not_terminal hd hs
    rw [if_pos hs] at he
    obtain ⟨s1, k1, c1, _⟩ := h2 _ c c' he hi (pre_callBack cb d hna hb) hst
      (pre2_callBack cb d (hc hnc))
    refine ⟨s1, k1, c1, fun hcd => ?_⟩
    rw [hnc] at hcd
    cases hcd
  · rw [if_neg hs] at he
    simp only [Option.some.injEq] at he
    subst he
    have hs' : buildReached n._state = false := by simpa using hs
    obtain ⟨hi1, hm1, hfl1, _⟩ := hi.push d n hd hs' cb hna hb
    have hq : Quiet cyc c (c.modify d (fun m => { m with
        _postBuildCallBacks := m._postBuildCallBacks ++ [cb] })) :=
      Quiet.modify cyc c d _ (fun m _ => ⟨rfl, fun _ => ⟨rfl, fun X => by
        simp only [share]
        split
        · exact le_refl _
        · simp [List.count_append]⟩⟩)
    have hextra : cyc d = true → ∀ X, cb = CallBack.dependencyBuilt X →
        cycStored cyc c X + 1 ≤ cycStored cyc (c.modify d (fun m => { m with
          _postBuildCallBacks := m._postBuildCallBacks ++ [cb] })) X := by
      intro hcd X hX
      subst hX
      have hu := cycStored_update cyc c (c.modify d (fun m => { m with
          _postBuildCallBacks := m._postBuildCallBacks ++ [CallBack.dependencyBuilt X] })) X d
        hi.keysNodup (mem_keys_of_some hi hd) rfl
        (fun j hj => by simp only [storedAt, modify_values, if_neg hj])
      simp only [hcd, if_true, storedAt, hd, modify_self _ hd, share, hs'] at hu
      simp [List.count_append] at hu
      omega
    refine ⟨hq.stuck hst, hq.keep (latched_of_modify d _ (fun _ => rfl)), ?_, hextra⟩
    by_cases hcd : cyc d = true
    · refine hc0.carry (fun X _ ho => ?_) (fun X _ _ => ?_)
      · exact fun e => ho ((outstanding_modify_of_count d _ (by intro _; rfl) X).trans e)
      · unfold reserve
        rw [hfl1 X]
        by_cases hz : listBudget [cb] X = 0
        · have := hq.cycStored_le X
          rw [hz]
          push_cast
          omega
        · have h1 := hextra hcd X (listBudget_single_pos cb X hz)
          have h2 := listBudget_single_le cb X
          push_cast
          omega
    · refine (hc (by simpa using hcd)).carry (fun X _ ho => ?_) (fun X _ _ => ?_)
      · exact fun e => ho ((outstanding_modify_of_count d _ (by intro _; rfl) X).trans e)
      · have := hq.cycStored_le X
        unfold reserve
        rw [hfl1 X]
        push_cast
        omega

theorem RegisterJob_stuck {obp : IObjectBuilderProvider K V} {cyc : K → Bool} {U : K → Prop}
    {self : Call K → ObjectContext K V → Option (ObjectContext K V)} (hself : SelfOK self)
    (h2 : SelfStuck obp cyc U self)
    (k : K) (c c' : ObjectContext K V) (ha : Armable c k) (hi : Inv c)
    (he : SingleThreadedJobQueue.RegisterJob self k c = some c')
    (hst : Stuck obp cyc U c) (hc : Claim cyc c (fun _ => 0)) (hk : cyc k = false) :
    Stuck obp cyc U c' ∧ Keep cyc c c' ∧ Claim cyc c' (fun _ => 0) := by
  unfold SingleThreadedJobQueue.RegisterJob at he
  obtain ⟨hi1, hr1, _⟩ := hi.recordJob k ha
  obtain ⟨hi2, hp2⟩ := hself _ _ c' he hi1 hr1
  have hq : Quiet cyc c (c.record (Event.RegisterJob k)) :=
    Quiet.ofRecord cyc c _ (fun X hX e => by
      cases e
      rw [hk] at hX
      cases hX)
  obtain ⟨s2, k2, c2, _⟩ := h2 _ _ c' he hi1 hr1 (hq.stuck hst)
    ⟨fun X hX ho => hc X hX ho, trivial⟩
  exact ⟨s2, (hq.keep (fun X h => h)).followedBy k2 hp2.mono, c2⟩

end StuckRegister

end dependencygraph

namespace dependencygraph

section StuckLoop

variable {K V : Type} [DecidableEq K] [Inhabited V]

/-- The loop of the arming callback of `owner`: every dependency ends requested, and a
trapped `owner` ends with a callback waiting on a trapped node. -/
theorem requestDependencies_stuck {obp : IObjectBuilderProvider K V} {cyc : K → Bool} {U : K → Prop}
    {self : Call K → ObjectContext K V → Option (ObjectContext K V)} (hself : SelfOK self)
    (h2 : SelfStuck obp cyc U self) (owner : K) :
    ∀ (rest : List K) (c c' : ObjectContext K V),
      requestDependencies self owner rest c = some c' → Inv c →
      (rest.length : Int) ≤ inFlight c owner → Stuck obp cyc U c →
      (∀ X, cyc X = true → X ≠ owner → outstanding c X ≠ 0 → 1 ≤ reserve cyc c X) →
      (∀ d ∈ rest, U d) →
      (cyc owner = true → 1 ≤ cycStored cyc c owner ∨ ∃ Y ∈ rest, cyc Y = true) →
      Stuck obp cyc U c' ∧ Keep cyc c c' ∧ Claim cyc c' (fun _ => 0) ∧
        (∀ d ∈ rest, latched c' d) ∧ (cyc owner = true → 1 ≤ cycStored cyc c' owner) := by
  intro rest
  induction rest with
  | nil =>
    intro c c' he hi _ hst hoff _ hcyc
    simp only [requestDependencies, Option.some.injEq] at he
    subst he
    have hw : cyc owner = true → 1 ≤ cycStored cyc c owner := by
      intro ho
      rcases hcyc ho with x | ⟨Y, hY, _⟩
      · exact x
      · simp at hY
    refine ⟨hst, Keep.idle cyc c, fun X hX ho => ?_, fun d hd => by simp at hd, hw⟩
    by_cases e : X = owner
    · subst e
      have := hi.inFlightNonneg X
      have := hw hX
      unfold reserve
      simp only [Nat.cast_zero, zero_add]
      omega
    · simpa using hoff X hX e ho
  | cons dep rest ih =>
    intro c c' he hi hb hst hoff hU hcyc
    simp only [requestDependencies] at he
    simp only [List.length_cons] at hb
    push_cast at hb
    cases h1 : self (Call.BuildObject dep) c with
    | none => rw [h1] at he; cases he
    | some c1 =>
      rw [h1] at he
      simp only [Option.some_bind] at he
      obtain ⟨hi1, hp1⟩ := hself _ c c1 h1 hi trivial
      obtain ⟨n1, hd1, hl1⟩ := hp1.result
      have hfl1 : ∀ j, inFlight c1 j = inFlight c j := by
        intro j; rw [hp1.inFlight j]; simp [budget]
      have hc0 : Claim cyc c (fun _ => 0) := by
        intro X hX ho
        by_cases e : X = owner
        · subst e
          unfold reserve
          simp only [Nat.cast_zero, zero_add]
          omega
        · simpa using hoff X hX e ho
      obtain ⟨s1, k1, c1c, _⟩ := h2 _ c c1 h1 hi trivial hst
        ⟨hc0, hU dep (List.mem_cons_self _ _)⟩
      cases h2e : ObjectBuilderInfo.RegisterPostBuildCallBack self dep
          (CallBack.dependencyBuilt owner) c1 with
      | none => rw [h2e] at he; cases he
      | some c2 =>
        rw [h2e] at he
        simp only [Option.some_bind] at he
        have hbud := listBudget_dependencyBuilt (K := K) owner
        have hb1 : ∀ j, (listBudget [CallBack.dependencyBuilt owner] j : Int)
            ≤ inFlight c1 j := by
          intro j
          rw [hbud j, hfl1 j]
          have := hi.inFlightNonneg j
          split
          · rename_i e; subst e; simp only [Nat.cast_one]; omega
          · simpa using this
        obtain ⟨hi2, hm2, hfl2, _⟩ := RegisterPostBuildCallBack_ok hself dep _ c1 c2
          (fun o x => by cases x) n1 hd1 h2e hi1 hb1
        have hstored1 : cyc owner = true → cyc dep = false →
            1 ≤ cycStored cyc c1 owner ∨ ∃ Y ∈ rest, cyc Y = true := by
          intro ho hdep
          rcases hcyc ho with x | ⟨Y, hY, hYc⟩
          · exact Or.inl (le_trans x (k1.stored owner ho))
          · rcases List.mem_cons.1 hY with e | e
            · subst e; rw [hdep] at hYc; cases hYc
            · exact Or.inr ⟨Y, e, hYc⟩
        obtain ⟨s2, k2, c2c, hextra⟩ := RegisterPostBuildCallBack_stuck hself h2 dep _ c1 c2
          (fun o x => by cases x) n1 hd1 h2e hi1 hb1 s1 c1c (by
            intro hdep X hX ho
            rw [hbud X]
            by_cases e : X = owner
            · subst e
              simp only [if_true, Nat.cast_one]
              unfold reserve
              rw [hfl1 X]
              rcases hstored1 hX hdep with x | ⟨Y, hY, _⟩
              · omega
              · have : 1 ≤ rest.length := List.length_pos_of_mem hY
                omega
            · simp only [e, if_false]
              exact c1c X hX ho)
        have hb2 : (rest.length : Int) ≤ inFlight c2 owner := by
          rw [hfl2 owner, hbud owner, hfl1 owner]
          simp only [if_true, Nat.cast_one]
          omega
        obtain ⟨_, hm3, _, _⟩ := requestDependencies_ok hself owner rest c2 c' he hi2 hb2
        obtain ⟨s3, k3, c3c, hl3, hw3⟩ := ih c2 c' he hi2 hb2 s2
          (fun X hX _ ho => by simpa using c2c X hX ho)
          (fun d hd => hU d (List.mem_cons_of_mem _ hd))
          (by
            intro ho
            by_cases hdep : cyc dep = true
            · left
              have := hextra hdep owner rfl
              omega
            · rcases hstored1 ho (by simpa using hdep) with x | x
              · exact Or.inl (le_trans x (k2.stored owner ho))
              · exact Or.inr x)
        refine ⟨s3, (k1.followedBy k2 hm2).followedBy k3 hm3, c3c, fun d hd => ?_, hw3⟩
        rcases List.mem_cons.1 hd with e | e
        · subst e
          exact latched.later hm3 (latched.later hm2 ⟨n1, hd1, hl1⟩)
        · exact hl3 d e

end StuckLoop

end dependencygraph

namespace dependencygraph

section StuckCallBack

variable {K V : Type} [DecidableEq K] [Inhabited V]

theorem outstanding_modify_other (c : ObjectContext K V) (k : K)
    (f : ObjectBuilderInfo K V → ObjectBuilderInfo K V) (X : K) (h : X ≠ k) :
    outstanding (c.modify k f) X = outstanding c X := by
  unfold outstanding
  rw [modify_other c k f X h]

theorem Quiet.ofFetchSub (cyc : K → Bool) (c : ObjectContext K V) (k : K) :
    Quiet cyc c (c.fetchSub k) := by
  unfold ObjectContext.fetchSub
  cases hk : c._values k with
  | none => exact Quiet.still cyc c
  | some n =>
    exact (Quiet.ofRecord cyc c _ (fun X _ e => by cases e)).composed
      (Quiet.modify cyc _ k _ (fun m _ => ⟨rfl, fun _ => ⟨rfl, fun X => le_refl _⟩⟩))

theorem latched_of_fetchSub {c : ObjectContext K V} (k X : K) (h : latched (c.fetchSub k) X) :
    latched c X := by
  unfold ObjectContext.fetchSub at h
  cases hk : c._values k with
  | none => rw [hk] at h; exact h
  | some n =>
    rw [hk] at h
    exact latched_of_modify (c := c.record _) k _ (by intro _; rfl) X h

theorem outstanding_fetchSub_other (c : ObjectContext K V) (k X : K) (h : X ≠ k) :
    outstanding (c.fetchSub k) X = outstanding c X := by
  unfold outstanding
  rw [fetchSub_other c k X h]

theorem invokeCallBack_stuck {obp : IObjectBuilderProvider K V} {cyc : K → Bool} {U : K → Prop}
    {self : Call K → ObjectContext K V → Option (ObjectContext K V)} (hself : SelfOK self)
    (h2 : SelfStuck obp cyc U self)
    (cb : CallBack K) (node : K) (c c' : ObjectContext K V)
    (he : invokeCallBack self cb node c = some c') (hi : Inv c)
    (hpre : Pre c (Call.callBack cb node)) (hst : Stuck obp cyc U c)
    (hp2 : Pre2 cyc U c (Call.callBack cb node)) :
    Stuck obp cyc U c' ∧ Keep cyc c c' ∧ Claim cyc c' (fun _ => 0) ∧
      Post2 cyc c' (Call.callBack cb node) := by
  cases cb with
  | arm owner =>
    obtain ⟨hno, ha⟩ := hpre
    subst hno
    obtain ⟨n, hk, _⟩ := id ha
    simp only [invokeCallBack, hk] at he
    obtain ⟨hi1, hm1, hfl1, hr1, ha1⟩ := hi.storeCount node ha n.dependencies.length
    have hq : Quiet cyc c (c.modify node (fun m => { m with
        _outstandingDependenciesCount := (n.dependencies.length : Int) })) :=
      Quiet.modify cyc c node _ (fun m _ => ⟨rfl, fun _ => ⟨rfl, fun X => le_refl _⟩⟩)
    have hk1 := hq.keep (latched_of_modify node _ (fun _ => rfl))
    have hoff : ∀ X, cyc X = true → X ≠ node →
        outstanding (c.modify node (fun m => { m with
          _outstandingDependenciesCount := (n.dependencies.length : Int) })) X ≠ 0 →
        1 ≤ reserve cyc (c.modify node (fun m => { m with
          _outstandingDependenciesCount := (n.dependencies.length : Int) })) X := by
      intro X hX hne ho
      rw [outstanding_modify_other c node _ X hne] at ho
      have h1 := hp2.1 X hX ho
      have h3 := hq.cycStored_le X
      unfold reserve at h1 ⊢
      rw [hfl1 X]
      simp only [hne, if_false, budget] at h1 ⊢
      omega
    by_cases hz : n.dependencies.length = 0
    · rw [if_pos hz] at he
      have hnc : cyc node = false := by
        by_contra hcx
        obtain ⟨_, ⟨Y, hY, _⟩, _⟩ := hst.node node n (by simpa using hcx) hk
        rw [List.length_eq_zero.1 hz] at hY
        simp at hY
      obtain ⟨hi2, hm2, _, _⟩ := RegisterJob_ok hself node _ c' (ha1 hz) hi1 he
      obtain ⟨s2, k2, c2⟩ := RegisterJob_stuck hself h2 node _ c' (ha1 hz) hi1 he (hq.stuck hst)
        (fun X hX ho => by
          have hne : X ≠ node := by
            intro e; subst e; rw [hnc] at hX; cases hX
          simpa using hoff X hX hne ho) hnc
      refine ⟨s2, hk1.followedBy k2 hm2, c2, ⟨fun n' hn' d hd => ?_, fun hc => ?_⟩⟩
      · obtain ⟨m, em, _, hdeps, _⟩ := (hm1.trans hm2).node node n hk
        rw [hn'] at em; cases em
        rw [hdeps, List.length_eq_zero.1 hz] at hd
        simp at hd
      · rw [hnc] at hc; cases hc
    · rw [if_neg hz] at he
      have hb : (n.dependencies.length : Int)
          ≤ inFlight (c.modify node (fun m => { m with
            _outstandingDependenciesCount := (n.dependencies.length : Int) })) node := by
        rw [hfl1 node]
        have := hi.inFlightNonneg node
        simp only [if_true]
        omega
      obtain ⟨hi2, hm2, _, _⟩ := requestDependencies_ok hself node _ _ c' he hi1 hb
      obtain ⟨s2, k2, c2, hl2, hw2⟩ := requestDependencies_stuck hself h2 node _ _ c' he hi1 hb
        (hq.stuck hst) hoff (hst.known node n hk).2
        (fun hc => Or.inr (hst.node node n hc hk).2.1)
      refine ⟨s2, hk1.followedBy k2 hm2, c2, ⟨fun n' hn' d hd => ?_, hw2⟩⟩
      obtain ⟨m, em, _, hdeps, _⟩ := (hm1.trans hm2).node node n hk
      rw [hn'] at em; cases em
      exact hl2 d (by rw [← hdeps]; exact hd)
  | dependencyBuilt owner =>
    have hfl : 1 ≤ inFlight c owner := hpre
    obtain ⟨n, hk, hc⟩ := node_of_inFlight hfl
    simp only [invokeCallBack, hk] at he
    obtain ⟨hi1, hm1, hfl1, hr1, ha1⟩ := hi.fetchSub owner n hk hfl
    have hq := Quiet.ofFetchSub cyc c owner
    have hk1 := hq.keep (latched_of_fetchSub owner)
    have hout : 1 ≤ outstanding c owner := by
      have := outstanding_ge_inFlight (c := c) owner
      omega
    have hc1 : Claim cyc (c.fetchSub owner) (fun _ => 0) := by
      refine hp2.1.carry (fun X _ ho => ?_) (fun X _ _ => ?_)
      · by_cases e : X = owner
        · subst e; omega
        · rw [outstanding_fetchSub_other c owner X e] at ho
          exact ho
      · have := hq.cycStored_le X
        unfold reserve
        rw [hfl1 X]
        simp only [budget]
        split <;> simp <;> omega
    by_cases hz : n._outstandingDependenciesCount > 1
    · rw [if_pos hz] at he
      simp only [Option.some.injEq] at he
      subst he
      exact ⟨hq.stuck hst, hk1, hc1, trivial⟩
    · rw [if_neg hz] at he
      have hnc : cyc owner = false := by
        by_contra hcx
        have h1 := hp2.1 owner (by simpa using hcx) (by omega)
        have h3 := reserve_le_outstanding cyc c owner
        simp only [budget, if_true, Nat.cast_one] at h1
        simp only [outstanding, hk] at h3
        omega
      obtain ⟨hi2, hm2, _, _⟩ := RegisterJob_ok hself owner _ c' (ha1 hz) hi1 he
      obtain ⟨s2, k2, c2⟩ := RegisterJob_stuck hself h2 owner _ c' (ha1 hz) hi1 he
        (hq.stuck hst) hc1 hnc
      exact ⟨s2, hk1.followedBy k2 hm2, c2, trivial⟩
  | client tag =>
    simp only [invokeCallBack, Option.some.injEq] at he
    subst he
    have hq := Quiet.ofRecord cyc c (Event.clientCallBack tag node) (fun X _ e => by cases e)
    exact ⟨hq.stuck hst, hq.keep (fun X h => h),
      fun X hX ho => by simpa [budget] using hp2.1 X hX ho, trivial⟩

end StuckCallBack

end dependencygraph

namespace dependencygraph

section StuckJob

variable {K V : Type} [DecidableEq K] [Inhabited V]

/-- The end of a build job with respect to the trapped nodes: the node written is not
trapped, and the callbacks that waited on it are owed. -/
theorem finishWith_stuck {obp : IObjectBuilderProvider K V} {cyc : K → Bool} {U : K → Prop} {c : ObjectContext K V}
    (c0 : ObjectContext K V) (h : Inv c) (k : K)
    (n : ObjectBuilderInfo K V) (hk : c._values k = some n)
    (hst : n._state = ObjectBuildingState.DependenciesKnown)
    (hl : n._buildRequestCount = 1) (hc : n._outstandingDependenciesCount = 0)
    (hv : c0._values = c._values) (hkeys : c0.keys = c.keys)
    (hj : c0.journal = c.journal ∨ c0.journal = c.journal ++ [Event.BuildObject k])
    (f : ObjectBuilderInfo K V → ObjectBuilderInfo K V)
    (f1 : (f n).key = n.key) (f2 : (f n)._buildRequestCount = n._buildRequestCount)
    (f3 : (f n)._postDependenciesKnownCallBacks = n._postDependenciesKnownCallBacks)
    (f4 : (f n)._postBuildCallBacks = n._postBuildCallBacks)
    (f5 : (f n)._outstandingDependenciesCount = n._outstandingDependenciesCount)
    (f6 : (f n).objectBuilder = n.objectBuilder) (f7 : (f n).dependencies = n.dependencies)
    (f8 : (f n)._state = n._state)
    (s : ObjectBuildingState)
    (hs : s = ObjectBuildingState.ObjectBuilt ∨ s = ObjectBuildingState.Failure)
    (hdeps : s = ObjectBuildingState.ObjectBuilt →
      ∀ d ∈ n.dependencies, c.getState d = some ObjectBuildingState.ObjectBuilt)
    (hs2 : Stuck obp cyc U c) (hc2 : Claim cyc c (fun _ => 0)) (hnc : cyc k = false) :
    Stuck obp cyc U ((c0.modify k f).setState k s) ∧ Keep cyc c ((c0.modify k f).setState k s) ∧
      Claim cyc ((c0.modify k f).setState k s) (listBudget n._postBuildCallBacks) := by
  obtain ⟨_, _, hfl2, _, hk2⟩ := Inv.finishWith c0 h k n hk hst hl hc hv hkeys hj
    f f1 f2 f3 f4 f5 f6 f7 f8 s hs hdeps
  have hk0 : c0._values k = some n := by rw [hv]; exact hk
  have hk1 : (c0.modify k f)._values k = some (f n) := modify_self f hk0
  have hE := setState_of_some hk1 s
  have hother : ∀ j, j ≠ k → ((c0.modify k f).setState k s)._values j = c._values j := by
    intro j e
    rw [hE]; simp [e, hv]
  have hkeys2 : ((c0.modify k f).setState k s).keys = c.keys := by
    rw [hE]; simpa using hkeys
  have hjr : ((c0.modify k f).setState k s).journal
      = c0.journal ++ [Event.setState k (f n)._state s] := by
    rw [hE]; rfl
  have hjobs : ∀ X, jobCount ((c0.modify k f).setState k s) X = jobCount c X := by
    intro X
    simp only [jobCount, hjr, List.count_append]
    rcases hj with e | e <;> rw [e] <;> simp [List.count_append, List.count_singleton]
  have hq : Quiet cyc c ((c0.modify k f).setState k s) :=
    Quiet.ofSingle cyc k n _ hk hk2 hother hkeys2 f7
      (fun hx => by rw [hnc] at hx; cases hx) (fun X _ => hjobs X)
  refine ⟨hq.stuck hs2, hq.keep (fun X hX => ?_), ?_⟩
  · obtain ⟨m, em, lm⟩ := hX
    by_cases e : X = k
    · subst e
      rw [hk2] at em; cases em
      exact ⟨n, hk, by rw [← f2]; exact lm⟩
    · rw [hother X e] at em
      exact ⟨m, em, lm⟩
  · refine hc2.carry (fun X _ ho => ?_) (fun X _ _ => ?_)
    · by_cases e : X = k
      · subst e
        simp only [outstanding, hk2, hk] at ho ⊢
        rw [← f5]; exact ho
      · simp only [outstanding, hother X e] at ho ⊢
        exact ho
    · have := hq.cycStored_le X
      unfold reserve
      rw [hfl2 X]
      push_cast
      omega

theorem SetObjectFailed_stuck {obp : IObjectBuilderProvider K V} {cyc : K → Bool} {U : K → Prop}
    {self : Call K → ObjectContext K V → Option (ObjectContext K V)} (hself : SelfOK self)
    (h2 : SelfStuck obp cyc U self)
    {c c' : ObjectContext K V} (c0 : ObjectContext K V) (h : Inv c) (k : K)
    (n : ObjectBuilderInfo K V) (hk : c._values k = some n)
    (hst : n._state = ObjectBuildingState.DependenciesKnown)
    (hl : n._buildRequestCount = 1) (hc : n._outstandingDependenciesCount = 0)
    (hv : c0._values = c._values) (hkeys : c0.keys = c.keys)
    (hj : c0.journal = c.journal ∨ c0.journal = c.journal ++ [Event.BuildObject k])
    (msg : String) (he : ObjectBuilderInfo.SetObjectFailed self k msg c0 = some c')
    (hs2 : Stuck obp cyc U c) (hc2 : Claim cyc c (fun _ => 0)) (hnc : cyc k = false) :
    Stuck obp cyc U c' ∧ Keep cyc c c' ∧ Claim cyc c' (fun _ => 0) := by
  unfold ObjectBuilderInfo.SetObjectFailed at he
  obtain ⟨hi2, hm2, hfl2, hr2, hk2⟩ := Inv.finishWith c0 h k n hk hst hl hc hv hkeys hj
    (fun m => { m with exception := some msg }) rfl rfl rfl rfl rfl rfl rfl rfl
    ObjectBuildingState.Failure (Or.inr rfl) (fun x => by cases x)
  obtain ⟨s2, k2, c2⟩ := finishWith_stuck c0 h k n hk hst hl hc hv hkeys hj
    (fun m => { m with exception := some msg }) rfl rfl rfl rfl rfl rfl rfl rfl
    ObjectBuildingState.Failure (Or.inr rfl) (fun x => by cases x) hs2 hc2 hnc
  have hb : ∀ j, (listBudget n._postBuildCallBacks j : Int) ≤ inFlight _ j :=
    fun j => by rw [hfl2 j]; have := h.inFlightNonneg j; omega
  obtain ⟨_, hm3, _, _⟩ := launch_after_finish hself k _ c' _ hk2 rfl hi2 hb he
  obtain ⟨s3, k3, c3⟩ := launch_after_finish_stuck hself h2 k _ c' _ hk2 rfl hi2 hb he s2 c2
  exact ⟨s3, k2.followedBy k3 hm3, c3⟩

theorem SetObjectBuilt_stuck {obp : IObjectBuilderProvider K V} {cyc : K → Bool} {U : K → Prop}
    {self : Call K → ObjectContext K V → Option (ObjectContext K V)} (hself : SelfOK self)
    (h2 : SelfStuck obp cyc U self)
    {c c' : ObjectContext K V} (c0 : ObjectContext K V) (h : Inv c) (k : K)
    (n : ObjectBuilderInfo K V) (hk : c._values k = some n)
    (hst : n._state = ObjectBuildingState.DependenciesKnown)
    (hl : n._buildRequestCount = 1) (hc : n._outstandingDependenciesCount = 0)
    (hv : c0._values = c._values) (hkeys : c0.keys = c.keys)
    (hj : c0.journal = c.journal ∨ c0.journal = c.journal ++ [Event.BuildObject k])
    (hdeps : ∀ d ∈ n.dependencies, c.getState d = some ObjectBuildingState.ObjectBuilt)
    (v : V) (he : ObjectBuilderInfo.SetObjectBuilt self k v c0 = some c')
    (hs2 : Stuck obp cyc U c) (hc2 : Claim cyc c (fun _ => 0)) (hnc : cyc k = false) :
    Stuck obp cyc U c' ∧ Keep cyc c c' ∧ Claim cyc c' (fun _ => 0) := by
  unfold ObjectBuilderInfo.SetObjectBuilt at he
  obtain ⟨hi2, hm2, hfl2, hr2, hk2⟩ := Inv.finishWith c0 h k n hk hst hl hc hv hkeys hj
    (fun m => { m with builtObject := v }) rfl rfl rfl rfl rfl rfl rfl rfl
    ObjectBuildingState.ObjectBuilt (Or.inl rfl) (fun _ => hdeps)
  obtain ⟨s2, k2, c2⟩ := finishWith_stuck c0 h k n hk hst hl hc hv hkeys hj
    (fun m => { m with builtObject := v }) rfl rfl rfl rfl rfl rfl rfl rfl
    ObjectBuildingState.ObjectBuilt (Or.inl rfl) (fun _ => hdeps) hs2 hc2 hnc
  have hb : ∀ j, (listBudget n._postBuildCallBacks j : Int) ≤ inFlight _ j :=
    fun j => by rw [hfl2 j]; have := h.inFlightNonneg j; omega
  obtain ⟨_, hm3, _, _⟩ := launchPostBuildCallBacks_ok hself k _ c' _ hk2 rfl he hi2 hb
  obtain ⟨s3, k3, c3⟩ := launchPostBuildCallBacks_stuck hself h2 k _ c' _ hk2 rfl he hi2 hb
    s2 c2
  exact ⟨s3, k2.followedBy k3 hm3, c3⟩

end StuckJob

end dependencygraph

namespace dependencygraph

section StuckBuild

variable {K V : Type} [DecidableEq K] [Inhabited V]

theorem collectBuiltDependencies_stuck {obp : IObjectBuilderProvider K V} {cyc : K → Bool} {U : K → Prop}
    {self : Call K → ObjectContext K V → Option (ObjectContext K V)} (hself : SelfOK self)
    (h2 : SelfStuck obp cyc U self) :
    ∀ (deps : List K) (acc : K → Option V) (c c1 : ObjectContext K V)
      (r : Option (K → Option V)),
      collectBuiltDependencies self deps acc c = some (c1, r) → Inv c →
      Stuck obp cyc U c → Claim cyc c (fun _ => 0) → (∀ d ∈ deps, U d) →
      Stuck obp cyc U c1 ∧ Keep cyc c c1 ∧ Claim cyc c1 (fun _ => 0) := by
  intro deps
  induction deps with
  | nil =>
    intro acc c c1 r he hi hs hc _
    simp only [collectBuiltDependencies, Option.some.injEq, Prod.mk.injEq] at he
    obtain ⟨e1, _⟩ := he
    subst e1
    exact ⟨hs, Keep.idle cyc c, hc⟩
  | cons dep rest ih =>
    intro acc c c1 r he hi hs hc hU
    simp only [collectBuiltDependencies] at he
    cases h1 : self (Call.BuildObject dep) c with
    | none => rw [h1] at he; cases he
    | some c2 =>
      rw [h1] at he
      simp only at he
      obtain ⟨hi2, hp2⟩ := hself _ c c2 h1 hi trivial
      obtain ⟨s2, k2, cl2, _⟩ := h2 _ c c2 h1 hi trivial hs
        ⟨fun X hX ho => by simpa [budget] using hc X hX ho, hU dep (List.mem_cons_self _ _)⟩
      cases hn : c2._values dep with
      | none =>
        rw [hn] at he
        simp only [Option.some.injEq, Prod.mk.injEq] at he
        obtain ⟨e1, e2⟩ := he
        subst e1; subst e2
        exact ⟨s2, k2, cl2⟩
      | some m =>
        rw [hn] at he
        simp only at he
        by_cases hst : m._state ≠ ObjectBuildingState.ObjectBuilt
        · rw [if_pos hst] at he
          simp only [Option.some.injEq, Prod.mk.injEq] at he
          obtain ⟨e1, e2⟩ := he
          subst e1; subst e2
          exact ⟨s2, k2, cl2⟩
        · rw [if_neg hst] at he
          obtain ⟨_, hm3, _, _, _⟩ := collectBuiltDependencies_ok hself _ _ c2 c1 r he hi2
          obtain ⟨s3, k3, cl3⟩ := ih _ c2 c1 r he hi2 s2 cl2
            (fun d hd => hU d (List.mem_cons_of_mem _ hd))
          exact ⟨s3, k2.followedBy k3 hm3, cl3⟩

theorem buildObject_stuck {obp : IObjectBuilderProvider K V} {cyc : K → Bool} {U : K → Prop}
    {self : Call K → ObjectContext K V → Option (ObjectContext K V)} (hself : SelfOK self)
    (h2 : SelfStuck obp cyc U self)
    (k : K) (c c' : ObjectContext K V)
    (he : ObjectBuilderInfo.buildObject self k c = some c') (hi : Inv c)
    (hpre : Runnable c k) (hs : Stuck obp cyc U c) (hc : Claim cyc c (fun _ => 0)) :
    Stuck obp cyc U c' ∧ Keep cyc c c' ∧ Claim cyc c' (fun _ => 0) := by
  obtain ⟨n, hk, _, _, _, hjob⟩ := id hpre
  have hnc : cyc k = false := by
    by_contra hcx
    have := (hs.node k n (by simpa using hcx) hk).2.2
    omega
  unfold ObjectBuilderInfo.buildObject at he
  rw [hk] at he
  simp only at he
  cases hcol : collectBuiltDependencies self n.dependencies (fun _ => none) c with
  | none => rw [hcol] at he; cases he
  | some p =>
    obtain ⟨c1, r⟩ := p
    rw [hcol] at he
    obtain ⟨hi1, hm1, hfl1, hr1, hd1⟩ := collectBuiltDependencies_ok hself _ _ c c1 r hcol hi
    obtain ⟨s1, k1, cl1⟩ := collectBuiltDependencies_stuck hself h2 _ _ c c1 r hcol hi hs hc
      (hs.known k n hk).2
    obtain ⟨n1, hk1, hst1, hl1, hc1, _⟩ := hr1 k hpre
    have key : ∀ (_ : Inv c' ∧ Mono c1 c' ∧ (∀ j, inFlight c' j = inFlight c1 j) ∧
        (∀ j, j ≠ k → Runnable c1 j → Runnable c' j))
        (_ : Stuck obp cyc U c' ∧ Keep cyc c1 c' ∧ Claim cyc c' (fun _ => 0)),
        Stuck obp cyc U c' ∧ Keep cyc c c' ∧ Claim cyc c' (fun _ => 0) :=
      fun ⟨_, a2, _, _⟩ ⟨b1, b2, b3⟩ => ⟨b1, k1.followedBy b2 a2, b3⟩
    cases r with
    | none =>
      simp only at he
      exact key
        (SetObjectFailed_ok hself c1 hi1 k n1 hk1 hst1 hl1 hc1 rfl rfl (Or.inl rfl) _ he)
        (SetObjectFailed_stuck hself h2 c1 hi1 k n1 hk1 hst1 hl1 hc1 rfl rfl (Or.inl rfl) _ he
          s1 cl1 hnc)
    | some builtDependencies =>
      simp only at he
      have hdeps : ∀ d ∈ n1.dependencies,
          c1.getState d = some ObjectBuildingState.ObjectBuilt := by
        intro d hd
        obtain ⟨n', e', _, e2, _⟩ := hm1.node k n hk
        rw [hk1] at e'; cases e'
        rw [e2] at hd
        exact hd1 rfl d hd
      cases hb : (c1._values k).bind (fun m => m.objectBuilder) with
      | none =>
        rw [hb] at he
        simp only at he
        exact key
          (SetObjectFailed_ok hself c1 hi1 k n1 hk1 hst1 hl1 hc1 rfl rfl (Or.inl rfl) _ he)
          (SetObjectFailed_stuck hself h2 c1 hi1 k n1 hk1 hst1 hl1 hc1 rfl rfl (Or.inl rfl) _
            he s1 cl1 hnc)
      | some b =>
        rw [hb] at he
        simp only at he
        cases hv : b.BuildObject k builtDependencies with
        | none =>
          rw [hv] at he
          simp only at he
          exact key
            (SetObjectFailed_ok hself (c1.record (Event.BuildObject k)) hi1 k n1 hk1
              hst1 hl1 hc1 rfl rfl (Or.inr rfl) _ he)
            (SetObjectFailed_stuck hself h2 (c1.record (Event.BuildObject k)) hi1 k n1 hk1
              hst1 hl1 hc1 rfl rfl (Or.inr rfl) _ he s1 cl1 hnc)
        | some v =>
          rw [hv] at he
          simp only at he
          exact key
            (SetObjectBuilt_ok hself (c1.record (Event.BuildObject k)) hi1 k n1 hk1
              hst1 hl1 hc1 rfl rfl (Or.inr rfl) hdeps v he)
            (SetObjectBuilt_stuck hself h2 (c1.record (Event.BuildObject k)) hi1 k n1 hk1
              hst1 hl1 hc1 rfl rfl (Or.inr rfl) hdeps v he s1 cl1 hnc)

end StuckBuild

end dependencygraph

namespace dependencygraph

section StuckExec

variable {K V : Type} [DecidableEq K] [Inhabited V]

theorem discover_node (obp : IObjectBuilderProvider K V) (a : K) (c : ObjectContext K V) :
    ∃ n, (discover obp a c)._values = (fun j => if j = a then some n else c._values j) ∧
      (discover obp a c).keys = c.keys ++ [a] ∧
      n.dependencies = declared obp a ∧ n._postBuildCallBacks = [] ∧
      n._buildRequestCount = 0 ∧ n._outstandingDependenciesCount = 0 ∧
      (∀ b ds, obp a = some b → b.GetDependencies a = some ds →
        n._state = ObjectBuildingState.DependenciesKnown) ∧
      (∀ X, jobCount (discover obp a c) X = jobCount c X) := by
  unfold discover declared
  cases hb : obp a with
  | none =>
    refine ⟨_, rfl, rfl, rfl, rfl, rfl, rfl, ?_, fun X => ?_⟩
    · intro b ds x
      cases x
    · simp [jobCount, List.count_append, List.count_singleton]
  | some b =>
    simp only
    cases hd : b.GetDependencies a with
    | some deps =>
      refine ⟨_, rfl, rfl, rfl, rfl, rfl, rfl, fun _ _ _ _ => rfl, fun X => ?_⟩
      simp [jobCount, List.count_append, List.count_cons]
    | none =>
      refine ⟨_, rfl, rfl, rfl, rfl, rfl, rfl, ?_, fun X => ?_⟩
      · intro b' ds x y
        cases x
        rw [hd] at y
        cases y
      · simp [jobCount, List.count_append, List.count_cons]

/-- Creating and discovering a node with respect to the trapped nodes. -/
theorem discover_stuck {obp : IObjectBuilderProvider K V} {cyc : K → Bool} {U : K → Prop}
    (ht : Trap obp cyc U) {c : ObjectContext K V} (hi : Inv c) (a : K)
    (ha : c._values a = none) (hU : U a) (hs : Stuck obp cyc U c)
    (hc : Claim cyc c (fun _ => 0)) :
    Stuck obp cyc U (discover obp a c) ∧ Keep cyc c (discover obp a c) ∧
      Claim cyc (discover obp a c) (fun _ => 0) := by
  obtain ⟨n, hval, hkeys, hdeps, hpb, hlatch, hcount, hstate, hjobs⟩ :=
    discover_node obp a c
  have hka : (discover obp a c)._values a = some n := by rw [hval]; simp
  have hother : ∀ j, j ≠ a → (discover obp a c)._values j = c._values j := by
    intro j e; rw [hval]; simp [e]
  obtain ⟨_, _, hfl, _, _⟩ := hi.afterDiscover obp a ha
  have hnk : a ∉ c.keys := fun x => (hi.keysIff a).1 x ha
  have hstored : ∀ X, cycStored cyc (discover obp a c) X = cycStored cyc c X := by
    intro X
    unfold cycStored
    rw [hkeys, List.map_append, List.sum_append]
    have h1 : (c.keys.map (fun d => if cyc d = true then storedAt (discover obp a c) X d
        else 0)) = c.keys.map (fun d => if cyc d = true then storedAt c X d else 0) := by
      apply List.map_congr_left
      intro d hd
      have hda : d ≠ a := fun e => hnk (e ▸ hd)
      simp only [storedAt, hother d hda]
    rw [h1]
    simp [storedAt, hka, share, hpb]
  have hout : ∀ X, outstanding (discover obp a c) X = outstanding c X := by
    intro X
    by_cases e : X = a
    · subst e
      simp [outstanding, hka, ha, hcount]
    · simp only [outstanding, hother X e]
  refine ⟨⟨fun X m hm => ?_, fun X m hX hm => ?_, fun X m hm => ?_⟩,
    ⟨fun X _ => by rw [hstored X], fun X m hl hn _ _ => absurd ?_ hn⟩, fun X hX ho => ?_⟩
  · by_cases e : X = a
    · subst e
      rw [hka] at hm; cases hm
      exact hdeps
    · rw [hother X e] at hm
      exact hs.deps X m hm
  · by_cases e : X = a
    · subst e
      rw [hka] at hm; cases hm
      obtain ⟨b, ds, hb, hds, Y, hY, hYc⟩ := ht.successor X hX
      refine ⟨hstate b ds hb hds, ⟨Y, ?_, hYc⟩, ?_⟩
      · rw [hdeps]
        simp only [declared, hb, hds, Option.getD_some]
        exact hY
      · rw [hjobs]
        exact (hi.absent X ha).1
    · rw [hother X e] at hm
      obtain ⟨x1, x2, x3⟩ := hs.node X m hX hm
      exact ⟨x1, x2, by rw [hjobs]; exact x3⟩
  · by_cases e : X = a
    · subst e
      rw [hka] at hm; cases hm
      exact ⟨hU, fun d hd => ht.closed X hU d (by rw [← hdeps]; exact hd)⟩
    · rw [hother X e] at hm
      exact hs.known X m hm
  · obtain ⟨m', em, lm⟩ := hl
    by_cases e : X = a
    · subst e
      rw [hka] at em; cases em
      omega
    · rw [hother X e] at em
      exact ⟨m', em, lm⟩
  · rw [hout X] at ho
    have := hc X hX ho
    unfold reserve at this ⊢
    rw [hfl X, hstored X]
    exact this

theorem RequestBuildObject_stuck {obp : IObjectBuilderProvider K V} {cyc : K → Bool} {U : K → Prop}
    {self : Call K → ObjectContext K V → Option (ObjectContext K V)} (hself : SelfOK self)
    (h2 : SelfStuck obp cyc U self)
    (k : K) (c c' : ObjectContext K V) (n : ObjectBuilderInfo K V) (hk : c._values k = some n)
    (he : ObjectBuilderInfo.RequestBuildObject self k c = some c') (hi : Inv c)
    (hs : Stuck obp cyc U c) (hc : Claim cyc c (fun _ => 0)) :
    Stuck obp cyc U c' ∧ Keep cyc c c' ∧ Claim cyc c' (fun _ => 0) := by
  unfold ObjectBuilderInfo.RequestBuildObject at he
  rw [hk] at he
  simp only at he
  obtain ⟨hi1, hm1, hfl1, hr1⟩ := hi.setLatch k n hk
  have hk1 := modify_self (c := c) (fun m => { m with _buildRequestCount := 1 }) hk
  have hn := hi.node k n hk
  have hq : Quiet cyc c (c.modify k (fun m => { m with _buildRequestCount := 1 })) :=
    Quiet.modify cyc c k _ (fun m _ => ⟨rfl, fun _ => ⟨rfl, fun X => le_refl _⟩⟩)
  have hc1 : Claim cyc (c.modify k (fun m => { m with _buildRequestCount := 1 }))
      (fun _ => 0) := by
    refine hc.carry (fun X _ ho => ?_) (fun X _ _ => ?_)
    · exact fun e => ho ((outstanding_modify_of_count k _ (by intro _; rfl) X).trans e)
    · have := hq.cycStored_le X
      unfold reserve
      rw [hfl1 X]
      omega
  have hlat : ∀ X, X ≠ k →
      latched (c.modify k (fun m => { m with _buildRequestCount := 1 })) X → latched c X := by
    intro X e ⟨m, em, lm⟩
    rw [modify_other c k _ X e] at em
    exact ⟨m, em, lm⟩
  have stop : (buildReached n._state = true ∨ n._buildRequestCount = 1) →
      some (c.modify k (fun m => { m with _buildRequestCount := 1 })) = some c' →
      Stuck obp cyc U c' ∧ Keep cyc c c' ∧ Claim cyc c' (fun _ => 0) := by
    intro hor x
    simp only [Option.some.injEq] at x
    subst x
    refine ⟨hq.stuck hs, ⟨fun X _ => hq.cycStored_le X, fun X m hl hnl em hst => ?_⟩, hc1⟩
    by_cases e : X = k
    · subst e
      rw [hk1] at em; cases em
      rcases hor with x | x
      · simp only at hst
        rw [x] at hst
        cases hst
      · exact absurd ⟨n, hk, x⟩ hnl
    · exact absurd (hlat X e hl) hnl
  by_cases hz : n._buildRequestCount = 0
  · rw [if_pos hz] at he
    obtain ⟨u1, u2, u3⟩ := hn.unrequested hz
    have hns := hn.notStarting
    cases hst : n._state with
    | Starting => exact absurd hst hns
    | ObjectBuilt => exact absurd hst u2
    | Failure => rw [hst] at he; exact stop (Or.inl (by rw [hst]; rfl)) he
    | NoBuilderAvailable => rw [hst] at he; exact stop (Or.inl (by rw [hst]; rfl)) he
    | DependenciesKnown =>
      rw [hst] at he
      simp only [ObjectBuilderInfo.RegisterPostDependenciesKnownCallBack, hk1, hst,
        dependenciesKnownReached, if_true] at he
      have hpre : Pre (c.modify k (fun m => { m with _buildRequestCount := 1 }))
          (Call.callBack (CallBack.arm k) k) := ⟨rfl, _, hk1, hst, rfl, u1, u3⟩
      obtain ⟨hi2, hp2⟩ := hself _ _ c' he hi1 hpre
      obtain ⟨s2, k2, c2, hpost⟩ := h2 _ _ c' he hi1 hpre (hq.stuck hs)
        ⟨fun X hX ho => by simpa [budget] using hc1 X hX ho, trivial⟩
      refine ⟨s2, ⟨fun X hX => le_trans (hq.cycStored_le X) (k2.stored X hX),
        fun X m hl hnl em hstm => ?_⟩, c2⟩
      by_cases e : X = k
      · subst e
        exact hpost
      · exact k2.completed X m hl (fun x => hnl (hlat X e x)) em hstm
  · rw [if_neg hz] at he
    refine stop (Or.inr ?_) he
    rcases hn.latch with x | x
    · exact absurd x hz
    · exact x

theorem BuildObjectBody_stuck {obp : IObjectBuilderProvider K V} {cyc : K → Bool}
    {U : K → Prop} (ht : Trap obp cyc U)
    {self : Call K → ObjectContext K V → Option (ObjectContext K V)} (hself : SelfOK self)
    (h2 : SelfStuck obp cyc U self)
    (k : K) (c c' : ObjectContext K V)
    (he : ObjectContext.BuildObjectBody obp self k c = some c') (hi : Inv c)
    (hs : Stuck obp cyc U c) (hc : Claim cyc c (fun _ => 0)) (hU : U k) :
    Stuck obp cyc U c' ∧ Keep cyc c c' ∧ Claim cyc c' (fun _ => 0) := by
  unfold ObjectContext.BuildObjectBody at he
  cases hv : c._values k with
  | none =>
    rw [GetDependenciesInt_fresh obp self k c hv] at he
    simp only [Option.some_bind] at he
    obtain ⟨hi1, hm1, hfl1, hr1, n1, hk1, _⟩ := hi.afterDiscover obp k hv
    obtain ⟨s1, k1, c1⟩ := discover_stuck ht hi k hv hU hs hc
    obtain ⟨_, hm2, _, _, _⟩ := RequestBuildObject_ok hself k _ c' n1 hk1 he hi1
    obtain ⟨s2, k2, c2⟩ := RequestBuildObject_stuck hself h2 k _ c' n1 hk1 he hi1 s1 c1
    exact ⟨s2, k1.followedBy k2 hm2, c2⟩
  | some n =>
    rw [GetDependenciesInt_present obp self k c n hv] at he
    simp only [Option.some_bind] at he
    exact RequestBuildObject_stuck hself h2 k c c' n hv he hi hs hc

/-- Every call of the model keeps the trapped nodes stuck. -/
theorem exec_stuck {obp : IObjectBuilderProvider K V} {cyc : K → Bool} {U : K → Prop}
    (ht : Trap obp cyc U) : ∀ fuel, SelfStuck obp cyc U (exec obp fuel) := by
  intro fuel
  induction fuel with
  | zero =>
    intro X c c' he
    simp [exec] at he
  | succ fuel ih =>
    intro X c c' he hi hpre hs hp2
    cases X with
    | BuildObject address =>
      simp only [exec] at he
      obtain ⟨a, b, d⟩ := BuildObjectBody_stuck ht (exec_ok obp fuel) ih address c c' he hi hs
        (fun X hX ho => by simpa [budget] using hp2.1 X hX ho) hp2.2
      exact ⟨a, b, d, trivial⟩
    | callBack cb node =>
      simp only [exec] at he
      exact invokeCallBack_stuck (exec_ok obp fuel) ih cb node c c' he hi hpre hs hp2
    | buildObject node =>
      simp only [exec] at he
      obtain ⟨a, b, d⟩ := buildObject_stuck (exec_ok obp fuel) ih node c c' he hi hpre hs
        (fun X hX ho => by simpa [budget] using hp2.1 X hX ho)
      exact ⟨a, b, d, trivial⟩

end StuckExec

end dependencygraph

namespace dependencygraph

section TermBasic

variable {K V : Type} [DecidableEq K] [Inhabited V]

theorem countP_le_of_imp {α : Type} (p q : α → Bool) (l : List α)
    (h : ∀ x ∈ l, p x = true → q x = true) : l.countP p ≤ l.countP q := by
  induction l with
  | nil => simp
  | cons a t ih =>
    have iht := ih (fun x hx => h x (List.mem_cons_of_mem _ hx))
    have ha := h a (List.mem_cons_self _ _)
    simp only [List.countP_cons]
    cases hpa : p a <;> cases hqa : q a
    · simp; omega
    · simp; omega
    · rw [ha hpa] at hqa; cases hqa
    · simp; omega

theorem countP_lt_of_imp {α : Type} (p q : α → Bool) (l : List α)
    (h : ∀ x ∈ l, p x = true → q x = true) (a : α) (ha : a ∈ l) (hq : q a = true)
    (hp : p a = false) : l.countP p < l.countP q := by
  induction l with
  | nil => simp at ha
  | cons b t ih =>
    have ht : ∀ x ∈ t, p x = true → q x = true := fun x hx => h x (List.mem_cons_of_mem _ hx)
    simp only [List.countP_cons]
    rcases List.mem_cons.1 ha with e | e
    · subst e
      have := countP_le_of_imp p q t ht
      simp only [hp, hq, if_true]
      simp
      omega
    · have := ih ht e
      have hb := h b (List.mem_cons_self _ _)
      cases hpb : p b <;> cases hqb : q b
      · simp; omega
      · simp; omega
      · rw [hb hpb] at hqb; cases hqb
      · simp; omega

theorem requested_mono {c c' : ObjectContext K V} (hm : Mono c c') (X : K)
    (h : requested c X = true) : requested c' X = true := by
  unfold requested at h ⊢
  cases e : c._values X with
  | none => rw [e] at h; cases h
  | some n =>
    rw [e] at h
    obtain ⟨n', e', _, _, _, hl, _⟩ := hm.node X n e
    rw [e']
    simpa using hl (by simpa using h)

theorem finished_mono {c c' : ObjectContext K V} (hm : Mono c c') (X : K)
    (h : finished c X = true) : finished c' X = true := by
  unfold finished at h ⊢
  cases e : c._values X with
  | none => rw [e] at h; cases h
  | some n =>
    rw [e] at h
    obtain ⟨n', e', _, _, _, _, hf⟩ := hm.node X n e
    rw [e']
    simp only
    rw [(hf h).1]
    exact h

theorem pending_mono (U : List K) {c c' : ObjectContext K V} (hm : Mono c c') :
    pending U c' ≤ pending U c := by
  unfold pending
  have h1 := countP_le_of_imp (fun X => !requested c' X) (fun X => !requested c X) U
    (fun X _ hx => by
      cases hr : requested c X with
      | false => simp [hr]
      | true => simp [requested_mono hm X hr] at hx)
  have h2 := countP_le_of_imp (fun X => !finished c' X) (fun X => !finished c X) U
    (fun X _ hx => by
      cases hr : finished c X with
      | false => simp [hr]
      | true => simp [finished_mono hm X hr] at hx)
  omega

/-- The work left falls when the build of a key of `U` becomes requested. -/
theorem pending_lt_requested (U : List K) {c c' : ObjectContext K V} (hm : Mono c c')
    (X : K) (hX : X ∈ U) (h0 : requested c X = false) (h1 : requested c' X = true) :
    pending U c' < pending U c := by
  unfold pending
  have h1' := countP_lt_of_imp (fun X => !requested c' X) (fun X => !requested c X) U
    (fun X _ hx => by
      cases hr : requested c X with
      | false => simp [hr]
      | true => simp [requested_mono hm X hr] at hx) X hX (by simp [h0]) (by simp [h1])
  have h2 := countP_le_of_imp (fun X => !finished c' X) (fun X => !finished c X) U
    (fun X _ hx => by
      cases hr : finished c X with
      | false => simp [hr]
      | true => simp [finished_mono hm X hr] at hx)
  omega

/-- The work left falls when a key of `U` reaches a terminal state. -/
theorem pending_lt_finished (U : List K) {c c' : ObjectContext K V} (hm : Mono c c')
    (X : K) (hX : X ∈ U) (h0 : finished c X = false) (h1 : finished c' X = true) :
    pending U c' < pending U c := by
  unfold pending
  have h1' := countP_le_of_imp (fun X => !requested c' X) (fun X => !requested c X) U
    (fun X _ hx => by
      cases hr : requested c X with
      | false => simp [hr]
      | true => simp [requested_mono hm X hr] at hx)
  have h2 := countP_lt_of_imp (fun X => !finished c' X) (fun X => !finished c X) U
    (fun X _ hx => by
      cases hr : finished c X with
      | false => simp [hr]
      | true => simp [finished_mono hm X hr] at hx) X hX (by simp [h0]) (by simp [h1])
  omega

theorem claim_none (c : ObjectContext K V) (B : K → Nat) :
    Claim (fun _ => false) c B := by
  intro X hX
  cases hX

theorem trap_closed (obp : IObjectBuilderProvider K V) (U : List K)
    (hU : ∀ X ∈ U, ∀ d ∈ declared obp X, d ∈ U) :
    Trap obp (fun _ => false) (fun j => j ∈ U) :=
  ⟨(fun X hX => by cases hX), hU⟩

theorem pending_congr (U : List K) {c c' : ObjectContext K V} (h : c'._values = c._values) :
    pending U c' = pending U c := by
  unfold pending requested finished
  rw [h]

/-- A recursive call of a weight below `w` returns, and its result keeps the nodes and
their dependencies within `U`. -/
theorem Runner.call {obp : IObjectBuilderProvider K V} {U : List K} {w : Nat}
    {self : Call K → ObjectContext K V → Option (ObjectContext K V)}
    (hr : Runner obp U w self) {c : ObjectContext K V} {X : Call K}
    (h : Ready2 obp U c X) (hw : 4 * pending U c + kind X < w) :
    ∃ c', self X c = some c' ∧ Inv c' ∧ Post X c c' ∧ Known obp U c' ∧
      pending U c' ≤ pending U c := by
  obtain ⟨c', he⟩ := hr.runs X c h hw
  obtain ⟨hi, hp⟩ := hr.ok X c c' he h.inv h.pre
  have hw : Pre2 (fun _ => false) (fun j => j ∈ U) c X := by
    refine ⟨claim_none c _, ?_⟩
    have := h.within
    cases X <;> exact this
  obtain ⟨hs, _⟩ := hr.stuck X c c' he h.inv h.pre h.known hw
  exact ⟨c', he, hi, hp, hs, pending_mono U hp.mono⟩

theorem kind_callBack_le (cb : CallBack K) (k : K) (hna : ∀ o, cb ≠ CallBack.arm o) :
    kind (Call.callBack cb k) ≤ 2 := by
  cases cb with
  | arm o => exact absurd rfl (hna o)
  | dependencyBuilt o => exact Nat.le_refl _
  | client t => exact Nat.zero_le _

theorem launchAll_runs {obp : IObjectBuilderProvider K V} {U : List K} {w : Nat}
    {self : Call K → ObjectContext K V → Option (ObjectContext K V)}
    (hr : Runner obp U w self) (k : K) :
    ∀ (l : List (CallBack K)) (c : ObjectContext K V), Inv c → (∀ o, CallBack.arm o ∉ l) →
      (∀ j, (listBudget l j : Int) ≤ inFlight c j) → Known obp U c →
      4 * pending U c + 2 < w → ∃ c', launchAll self k l c = some c' := by
  intro l
  induction l with
  | nil =>
    intro c _ _ _ _ _
    exact ⟨c, rfl⟩
  | cons cb rest ih =>
    intro c hi hna hb hs hw
    have hb1 : ∀ j, (listBudget [cb] j : Int) ≤ inFlight c j := by
      intro j
      have := hb j
      rw [listBudget_cons cb rest] at this
      push_cast at this
      omega
    have hna1 : ∀ o, cb ≠ CallBack.arm o := fun o e => hna o (by rw [e]; simp)
    have hpre : Pre c (Call.callBack cb k) := pre_callBack cb k hna1 hb1
    have hk := kind_callBack_le cb k hna1
    obtain ⟨c1, he1, hi1, hp1, hs1, hle1⟩ :=
      hr.call (⟨hi, hpre, hs, True.intro⟩ : Ready2 obp U c (Call.callBack cb k)) (by omega)
    have hfl1 : ∀ j, inFlight c1 j = inFlight c j - (listBudget [cb] j : Int) := by
      intro j
      rw [hp1.inFlight j, budget_callBack]
    obtain ⟨c2, he2⟩ := ih c1 hi1 (fun o ho => hna o (List.mem_cons_of_mem _ ho))
      (fun j => by
        have := hb j
        rw [listBudget_cons cb rest] at this
        push_cast at this
        rw [hfl1 j]
        omega) hs1 (by omega)
    exact ⟨c2, by simp only [launchAll, he1, Option.some_bind, he2]⟩

theorem launchPostBuildCallBacks_runs {obp : IObjectBuilderProvider K V} {U : List K}
    {w : Nat} {self : Call K → ObjectContext K V → Option (ObjectContext K V)}
    (hr : Runner obp U w self) (k : K) (c : ObjectContext K V) (n : ObjectBuilderInfo K V)
    (hk : c._values k = some n) (hi : Inv c)
    (hb : ∀ j, (listBudget n._postBuildCallBacks j : Int) ≤ inFlight c j)
    (hs : Known obp U c) (hw : 4 * pending U c + 2 < w) :
    ∃ c', ObjectBuilderInfo.launchPostBuildCallBacks self k c = some c' := by
  obtain ⟨c1, he1⟩ := launchAll_runs hr k _ c hi (hi.node k n hk).noArm hb hs hw
  exact ⟨c1.modify k (fun m => { m with _postBuildCallBacks := [] }),
    by simp only [ObjectBuilderInfo.launchPostBuildCallBacks, hk, he1, Option.map_some']⟩

theorem launch_after_finish_runs {obp : IObjectBuilderProvider K V} {U : List K}
    {w : Nat} {self : Call K → ObjectContext K V → Option (ObjectContext K V)}
    (hr : Runner obp U w self) (k : K) (c : ObjectContext K V) (n : ObjectBuilderInfo K V)
    (hk : c._values k = some n) (hi : Inv c)
    (hb : ∀ j, (listBudget n._postBuildCallBacks j : Int) ≤ inFlight c j)
    (hs : Known obp U c) (hw : 4 * pending U c + 2 < w) :
    ∃ c', (ObjectBuilderInfo.launchPostDependenciesKnownCallBacks self k c).bind
      (ObjectBuilderInfo.launchPostBuildCallBacks self k) = some c' := by
  rw [launchPostDependenciesKnownCallBacks_id self k c
    (fun m hm => (hi.node k m hm).noDepsKnownCallBacks)]
  exact launchPostBuildCallBacks_runs hr k c n hk hi hb hs hw

end TermBasic

end dependencygraph

namespace dependencygraph

section TermRegister

variable {K V : Type} [DecidableEq K] [Inhabited V]

theorem RegisterPostBuildCallBack_runs {obp : IObjectBuilderProvider K V} {U : List K}
    {w : Nat} {self : Call K → ObjectContext K V → Option (ObjectContext K V)}
    (hr : Runner obp U w self) (d : K) (cb : CallBack K) (c : ObjectContext K V)
    (hna : ∀ o, cb ≠ CallBack.arm o) (n : ObjectBuilderInfo K V) (hd : c._values d = some n)
    (hi : Inv c) (hb : ∀ j, (listBudget [cb] j : Int) ≤ inFlight c j)
    (hs : Known obp U c) (hw : 4 * pending U c + 2 < w) :
    ∃ c', ObjectBuilderInfo.RegisterPostBuildCallBack self d cb c = some c' := by
  unfold ObjectBuilderInfo.RegisterPostBuildCallBack
  rw [hd]
  simp only
  by_cases hb2 : buildReached n._state = true
  · rw [if_pos hb2]
    have hk := kind_callBack_le cb d hna
    obtain ⟨c1, he1, _⟩ :=
      hr.call (⟨hi, pre_callBack cb d hna hb, hs, True.intro⟩ :
        Ready2 obp U c (Call.callBack cb d)) (by omega)
    exact ⟨c1, he1⟩
  · rw [if_neg hb2]
    exact ⟨_, rfl⟩

theorem RegisterJob_runs {obp : IObjectBuilderProvider K V} {U : List K}
    {w : Nat} {self : Call K → ObjectContext K V → Option (ObjectContext K V)}
    (hr : Runner obp U w self) (k : K) (c : ObjectContext K V) (ha : Armable c k)
    (hi : Inv c) (hs : Known obp U c) (hw : 4 * pending U c + 1 < w) :
    ∃ c', SingleThreadedJobQueue.RegisterJob self k c = some c' := by
  unfold SingleThreadedJobQueue.RegisterJob
  obtain ⟨hi1, hr1, _⟩ := hi.recordJob k ha
  have hs1 : Known obp U (c.record (Event.RegisterJob k)) :=
    (Quiet.ofRecord (fun _ => false) c _ (fun X hX => by cases hX)).stuck hs
  have hp : pending U (c.record (Event.RegisterJob k)) = pending U c := pending_congr U rfl
  obtain ⟨c1, he1, _⟩ :=
    hr.call (⟨hi1, hr1, hs1, True.intro⟩ :
      Ready2 obp U (c.record (Event.RegisterJob k)) (Call.buildObject k))
      (by rw [hp]; exact hw)
  exact ⟨c1, he1⟩

theorem requestDependencies_runs {obp : IObjectBuilderProvider K V} {U : List K}
    {w : Nat} {self : Call K → ObjectContext K V → Option (ObjectContext K V)}
    (hr : Runner obp U w self) (owner : K) :
    ∀ (rest : List K) (c : ObjectContext K V), Inv c →
      (rest.length : Int) ≤ inFlight c owner → Known obp U c → (∀ d ∈ rest, d ∈ U) →
      4 * pending U c + 2 < w → ∃ c', requestDependencies self owner rest c = some c' := by
  intro rest
  induction rest with
  | nil =>
    intro c _ _ _ _ _
    exact ⟨c, rfl⟩
  | cons dep rest ih =>
    intro c hi hb hs hU hw
    obtain ⟨c1, h1, hi1, hp1, hs1, hle1⟩ :=
      hr.call (⟨hi, True.intro, hs, hU dep (List.mem_cons_self _ _)⟩ :
        Ready2 obp U c (Call.BuildObject dep)) (by simp only [kind]; omega)
    obtain ⟨n1, hd1, _⟩ := hp1.result
    have hfl1 : ∀ j, inFlight c1 j = inFlight c j := by
      intro j; rw [hp1.inFlight j]; simp [budget]
    have hbud : ∀ j, (listBudget [CallBack.dependencyBuilt owner] j : Int)
        = if j = owner then 1 else 0 := by
      intro j
      rw [← budget_callBack (CallBack.dependencyBuilt owner) dep j]
      simp only [budget]
      split <;> simp
    simp only [List.length_cons] at hb
    push_cast at hb
    have hb1 : ∀ j, (listBudget [CallBack.dependencyBuilt owner] j : Int) ≤ inFlight c1 j := by
      intro j
      rw [hbud j, hfl1 j]
      have := hi.inFlightNonneg j
      split
      · rename_i e; subst e; omega
      · omega
    obtain ⟨c2, h2⟩ := RegisterPostBuildCallBack_runs hr dep (CallBack.dependencyBuilt owner)
      c1 (fun o x => by cases x) n1 hd1 hi1 hb1 hs1 (by omega)
    obtain ⟨hi2, hm2, hfl2, _⟩ := RegisterPostBuildCallBack_ok hr.ok dep _ c1 c2
      (fun o x => by cases x) n1 hd1 h2 hi1 hb1
    obtain ⟨hs2, _⟩ := RegisterPostBuildCallBack_stuck hr.ok hr.stuck dep _ c1 c2
      (fun o x => by cases x) n1 hd1 h2 hi1 hb1 hs1 (claim_none c1 _)
      (fun _ => claim_none c1 _)
    have hle2 := pending_mono U hm2
    obtain ⟨c3, h3⟩ := ih c2 hi2 (by
      rw [hfl2 owner, hbud owner, hfl1 owner]
      simp only [if_true]
      omega) hs2 (fun d hd => hU d (List.mem_cons_of_mem _ hd)) (by omega)
    exact ⟨c3, by simp only [requestDependencies, h1, Option.some_bind, h2, h3]⟩

end TermRegister

end dependencygraph

namespace dependencygraph

section TermJob

variable {K V : Type} [DecidableEq K] [Inhabited V]

/-- The work left after the node of `k` was moved from `DependenciesKnown` to a terminal
state. -/
theorem pending_finish (U : List K) {c c2 : ObjectContext K V} (hm : Mono c c2) (k : K)
    (hU : k ∈ U) (n n2 : ObjectBuilderInfo K V) (hk : c._values k = some n)
    (hst : n._state = ObjectBuildingState.DependenciesKnown) (hk2 : c2._values k = some n2)
    (hs2 : buildReached n2._state = true) : pending U c2 + 1 ≤ pending U c := by
  have := pending_lt_finished U hm k hU (by simp [finished, hk, hst, buildReached])
    (by simp [finished, hk2, hs2])
  omega

theorem SetObjectFailed_runs {obp : IObjectBuilderProvider K V} {U : List K}
    {w : Nat} {self : Call K → ObjectContext K V → Option (ObjectContext K V)}
    (hr : Runner obp U w self)
    {c : ObjectContext K V} (c0 : ObjectContext K V) (h : Inv c) (k : K)
    (n : ObjectBuilderInfo K V) (hk : c._values k = some n)
    (hst : n._state = ObjectBuildingState.DependenciesKnown)
    (hl : n._buildRequestCount = 1) (hc : n._outstandingDependenciesCount = 0)
    (hv : c0._values = c._values) (hkeys : c0.keys = c.keys)
    (hj : c0.journal = c.journal ∨ c0.journal = c.journal ++ [Event.BuildObject k])
    (msg : String) (hs : Known obp U c) (hw : 4 * pending U c < w) :
    ∃ c', ObjectBuilderInfo.SetObjectFailed self k msg c0 = some c' := by
  unfold ObjectBuilderInfo.SetObjectFailed
  obtain ⟨hi2, hm2, hfl2, hr2, hk2⟩ := Inv.finishWith c0 h k n hk hst hl hc hv hkeys hj
    (fun m => { m with exception := some msg }) rfl rfl rfl rfl rfl rfl rfl rfl
    ObjectBuildingState.Failure (Or.inr rfl) (fun x => by cases x)
  obtain ⟨hs2, _⟩ := finishWith_stuck c0 h k n hk hst hl hc hv hkeys hj
    (fun m => { m with exception := some msg }) rfl rfl rfl rfl rfl rfl rfl rfl
    ObjectBuildingState.Failure (Or.inr rfl) (fun x => by cases x) hs (claim_none c _) rfl
  have hp := pending_finish U hm2 k (hs.known k n hk).1 n _ hk hst hk2 rfl
  exact launch_after_finish_runs hr k _ _ hk2 hi2
    (fun j => by rw [hfl2 j]; have := h.inFlightNonneg j; simp only; omega) hs2 (by omega)

theorem SetObjectBuilt_runs {obp : IObjectBuilderProvider K V} {U : List K}
    {w : Nat} {self : Call K → ObjectContext K V → Option (ObjectContext K V)}
    (hr : Runner obp U w self)
    {c : ObjectContext K V} (c0 : ObjectContext K V) (h : Inv c) (k : K)
    (n : ObjectBuilderInfo K V) (hk : c._values k = some n)
    (hst : n._state = ObjectBuildingState.DependenciesKnown)
    (hl : n._buildRequestCount = 1) (hc : n._outstandingDependenciesCount = 0)
    (hv : c0._values = c._values) (hkeys : c0.keys = c.keys)
    (hj : c0.journal = c.journal ∨ c0.journal = c.journal ++ [Event.BuildObject k])
    (hdeps : ∀ d ∈ n.dependencies, c.getState d = some ObjectBuildingState.ObjectBuilt)
    (v : V) (hs : Known obp U c) (hw : 4 * pending U c < w) :
    ∃ c', ObjectBuilderInfo.SetObjectBuilt self k v c0 = some c' := by
  unfold ObjectBuilderInfo.SetObjectBuilt
  obtain ⟨hi2, hm2, hfl2, hr2, hk2⟩ := Inv.finishWith c0 h k n hk hst hl hc hv hkeys hj
    (fun m => { m with builtObject := v }) rfl rfl rfl rfl rfl rfl rfl rfl
    ObjectBuildingState.ObjectBuilt (Or.inl rfl) (fun _ => hdeps)
  obtain ⟨hs2, _⟩ := finishWith_stuck c0 h k n hk hst hl hc hv hkeys hj
    (fun m => { m with builtObject := v }) rfl rfl rfl rfl rfl rfl rfl rfl
    ObjectBuildingState.ObjectBuilt (Or.inl rfl) (fun _ => hdeps) hs (claim_none c _) rfl
  have hp := pending_finish U hm2 k (hs.known k n hk).1 n _ hk hst hk2 rfl
  exact launchPostBuildCallBacks_runs hr k _ _ hk2 hi2
    (fun j => by rw [hfl2 j]; have := h.inFlightNonneg j; simp only; omega) hs2 (by omega)

theorem collectBuiltDependencies_runs {obp : IObjectBuilderProvider K V} {U : List K}
    {w : Nat} {self : Call K → ObjectContext K V → Option (ObjectContext K V)}
    (hr : Runner obp U w self) :
    ∀ (deps : List K) (acc : K → Option V) (c : ObjectContext K V), Inv c →
      Known obp U c → (∀ d ∈ deps, d ∈ U) → 4 * pending U c < w →
      ∃ c1 r, collectBuiltDependencies self deps acc c = some (c1, r) := by
  intro deps
  induction deps with
  | nil =>
    intro acc c _ _ _ _
    exact ⟨c, some acc, rfl⟩
  | cons dep rest ih =>
    intro acc c hi hs hU hw
    obtain ⟨c2, h1, hi2, hp2, hs2, hle2⟩ :=
      hr.call (⟨hi, True.intro, hs, hU dep (List.mem_cons_self _ _)⟩ :
        Ready2 obp U c (Call.BuildObject dep)) (by simp only [kind]; omega)
    simp only [collectBuiltDependencies, h1]
    cases hn : c2._values dep with
    | none => exact ⟨c2, none, rfl⟩
    | some m =>
      simp only
      by_cases hst : m._state ≠ ObjectBuildingState.ObjectBuilt
      · rw [if_pos hst]
        exact ⟨c2, none, rfl⟩
      · rw [if_neg hst]
        exact ih _ c2 hi2 hs2 (fun d hd => hU d (List.mem_cons_of_mem _ hd)) (by omega)

end TermJob

end dependencygraph

namespace dependencygraph

section TermBuild

variable {K V : Type} [DecidableEq K] [Inhabited V]

theorem buildObject_runs {obp : IObjectBuilderProvider K V} {U : List K}
    {w : Nat} {self : Call K → ObjectContext K V → Option (ObjectContext K V)}
    (hr : Runner obp U w self) (k : K) (c : ObjectContext K V) (hi : Inv c)
    (hpre : Runnable c k) (hs : Known obp U c) (hw : 4 * pending U c < w) :
    ∃ c', ObjectBuilderInfo.buildObject self k c = some c' := by
  obtain ⟨n, hk, _, _, _, _⟩ := id hpre
  unfold ObjectBuilderInfo.buildObject
  rw [hk]
  simp only
  obtain ⟨c1, r, hcol⟩ := collectBuiltDependencies_runs hr n.dependencies (fun _ => none) c hi
    hs (fun d hd => (hs.known k n hk).2 d hd) hw
  rw [hcol]
  obtain ⟨hi1, hm1, hfl1, hr1, hd1⟩ := collectBuiltDependencies_ok hr.ok _ _ c c1 r hcol hi
  obtain ⟨hs1, _⟩ := collectBuiltDependencies_stuck hr.ok hr.stuck _ _ c c1 r hcol hi hs
    (claim_none c _) (fun d hd => (hs.known k n hk).2 d hd)
  have hle1 := pending_mono U hm1
  obtain ⟨n1, hk1, hst1, hl1, hc1, _⟩ := hr1 k hpre
  cases r with
  | none =>
    simp only
    exact SetObjectFailed_runs hr c1 hi1 k n1 hk1 hst1 hl1 hc1 rfl rfl (Or.inl rfl) _ hs1
      (by omega)
  | some builtDependencies =>
    simp only
    have hdeps : ∀ d ∈ n1.dependencies,
        c1.getState d = some ObjectBuildingState.ObjectBuilt := by
      intro d hd
      obtain ⟨n', e', _, e2, _⟩ := hm1.node k n hk
      rw [hk1] at e'; cases e'
      rw [e2] at hd
      exact hd1 rfl d hd
    cases hb : (c1._values k).bind (fun m => m.objectBuilder) with
    | none =>
      simp only
      exact SetObjectFailed_runs hr c1 hi1 k n1 hk1 hst1 hl1 hc1 rfl rfl (Or.inl rfl) _ hs1
        (by omega)
    | some b =>
      simp only
      cases hv : b.BuildObject k builtDependencies with
      | none =>
        simp only
        exact SetObjectFailed_runs hr (c1.record (Event.BuildObject k)) hi1 k n1 hk1
          hst1 hl1 hc1 rfl rfl (Or.inr rfl) _ hs1 (by omega)
      | some v =>
        simp only
        exact SetObjectBuilt_runs hr (c1.record (Event.BuildObject k)) hi1 k n1 hk1
          hst1 hl1 hc1 rfl rfl (Or.inr rfl) hdeps v hs1 (by omega)

theorem invokeCallBack_runs {obp : IObjectBuilderProvider K V} {U : List K}
    {self : Call K → ObjectContext K V → Option (ObjectContext K V)}
    (cb : CallBack K) (node : K) (c : ObjectContext K V)
    (hr : Runner obp U (4 * pending U c + kind (Call.callBack cb node)) self) (hi : Inv c)
    (hpre : Pre c (Call.callBack cb node)) (hs : Known obp U c) :
    ∃ c', invokeCallBack self cb node c = some c' := by
  cases cb with
  | arm owner =>
    obtain ⟨hno, ha⟩ := hpre
    subst hno
    obtain ⟨n, hk, _⟩ := id ha
    simp only [invokeCallBack, hk]
    obtain ⟨hi1, hm1, hfl1, hr1, ha1⟩ := hi.storeCount node ha n.dependencies.length
    have hq : Quiet (fun _ => false) c (c.modify node (fun m => { m with
        _outstandingDependenciesCount := (n.dependencies.length : Int) })) :=
      Quiet.modify _ c node _ (fun m _ => ⟨rfl, fun x => by cases x⟩)
    have hs1 := hq.stuck hs
    have hp1 : pending U (c.modify node (fun m => { m with
        _outstandingDependenciesCount := (n.dependencies.length : Int) })) ≤ pending U c :=
      pending_mono U hm1
    by_cases hz : n.dependencies.length = 0
    · rw [if_pos hz]
      exact RegisterJob_runs hr node _ (ha1 hz) hi1 hs1 (by simp only [kind]; omega)
    · rw [if_neg hz]
      exact requestDependencies_runs hr node _ _ hi1 (by
        rw [hfl1 node]
        have := hi.inFlightNonneg node
        simp only [if_true]
        omega) hs1 (fun d hd => (hs.known node n hk).2 d hd) (by simp only [kind]; omega)
  | dependencyBuilt owner =>
    have hfl : 1 ≤ inFlight c owner := hpre
    obtain ⟨n, hk, hc⟩ := node_of_inFlight hfl
    simp only [invokeCallBack, hk]
    obtain ⟨hi1, hm1, hfl1, hr1, ha1⟩ := hi.fetchSub owner n hk hfl
    have hs1 := (Quiet.ofFetchSub (fun _ => false) c owner).stuck hs
    have hp1 : pending U (c.fetchSub owner) ≤ pending U c := pending_mono U hm1
    by_cases hz : n._outstandingDependenciesCount > 1
    · rw [if_pos hz]
      exact ⟨_, rfl⟩
    · rw [if_neg hz]
      exact RegisterJob_runs hr owner _ (ha1 hz) hi1 hs1 (by simp only [kind]; omega)
  | client tag =>
    exact ⟨_, rfl⟩

end TermBuild

end dependencygraph

namespace dependencygraph

section TermExec

variable {K V : Type} [DecidableEq K] [Inhabited V]

theorem RequestBuildObject_runs {obp : IObjectBuilderProvider K V} {U : List K}
    {w : Nat} {self : Call K → ObjectContext K V → Option (ObjectContext K V)}
    (hr : Runner obp U w self) (k : K) (c : ObjectContext K V) (n : ObjectBuilderInfo K V)
    (hk : c._values k = some n) (hi : Inv c) (hs : Known obp U c)
    (hw : 4 * pending U c ≤ w) :
    ∃ c', ObjectBuilderInfo.RequestBuildObject self k c = some c' := by
  unfold ObjectBuilderInfo.RequestBuildObject
  rw [hk]
  simp only
  obtain ⟨hi1, hm1, hfl1, hr1⟩ := hi.setLatch k n hk
  have hk1 := modify_self (c := c) (fun m => { m with _buildRequestCount := 1 }) hk
  have hn := hi.node k n hk
  by_cases hz : n._buildRequestCount = 0
  · rw [if_pos hz]
    obtain ⟨u1, u2, u3⟩ := hn.unrequested hz
    have hns := hn.notStarting
    cases hst : n._state with
    | Starting => exact absurd hst hns
    | ObjectBuilt => exact absurd hst u2
    | Failure => exact ⟨_, rfl⟩
    | NoBuilderAvailable => exact ⟨_, rfl⟩
    | DependenciesKnown =>
      simp only [ObjectBuilderInfo.RegisterPostDependenciesKnownCallBack, hk1, hst,
        dependenciesKnownReached, if_true]
      have hq : Quiet (fun _ => false) c
          (c.modify k (fun m => { m with _buildRequestCount := 1 })) :=
        Quiet.modify _ c k _ (fun m _ => ⟨rfl, fun x => by cases x⟩)
      have hs1 : Known obp U (c.modify k (fun m => { m with _buildRequestCount := 1 })) :=
        hq.stuck hs
      have hq1 : requested (c.modify k (fun m => { m with _buildRequestCount := 1 })) k
          = true := by
        unfold requested
        rw [hk1]
        simp
      have hp := pending_lt_requested U hm1 k (hs.known k n hk).1
        (by simp [requested, hk, hz]) hq1
      obtain ⟨c1, he1, _⟩ :=
        hr.call (⟨hi1, ⟨rfl, _, hk1, hst, rfl, u1, u3⟩, hs1, True.intro⟩ :
          Ready2 obp U (c.modify k (fun m => { m with _buildRequestCount := 1 }))
            (Call.callBack (CallBack.arm k) k)) (by simp only [kind]; omega)
      exact ⟨c1, he1⟩
  · rw [if_neg hz]
    exact ⟨_, rfl⟩

theorem BuildObjectBody_runs {obp : IObjectBuilderProvider K V} {U : List K}
    (hU : ∀ X ∈ U, ∀ d ∈ declared obp X, d ∈ U)
    {w : Nat} {self : Call K → ObjectContext K V → Option (ObjectContext K V)}
    (hr : Runner obp U w self) (k : K) (c : ObjectContext K V) (hi : Inv c)
    (hs : Known obp U c) (hk : k ∈ U) (hw : 4 * pending U c ≤ w) :
    ∃ c', ObjectContext.BuildObjectBody obp self k c = some c' := by
  unfold ObjectContext.BuildObjectBody
  cases hc : c._values k with
  | none =>
    rw [GetDependenciesInt_fresh obp self k c hc]
    simp only [Option.some_bind]
    obtain ⟨hi1, hm1, hfl1, hr1, n1, hk1, _⟩ := hi.afterDiscover obp k hc
    obtain ⟨hs1, _⟩ := discover_stuck (trap_closed obp U hU) hi k hc hk hs (claim_none c _)
    have hp := pending_mono U hm1
    exact RequestBuildObject_runs hr k _ n1 hk1 hi1 hs1 (by omega)
  | some n =>
    rw [GetDependenciesInt_present obp self k c n hc]
    simp only [Option.some_bind]
    exact RequestBuildObject_runs hr k c n hc hi hs hw

/-- A call of weight below the fuel returns. -/
theorem exec_runs (obp : IObjectBuilderProvider K V) (U : List K)
    (hU : ∀ X ∈ U, ∀ d ∈ declared obp X, d ∈ U) :
    ∀ fuel (X : Call K) (c : ObjectContext K V), Ready2 obp U c X →
      4 * pending U c + kind X < fuel → ∃ c', exec obp fuel X c = some c' := by
  intro fuel
  induction fuel with
  | zero =>
    intro X c _ hw
    omega
  | succ fuel ih =>
    intro X c h hw
    have hr : Runner obp U (4 * pending U c + kind X) (exec obp fuel) :=
      ⟨exec_ok obp fuel, exec_stuck (trap_closed obp U hU) fuel,
        fun X1 c1 h1 hw1 => ih X1 c1 h1 (by omega)⟩
    cases X with
    | BuildObject address =>
      simp only [exec]
      exact BuildObjectBody_runs hU hr address c h.inv h.known h.within (by omega)
    | callBack cb node =>
      simp only [exec]
      exact invokeCallBack_runs cb node c hr h.inv h.pre h.known
    | buildObject node =>
      simp only [exec]
      exact buildObject_runs hr node c h.inv h.pre h.known (by simp only [kind]; omega)

theorem pending_le (U : List K) (c : ObjectContext K V) : pending U c ≤ 2 * U.length := by
  unfold pending
  have h1 := List.countP_le_length (fun X => !requested c X) (l := U)
  have h2 := List.countP_le_length (fun X => !finished c X) (l := U)
  omega

/-- On a finite set of keys closed under declared dependencies, `BuildObject` returns
with fuel `8 * |U|`. -/
theorem BuildObject_runs (obp : IObjectBuilderProvider K V) (U : List K)
    (hU : ∀ X ∈ U, ∀ d ∈ declared obp X, d ∈ U) (k : K) (hk : k ∈ U)
    (c : ObjectContext K V) (hi : Inv c) (hs : Known obp U c) :
    ∃ c', ∀ f, 8 * U.length ≤ f → ObjectContext.BuildObject obp f k c = some c' := by
  have hp := pending_le U c
  obtain ⟨c', he⟩ := exec_runs obp U hU (8 * U.length + 1) (Call.BuildObject k) c
    ⟨hi, True.intro, hs, hk⟩ (by simp only [kind]; omega)
  refine ⟨c', fun f hf => ?_⟩
  unfold ObjectContext.BuildObject
  exact exec_mono obp _ _ (by omega) _ _ _ he

end TermExec

end dependencygraph

namespace dependencygraph

section TrappedLemmas

variable {K V : Type} [DecidableEq K] [Inhabited V]

theorem DependsOn.append {obp : IObjectBuilderProvider K V} {a b d : K}
    (h1 : DependsOn obp a b) (h2 : DependsOn obp b d) : DependsOn obp a d := by
  induction h2 with
  | refl => exact h1
  | step _ hd ih => exact DependsOn.step ih hd

theorem DependsOn.head {obp : IObjectBuilderProvider K V} {a b d : K}
    (h1 : b ∈ declared obp a) (h2 : DependsOn obp b d) : DependsOn obp a d :=
  (DependsOn.step DependsOn.refl h1).append h2

/-- A path is empty or starts with a declared dependency. -/
theorem DependsOn.first {obp : IObjectBuilderProvider K V} {a b : K}
    (h : DependsOn obp a b) : a = b ∨ ∃ Y ∈ declared obp a, DependsOn obp Y b := by
  induction h with
  | refl => exact Or.inl rfl
  | step hj hd ih =>
    rcases ih with e | ⟨Y, hY, hYj⟩
    · subst e
      exact Or.inr ⟨_, hd, DependsOn.refl⟩
    · exact Or.inr ⟨Y, hY, DependsOn.step hYj hd⟩

theorem declared_mem {obp : IObjectBuilderProvider K V} {X d : K}
    (h : d ∈ declared obp X) :
    ∃ b ds, obp X = some b ∧ b.GetDependencies X = some ds ∧ d ∈ ds := by
  unfold declared at h
  cases hb : obp X with
  | none => rw [hb] at h; simp at h
  | some b =>
    rw [hb] at h
    simp only at h
    cases hd : b.GetDependencies X with
    | none => rw [hd] at h; simp at h
    | some ds =>
      rw [hd] at h
      exact ⟨b, ds, rfl, hd, by simpa using h⟩

/-- Every key on a cycle through `k` has a declared dependency on a cycle through `k`. -/
theorem OnCycle.successor {obp : IObjectBuilderProvider K V} {k X : K}
    (hcyc : ∃ d ∈ declared obp k, DependsOn obp d k) (h : OnCycle obp k X) :
    ∃ Y ∈ declared obp X, OnCycle obp k Y := by
  rcases h.2.first with e | ⟨Y, hY, hYk⟩
  · subst e
    obtain ⟨d, hd, hdk⟩ := hcyc
    exact ⟨d, hd, DependsOn.step DependsOn.refl hd, hdk⟩
  · exact ⟨Y, hY, DependsOn.step h.1 hY, hYk⟩

theorem trap_cycle {obp : IObjectBuilderProvider K V} {k : K}
    (hcyc : ∃ d ∈ declared obp k, DependsOn obp d k) (cyc : K → Bool)
    (hiff : ∀ X, cyc X = true ↔ OnCycle obp k X) : Trap obp cyc (fun _ => True) := by
  refine ⟨fun X hX => ?_, fun _ _ _ _ => True.intro⟩
  obtain ⟨Y, hY, hYc⟩ := ((hiff X).1 hX).successor hcyc
  obtain ⟨b, ds, hb, hds, hm⟩ := declared_mem hY
  exact ⟨b, ds, hb, hds, Y, hm, (hiff Y).2 hYc⟩

theorem Trapped.empty (obp : IObjectBuilderProvider K V) (cyc : K → Bool) :
    Trapped obp cyc (ObjectContext.empty : ObjectContext K V) := by
  refine ⟨inv_empty, ⟨?_, ?_, ?_⟩, ?_, ?_⟩
  · intro X n h; cases h
  · intro X n _ h; cases h
  · intro X n h; cases h
  · intro X _ h
    exact absurd rfl h
  · intro X n _ h; cases h

/-- What a step that keeps the waiting callbacks does to the invariant. -/
theorem Trapped.advance {obp : IObjectBuilderProvider K V} {cyc : K → Bool}
    {c c' : ObjectContext K V} (h : Trapped obp cyc c) (hi : Inv c') (hm : Mono c c')
    (hs : Stuck obp cyc (fun _ => True) c') (hk : Keep cyc c c')
    (hc : Claim cyc c' (fun _ => 0)) : Trapped obp cyc c' := by
  refine ⟨hi, hs, hc, fun X n' hl hn' hb => ?_⟩
  by_cases hl0 : latched c X
  · obtain ⟨n, hn, _⟩ := id hl0
    have hb0 : buildReached n._state = false := by
      cases e : buildReached n._state with
      | false => rfl
      | true =>
        obtain ⟨n1, e1, _, _, _, _, hf⟩ := hm.node X n hn
        rw [hn'] at e1; cases e1
        rw [(hf e).1, e] at hb
        cases hb
    exact (h.completed X n hl0 hn hb0).stays hm (hk.stored X) (by rw [hn]; simp)
  · exact hk.completed X n' hl hl0 hn' hb

theorem Trapped.buildObject {obp : IObjectBuilderProvider K V} {cyc : K → Bool}
    (ht : Trap obp cyc (fun _ => True)) {c c' : ObjectContext K V} (h : Trapped obp cyc c)
    (f : Nat) (a : K) (he : ObjectContext.BuildObject obp f a c = some c') :
    Trapped obp cyc c' := by
  unfold ObjectContext.BuildObject at he
  obtain ⟨hi, hp⟩ := exec_ok obp (f + 1) _ c c' he h.inv True.intro
  obtain ⟨hs, hk, hc, _⟩ := exec_stuck ht (f + 1) _ c c' he h.inv True.intro h.stuck
    ⟨fun X hX ho => by simpa [budget] using h.claim X hX ho, True.intro⟩
  exact h.advance hi hp.mono hs hk hc

theorem Trapped.getDependencies {obp : IObjectBuilderProvider K V} {cyc : K → Bool}
    (ht : Trap obp cyc (fun _ => True)) {c c' : ObjectContext K V} (h : Trapped obp cyc c)
    (f : Nat) (a : K) (he : ObjectContext.GetDependencies obp f a c = some c') :
    Trapped obp cyc c' := by
  unfold ObjectContext.GetDependencies at he
  cases hc : c._values a with
  | none =>
    rw [GetDependenciesInt_fresh obp _ a c hc] at he
    simp only [Option.some.injEq] at he
    subst he
    obtain ⟨hi1, hm1, _⟩ := h.inv.afterDiscover obp a hc
    obtain ⟨hs1, hk1, hc1⟩ := discover_stuck ht h.inv a hc True.intro h.stuck h.claim
    exact h.advance hi1 hm1 hs1 hk1 hc1
  | some n =>
    rw [GetDependenciesInt_present obp _ a c n hc] at he
    simp only [Option.some.injEq] at he
    subst he
    exact h

theorem Trapped.reachableFrom {obp : IObjectBuilderProvider K V} {cyc : K → Bool}
    (ht : Trap obp cyc (fun _ => True)) {c c' : ObjectContext K V} (h : Trapped obp cyc c)
    (hr : ReachableFrom obp c c') : Trapped obp cyc c' := by
  induction hr with
  | refl => exact h
  | getDependencies f a _ he ih => exact ih.getDependencies ht f a he
  | buildObject f a _ he ih => exact ih.buildObject ht f a he

/-- A selected key with a node waits in `DependenciesKnown`: no job was submitted for it
and its build operation was not called. -/
theorem Trapped.waiting {obp : IObjectBuilderProvider K V} {cyc : K → Bool}
    {c : ObjectContext K V} (h : Trapped obp cyc c) {X : K} (hX : cyc X = true)
    {n : ObjectBuilderInfo K V} (hn : c._values X = some n) :
    c.getState X = some ObjectBuildingState.DependenciesKnown ∧ jobCount c X = 0 ∧
      buildCount c X = 0 := by
  obtain ⟨hst, _, hj⟩ := h.stuck.node X n hX hn
  refine ⟨by rw [getState_eq c X n hn, hst], hj, ?_⟩
  by_contra hb
  rcases (h.inv.node X n hn).notBuilt hb with e | e <;> rw [hst] at e <;> cases e

/-- A selected key whose build was requested has a callback waiting on a selected key,
so its counter is at least one. -/
theorem Trapped.counter {obp : IObjectBuilderProvider K V} {cyc : K → Bool}
    {c : ObjectContext K V} (h : Trapped obp cyc c) {X : K} (hX : cyc X = true)
    (hl : latched c X) : 1 ≤ outstanding c X := by
  obtain ⟨n, hn, _⟩ := id hl
  obtain ⟨hst, _, _⟩ := h.stuck.node X n hX hn
  have hw := (h.completed X n hl hn (by rw [hst]; rfl)).waits hX
  have h1 := cycStored_le_stored cyc c X
  have h2 := h.inv.inFlightNonneg X
  unfold inFlight at h2
  omega

/-- Once the build of a selected key was requested, the build of each of its
dependencies was requested. -/
theorem Trapped.next {obp : IObjectBuilderProvider K V} {cyc : K → Bool}
    {c : ObjectContext K V} (h : Trapped obp cyc c) {X : K} (hX : cyc X = true)
    (hl : latched c X) : ∀ d ∈ declared obp X, latched c d := by
  obtain ⟨n, hn, _⟩ := id hl
  obtain ⟨hst, _, _⟩ := h.stuck.node X n hX hn
  have hw := (h.completed X n hl hn (by rw [hst]; rfl)).requested n hn
  rw [h.stuck.deps X n hn] at hw
  exact hw

/-- Once the build of `k` was requested, the build of every key on a cycle through `k`
was requested. -/
theorem Trapped.cycle {obp : IObjectBuilderProvider K V} {cyc : K → Bool} {k : K}
    (hiff : ∀ X, cyc X = true ↔ OnCycle obp k X)
    {c : ObjectContext K V} (h : Trapped obp cyc c) (hl : latched c k) :
    ∀ X, DependsOn obp k X → DependsOn obp X k → latched c X := by
  intro X hkX
  induction hkX with
  | refl => exact fun _ => hl
  | step hj hd ih =>
    intro hdk
    have hjk := DependsOn.head hd hdk
    exact h.next ((hiff _).2 ⟨hj, hjk⟩) (ih hjk) _ hd

end TrappedLemmas

end dependencygraph

namespace dependencygraph

section CycleLemmas

variable {K V : Type} [DecidableEq K] [Inhabited V]

theorem ReachableFrom.andAfter {obp : IObjectBuilderProvider K V} {c0 c1 c2 : ObjectContext K V}
    (h1 : ReachableFrom obp c0 c1) (h2 : ReachableFrom obp c1 c2) :
    ReachableFrom obp c0 c2 := by
  induction h2 with
  | refl => exact h1
  | getDependencies f a _ he ih => exact ReachableFrom.getDependencies f a ih he
  | buildObject f a _ he ih => exact ReachableFrom.buildObject f a ih he

/-- In a reachable context whose nodes are keys of a set `U` closed under declared
dependencies, the dependencies of the nodes are keys of `U` too. -/
theorem known_of_reachable (obp : IObjectBuilderProvider K V) (U : List K)
    (hU : ∀ X ∈ U, ∀ d ∈ declared obp X, d ∈ U) (c : ObjectContext K V)
    (hc : Reachable obp c) (hin : ∀ X, c._values X ≠ none → X ∈ U) : Known obp U c := by
  have ht : Trap obp (fun _ => false) (fun _ : K => True) :=
    ⟨(fun X hX => by cases hX), fun _ _ _ _ => True.intro⟩
  have h := (Trapped.empty obp (fun _ => false)).reachableFrom ht hc
  refine ⟨h.stuck.deps, (fun X n hX => by cases hX), fun X n hn => ?_⟩
  have hX : X ∈ U := hin X (by rw [hn]; simp)
  refine ⟨hX, fun d hd => ?_⟩
  rw [h.stuck.deps X n hn] at hd
  exact hU X hX d hd

/-- Once the build of a key `k` on a cycle was requested, every key on a cycle through
`k` waits in `DependenciesKnown` with a counter of at least one in every context reached
later: no job is submitted for it and its build operation is not called. -/
theorem onCycle_waits (obp : IObjectBuilderProvider K V) (k : K)
    (hcyc : ∃ d ∈ declared obp k, DependsOn obp d k) (c : ObjectContext K V)
    (hc : Reachable obp c) (hl : latched c k) :
    ∀ c', ReachableFrom obp c c' → ∀ X, DependsOn obp k X → DependsOn obp X k →
      c'.getState X = some ObjectBuildingState.DependenciesKnown ∧ 1 ≤ outstanding c' X ∧
        jobCount c' X = 0 ∧ buildCount c' X = 0 := by
  classical
  intro c' hr X h1 h2
  have hiff : ∀ Y, (fun Y => decide (OnCycle obp k Y)) Y = true ↔ OnCycle obp k Y := by
    intro Y
    simp
  have ht := trap_cycle hcyc _ hiff
  have h := (Trapped.empty obp (fun Y => decide (OnCycle obp k Y))).reachableFrom ht
    (ReachableFrom.andAfter hc hr)
  have hm := (ReachableFrom.inv hr hc.invariant).2
  have hl' : latched c' X := Trapped.cycle hiff h (latched.later hm hl) X h1 h2
  have hX := (hiff X).2 ⟨h1, h2⟩
  obtain ⟨n, hn, _⟩ := id hl'
  obtain ⟨a1, a2, a3⟩ := h.waiting hX hn
  exact ⟨a1, h.counter hX hl', a2, a3⟩

theorem le_sum_of_mem_nat (l : List Nat) : ∀ x ∈ l, x ≤ l.sum := by
  induction l with
  | nil =>
    intro x hx
    simp at hx
  | cons a t ih =>
    intro x hx
    simp only [List.sum_cons]
    rcases List.mem_cons.1 hx with e | e
    · omega
    · have := ih x e
      omega

theorem endless_declared (j : Nat) : declared endless j = [j, j + 1] := rfl

/-- With the provider `endless`, a `BuildObject` call that returns would leave a node for
every natural number. -/
theorem endless_no_result (c c' : ObjectContext Nat Int) (hc : Reachable endless c)
    (f k : Nat) (he : ObjectContext.BuildObject endless f k c = some c') : False := by
  have ht : Trap endless (fun _ => true) (fun _ : Nat => True) := by
    refine ⟨fun X _ => ?_, fun _ _ _ _ => True.intro⟩
    exact ⟨_, [X, X + 1], rfl, rfl, X, by simp, rfl⟩
  have h := ((Trapped.empty endless (fun _ => true)).reachableFrom ht hc).buildObject ht f k he
  obtain ⟨_, _, n, hn, hl⟩ := BuildObject_ok endless f k c c' he hc.invariant
  have hall : ∀ j, latched c' (k + j) := by
    intro j
    induction j with
    | zero => exact ⟨n, hn, hl⟩
    | succ j ih =>
      exact h.next rfl ih (k + j + 1) (by rw [endless_declared]; simp)
  obtain ⟨m, hm, _⟩ := hall (c'.keys.sum + 1)
  have hmem : k + (c'.keys.sum + 1) ∈ c'.keys := (h.inv.keysIff _).2 (by rw [hm]; simp)
  have := le_sum_of_mem_nat _ _ hmem
  omega

end CycleLemmas

end dependencygraph

namespace dependencygraph

section OrderBasic

variable {K V : Type} [DecidableEq K] [Inhabited V]

/-- How a list that ends with `e` splits at one of its elements. -/
theorem split_concat {α : Type} (l pre post : List α) (e x : α)
    (h : l ++ [e] = pre ++ x :: post) :
    (post = [] ∧ pre = l ∧ x = e) ∨ ∃ post', post = post' ++ [e] ∧ l = pre ++ x :: post' := by
  rcases List.eq_nil_or_concat post with hp | ⟨post', y, hp⟩
  · subst hp
    have h1 : l ++ [e] = pre ++ [x] := h
    have := List.append_inj' h1 rfl
    exact Or.inl ⟨rfl, this.1.symm, by simpa using this.2.symm⟩
  · rw [List.concat_eq_append] at hp
    subst hp
    have h1 : l ++ [e] = (pre ++ x :: post') ++ [y] := by
      rw [h]; simp
    have := List.append_inj' h1 rfl
    have hy : y = e := by simpa using this.2.symm
    subst hy
    exact Or.inr ⟨post', rfl, this.1⟩

/-- A submission right after the `fetch_sub` that returned `1`, or for a key without
declared dependencies, keeps the order of the journal. -/
theorem JournalOK.job {obp : IObjectBuilderProvider K V} {l : List (Event K)}
    (h : JournalOK obp l) (k : K)
    (hk : declared obp k = [] ∨ ∃ pre', l = pre' ++ [Event.fetchSub k 1]) :
    JournalOK obp (l ++ [Event.RegisterJob k]) := by
  intro pre post j hs
  rcases split_concat l pre post _ _ hs with ⟨hp, hpre, hx⟩ | ⟨post', hp, hl⟩
  · cases hx
    subst hp
    subst hpre
    exact ⟨hk, fun p hm => by simp at hm⟩
  · obtain ⟨h1, h2⟩ := h pre post' j hl
    refine ⟨h1, fun p hm => ?_⟩
    rw [hp] at hm
    rcases List.mem_append.1 hm with hm | hm
    · exact h2 p hm
    · simp at hm

end OrderBasic

end dependencygraph

namespace dependencygraph

section OrderLaunch

variable {K V : Type} [DecidableEq K] [Inhabited V]

end OrderLaunch

end dependencygraph

namespace dependencygraph

section OrderExec

variable {K V : Type} [DecidableEq K] [Inhabited V]

end OrderExec

end dependencygraph

namespace dependencygraph

section Claims

variable {K V : Type} [DecidableEq K] [Inhabited V]

/-- C2: in every context reachable by `get_dependencies` / `build_object` calls with the
inline queue, the builder's `BuildObject` has been invoked at most once for each key. -/
theorem build_invoked_at_most_once (obp : IObjectBuilderProvider K V)
    (c : ObjectContext K V) (h : Reachable obp c) (k : K) : buildCount c k ≤ 1 :=
  (h.invariant.counts k).2.1

/-- C2, diamond: after `build_object(0)` the build of the shared node `3` has run once,
node `0` received exactly the values of `1` and `2` (`8 + 8`, no other key bound), and
the bound of C2 holds there. -/
theorem build_invoked_at_most_once_witness :
    Reachable diamond diamondBuilt ∧ buildCount diamondBuilt 3 = 1 ∧
      diamondBuilt.getBuiltObject 0 = some 16 ∧ buildCount diamondBuilt 3 ≤ 1 :=
  ⟨diamondBuilt_reachable, by decide, by decide,
    build_invoked_at_most_once diamond diamondBuilt diamondBuilt_reachable 3⟩

/-- C3: in every reachable context, every key in the dependency list of a node in state
`ObjectBuilt` has a node in state `ObjectBuilt`. -/
theorem built_node_has_built_dependencies (obp : IObjectBuilderProvider K V)
    (c : ObjectContext K V) (h : Reachable obp c) (k d : K)
    (hs : c.getState k = some ObjectBuildingState.ObjectBuilt)
    (hd : d ∈ c.getDependencyList k) :
    c.getState d = some ObjectBuildingState.ObjectBuilt := by
  cases hn : c._values k with
  | none => simp [ObjectContext.getState, hn] at hs
  | some n =>
    rw [getState_eq c k n hn] at hs
    simp only [Option.some.injEq] at hs
    simp only [ObjectContext.getDependencyList, hn] at hd
    exact (h.invariant.node k n hn).dependenciesBuilt hs d hd

/-- C3, diamond: node `0` is built and lists `1`, so node `1` is built. -/
theorem built_node_has_built_dependencies_witness :
    Reachable diamond diamondBuilt ∧
      diamondBuilt.getState 0 = some ObjectBuildingState.ObjectBuilt ∧
      1 ∈ diamondBuilt.getDependencyList 0 ∧
      diamondBuilt.getState 1 = some ObjectBuildingState.ObjectBuilt :=
  ⟨diamondBuilt_reachable, by decide, by decide,
    built_node_has_built_dependencies diamond diamondBuilt diamondBuilt_reachable 0 1
      (by decide) (by decide)⟩

/-- C4: every assignment to the state of a node that happens on the way to a reachable
context is one of `Starting -> {NoBuilderAvailable, DependenciesKnown, Failure}` and
`DependenciesKnown -> {ObjectBuilt, Failure}`; in particular no assignment overwrites
`NoBuilderAvailable`, `ObjectBuilt` or `Failure`, and a later `get_dependencies` or
`build_object` call leaves a node in one of these three states in that state. -/
theorem state_changes_are_allowed (obp : IObjectBuilderProvider K V)
    (c : ObjectContext K V) (h : Reachable obp c) :
    (∀ k a b, Event.setState k a b ∈ c.journal →
      (a = ObjectBuildingState.Starting ∧ (b = ObjectBuildingState.NoBuilderAvailable ∨
        b = ObjectBuildingState.DependenciesKnown ∨ b = ObjectBuildingState.Failure)) ∨
      (a = ObjectBuildingState.DependenciesKnown ∧ (b = ObjectBuildingState.ObjectBuilt ∨
        b = ObjectBuildingState.Failure))) ∧
    (∀ c' k s, ReachableFrom obp c c' → c.getState k = some s →
      (s = ObjectBuildingState.NoBuilderAvailable ∨ s = ObjectBuildingState.ObjectBuilt ∨
        s = ObjectBuildingState.Failure) → c'.getState k = some s) := by
  refine ⟨fun k a b hm => ?_, fun c' k s hr hs ht => ?_⟩
  · have : allowedTransition a b = true := h.invariant.transitions _ hm
    cases a <;> cases b <;> simp_all [allowedTransition]
  · cases hn : c._values k with
    | none => simp [ObjectContext.getState, hn] at hs
    | some n =>
      rw [getState_eq c k n hn] at hs
      simp only [Option.some.injEq] at hs
      obtain ⟨n', e', _, _, _, _, hf⟩ := (hr.inv h.invariant).2.node k n hn
      rw [getState_eq c' k n' e', (hf (by rw [hs]; rcases ht with x | x | x <;> rw [x] <;> rfl)).1,
        hs]

/-- C4, diamond: the recorded assignment `DependenciesKnown -> ObjectBuilt` of node `3`
is allowed. -/
theorem state_changes_are_allowed_witness :
    Reachable diamond diamondBuilt ∧
      Event.setState 3 ObjectBuildingState.DependenciesKnown ObjectBuildingState.ObjectBuilt
        ∈ diamondBuilt.journal ∧
      ((ObjectBuildingState.DependenciesKnown = ObjectBuildingState.Starting ∧
          (ObjectBuildingState.ObjectBuilt = ObjectBuildingState.NoBuilderAvailable ∨
            ObjectBuildingState.ObjectBuilt = ObjectBuildingState.DependenciesKnown ∨
            ObjectBuildingState.ObjectBuilt = ObjectBuildingState.Failure)) ∨
        (ObjectBuildingState.DependenciesKnown = ObjectBuildingState.DependenciesKnown ∧
          (ObjectBuildingState.ObjectBuilt = ObjectBuildingState.ObjectBuilt ∨
            ObjectBuildingState.ObjectBuilt = ObjectBuildingState.Failure))) :=
  ⟨diamondBuilt_reachable, by decide,
    (state_changes_are_allowed diamond diamondBuilt diamondBuilt_reachable).1 3 _ _
      (by decide)⟩

end Claims

end dependencygraph

namespace dependencygraph

section ClaimsB

variable {K V : Type} [DecidableEq K] [Inhabited V]

/-- C5: a reachable context holds exactly one node per requested key (the keys of the map
are distinct, each maps to a node carrying that key). A `build_object` or
`get_dependencies` call for a key returns with a node stored under that key; when the
key already had a node, the call keeps that node and does not invoke the builder's
`GetDependencies` for it, so `GetDependencies` runs only in the call that creates the
node, hence at most once per key. -/
theorem one_record_and_one_discovery_per_key (obp : IObjectBuilderProvider K V)
    (c : ObjectContext K V) (h : Reachable obp c) :
    c.keys.Nodup ∧ (∀ k, k ∈ c.keys ↔ c._values k ≠ none) ∧
    (∀ k n, c._values k = some n → n.key = k) ∧
    (∀ k, discoveryCount c k ≤ 1) ∧
    (∀ k, c._values k = none → discoveryCount c k = 0) ∧
    (∀ fuel a c', (ObjectContext.BuildObject obp fuel a c = some c' ∨
        ObjectContext.GetDependencies obp fuel a c = some c') →
      (∃ n', c'._values a = some n' ∧ n'.key = a) ∧
      (∀ k n, c._values k = some n →
        (∃ n', c'._values k = some n' ∧ n'.key = n.key) ∧
        discoveryCount c' k = discoveryCount c k)) := by
  have hi := h.invariant
  refine ⟨hi.keysNodup, hi.keysIff, fun k n hn => (hi.node k n hn).key,
    fun k => (hi.counts k).2.2, fun k hk => (hi.absent k hk).2.2, ?_⟩
  intro fuel a c' he
  have key : Inv c' ∧ Mono c c' ∧ ∃ n, c'._values a = some n := by
    rcases he with he | he
    · obtain ⟨h1, h2, n, hn, _⟩ := BuildObject_ok obp fuel a c c' he hi
      exact ⟨h1, h2, n, hn⟩
    · exact GetDependencies_ok obp fuel a c c' he hi
  obtain ⟨h1, h2, n, hn⟩ := key
  refine ⟨⟨n, hn, (h1.node a n hn).key⟩, fun k m hm => ?_⟩
  obtain ⟨n', e', e1, _⟩ := h2.node k m hm
  exact ⟨⟨n', e', e1⟩, h2.discovery k (by rw [hm]; simp)⟩

/-- C5, diamond: the builder's `GetDependencies` ran once for the shared key `3`. -/
theorem one_record_and_one_discovery_per_key_witness :
    Reachable diamond diamondBuilt ∧ discoveryCount diamondBuilt 3 = 1 ∧
      discoveryCount diamondBuilt 3 ≤ 1 :=
  ⟨diamondBuilt_reachable, by decide,
    (one_record_and_one_discovery_per_key diamond diamondBuilt
      diamondBuilt_reachable).2.2.2.1 3⟩

/-- C9: once a `build_object(k)` call has returned, every later `build_object(k)` call
on the context (after any further `get_dependencies` / `build_object` calls) returns the
context unchanged: the same nodes with the same states, dependency lists, built values
and callback lists, and a journal without a new call of the builder, job or callback. -/
theorem build_object_idempotent (obp : IObjectBuilderProvider K V)
    (c c1 c2 : ObjectContext K V) (k : K) (fuel1 fuel2 : Nat) (h : Reachable obp c)
    (h1 : ObjectContext.BuildObject obp fuel1 k c = some c1)
    (h2 : ReachableFrom obp c1 c2) :
    ObjectContext.BuildObject obp fuel2 k c2 = some c2 := by
  obtain ⟨hi1, _, n, hn, hl⟩ := BuildObject_ok obp fuel1 k c c1 h1 h.invariant
  obtain ⟨n2, e2, _, _, _, hl2, _⟩ := (h2.inv hi1).2.node k n hn
  exact BuildObject_requested obp fuel2 k c2 n2 e2 (hl2 hl)

/-- C9, diamond: a second `build_object(0)` on the built diamond, where node `0` is
`ObjectBuilt`, returns the context unchanged. -/
theorem build_object_idempotent_witness :
    Reachable diamond (ObjectContext.empty : ObjectContext Nat Int) ∧
      ObjectContext.BuildObject diamond 12 0 ObjectContext.empty = some diamondBuilt ∧
      ReachableFrom diamond diamondBuilt diamondBuilt ∧
      diamondBuilt.getState 0 = some ObjectBuildingState.ObjectBuilt ∧
      ObjectContext.BuildObject diamond 0 0 diamondBuilt = some diamondBuilt :=
  ⟨ReachableFrom.refl, getD_of_isSome _ _ (by decide), ReachableFrom.refl, by decide,
    build_object_idempotent diamond ObjectContext.empty diamondBuilt diamondBuilt 0 12 0
      ReachableFrom.refl (getD_of_isSome _ _ (by decide)) ReachableFrom.refl⟩

/-- C10: registering a callback on a node whose state is already accepted (any state but
`Starting` for the dependencies-known list; `ObjectBuilt`, `Failure` or
`NoBuilderAvailable` for the post-build list) is exactly one invocation of the callback
with that node as argument; for a client callback the registration returns the context
with that one invocation recorded and every node, hence both callback lists, as
before. -/
theorem register_on_accepted_state_runs_once (obp : IObjectBuilderProvider K V)
    (self : Call K → ObjectContext K V → Option (ObjectContext K V))
    (c : ObjectContext K V) (k : K) (s : ObjectBuildingState) (cb : CallBack K)
    (tag fuel : Nat) (hs : c.getState k = some s) :
    (s ≠ ObjectBuildingState.Starting →
      ObjectBuilderInfo.RegisterPostDependenciesKnownCallBack self k cb c
        = self (Call.callBack cb k) c ∧
      ObjectBuilderInfo.RegisterPostDependenciesKnownCallBack (exec obp (fuel + 1)) k
        (CallBack.client tag) c = some (c.record (Event.clientCallBack tag k))) ∧
    ((s = ObjectBuildingState.ObjectBuilt ∨ s = ObjectBuildingState.Failure ∨
        s = ObjectBuildingState.NoBuilderAvailable) →
      ObjectBuilderInfo.RegisterPostBuildCallBack self k cb c = self (Call.callBack cb k) c ∧
      ObjectBuilderInfo.RegisterPostBuildCallBack (exec obp (fuel + 1)) k
        (CallBack.client tag) c = some (c.record (Event.clientCallBack tag k))) := by
  cases hn : c._values k with
  | none => simp [ObjectContext.getState, hn] at hs
  | some n =>
    rw [getState_eq c k n hn] at hs
    simp only [Option.some.injEq] at hs
    subst hs
    refine ⟨fun h1 => ?_, fun h2 => ?_⟩
    · have hm : dependenciesKnownReached n._state = true := by
        cases hs : n._state <;> simp_all [dependenciesKnownReached]
      simp [ObjectBuilderInfo.RegisterPostDependenciesKnownCallBack, hn, hm, exec,
        invokeCallBack]
    · have hm : buildReached n._state = true := by
        rcases h2 with x | x | x <;> rw [x] <;> rfl
      simp [ObjectBuilderInfo.RegisterPostBuildCallBack, hn, hm, exec, invokeCallBack]

/-- C10, diamond: a client callback registered on the built node `0` is invoked at once
and is not stored. -/
theorem register_on_accepted_state_runs_once_witness :
    diamondBuilt.getState 0 = some ObjectBuildingState.ObjectBuilt ∧
      ObjectBuilderInfo.RegisterPostBuildCallBack (exec diamond (0 + 1)) 0
        (CallBack.client 5) diamondBuilt = some (diamondBuilt.record (Event.clientCallBack 5 0)) :=
  ⟨by decide,
    ((register_on_accepted_state_runs_once diamond (exec diamond 1) diamondBuilt 0
      ObjectBuildingState.ObjectBuilt (CallBack.client 5) 5 0 (by decide)).2
        (Or.inl rfl)).2⟩

end ClaimsB

end dependencygraph

namespace dependencygraph

section ClaimsC

variable {K V : Type} [DecidableEq K] [Inhabited V]

/-- C1: when the dependency structure reachable from `k` is acyclic (a rank falls along
every declared dependency), the provider resolves every reachable key and no builder
operation throws (`GetDependencies` returns, `BuildObject` returns on every map that
binds the declared dependencies), then `build_object(k)` on a new context with the inline
queue returns, for every sufficient fuel, one context in which every key `j` reachable
from `k`, `k` included, is `ObjectBuilt`, carries the declared dependency list, and has
as built value the result of the builder's `BuildObject` on the map that binds exactly
the keys of that list to the built values of their nodes; the builder's `BuildObject`
ran once for `j`. -/
theorem build_object_builds_acyclic (obp : IObjectBuilderProvider K V) (rank : K → Nat)
    (k : K)
    (hacyclic : ∀ j, DependsOn obp k j → ∀ d ∈ declared obp j, rank d < rank j)
    (hresolves : ∀ j, DependsOn obp k j → ∃ b ds, obp j = some b ∧
      b.GetDependencies j = some ds ∧
      ∀ m : K → Option V, (∀ d ∈ ds, m d ≠ none) → b.BuildObject j m ≠ none) :
    ∃ c' f0, (∀ f, f0 ≤ f → ObjectContext.BuildObject obp f k ObjectContext.empty = some c') ∧
      ∀ j, DependsOn obp k j →
        c'.getState j = some ObjectBuildingState.ObjectBuilt ∧
        ∃ b, obp j = some b ∧ b.GetDependencies j = some (c'.getDependencyList j) ∧
          b.BuildObject j (builtDependenciesOf c' (c'.getDependencyList j))
            = c'.getBuiltObject j ∧
          c'.getBuiltObject j ≠ none ∧ buildCount c' j = 1 := by
  obtain ⟨c', f0, he, hdone⟩ := acyclic_run_all obp rank k hacyclic
  refine ⟨c', f0, he, ?_⟩
  have key : ∀ (n : Nat) (j : K), rank j = n → DependsOn obp k j →
      c'.getState j = some ObjectBuildingState.ObjectBuilt ∧
        ∃ b, obp j = some b ∧ b.GetDependencies j = some (c'.getDependencyList j) ∧
          b.BuildObject j (builtDependenciesOf c' (c'.getDependencyList j))
            = c'.getBuiltObject j ∧
          c'.getBuiltObject j ≠ none ∧ buildCount c' j = 1 := by
    intro n
    induction n using Nat.strong_induction_on with
    | _ n ih =>
      intro j hjn hj
      obtain ⟨b, ds, hb, hds, hnr⟩ := hresolves j hj
      have hdecl : declared obp j = ds := declared_of_discovered hb hds
      have hd := hdone j hj
      obtain ⟨hlist, _⟩ := hd.discovered b ds hb hds
      have hall : ∀ d ∈ ds, c'.getState d = some ObjectBuildingState.ObjectBuilt := by
        intro d hdd
        have hdd' : d ∈ declared obp j := hdecl ▸ hdd
        exact (ih (rank d) (by have := hacyclic j hj d hdd'; omega) d rfl
          (DependsOn.step hj hdd')).1
      have hbound : ∀ d ∈ ds, builtDependenciesOf c' ds d ≠ none := by
        intro d hdd
        have hs := hall d hdd
        cases hn : c'._values d with
        | none => simp [ObjectContext.getState, hn] at hs
        | some m => simp [builtDependenciesOf, hdd, ObjectContext.getBuiltObject, hn]
      cases hv : b.BuildObject j (builtDependenciesOf c' ds) with
      | none => exact absurd hv (hnr _ hbound)
      | some v =>
        obtain ⟨r1, r2, r3⟩ := hd.built b ds v hb hds hall hv
        refine ⟨r1, b, hb, by rw [hlist]; exact hds, by rw [hlist, hv, r2], by rw [r2]; simp,
          r3⟩
  exact fun j hj => key (rank j) j rfl hj

theorem chain_declared (j : Nat) : declared chain j = if j = 0 then [] else [j - 1] := rfl

/-- C1, chain and leaf: `build_object(5)` on the chain yields `5`, a leaf that returns
`42` yields `42`, and the theorem applies to the chain with the key as rank. -/
theorem build_object_builds_acyclic_witness :
    (chainBuilt.getState 5 = some ObjectBuildingState.ObjectBuilt ∧
      chainBuilt.getBuiltObject 5 = some 5 ∧
      leafBuilt.getState 1 = some ObjectBuildingState.ObjectBuilt ∧
      leafBuilt.getBuiltObject 1 = some 42) ∧
    ∃ c' f0, (∀ f, f0 ≤ f → ObjectContext.BuildObject chain f 5 ObjectContext.empty = some c') ∧
      ∀ j, DependsOn chain 5 j →
        c'.getState j = some ObjectBuildingState.ObjectBuilt ∧
        ∃ b, chain j = some b ∧ b.GetDependencies j = some (c'.getDependencyList j) ∧
          b.BuildObject j (builtDependenciesOf c' (c'.getDependencyList j))
            = c'.getBuiltObject j ∧
          c'.getBuiltObject j ≠ none ∧ buildCount c' j = 1 :=
  ⟨⟨by decide, by decide, by decide, by decide⟩,
    build_object_builds_acyclic chain (fun j => j) 5
      (fun j _ d hd => by
        rw [chain_declared] at hd
        by_cases e : j = 0
        · simp [e] at hd
        · simp only [e, if_false, List.mem_singleton] at hd
          subst hd
          show j - 1 < j
          omega)
      (fun j _ => ⟨_, _, rfl, rfl, fun m hm => by
        by_cases e : j = 0
        · simp [e]
        · have := hm (j - 1) (by simp [e])
          cases hx : m (j - 1) with
          | none => exact absurd hx this
          | some v => simp [e, hx]⟩)⟩

end ClaimsC

end dependencygraph

namespace dependencygraph

section ClaimsD

variable {K V : Type} [DecidableEq K] [Inhabited V]

/-- C7: when the builder of `k` throws in `GetDependencies`, the first `build_object(k)`
(on a reachable context without a node for `k`, with any fuel) returns with node `k` in
state `Failure`, which both wait handles accept; the call records no job and no call of
`BuildObject` for any key, and in every context reached later node `k` is still
`Failure`, no job or build of `k` has been recorded, and `build_object(k)` returns the
context unchanged. -/
theorem discovery_failure_is_final (obp : IObjectBuilderProvider K V)
    (c : ObjectContext K V) (k : K) (b : IObjectBuilder K V) (fuel : Nat)
    (h : Reachable obp c) (hk : c._values k = none) (hb : obp k = some b)
    (hd : b.GetDependencies k = none) :
    ∃ c', ObjectContext.BuildObject obp fuel k c = some c' ∧
      c'.getState k = some ObjectBuildingState.Failure ∧
      ObjectBuilderInfo.dependenciesKnownWaitHandle.isCriteriaMatch
        ObjectBuildingState.Failure = true ∧
      ObjectBuilderInfo.objectBuiltOrFailureWaitHandle.isCriteriaMatch
        ObjectBuildingState.Failure = true ∧
      (∀ j, jobCount c' j = jobCount c j) ∧ (∀ j, buildCount c' j = buildCount c j) ∧
      ∀ c2, ReachableFrom obp c' c2 →
        c2.getState k = some ObjectBuildingState.Failure ∧
        jobCount c2 k = 0 ∧ buildCount c2 k = 0 ∧
        ∀ fuel2, ObjectContext.BuildObject obp fuel2 k c2 = some c2 := by
  have ha : Absent c k := ⟨hk, (h.invariant.absent k hk).1, (h.invariant.absent k hk).2.1⟩
  obtain ⟨c', he, hdone, hsame⟩ := fresh_discoveryFailed obp c k b ha hb hd
  obtain ⟨r1, _, r3, r4⟩ := hdone.discoveryFailed b hb hd
  have he' : ObjectContext.BuildObject obp fuel k c = some c' := he fuel
  obtain ⟨hi', _, _⟩ := BuildObject_ok obp fuel k c c' he' h.invariant
  refine ⟨c', he', r1, by decide, by decide, fun j => ?_, fun j => ?_, fun c2 h2 => ?_⟩
  · by_cases e : j = k
    · subst e; rw [r3, ha.2.1]
    · exact (hsame j e).2.1
  · by_cases e : j = k
    · subst e; rw [r4, ha.2.2]
    · exact (hsame j e).2.2
  · obtain ⟨n, hn, hl, ht⟩ := hdone.node
    obtain ⟨_, hm⟩ := h2.inv hi'
    obtain ⟨n2, e2, _, _, _, hl2, hf2⟩ := hm.node k n hn
    obtain ⟨x1, x2⟩ := hm.frozen k n hn ht
    have hs : n._state = ObjectBuildingState.Failure := by
      rw [getState_eq c' k n hn] at r1
      simpa using r1
    refine ⟨by rw [getState_eq c2 k n2 e2, (hf2 ht).1, hs], by rw [x1, r3], by rw [x2, r4],
      fun fuel2 => BuildObject_requested obp fuel2 k c2 n2 e2 (hl2 hl)⟩

/-- C7, seed test: the builder of key `2` throws in `GetDependencies`. -/
theorem discovery_failure_is_final_witness :
    Reachable discoveryFails (ObjectContext.empty : ObjectContext Nat Int) ∧
    (ObjectContext.empty : ObjectContext Nat Int)._values 2 = none ∧
    ∃ c', ObjectContext.BuildObject discoveryFails 0 2 ObjectContext.empty = some c' ∧
      c'.getState 2 = some ObjectBuildingState.Failure ∧
      ObjectBuilderInfo.dependenciesKnownWaitHandle.isCriteriaMatch
        ObjectBuildingState.Failure = true ∧
      ObjectBuilderInfo.objectBuiltOrFailureWaitHandle.isCriteriaMatch
        ObjectBuildingState.Failure = true ∧
      (∀ j, jobCount c' j = jobCount (ObjectContext.empty : ObjectContext Nat Int) j) ∧
      (∀ j, buildCount c' j = buildCount (ObjectContext.empty : ObjectContext Nat Int) j) ∧
      ∀ c2, ReachableFrom discoveryFails c' c2 →
        c2.getState 2 = some ObjectBuildingState.Failure ∧
        jobCount c2 2 = 0 ∧ buildCount c2 2 = 0 ∧
        ∀ fuel2, ObjectContext.BuildObject discoveryFails fuel2 2 c2 = some c2 :=
  ⟨ReachableFrom.refl, rfl,
    discovery_failure_is_final discoveryFails ObjectContext.empty 2 _ 0 ReachableFrom.refl rfl
      rfl rfl⟩

/-- C8: `get_dependencies(k)` for a key without a node returns (with any fuel) a context
that differs from the old one in the new node of `k` only; no job and no call of
`BuildObject` is recorded for any key, the build-request count of the new node is `0`,
and its state is not `Starting`: `NoBuilderAvailable` when the provider returns
`false`, `Failure` when `GetDependencies` throws, and otherwise `DependenciesKnown`
with the list returned by `GetDependencies` as dependency list. -/
theorem get_dependencies_discovers (obp : IObjectBuilderProvider K V)
    (c : ObjectContext K V) (k : K) (fuel : Nat) (hk : c._values k = none) :
    ∃ c' n, ObjectContext.GetDependencies obp fuel k c = some c' ∧
      c'._values k = some n ∧ (∀ j, j ≠ k → c'._values j = c._values j) ∧
      (∀ j, jobCount c' j = jobCount c j) ∧ (∀ j, buildCount c' j = buildCount c j) ∧
      n._buildRequestCount = 0 ∧ n._state ≠ ObjectBuildingState.Starting ∧
      (obp k = none → n._state = ObjectBuildingState.NoBuilderAvailable) ∧
      (∀ b, obp k = some b → b.GetDependencies k = none →
        n._state = ObjectBuildingState.Failure) ∧
      (∀ b ds, obp k = some b → b.GetDependencies k = some ds →
        n._state = ObjectBuildingState.DependenciesKnown ∧ n.dependencies = ds) := by
  obtain ⟨s1, s2, s3⟩ := same_discover obp k c
  have he : ObjectContext.GetDependencies obp fuel k c = some (discover obp k c) :=
    GetDependenciesInt_fresh obp _ k c hk
  cases hb : obp k with
  | none =>
    have hv : (discover obp k c)._values k = some
        { (ObjectBuilderInfo.new k : ObjectBuilderInfo K V) with
          _state := ObjectBuildingState.NoBuilderAvailable } := by
      simp [discover, hb]
    refine ⟨_, _, he, hv, fun j e => (s1 j e).1, s2, s3, rfl, ?_, fun _ => rfl,
      fun b x => ?_, fun b ds x => ?_⟩
    · simp
    · cases x
    · cases x
  | some b =>
    cases hd : b.GetDependencies k with
    | none =>
      have hv : (discover obp k c)._values k = some
          { (ObjectBuilderInfo.new k : ObjectBuilderInfo K V) with
            objectBuilder := some b, exception := some "Discovery failed",
            _state := ObjectBuildingState.Failure } := by
        simp [discover, hb, hd]
      refine ⟨_, _, he, hv, fun j e => (s1 j e).1, s2, s3, rfl, ?_,
        fun x => ?_, fun _ _ _ => rfl, fun b' ds x y => ?_⟩
      · simp
      · cases x
      · cases x; rw [hd] at y; cases y
    | some ds =>
      have hv : (discover obp k c)._values k = some
          { (ObjectBuilderInfo.new k : ObjectBuilderInfo K V) with
            objectBuilder := some b, dependencies := ds,
            _state := ObjectBuildingState.DependenciesKnown } := by
        simp [discover, hb, hd]
      refine ⟨_, _, he, hv, fun j e => (s1 j e).1, s2, s3, rfl, ?_,
        fun x => ?_, fun b' x y => ?_, fun b' ds' x y => ?_⟩
      · simp
      · cases x
      · cases x; rw [hd] at y; cases y
      · cases x; rw [hd] at y; cases y; exact ⟨rfl, rfl⟩

/-- C8, seed test: the provider returns `false` for key `7`; the node is
`NoBuilderAvailable` and the journal holds no job. -/
theorem get_dependencies_discovers_witness :
    (ObjectContext.empty : ObjectContext Nat Int)._values 7 = none ∧
    (ObjectContext.GetDependencies noBuilder 0 7 ObjectContext.empty).map
      (fun c => (c.getState 7, jobCount c 7, c.journal.length))
      = some (some ObjectBuildingState.NoBuilderAvailable, 0, 1) ∧
    ∃ c' n, ObjectContext.GetDependencies noBuilder 0 7 ObjectContext.empty = some c' ∧
      c'._values 7 = some n ∧
      (∀ j, j ≠ 7 → c'._values j = (ObjectContext.empty : ObjectContext Nat Int)._values j) ∧
      (∀ j, jobCount c' j = jobCount (ObjectContext.empty : ObjectContext Nat Int) j) ∧
      (∀ j, buildCount c' j = buildCount (ObjectContext.empty : ObjectContext Nat Int) j) ∧
      n._buildRequestCount = 0 ∧ n._state ≠ ObjectBuildingState.Starting ∧
      (noBuilder 7 = none → n._state = ObjectBuildingState.NoBuilderAvailable) ∧
      (∀ b, noBuilder 7 = some b → b.GetDependencies 7 = none →
        n._state = ObjectBuildingState.Failure) ∧
      (∀ b ds, noBuilder 7 = some b → b.GetDependencies 7 = some ds →
        n._state = ObjectBuildingState.DependenciesKnown ∧ n.dependencies = ds) :=
  ⟨rfl, by decide, get_dependencies_discovers noBuilder ObjectContext.empty 7 0 rfl⟩

end ClaimsD

end dependencygraph

namespace dependencygraph

section ClaimsE

variable {K V : Type} [DecidableEq K] [Inhabited V]

/-- C6 as stated fails on a cycle: key `0` lists itself and key `1`, key `1` has no
builder. `build_object(0)` returns (with every fuel from `3` on) with node `1` in the
terminal state `NoBuilderAvailable` and node `0` in `DependenciesKnown`, not
`Failure`. -/
theorem dependency_failure_counterexample :
    selfCycleBuilt.getState 1 = some ObjectBuildingState.NoBuilderAvailable ∧
    selfCycleBuilt.getDependencyList 0 = [0, 1] ∧
    selfCycleBuilt.getState 0 = some ObjectBuildingState.DependenciesKnown ∧
    selfCycleBuilt.getState 0 ≠ some ObjectBuildingState.Failure ∧
    (∀ f, 3 ≤ f →
      ObjectContext.BuildObject selfCycle f 0 ObjectContext.empty = some selfCycleBuilt) :=
  ⟨by decide, by decide, by decide, by decide, fun f hf =>
    exec_mono selfCycle 4 (f + 1) (by omega) _ _ _ (getD_of_isSome _ _ (by decide))⟩

/-- C6 amended: when the dependency structure is acyclic (a rank falls along every
declared dependency) and `d` is in the dependency list of `k`, `build_object(k)` on a new
context, or on one produced by earlier `build_object` calls, returns with `d` in a
terminal state (`NoBuilderAvailable` without a builder, `Failure` when its discovery
throws or when its build throws on built dependencies, then with the message of a
failed build); and when `d` is not `ObjectBuilt`, `k` is in state `Failure` with the
message of a failed dependency, which differs from the message of a failed build, and
the builder's `BuildObject` has not been called for `k`. -/
theorem dependency_failure_fails_dependent (obp : IObjectBuilderProvider K V)
    (rank : K → Nat) (c : ObjectContext K V) (k d : K) (b : IObjectBuilder K V) (ds : List K)
    (hacyclic : ∀ j, ∀ x ∈ declared obp j, rank x < rank j) (hc : BuildReachable obp c)
    (hb : obp k = some b) (hds : b.GetDependencies k = some ds) (hd : d ∈ ds) :
    ∃ c' f0, (∀ f, f0 ≤ f → ObjectContext.BuildObject obp f k c = some c') ∧
      (c'.getState d = some ObjectBuildingState.NoBuilderAvailable ∨
        c'.getState d = some ObjectBuildingState.ObjectBuilt ∨
        c'.getState d = some ObjectBuildingState.Failure) ∧
      (obp d = none → c'.getState d = some ObjectBuildingState.NoBuilderAvailable) ∧
      (∀ bd, obp d = some bd → bd.GetDependencies d = none →
        c'.getState d = some ObjectBuildingState.Failure) ∧
      (∀ bd dsd, obp d = some bd → bd.GetDependencies d = some dsd →
        (∀ x ∈ dsd, c'.getState x = some ObjectBuildingState.ObjectBuilt) →
        bd.BuildObject d (builtDependenciesOf c' dsd) = none →
        c'.getState d = some ObjectBuildingState.Failure ∧
          c'.getException d = some "Failed to build object dependency") ∧
      (c'.getState d ≠ some ObjectBuildingState.ObjectBuilt →
        c'.getState k = some ObjectBuildingState.Failure ∧
        c'.getException k = some "Failed to source dependency" ∧
        c'.getException k ≠ some "Failed to build object dependency" ∧
        buildCount c' k = 0) := by
  obtain ⟨c', f0, he, _, hdone⟩ := acyclic_run_from obp rank hacyclic c hc k
  have hdk := hdone k DependsOn.refl
  have hdd := hdone d (DependsOn.step DependsOn.refl
    (by rw [declared_of_discovered hb hds]; exact hd))
  refine ⟨c', f0, he, ?_, fun x => (hdd.noBuilder x).1, fun bd x y => (hdd.discoveryFailed bd x y).1,
    fun bd dsd x y z w => ?_, fun x => ?_⟩
  · obtain ⟨n, hn, _, ht⟩ := hdd.node
    rw [getState_eq c' d n hn]
    cases hs : n._state <;> simp_all [buildReached]
  · obtain ⟨r1, r2, _⟩ := hdd.buildFailed bd dsd x y z w
    exact ⟨r1, r2⟩
  · obtain ⟨r1, r2, r3⟩ := hdk.dependencyFailed b ds hb hds ⟨d, hd, x⟩
    refine ⟨r1, r2, ?_, r3⟩
    have e : c'.getException k = some "Failed to source dependency" := r2
    rw [e]
    decide

theorem failingDependency_declared (j : Nat) :
    declared failingDependency j = if j = 0 then [1] else [] := rfl

/-- C6 amended, seed test: `0 -> {1}` where the build of `1` throws; both nodes end in
`Failure`, node `1` with the message of a failed build and node `0` with the message
of a failed dependency, and the build of `0` is never called. -/
theorem dependency_failure_fails_dependent_witness :
    (failingDependencyBuilt.getState 1 = some ObjectBuildingState.Failure ∧
      failingDependencyBuilt.getException 1 = some "Failed to build object dependency" ∧
      failingDependencyBuilt.getState 0 = some ObjectBuildingState.Failure ∧
      failingDependencyBuilt.getException 0 = some "Failed to source dependency" ∧
      buildCount failingDependencyBuilt 0 = 0) ∧
    ∃ c' f0, (∀ f, f0 ≤ f →
        ObjectContext.BuildObject failingDependency f 0 ObjectContext.empty = some c') ∧
      (c'.getState 1 = some ObjectBuildingState.NoBuilderAvailable ∨
        c'.getState 1 = some ObjectBuildingState.ObjectBuilt ∨
        c'.getState 1 = some ObjectBuildingState.Failure) ∧
      (failingDependency 1 = none →
        c'.getState 1 = some ObjectBuildingState.NoBuilderAvailable) ∧
      (∀ bd, failingDependency 1 = some bd → bd.GetDependencies 1 = none →
        c'.getState 1 = some ObjectBuildingState.Failure) ∧
      (∀ bd dsd, failingDependency 1 = some bd → bd.GetDependencies 1 = some dsd →
        (∀ x ∈ dsd, c'.getState x = some ObjectBuildingState.ObjectBuilt) →
        bd.BuildObject 1 (builtDependenciesOf c' dsd) = none →
        c'.getState 1 = some ObjectBuildingState.Failure ∧
          c'.getException 1 = some "Failed to build object dependency") ∧
      (c'.getState 1 ≠ some ObjectBuildingState.ObjectBuilt →
        c'.getState 0 = some ObjectBuildingState.Failure ∧
        c'.getException 0 = some "Failed to source dependency" ∧
        c'.getException 0 ≠ some "Failed to build object dependency" ∧
        buildCount c' 0 = 0) :=
  ⟨⟨by decide, by decide, by decide, by decide, by decide⟩,
    dependency_failure_fails_dependent failingDependency (fun j => if j = 0 then 1 else 0)
      ObjectContext.empty 0 1 _ [1]
      (fun j x hx => by
        rw [failingDependency_declared] at hx
        by_cases e : j = 0
        · simp only [e, if_true, List.mem_singleton] at hx
          subst hx
          subst e
          decide
        · simp [e] at hx)
      BuildReachable.empty rfl rfl (by simp)⟩

end ClaimsE

end dependencygraph

namespace dependencygraph

section ClaimsF

variable {K V : Type}

theorem registerJob_HP {J : Type} (q : PriorityBasedMultithreadedJobQueue J) (job : J) :
    q.RegisterJob QueueName._jobsHP job = { q with _jobsHP := q._jobsHP ++ [job] } := rfl

/-- Every run of events on a new priority queue keeps both facades on `_jobsHP`, keeps
`_jobsLP` empty, has made every pick through the high-priority branch, and the jobs
picked followed by the jobs still queued are the jobs submitted. -/
theorem queueRun_invariant {J : Type} (events : List (QueueEvent J)) :
    (QueueRun.run events).queue.highPriorityJobQueue = QueueName._jobsHP ∧
    (QueueRun.run events).queue.lowPriorityJobQueue = QueueName._jobsHP ∧
    (QueueRun.run events).queue._jobsLP = [] ∧
    (∀ p ∈ (QueueRun.run events).picks, p.1 = WorkerBranch.highPriority) ∧
    (QueueRun.run events).picks.map Prod.snd ++ (QueueRun.run events).queue._jobsHP
      = submitted events := by
  have key : ∀ (evs : List (QueueEvent J)) (r : QueueRun J) (acc : List J),
      r.queue.highPriorityJobQueue = QueueName._jobsHP →
      r.queue.lowPriorityJobQueue = QueueName._jobsHP →
      r.queue._jobsLP = [] →
      (∀ p ∈ r.picks, p.1 = WorkerBranch.highPriority) →
      r.picks.map Prod.snd ++ r.queue._jobsHP = acc →
      (evs.foldl QueueRun.step r).queue.highPriorityJobQueue = QueueName._jobsHP ∧
      (evs.foldl QueueRun.step r).queue.lowPriorityJobQueue = QueueName._jobsHP ∧
      (evs.foldl QueueRun.step r).queue._jobsLP = [] ∧
      (∀ p ∈ (evs.foldl QueueRun.step r).picks, p.1 = WorkerBranch.highPriority) ∧
      (evs.foldl QueueRun.step r).picks.map Prod.snd ++ (evs.foldl QueueRun.step r).queue._jobsHP
        = acc ++ submitted evs := by
    intro evs
    induction evs with
    | nil =>
      intro r acc h1 h2 h3 h4 h5
      exact ⟨h1, h2, h3, h4, by simpa [submitted] using h5⟩
    | cons e rest ih =>
      intro r acc h1 h2 h3 h4 h5
      rw [List.foldl_cons]
      cases e with
      | submitHigh job =>
        have := ih (r.step (QueueEvent.submitHigh job)) (acc ++ [job])
          (by simp [QueueRun.step, h1, registerJob_HP])
          (by simp [QueueRun.step, h1, registerJob_HP, h2])
          (by simp [QueueRun.step, h1, registerJob_HP, h3])
          (by simpa [QueueRun.step] using h4)
          (by simp [QueueRun.step, h1, registerJob_HP, ← h5])
        simpa [submitted] using this
      | submitLow job =>
        have := ih (r.step (QueueEvent.submitLow job)) (acc ++ [job])
          (by simp [QueueRun.step, h2, registerJob_HP, h1])
          (by simp [QueueRun.step, h2, registerJob_HP])
          (by simp [QueueRun.step, h2, registerJob_HP, h3])
          (by simpa [QueueRun.step] using h4)
          (by simp [QueueRun.step, h2, registerJob_HP, ← h5])
        simpa [submitted] using this
      | workerPass =>
        cases hq : r.queue._jobsHP with
        | nil =>
          have hs : r.step QueueEvent.workerPass = r := by
            simp [QueueRun.step, PriorityBasedMultithreadedJobQueue.workerPick, hq, h3]
          rw [hs]
          simpa [submitted] using ih r acc h1 h2 h3 h4 h5
        | cons job more =>
          have hs : r.step QueueEvent.workerPass
              = { queue := { r.queue with _jobsHP := more },
                  picks := r.picks ++ [(WorkerBranch.highPriority, job)] } := by
            simp [QueueRun.step, PriorityBasedMultithreadedJobQueue.workerPick, hq]
          rw [hs]
          have := ih ⟨{ r.queue with _jobsHP := more },
              r.picks ++ [(WorkerBranch.highPriority, job)]⟩ acc h1 h2 h3
            (by
              intro p hp
              rcases List.mem_append.1 hp with hp | hp
              · exact h4 p hp
              · simp at hp; rw [hp])
            (by rw [← h5, hq]; simp)
          simpa [submitted] using this
  simpa [QueueRun.run, PriorityBasedMultithreadedJobQueue.new] using
    key events { queue := PriorityBasedMultithreadedJobQueue.new, picks := [] } []
      rfl rfl rfl (by simp) (by simp [PriorityBasedMultithreadedJobQueue.new])

theorem step_facades {J : Type} (r : QueueRun J) (e : QueueEvent J) :
    (r.step e).queue.highPriorityJobQueue = r.queue.highPriorityJobQueue ∧
    (r.step e).queue.lowPriorityJobQueue = r.queue.lowPriorityJobQueue := by
  cases e with
  | submitHigh job =>
    cases h : r.queue.highPriorityJobQueue <;>
      simp [QueueRun.step, PriorityBasedMultithreadedJobQueue.RegisterJob, h]
  | submitLow job =>
    cases h : r.queue.lowPriorityJobQueue <;>
      simp [QueueRun.step, PriorityBasedMultithreadedJobQueue.RegisterJob, h]
  | workerPass =>
    cases h1 : r.queue._jobsHP <;> cases h2 : r.queue._jobsLP <;>
      simp [QueueRun.step, PriorityBasedMultithreadedJobQueue.workerPick, h1, h2]

theorem run_throughHighFacade {J : Type} (events : List (QueueEvent J)) :
    QueueRun.run (events.map QueueEvent.throughHighFacade) = QueueRun.run events := by
  have key : ∀ (evs : List (QueueEvent J)) (r : QueueRun J),
      r.queue.lowPriorityJobQueue = r.queue.highPriorityJobQueue →
      (evs.map QueueEvent.throughHighFacade).foldl QueueRun.step r
        = evs.foldl QueueRun.step r := by
    intro evs
    induction evs with
    | nil => intro r _; rfl
    | cons e rest ih =>
      intro r h
      have hstep : r.step e.throughHighFacade = r.step e := by
        cases e with
        | submitHigh job => rfl
        | submitLow job => simp [QueueEvent.throughHighFacade, QueueRun.step, h]
        | workerPass => rfl
      rw [List.map_cons, List.foldl_cons, List.foldl_cons, hstep]
      exact ih _ (by rw [(step_facades r e).1, (step_facades r e).2]; exact h)
  exact key events _ rfl

end ClaimsF

end dependencygraph

namespace dependencygraph

section ClaimsG

variable {K V : Type}

/-- C12: for each of the five node states, the dependencies-known wait handle accepts
the state exactly when it is `DependenciesKnown`, `ObjectBuilt`, `Failure` or
`NoBuilderAvailable`, the built-or-terminal handle exactly when it is `ObjectBuilt`,
`Failure` or `NoBuilderAvailable`; on an accepted state `wait`, `wait_for` and
`wait_until` return `no_timeout` before any wait on the condition variable, and
`Starting` is accepted by neither handle. -/
theorem wait_handle_acceptance (s : ObjectBuildingState) :
    (ObjectBuilderInfo.dependenciesKnownWaitHandle.isCriteriaMatch s = true ↔
      (s = ObjectBuildingState.DependenciesKnown ∨ s = ObjectBuildingState.ObjectBuilt ∨
        s = ObjectBuildingState.Failure ∨ s = ObjectBuildingState.NoBuilderAvailable)) ∧
    (ObjectBuilderInfo.objectBuiltOrFailureWaitHandle.isCriteriaMatch s = true ↔
      (s = ObjectBuildingState.ObjectBuilt ∨ s = ObjectBuildingState.Failure ∨
        s = ObjectBuildingState.NoBuilderAvailable)) ∧
    (∀ h : WaitHandle, h.isCriteriaMatch s = true →
      h.wait s = WaitResult.no_timeout ∧ h.wait_for s = WaitResult.no_timeout ∧
        h.wait_until s = WaitResult.no_timeout) ∧
    ObjectBuilderInfo.dependenciesKnownWaitHandle.isCriteriaMatch
      ObjectBuildingState.Starting = false ∧
    ObjectBuilderInfo.objectBuiltOrFailureWaitHandle.isCriteriaMatch
      ObjectBuildingState.Starting = false := by
  refine ⟨?_, ?_, ?_, by decide, by decide⟩
  · cases s <;> decide
  · cases s <;> decide
  · intro h hm
    simp [WaitHandle.wait, WaitHandle.wait_for, WaitHandle.wait_until, hm]

/-- C12, the state `Failure`: both handles accept it and `wait_for` on the built-or-terminal
handle returns at once. -/
theorem wait_handle_acceptance_witness :
    ObjectBuilderInfo.objectBuiltOrFailureWaitHandle.isCriteriaMatch
      ObjectBuildingState.Failure = true ∧
    ObjectBuilderInfo.objectBuiltOrFailureWaitHandle.wait_for ObjectBuildingState.Failure
      = WaitResult.no_timeout :=
  ⟨by decide,
    ((wait_handle_acceptance ObjectBuildingState.Failure).2.2.1
      ObjectBuilderInfo.objectBuiltOrFailureWaitHandle (by decide)).2.1⟩

/-- C13: `try_get_builder` returns true with the explicit builder of the key when one
is registered, whatever the fallback function is; without an explicit builder it
returns true with the builder left by the fallback function when that function is set
and returns true; in every other case it returns false with a null builder, also when
the fallback function left a builder and returned false. Replacing the overrides map
never changes the result. -/
theorem try_get_builder_lookup_order (p : ObjectBuilderProvider K V) (address : K)
    (objectBuilder : BuilderPtr K V) :
    (∀ b, p.addressSpecificBuilders address = some b →
      ∀ f, ({ p with builderProviderFunc := f } : ObjectBuilderProvider K V).TryGetObjectBuilder
        address objectBuilder = (true, b)) ∧
    (p.addressSpecificBuilders address = none →
      (∀ f, p.builderProviderFunc = some f → (f address objectBuilder).1 = true →
        p.TryGetObjectBuilder address objectBuilder = (true, (f address objectBuilder).2)) ∧
      (∀ f, p.builderProviderFunc = some f → (f address objectBuilder).1 = false →
        p.TryGetObjectBuilder address objectBuilder = (false, none)) ∧
      (p.builderProviderFunc = none →
        p.TryGetObjectBuilder address objectBuilder = (false, none))) ∧
    (∀ overrides, ({ p with addressSpecificOverrides := overrides } :
        ObjectBuilderProvider K V).TryGetObjectBuilder address objectBuilder
      = p.TryGetObjectBuilder address objectBuilder) := by
  have hsame : (match p.addressSpecificOverrides address with
      | some _ => objectBuilder
      | none => objectBuilder) = objectBuilder := by
    cases p.addressSpecificOverrides address <;> rfl
  refine ⟨fun b hb f => ?_, fun hn => ⟨fun f hf ht => ?_, fun f hf ht => ?_, fun hf => ?_⟩,
    fun overrides => ?_⟩
  · simp [ObjectBuilderProvider.TryGetObjectBuilder, hb]
  · simp [ObjectBuilderProvider.TryGetObjectBuilder, hn, hf, hsame, ht]
  · simp [ObjectBuilderProvider.TryGetObjectBuilder, hn, hf, hsame, ht]
  · simp [ObjectBuilderProvider.TryGetObjectBuilder, hn, hf]
  · have hsame2 : (match overrides address with
        | some _ => objectBuilder
        | none => objectBuilder) = objectBuilder := by
      cases overrides address <;> rfl
    simp only [ObjectBuilderProvider.TryGetObjectBuilder, hsame, hsame2]

/-- C13, example provider: key `3` has no explicit builder and the fallback function
writes a builder and returns false, so the lookup returns false with a null builder. -/
theorem try_get_builder_lookup_order_witness :
    exampleProvider.addressSpecificBuilders 3 = none ∧
    exampleProvider.TryGetObjectBuilder 3 none = (false, none) :=
  ⟨rfl, ((try_get_builder_lookup_order exampleProvider 3 none).2.1 rfl).2.1 _ rfl rfl⟩

/-- C14 at the failing input: `register_job` of the inline queue with a job whose
closure throws ends with that exception for the submitter, while `register_job` of the
worker-pool queue returns and the pass of a worker that runs the same job swallows the
exception. -/
theorem inline_queue_propagates_exception (W : Type) (w : W)
    (q : MultithreadedJobQueue W) :
    (SingleThreadedJobQueue.RegisterJobClosure (throwingJob W) w).1 = Completion.threw ∧
    (q.RegisterJob (throwingJob W) w).1 = Completion.returned ∧
    ((q.RegisterJob (throwingJob W) w).2.1._jobs = q._jobs ++ [throwingJob W]) ∧
    ((⟨[throwingJob W], 0⟩ : MultithreadedJobQueue W).workerPass w).1
      = Completion.returned :=
  ⟨rfl, rfl, rfl, rfl⟩

/-- C18: after every sequence of submissions and worker passes on a new priority
queue, a submission through the low-priority facade gives the same queue as the same
submission through the high-priority facade, namely the job appended to `_jobsHP`; the
queue `_jobsLP` is empty; every pick made was made by the high-priority branch of the
worker; the jobs picked, in pick order, followed by the jobs still queued, are the
jobs submitted, in submission order; and replacing every low-priority submission by a
high-priority one gives the same run. -/
theorem low_priority_facade_feeds_high_queue {J : Type} (events : List (QueueEvent J)) :
    (∀ job, (QueueRun.run events).queue.RegisterJob
        (QueueRun.run events).queue.lowPriorityJobQueue job
      = (QueueRun.run events).queue.RegisterJob
        (QueueRun.run events).queue.highPriorityJobQueue job ∧
      (QueueRun.run events).queue.RegisterJob
        (QueueRun.run events).queue.lowPriorityJobQueue job
      = { (QueueRun.run events).queue with
          _jobsHP := (QueueRun.run events).queue._jobsHP ++ [job] }) ∧
    (QueueRun.run events).queue._jobsLP = [] ∧
    (∀ p ∈ (QueueRun.run events).picks, p.1 = WorkerBranch.highPriority) ∧
    (QueueRun.run events).picks.map Prod.snd ++ (QueueRun.run events).queue._jobsHP
      = submitted events ∧
    QueueRun.run (events.map QueueEvent.throughHighFacade) = QueueRun.run events := by
  obtain ⟨h1, h2, h3, h4, h5⟩ := queueRun_invariant events
  refine ⟨fun job => ?_, h3, h4, h5, run_throughHighFacade events⟩
  rw [h1, h2]
  exact ⟨rfl, rfl⟩

end ClaimsG

end dependencygraph

namespace dependencygraph

section ClaimsH

variable {V : Type} [Inhabited V]

/-- C15: with the provider of the reference driver, whose dependency function lists
for the key `i` the positive values among `i / 2`, `i / 4`, ... (none for the keys `0`
and `1`; the loop ends within its bound), for every key `i` with `0 <= i < 262144` the
call `build_object(i)` on a context with the inline queue, new or produced by earlier
`build_object` calls, returns for every sufficient fuel one context in which node `i`
and every key of its dependency list are `ObjectBuilt`, node `i` holding the value of
the build function. -/
theorem driver_builds_every_key (kernel : Int → V) (c : ObjectContext Int V)
    (h : BuildReachable (driver kernel) c) (i : Int) (h0 : 0 ≤ i) (h1 : i < 262144) :
    (∀ d, d ∈ halvingDependencies i ↔
      0 < d ∧ ∃ n : Nat, d = ((i.toNat / 2 ^ (n + 1) : Nat) : Int)) ∧
    (∀ m, halvingLoop (i.toNat + m) (Int.tdiv i 2) = halvingDependencies i) ∧
    halvingDependencies 0 = [] ∧ halvingDependencies 1 = [] ∧
    ∃ c' f0, (∀ f, f0 ≤ f → ObjectContext.BuildObject (driver kernel) f i c = some c') ∧
      c'.getState i = some ObjectBuildingState.ObjectBuilt ∧
      c'.getBuiltObject i = some (kernel i) ∧
      c'.getDependencyList i = halvingDependencies i ∧
      ∀ d ∈ halvingDependencies i, c'.getState d = some ObjectBuildingState.ObjectBuilt := by
  refine ⟨fun d => halvingDependencies_iff i d h0, fun m => ?_, by decide, by decide, ?_⟩
  · exact halvingLoop_fuel _ _ m (by rw [tdiv_two_nonneg i h0]; omega)
  · obtain ⟨c', f0, he, _, hdone⟩ := acyclic_run_from (driver kernel) Int.toNat
      (fun j d hd => by
        have := halvingDependencies_lt j d hd
        omega) c h i
    have hall := driver_all_built kernel i c' hdone
    obtain ⟨r1, r2, r3, _⟩ := hall i DependsOn.refl
    exact ⟨c', f0, he, r1, r3, r2, fun d hd => (hall d (DependsOn.step DependsOn.refl hd)).1⟩

/-- C15, key `6` on a new context: the dependency list is `[3, 1]` and the nodes `6`,
`3` and `1` end `ObjectBuilt`. -/
theorem driver_builds_every_key_witness :
    (halvingDependencies 6 = [3, 1] ∧
      driverBuilt.getState 6 = some ObjectBuildingState.ObjectBuilt ∧
      driverBuilt.getState 3 = some ObjectBuildingState.ObjectBuilt ∧
      driverBuilt.getState 1 = some ObjectBuildingState.ObjectBuilt) ∧
    ∃ c' f0, (∀ f, f0 ≤ f →
        ObjectContext.BuildObject (driver (fun address => address)) f 6 ObjectContext.empty
          = some c') ∧
      c'.getState 6 = some ObjectBuildingState.ObjectBuilt ∧
      c'.getBuiltObject 6 = some 6 ∧
      c'.getDependencyList 6 = halvingDependencies 6 ∧
      ∀ d ∈ halvingDependencies 6, c'.getState d = some ObjectBuildingState.ObjectBuilt :=
  ⟨⟨by decide, by decide, by decide, by decide⟩,
    (driver_builds_every_key (fun address => address) ObjectContext.empty
      BuildReachable.empty 6 (by decide) (by decide)).2.2.2.2⟩

end ClaimsH

end dependencygraph

namespace dependencygraph

section ClaimsI

variable {K V : Type} [DecidableEq K] [Inhabited V]

/-- C11: let node `k` hold the client callbacks `pdk` as stored dependencies-known
callbacks and `pb` as stored post-build callbacks. A callback registered while the state
is outside the mask of its handle (`Starting` for the dependencies-known handle,
`Starting` or `DependenciesKnown` for the built-or-terminal handle) is appended to the
list of that handle and nothing runs: the result does not depend on how calls are run
and the journal is unchanged. The setter that moves the node into a mask journals the
state change, then one invocation per stored callback of each handle whose mask is
entered, front to back (dependencies-known callbacks first), and leaves these lists
empty: `SetRequestedDependencies` drains the dependencies-known list and keeps the
post-build list stored, `SetNoBuilderFound` and `SetObjectFailed` drain both,
`SetObjectBuilt` drains the post-build list. For stored lists of any callbacks, the
internal ones included, each launch is the left-to-right fold of one invocation per
stored callback followed by the emptying of the list. -/
theorem stored_callbacks_run_once_in_order (obp : IObjectBuilderProvider K V)
    (self : Call K → ObjectContext K V → Option (ObjectContext K V))
    (c : ObjectContext K V) (k : K) (n : ObjectBuilderInfo K V) (pdk pb : List Nat)
    (fuel : Nat) (hn : c._values k = some n)
    (hpdk : n._postDependenciesKnownCallBacks = pdk.map CallBack.client)
    (hpb : n._postBuildCallBacks = pb.map CallBack.client) :
    (n._state = ObjectBuildingState.Starting → ∀ cb,
      ObjectBuilderInfo.RegisterPostDependenciesKnownCallBack self k cb c
        = some (c.modify k (fun m => { m with
            _postDependenciesKnownCallBacks := m._postDependenciesKnownCallBacks ++ [cb] }))) ∧
    ((n._state = ObjectBuildingState.Starting ∨
        n._state = ObjectBuildingState.DependenciesKnown) → ∀ cb,
      ObjectBuilderInfo.RegisterPostBuildCallBack self k cb c
        = some (c.modify k (fun m => { m with
            _postBuildCallBacks := m._postBuildCallBacks ++ [cb] }))) ∧
    (∀ ds, ObjectBuilderInfo.SetRequestedDependencies (exec obp (fuel + 1)) k ds c
      = some ((c.modify k (fun m =>
          { m with
            dependencies := ds
            _state := ObjectBuildingState.DependenciesKnown
            _postDependenciesKnownCallBacks := [] })).recordAll
          (Event.setState k n._state ObjectBuildingState.DependenciesKnown ::
            clientEvents pdk k))) ∧
    (ObjectBuilderInfo.SetNoBuilderFound (exec obp (fuel + 1)) k c
      = some ((c.modify k (fun m =>
          { m with
            _state := ObjectBuildingState.NoBuilderAvailable
            _postDependenciesKnownCallBacks := []
            _postBuildCallBacks := [] })).recordAll
          (Event.setState k n._state ObjectBuildingState.NoBuilderAvailable ::
            (clientEvents pdk k ++ clientEvents pb k)))) ∧
    (∀ msg, ObjectBuilderInfo.SetObjectFailed (exec obp (fuel + 1)) k msg c
      = some ((c.modify k (fun m =>
          { m with
            exception := some msg
            _state := ObjectBuildingState.Failure
            _postDependenciesKnownCallBacks := []
            _postBuildCallBacks := [] })).recordAll
          (Event.setState k n._state ObjectBuildingState.Failure ::
            (clientEvents pdk k ++ clientEvents pb k)))) ∧
    (∀ v, ObjectBuilderInfo.SetObjectBuilt (exec obp (fuel + 1)) k v c
      = some ((c.modify k (fun m =>
          { m with
            builtObject := v
            _state := ObjectBuildingState.ObjectBuilt
            _postBuildCallBacks := [] })).recordAll
          (Event.setState k n._state ObjectBuildingState.ObjectBuilt ::
            clientEvents pb k))) ∧
    (∀ (c1 : ObjectContext K V) (m : ObjectBuilderInfo K V), c1._values k = some m →
      ObjectBuilderInfo.launchPostDependenciesKnownCallBacks self k c1
        = (m._postDependenciesKnownCallBacks.foldlM
            (fun x cb => self (Call.callBack cb k) x) c1).map
          (fun c2 => c2.modify k (fun m => { m with _postDependenciesKnownCallBacks := [] })) ∧
      ObjectBuilderInfo.launchPostBuildCallBacks self k c1
        = (m._postBuildCallBacks.foldlM (fun x cb => self (Call.callBack cb k) x) c1).map
          (fun c2 => c2.modify k (fun m => { m with _postBuildCallBacks := [] }))) := by
  refine ⟨fun hs cb => ?_, fun hs cb => ?_,
    fun ds => SetRequestedDependencies_clients obp fuel k c n pdk ds hn hpdk,
    SetNoBuilderFound_clients obp fuel k c n pdk pb hn hpdk hpb,
    fun msg => SetObjectFailed_clients obp fuel k c n pdk pb msg hn hpdk hpb,
    fun v => SetObjectBuilt_clients obp fuel k c n pb v hn hpb, fun c1 m hm => ?_⟩
  · simp [ObjectBuilderInfo.RegisterPostDependenciesKnownCallBack, hn, hs,
      dependenciesKnownReached]
  · rcases hs with hs | hs <;>
      simp [ObjectBuilderInfo.RegisterPostBuildCallBack, hn, hs, buildReached]
  · simp only [ObjectBuilderInfo.launchPostDependenciesKnownCallBacks,
      ObjectBuilderInfo.launchPostBuildCallBacks, hm, launchAll_foldlM, and_self]

/-- C11, node `7` of the leaf provider in `DependenciesKnown` with the client callbacks
`1` and `2` stored in this order: a further registration is stored at the end,
`SetObjectBuilt` runs `1` then `2` once each and empties the list, and the whole
`build_object(7)` journals exactly these two invocations after the state change. -/
theorem stored_callbacks_run_once_in_order_witness :
    pendingLeaf.getState 7 = some ObjectBuildingState.DependenciesKnown ∧
    pendingLeafBuilt.journal =
      [Event.GetDependencies 7,
       Event.setState 7 ObjectBuildingState.Starting ObjectBuildingState.DependenciesKnown,
       Event.RegisterJob 7, Event.BuildObject 7,
       Event.setState 7 ObjectBuildingState.DependenciesKnown ObjectBuildingState.ObjectBuilt,
       Event.clientCallBack 1 7, Event.clientCallBack 2 7] ∧
    ObjectBuilderInfo.RegisterPostBuildCallBack (exec leaf 0) 7 (CallBack.client 3) pendingLeaf
      = some (pendingLeaf.modify 7 (fun m => { m with
          _postBuildCallBacks := m._postBuildCallBacks ++ [CallBack.client 3] })) ∧
    ObjectBuilderInfo.SetObjectBuilt (exec leaf (0 + 1)) 7 42 pendingLeaf
      = some ((pendingLeaf.modify 7 (fun m =>
          { m with
            builtObject := 42
            _state := ObjectBuildingState.ObjectBuilt
            _postBuildCallBacks := [] })).recordAll
          (Event.setState 7 ObjectBuildingState.DependenciesKnown
            ObjectBuildingState.ObjectBuilt :: clientEvents [1, 2] 7)) :=
  ⟨by decide, by decide,
    (stored_callbacks_run_once_in_order leaf (exec leaf 0) pendingLeaf 7
      ((pendingLeaf._values 7).getD (ObjectBuilderInfo.new 7)) [] [1, 2] 0 rfl rfl rfl).2.1
      (Or.inr rfl) (CallBack.client 3),
    (stored_callbacks_run_once_in_order leaf (exec leaf 0) pendingLeaf 7
      ((pendingLeaf._values 7).getD (ObjectBuilderInfo.new 7)) [] [1, 2] 0 rfl rfl
      rfl).2.2.2.2.2.1 42⟩

end ClaimsI

end dependencygraph

namespace dependencygraph

section ClaimsJ

variable {K V : Type} [DecidableEq K] [Inhabited V]

theorem BuildReachable.reachable {obp : IObjectBuilderProvider K V} {c : ObjectContext K V}
    (h : BuildReachable obp c) : Reachable obp c := by
  induction h with
  | empty => exact ReachableFrom.refl
  | buildObject fuel address _ he ih => exact ReachableFrom.buildObject fuel address ih he

/-- C19 as stated fails when `k` reaches infinitely many keys: with the provider under
which every key `j` lists itself and `j + 1`, key `0` lies on a cycle and
`build_object(0)` on a new context does not return, whatever the fuel. -/
theorem cycle_build_counterexample :
    0 ∈ declared endless 0 ∧ DependsOn endless 0 0 ∧
    ∀ f, ObjectContext.BuildObject endless f 0 ObjectContext.empty = none :=
  ⟨by decide, DependsOn.refl, fun f => by
    cases he : ObjectContext.BuildObject endless f 0 ObjectContext.empty with
    | none => rfl
    | some c' => exact (endless_no_result _ c' ReachableFrom.refl f 0 he).elim⟩

/-- C19 amended: let `U` be a finite set of keys closed under declared dependencies, `k`
a key of `U` on a cycle of declared dependencies, and `c` a context reached by calls of
`get_dependencies` and `build_object` whose nodes are keys of `U`. Then `build_object(k)`
with the inline queue returns (with every fuel from `8 * |U|` on), and in the context it
returns and in every context reached later every key `X` on a cycle through `k` is in
state `DependenciesKnown`, hence not in `Failure`, its counter of outstanding
dependencies is at least one, no build job was submitted for it and its build operation
was not called. -/
theorem cycle_keeps_waiting (obp : IObjectBuilderProvider K V) (U : List K)
    (hU : ∀ X ∈ U, ∀ d ∈ declared obp X, d ∈ U) (k : K) (hk : k ∈ U)
    (hcyc : ∃ d ∈ declared obp k, DependsOn obp d k) (c : ObjectContext K V)
    (hc : Reachable obp c) (hin : ∀ X, c._values X ≠ none → X ∈ U) :
    ∃ c', (∀ f, 8 * U.length ≤ f → ObjectContext.BuildObject obp f k c = some c') ∧
      ∀ c2, ReachableFrom obp c' c2 → ∀ X, DependsOn obp k X → DependsOn obp X k →
        c2.getState X = some ObjectBuildingState.DependenciesKnown ∧
        c2.getState X ≠ some ObjectBuildingState.Failure ∧
        1 ≤ outstanding c2 X ∧ jobCount c2 X = 0 ∧ buildCount c2 X = 0 := by
  obtain ⟨c', hrun⟩ := BuildObject_runs obp U hU k hk c hc.invariant
    (known_of_reachable obp U hU c hc hin)
  have he := hrun (8 * U.length) (Nat.le_refl _)
  refine ⟨c', hrun, fun c2 hr X h1 h2 => ?_⟩
  obtain ⟨_, _, n, hn, hl⟩ := BuildObject_ok obp _ k c c' he hc.invariant
  obtain ⟨a1, a2, a3, a4⟩ := onCycle_waits obp k hcyc c'
    (ReachableFrom.buildObject _ k hc he) ⟨n, hn, hl⟩ c2 hr X h1 h2
  exact ⟨a1, by rw [a1]; simp, a2, a3, a4⟩

theorem twoCycle_declared (j : Nat) :
    declared twoCycle j = if j = 0 then [1] else if j = 1 then [0] else [] := rfl

/-- C19 amended, seed test on the two-cycle `0 -> {1}`, `1 -> {0}` with the key set
`{0, 1}`: `build_object(0)` on a new context returns with fuel `16`, and both nodes wait
in `DependenciesKnown` for ever. -/
theorem cycle_keeps_waiting_witness :
    (∀ X ∈ [0, 1], ∀ d ∈ declared twoCycle X, d ∈ [0, 1]) ∧
    (ObjectContext.BuildObject twoCycle 16 0 ObjectContext.empty).isSome = true ∧
    ∃ c', (∀ f, 8 * [0, 1].length ≤ f →
        ObjectContext.BuildObject twoCycle f 0 ObjectContext.empty = some c') ∧
      ∀ c2, ReachableFrom twoCycle c' c2 → ∀ X, DependsOn twoCycle 0 X →
        DependsOn twoCycle X 0 →
        c2.getState X = some ObjectBuildingState.DependenciesKnown ∧
        c2.getState X ≠ some ObjectBuildingState.Failure ∧
        1 ≤ outstanding c2 X ∧ jobCount c2 X = 0 ∧ buildCount c2 X = 0 :=
  ⟨by decide, by decide,
    cycle_keeps_waiting twoCycle [0, 1] (by decide) 0 (by decide)
      ⟨1, by decide, DependsOn.step DependsOn.refl (by decide)⟩ ObjectContext.empty
      ReachableFrom.refl (fun X h => absurd rfl h)⟩

end ClaimsJ

end dependencygraph
